import Mathlib

/-!
DISA / DIFF container reader and writer (`source/gm9/disadiff.c`)

A shallow embedding of the C translation unit.  Machine integers are natural
numbers reduced modulo `2^32` / `2^64` wherever the C arithmetic can wrap.
The container file is a size together with a byte map; buffers in memory are
byte maps indexed from the pointer they stand for.  Loops are given fuel, the
value `none` standing for a run that does not come back.
-/

namespace DisaDiff

/-! ## Machine arithmetic -/

/-- Truncation to `u32`. -/
def u32 (n : Nat) : Nat := n % 2 ^ 32

/-- Truncation to `u64`. -/
def u64 (n : Nat) : Nat := n % 2 ^ 64

/-- The C expression `x << s` on `u32` (a shift count of 32 or more, undefined
in C, gives the mathematical shift reduced modulo `2^32`). -/
def shl32 (x s : Nat) : Nat := (x * 2 ^ s) % 2 ^ 32

/-- The C expression `x >> s` on unsigned operands. -/
def shr (x s : Nat) : Nat := x / 2 ^ s

/-- The C expression `a - b` on `u32`. -/
def sub32 (a b : Nat) : Nat := (a + 2 ^ 32 - b % 2 ^ 32) % 2 ^ 32

/-- A memory buffer seen from its base pointer: byte at each index. -/
abbrev Buf := Nat → Nat

/-- The bytes `buf[0 .. n)` as a list. -/
def bufList (buf : Buf) (n : Nat) : List Nat := (List.range n).map buf

/-- Little-endian field readers over a byte map. -/
def rd8 (b : Buf) (off : Nat) : Nat := b off % 256

def rd32 (b : Buf) (off : Nat) : Nat :=
  rd8 b off + 256 * rd8 b (off + 1) + 256 ^ 2 * rd8 b (off + 2) + 256 ^ 3 * rd8 b (off + 3)

def rd64 (b : Buf) (off : Nat) : Nat := rd32 b off + 2 ^ 32 * rd32 b (off + 4)

/-- The macro `GET_DPFS_BIT(b, lvl)`:
`((((u32*) lvl)[b >> 5]) >> (31 - (b % 32))) & 1`. -/
def GET_DPFS_BIT (b : Nat) (lvl : Buf) : Nat :=
  (shr (rd32 lvl (4 * shr b 5)) (31 - b % 32)) % 2

/-- The test `memcmp(p + off, magic, 8) == 0`. -/
def memcmp8 (p : Buf) (off : Nat) (magic : List Nat) : Bool :=
  (List.range 8).all (fun i => rd8 p (off + i) == magic.getD i 0)

/-! ## Struct layouts

Each packed struct is given by the list of its field sizes in declaration
order; a field is addressed by its position in the list. -/

/-- Byte offset of the `k`-th field of a packed struct. -/
def fieldOff (sizes : List Nat) (k : Nat) : Nat := (sizes.take k).sum

/-- The `sizeof` of a packed struct. -/
def structSize (sizes : List Nat) : Nat := sizes.sum

/-- Fields of `DisaHeader`: magic, n_partitions, padding0, offset_table1,
offset_table0, size_table, offset_descA, size_descA, offset_descB, size_descB,
offset_partitionA, size_partitionA, offset_partitionB, size_partitionB,
active_table, padding1, hash_table, unused. -/
def DisaHeader.sizes : List Nat :=
  [8, 4, 4, 8, 8, 8, 8, 8, 8, 8, 8, 8, 8, 8, 1, 3, 0x20, 0x74]

/-- Fields of `DiffHeader`: magic, offset_table1, offset_table0, size_table,
offset_partition, size_partition, active_table, hash_table, unique_id, unused. -/
def DiffHeader.sizes : List Nat := [8, 8, 8, 8, 8, 8, 4, 0x20, 8, 0xA4]

/-- Fields of `DifiHeader`: magic, offset_ivfc, size_ivfc, offset_dpfs,
size_dpfs, offset_hash, size_hash, ivfc_use_extlvl4, dpfs_lvl1_selector,
padding, ivfc_offset_extlvl4. -/
def DifiHeader.sizes : List Nat := [8, 8, 8, 8, 8, 8, 8, 1, 1, 2, 8]

/-- Fields of `IvfcDescriptor`: magic, size_hash, offset_lvl1, size_lvl1,
log_lvl1, padding0, offset_lvl2, size_lvl2, log_lvl2, padding1, offset_lvl3,
size_lvl3, log_lvl3, padding2, offset_lvl4, size_lvl4, log_lvl4, size_ivfc. -/
def IvfcDescriptor.sizes : List Nat := [8, 8, 8, 8, 4, 4, 8, 8, 4, 4, 8, 8, 4, 4, 8, 8, 8, 8]

/-- Fields of `DpfsDescriptor`: magic, offset_lvl1, size_lvl1, log_lvl1,
padding0, offset_lvl2, size_lvl2, log_lvl2, padding1, offset_lvl3, size_lvl3,
log_lvl3, padding2. -/
def DpfsDescriptor.sizes : List Nat := [8, 8, 8, 4, 4, 8, 8, 4, 4, 8, 8, 4, 4]

/-- Fields of `DifiStruct`: difi, ivfc, dpfs, hash, padding. -/
def DifiStruct.sizes : List Nat :=
  [structSize DifiHeader.sizes, structSize IvfcDescriptor.sizes,
   structSize DpfsDescriptor.sizes, 0x20, 4]

/-- Modelled from the spec: the magic constants of `disadiff.h`, which is not
part of the sources (`"DISA" 0x00040000`, `"DIFF" 0x00030000`,
`"IVFC" 0x00020000`, `"DPFS" 0x00010000`, `"DIFI" 0x00010000`). -/
def DISA_MAGIC : List Nat := [0x44, 0x49, 0x53, 0x41, 0x00, 0x00, 0x04, 0x00]

/-- Modelled from the spec: see `DISA_MAGIC`. -/
def DIFF_MAGIC : List Nat := [0x44, 0x49, 0x46, 0x46, 0x00, 0x00, 0x03, 0x00]

/-- Modelled from the spec: see `DISA_MAGIC`. -/
def IVFC_MAGIC : List Nat := [0x49, 0x56, 0x46, 0x43, 0x00, 0x00, 0x02, 0x00]

/-- Modelled from the spec: see `DISA_MAGIC`. -/
def DPFS_MAGIC : List Nat := [0x44, 0x50, 0x46, 0x53, 0x00, 0x00, 0x01, 0x00]

/-- Modelled from the spec: see `DISA_MAGIC`. -/
def DIFI_MAGIC : List Nat := [0x44, 0x49, 0x46, 0x49, 0x00, 0x00, 0x01, 0x00]

/-! ### Field accessors (`p` is the struct seen from its first byte) -/

def DisaHeader.n_partitions (p : Buf) : Nat := rd32 p (fieldOff DisaHeader.sizes 1)
def DisaHeader.offset_table1 (p : Buf) : Nat := rd64 p (fieldOff DisaHeader.sizes 3)
def DisaHeader.offset_table0 (p : Buf) : Nat := rd64 p (fieldOff DisaHeader.sizes 4)
def DisaHeader.size_table (p : Buf) : Nat := rd64 p (fieldOff DisaHeader.sizes 5)
def DisaHeader.offset_descA (p : Buf) : Nat := rd64 p (fieldOff DisaHeader.sizes 6)
def DisaHeader.offset_descB (p : Buf) : Nat := rd64 p (fieldOff DisaHeader.sizes 8)
def DisaHeader.offset_partitionA (p : Buf) : Nat := rd64 p (fieldOff DisaHeader.sizes 10)
def DisaHeader.size_partitionA (p : Buf) : Nat := rd64 p (fieldOff DisaHeader.sizes 11)
def DisaHeader.offset_partitionB (p : Buf) : Nat := rd64 p (fieldOff DisaHeader.sizes 12)
def DisaHeader.size_partitionB (p : Buf) : Nat := rd64 p (fieldOff DisaHeader.sizes 13)
def DisaHeader.active_table (p : Buf) : Nat := rd8 p (fieldOff DisaHeader.sizes 14)

def DiffHeader.offset_table1 (p : Buf) : Nat := rd64 p (fieldOff DiffHeader.sizes 1)
def DiffHeader.offset_table0 (p : Buf) : Nat := rd64 p (fieldOff DiffHeader.sizes 2)
def DiffHeader.size_table (p : Buf) : Nat := rd64 p (fieldOff DiffHeader.sizes 3)
def DiffHeader.offset_partition (p : Buf) : Nat := rd64 p (fieldOff DiffHeader.sizes 4)
def DiffHeader.size_partition (p : Buf) : Nat := rd64 p (fieldOff DiffHeader.sizes 5)
def DiffHeader.active_table (p : Buf) : Nat := rd32 p (fieldOff DiffHeader.sizes 6)

def DifiHeader.offset_ivfc (p : Buf) : Nat := rd64 p (fieldOff DifiHeader.sizes 1)
def DifiHeader.size_ivfc (p : Buf) : Nat := rd64 p (fieldOff DifiHeader.sizes 2)
def DifiHeader.offset_dpfs (p : Buf) : Nat := rd64 p (fieldOff DifiHeader.sizes 3)
def DifiHeader.size_dpfs (p : Buf) : Nat := rd64 p (fieldOff DifiHeader.sizes 4)
def DifiHeader.offset_hash (p : Buf) : Nat := rd64 p (fieldOff DifiHeader.sizes 5)
def DifiHeader.size_hash (p : Buf) : Nat := rd64 p (fieldOff DifiHeader.sizes 6)
def DifiHeader.ivfc_use_extlvl4 (p : Buf) : Nat := rd8 p (fieldOff DifiHeader.sizes 7)
def DifiHeader.dpfs_lvl1_selector (p : Buf) : Nat := rd8 p (fieldOff DifiHeader.sizes 8)
def DifiHeader.ivfc_offset_extlvl4 (p : Buf) : Nat := rd64 p (fieldOff DifiHeader.sizes 10)

def IvfcDescriptor.size_hash (p : Buf) : Nat := rd64 p (fieldOff IvfcDescriptor.sizes 1)
def IvfcDescriptor.offset_lvl1 (p : Buf) : Nat := rd64 p (fieldOff IvfcDescriptor.sizes 2)
def IvfcDescriptor.size_lvl1 (p : Buf) : Nat := rd64 p (fieldOff IvfcDescriptor.sizes 3)
def IvfcDescriptor.log_lvl1 (p : Buf) : Nat := rd32 p (fieldOff IvfcDescriptor.sizes 4)
def IvfcDescriptor.offset_lvl2 (p : Buf) : Nat := rd64 p (fieldOff IvfcDescriptor.sizes 6)
def IvfcDescriptor.size_lvl2 (p : Buf) : Nat := rd64 p (fieldOff IvfcDescriptor.sizes 7)
def IvfcDescriptor.log_lvl2 (p : Buf) : Nat := rd32 p (fieldOff IvfcDescriptor.sizes 8)
def IvfcDescriptor.offset_lvl3 (p : Buf) : Nat := rd64 p (fieldOff IvfcDescriptor.sizes 10)
def IvfcDescriptor.size_lvl3 (p : Buf) : Nat := rd64 p (fieldOff IvfcDescriptor.sizes 11)
def IvfcDescriptor.log_lvl3 (p : Buf) : Nat := rd32 p (fieldOff IvfcDescriptor.sizes 12)
def IvfcDescriptor.offset_lvl4 (p : Buf) : Nat := rd64 p (fieldOff IvfcDescriptor.sizes 14)
def IvfcDescriptor.size_lvl4 (p : Buf) : Nat := rd64 p (fieldOff IvfcDescriptor.sizes 15)
def IvfcDescriptor.log_lvl4 (p : Buf) : Nat := rd64 p (fieldOff IvfcDescriptor.sizes 16)
def IvfcDescriptor.size_ivfc (p : Buf) : Nat := rd64 p (fieldOff IvfcDescriptor.sizes 17)

def DpfsDescriptor.offset_lvl1 (p : Buf) : Nat := rd64 p (fieldOff DpfsDescriptor.sizes 1)
def DpfsDescriptor.size_lvl1 (p : Buf) : Nat := rd64 p (fieldOff DpfsDescriptor.sizes 2)
def DpfsDescriptor.offset_lvl2 (p : Buf) : Nat := rd64 p (fieldOff DpfsDescriptor.sizes 5)
def DpfsDescriptor.size_lvl2 (p : Buf) : Nat := rd64 p (fieldOff DpfsDescriptor.sizes 6)
def DpfsDescriptor.log_lvl2 (p : Buf) : Nat := rd32 p (fieldOff DpfsDescriptor.sizes 7)
def DpfsDescriptor.offset_lvl3 (p : Buf) : Nat := rd64 p (fieldOff DpfsDescriptor.sizes 9)
def DpfsDescriptor.size_lvl3 (p : Buf) : Nat := rd64 p (fieldOff DpfsDescriptor.sizes 10)
def DpfsDescriptor.log_lvl3 (p : Buf) : Nat := rd32 p (fieldOff DpfsDescriptor.sizes 11)

/-- The member `difis.difi` of a `DifiStruct` at `p`. -/
def DifiStruct.difi (p : Buf) : Buf := fun i => p (fieldOff DifiStruct.sizes 0 + i)

/-- The member `difis.ivfc` of a `DifiStruct` at `p`. -/
def DifiStruct.ivfc (p : Buf) : Buf := fun i => p (fieldOff DifiStruct.sizes 1 + i)

/-- The member `difis.dpfs` of a `DifiStruct` at `p`. -/
def DifiStruct.dpfs (p : Buf) : Buf := fun i => p (fieldOff DifiStruct.sizes 2 + i)

/-! ## The descriptor -/

/-- Modelled from the spec: the record `DisaDiffRWInfo` of `disadiff.h`, which
is not part of the sources.  Its fields are the ones the code assigns; the
numeric fields are `u32` (the code casts to `u32` when it stores them), the two
flags are `u8`, and `dpfs_lvl2_cache` is the content of the buffer the pointer
designates. -/
structure DisaDiffRWInfo where
  offset_table : Nat
  size_table : Nat
  offset_partition_hash : Nat
  offset_difi : Nat
  offset_master_hash : Nat
  offset_dpfs_lvl1 : Nat
  offset_dpfs_lvl2 : Nat
  offset_dpfs_lvl3 : Nat
  size_dpfs_lvl1 : Nat
  size_dpfs_lvl2 : Nat
  size_dpfs_lvl3 : Nat
  log_dpfs_lvl2 : Nat
  log_dpfs_lvl3 : Nat
  offset_ivfc_lvl1 : Nat
  offset_ivfc_lvl2 : Nat
  offset_ivfc_lvl3 : Nat
  offset_ivfc_lvl4 : Nat
  size_ivfc_lvl1 : Nat
  size_ivfc_lvl2 : Nat
  size_ivfc_lvl3 : Nat
  size_ivfc_lvl4 : Nat
  log_ivfc_lvl1 : Nat
  log_ivfc_lvl2 : Nat
  log_ivfc_lvl3 : Nat
  log_ivfc_lvl4 : Nat
  dpfs_lvl1_selector : Nat
  ivfc_use_extlvl4 : Nat
  dpfs_lvl2_cache : Buf

/-- The expression `(&(info->offset_ivfc_lvl1))[k]`. -/
def DisaDiffRWInfo.offset_ivfc_lvl (info : DisaDiffRWInfo) (k : Nat) : Nat :=
  match k with
  | 0 => info.offset_ivfc_lvl1
  | 1 => info.offset_ivfc_lvl2
  | 2 => info.offset_ivfc_lvl3
  | _ => info.offset_ivfc_lvl4

/-- The expression `(&(info->size_ivfc_lvl1))[k]`. -/
def DisaDiffRWInfo.size_ivfc_lvl (info : DisaDiffRWInfo) (k : Nat) : Nat :=
  match k with
  | 0 => info.size_ivfc_lvl1
  | 1 => info.size_ivfc_lvl2
  | 2 => info.size_ivfc_lvl3
  | _ => info.size_ivfc_lvl4

/-- The expression `(&(info->log_ivfc_lvl1))[k]`. -/
def DisaDiffRWInfo.log_ivfc_lvl (info : DisaDiffRWInfo) (k : Nat) : Nat :=
  match k with
  | 0 => info.log_ivfc_lvl1
  | 1 => info.log_ivfc_lvl2
  | 2 => info.log_ivfc_lvl3
  | _ => info.log_ivfc_lvl4

/-! ## The file layer -/

/-- A physical transfer issued through the open handle. -/
inductive IoEvent where
  | read (ofs len : Nat)
  | write (ofs len : Nat)
  deriving DecidableEq, Repr

/-- Modelled from the spec: the random-access file abstraction (`ff.h`, the
`fx_*` calls), which is not part of the sources.  There is one container file:
it can be opened when `present`, has `fsize` bytes, byte `data i` at offset
`i`.  A transfer succeeds when its whole range lies inside the file and fails
without effect otherwise.  `ddfp` is the process-wide handle slot
(`true`: `&ddfile`, `false`: `NULL`); `trace` lists the transfers issued
through the handle, oldest first. -/
structure World where
  present : Bool
  fsize : Nat
  data : Nat → Nat
  ddfp : Bool
  trace : List IoEvent

/-- The source function `DisaDiffSize`: `(fa_stat(path, &fno) == FR_OK) ? fno.fsize : 0`,
returned as `u32`.  `path` is `false` for a null path. -/
def DisaDiffSize (path : Bool) (w : World) : Nat :=
  if path && w.present then u32 w.fsize else 0

/-- The source function `DisaDiffOpen`: result `true` is `FR_OK`. -/
def DisaDiffOpen (path : Bool) (w : World) : Bool × World :=
  let w0 := { w with ddfp := false }
  if path then
    if w.present then (true, { w0 with ddfp := true }) else (false, w0)
  else (true, w0)

/-- The source function `DisaDiffRead`: result `true` is `FR_OK`; the bytes
read are `w.data ofs, w.data (ofs + 1), ...`, stored by the caller. -/
def DisaDiffRead (w : World) (btr ofs : Nat) : Bool × World :=
  if w.ddfp then
    (decide (ofs + btr ≤ w.fsize), { w with trace := w.trace ++ [IoEvent.read ofs btr] })
  else (false, w)

/-- A buffer after `len` bytes from `src` were stored at index `pos`. -/
def storeAt (buf : Buf) (pos len : Nat) (src : Buf) : Buf :=
  fun j => if pos ≤ j ∧ j < pos + len then src (j - pos) else buf j

/-- The source function `DisaDiffWrite`: result `true` is `FR_OK`. -/
def DisaDiffWrite (w : World) (buf : Buf) (btw ofs : Nat) : Bool × World :=
  if w.ddfp then
    if ofs + btw ≤ w.fsize then
      (true, { w with data := storeAt w.data ofs btw buf,
                      trace := w.trace ++ [IoEvent.write ofs btw] })
    else (false, { w with trace := w.trace ++ [IoEvent.write ofs btw] })
  else (false, w)

/-- The source function `DisaDiffClose`. -/
def DisaDiffClose (w : World) : World := { w with ddfp := false }

/-- The source function `DisaDiffQRead` (a one-shot read that does not use the
handle slot): result `true` is `FR_OK`, the bytes read are `w.data ofs, ...`. -/
def DisaDiffQRead (path : Bool) (w : World) (ofs btr : Nat) : Bool :=
  path && w.present && decide (ofs + btr ≤ w.fsize)

/-! ## GetDisaDiffRWInfo -/

/-- What the dispatch on the outer header leaves behind: the descriptor fields
set so far and the locals `offset_partition`, `size_partition`, `offset_difi`. -/
structure OuterInfo where
  offset_table : Nat
  size_table : Nat
  offset_partition_hash : Nat
  offset_partition : Nat
  size_partition : Nat
  offset_difi : Nat

/-- Lines 176-208 of `GetDisaDiffRWInfo`: the DISA / DIFF dispatch on the
256-byte `header`; `none` is `return 1`. -/
def outerHeader (header : Buf) (partitionB : Bool) : Option OuterInfo :=
  if memcmp8 header 0 DISA_MAGIC then
    let offset_table := u32 (if DisaHeader.active_table header ≠ 0
      then DisaHeader.offset_table1 header else DisaHeader.offset_table0 header)
    let size_table := u32 (DisaHeader.size_table header)
    let offset_difi := offset_table
    if ¬ partitionB then
      some { offset_table := offset_table, size_table := size_table,
             offset_partition_hash := 0x16C,
             offset_partition := u32 (DisaHeader.offset_partitionA header),
             size_partition := u32 (DisaHeader.size_partitionA header),
             offset_difi := u32 (offset_difi + u32 (DisaHeader.offset_descA header)) }
    else if DisaHeader.n_partitions header ≠ 2 then none
    else
      some { offset_table := offset_table, size_table := size_table,
             offset_partition_hash := 0x16C,
             offset_partition := u32 (DisaHeader.offset_partitionB header),
             size_partition := u32 (DisaHeader.size_partitionB header),
             offset_difi := u32 (offset_difi + u32 (DisaHeader.offset_descB header)) }
  else if memcmp8 header 0 DIFF_MAGIC then
    if partitionB then none
    else
      let offset_table := u32 (if DiffHeader.active_table header ≠ 0
        then DiffHeader.offset_table1 header else DiffHeader.offset_table0 header)
      some { offset_table := offset_table,
             size_table := u32 (DiffHeader.size_table header),
             offset_partition_hash := 0x134,
             offset_partition := u32 (DiffHeader.offset_partition header),
             size_partition := u32 (DiffHeader.size_partition header),
             offset_difi := offset_table }
  else none

/-- Lines 227-232 of `GetDisaDiffRWInfo`: the condition under which the DIFI
header is rejected. -/
def difiHeaderBad (difi : Buf) : Prop :=
  DifiHeader.offset_ivfc difi ≠ structSize DifiHeader.sizes
    ∨ DifiHeader.size_ivfc difi ≠ structSize IvfcDescriptor.sizes
    ∨ DifiHeader.offset_dpfs difi ≠ u64 (DifiHeader.offset_ivfc difi + DifiHeader.size_ivfc difi)
    ∨ DifiHeader.size_dpfs difi ≠ structSize DpfsDescriptor.sizes
    ∨ DifiHeader.offset_hash difi ≠ u64 (DifiHeader.offset_dpfs difi + DifiHeader.size_dpfs difi)
    ∨ DifiHeader.size_hash difi < 0x20

instance (difi : Buf) : Decidable (difiHeaderBad difi) := by
  unfold difiHeaderBad; infer_instance

/-- Lines 242-246 of `GetDisaDiffRWInfo`: the condition under which the DPFS
descriptor is rejected (sums of `u64` operands wrap at `2^64`). -/
def dpfsBad (dpfs : Buf) (size_partition : Nat) : Prop :=
  u64 (DpfsDescriptor.offset_lvl1 dpfs + DpfsDescriptor.size_lvl1 dpfs)
      > DpfsDescriptor.offset_lvl2 dpfs
    ∨ u64 (DpfsDescriptor.offset_lvl2 dpfs + DpfsDescriptor.size_lvl2 dpfs)
      > DpfsDescriptor.offset_lvl3 dpfs
    ∨ u64 (DpfsDescriptor.offset_lvl3 dpfs + DpfsDescriptor.size_lvl3 dpfs) > size_partition
    ∨ 2 > DpfsDescriptor.log_lvl2 dpfs
    ∨ DpfsDescriptor.log_lvl2 dpfs > DpfsDescriptor.log_lvl3 dpfs
    ∨ DpfsDescriptor.size_lvl1 dpfs = 0 ∨ DpfsDescriptor.size_lvl2 dpfs = 0
    ∨ DpfsDescriptor.size_lvl3 dpfs = 0

instance (dpfs : Buf) (size_partition : Nat) : Decidable (dpfsBad dpfs size_partition) := by
  unfold dpfsBad; infer_instance

/-- Lines 260-264 of `GetDisaDiffRWInfo`: the condition under which the IVFC
descriptor is rejected. -/
def ivfcBad (ivfc difi dpfs : Buf) : Prop :=
  IvfcDescriptor.size_hash ivfc ≠ DifiHeader.size_hash difi
    ∨ IvfcDescriptor.size_ivfc ivfc ≠ structSize IvfcDescriptor.sizes
    ∨ u64 (IvfcDescriptor.offset_lvl1 ivfc + IvfcDescriptor.size_lvl1 ivfc)
      > IvfcDescriptor.offset_lvl2 ivfc
    ∨ u64 (IvfcDescriptor.offset_lvl2 ivfc + IvfcDescriptor.size_lvl2 ivfc)
      > IvfcDescriptor.offset_lvl3 ivfc
    ∨ u64 (IvfcDescriptor.offset_lvl3 ivfc + IvfcDescriptor.size_lvl3 ivfc)
      > DpfsDescriptor.size_lvl3 dpfs

instance (ivfc difi dpfs : Buf) : Decidable (ivfcBad ivfc difi dpfs) := by
  unfold ivfcBad; infer_instance

/-- Line 237 of `GetDisaDiffRWInfo`: the value
`(u32) (offset_partition + difi->ivfc_offset_extlvl4)` first stored in
`info->offset_ivfc_lvl4`. -/
def extLvl4Offset (difi : Buf) (offset_partition : Nat) : Nat :=
  u32 (u64 (offset_partition + DifiHeader.ivfc_offset_extlvl4 difi))

/-- Lines 267-274 of `GetDisaDiffRWInfo`: the condition under which the level-4
placement is rejected, in either mode. -/
def lvl4Bad (ivfc difi dpfs : Buf) (offset_partition size_partition : Nat) : Prop :=
  if DifiHeader.ivfc_use_extlvl4 difi = 0 then
    u64 (IvfcDescriptor.offset_lvl3 ivfc + IvfcDescriptor.size_lvl3 ivfc)
        > IvfcDescriptor.offset_lvl4 ivfc
      ∨ u64 (IvfcDescriptor.offset_lvl4 ivfc + IvfcDescriptor.size_lvl4 ivfc)
        > DpfsDescriptor.size_lvl3 dpfs
  else
    u64 (extLvl4Offset difi offset_partition + IvfcDescriptor.size_lvl4 ivfc)
      > u32 (offset_partition + size_partition)

instance (ivfc difi dpfs : Buf) (op sp : Nat) : Decidable (lvl4Bad ivfc difi dpfs op sp) := by
  unfold lvl4Bad; infer_instance

/-- The assignments to `*info` made by `GetDisaDiffRWInfo` on its successful
path (after the `memset`, the cache pointer is null: an all-zero content). -/
def filledInfo (o : OuterInfo) (difis : Buf) : DisaDiffRWInfo :=
  let difi := DifiStruct.difi difis
  let ivfc := DifiStruct.ivfc difis
  let dpfs := DifiStruct.dpfs difis
  let offset_partition := o.offset_partition
  { offset_table := o.offset_table
    size_table := o.size_table
    offset_partition_hash := o.offset_partition_hash
    offset_difi := o.offset_difi
    offset_master_hash := u32 (DifiHeader.offset_hash difi)
    offset_dpfs_lvl1 := u32 (u64 (offset_partition + DpfsDescriptor.offset_lvl1 dpfs))
    offset_dpfs_lvl2 := u32 (u64 (offset_partition + DpfsDescriptor.offset_lvl2 dpfs))
    offset_dpfs_lvl3 := u32 (u64 (offset_partition + DpfsDescriptor.offset_lvl3 dpfs))
    size_dpfs_lvl1 := u32 (DpfsDescriptor.size_lvl1 dpfs)
    size_dpfs_lvl2 := u32 (DpfsDescriptor.size_lvl2 dpfs)
    size_dpfs_lvl3 := u32 (DpfsDescriptor.size_lvl3 dpfs)
    log_dpfs_lvl2 := u32 (DpfsDescriptor.log_lvl2 dpfs)
    log_dpfs_lvl3 := u32 (DpfsDescriptor.log_lvl3 dpfs)
    offset_ivfc_lvl1 := u32 (IvfcDescriptor.offset_lvl1 ivfc)
    offset_ivfc_lvl2 := u32 (IvfcDescriptor.offset_lvl2 ivfc)
    offset_ivfc_lvl3 := u32 (IvfcDescriptor.offset_lvl3 ivfc)
    offset_ivfc_lvl4 :=
      if DifiHeader.ivfc_use_extlvl4 difi = 0 then u32 (IvfcDescriptor.offset_lvl4 ivfc)
      else extLvl4Offset difi offset_partition
    size_ivfc_lvl1 := u32 (IvfcDescriptor.size_lvl1 ivfc)
    size_ivfc_lvl2 := u32 (IvfcDescriptor.size_lvl2 ivfc)
    size_ivfc_lvl3 := u32 (IvfcDescriptor.size_lvl3 ivfc)
    size_ivfc_lvl4 := u32 (IvfcDescriptor.size_lvl4 ivfc)
    log_ivfc_lvl1 := u32 (IvfcDescriptor.log_lvl1 ivfc)
    log_ivfc_lvl2 := u32 (IvfcDescriptor.log_lvl2 ivfc)
    log_ivfc_lvl3 := u32 (IvfcDescriptor.log_lvl3 ivfc)
    log_ivfc_lvl4 := u32 (IvfcDescriptor.log_lvl4 ivfc)
    dpfs_lvl1_selector := DifiHeader.dpfs_lvl1_selector difi
    ivfc_use_extlvl4 := DifiHeader.ivfc_use_extlvl4 difi
    dpfs_lvl2_cache := fun _ => 0 }

/-- The 256-byte outer header as `GetDisaDiffRWInfo` reads it (file offset `0x100`). -/
def headerOf (w : World) : Buf := fun i => w.data (0x100 + i)

/-- The `DifiStruct` as `GetDisaDiffRWInfo` reads it from `offset_difi`. -/
def difisOf (w : World) (offset_difi : Nat) : Buf := fun i => w.data (offset_difi + i)

/-- The source function `GetDisaDiffRWInfo`; `none` is `return 1`, `some info`
is `return 0` with `*info` filled.  `sizeof` is a 32-bit `size_t`. -/
def GetDisaDiffRWInfo (path : Bool) (w : World) (partitionB : Bool) : Option DisaDiffRWInfo :=
  let file_size := DisaDiffSize path w
  if DisaDiffQRead path w 0x100 0x100 = false then none else
  match outerHeader (headerOf w) partitionB with
  | none => none
  | some o =>
    if o.offset_difi = 0 ∨ u32 (o.offset_difi + structSize DifiStruct.sizes) > file_size
        ∨ u32 (o.offset_partition + o.size_partition) > file_size then none else
    if DisaDiffQRead path w o.offset_difi (structSize DifiStruct.sizes) = false then none else
    let difis := difisOf w o.offset_difi
    let difi := DifiStruct.difi difis
    let ivfc := DifiStruct.ivfc difis
    let dpfs := DifiStruct.dpfs difis
    if memcmp8 difi 0 DIFI_MAGIC = false ∨ memcmp8 ivfc 0 IVFC_MAGIC = false
        ∨ memcmp8 dpfs 0 DPFS_MAGIC = false then none else
    if difiHeaderBad difi then none else
    if dpfsBad dpfs o.size_partition then none else
    if ivfcBad ivfc difi dpfs then none else
    if lvl4Bad ivfc difi dpfs o.offset_partition o.size_partition then none else
    some (filledInfo o difis)

/-! ## BuildDisaDiffDpfsLvl2Cache -/

/-- Fuel handed to every loop of the translation unit: more than any loop over
`u32` counters can use before it repeats a state. -/
def loopFuel : Nat := 2 ^ 40

/-- The local `min_cache_bits` of `BuildDisaDiffDpfsLvl2Cache`:
`(size_dpfs_lvl3 + (1 << log_dpfs_lvl3) - 1) >> log_dpfs_lvl3` in `u32`. -/
def min_cache_bits (info : DisaDiffRWInfo) : Nat :=
  shr (sub32 (u32 (info.size_dpfs_lvl3 + shl32 1 info.log_dpfs_lvl3)) 1) info.log_dpfs_lvl3

/-- The local `min_cache_size` of `BuildDisaDiffDpfsLvl2Cache`:
`((min_cache_bits + 31) >> (3 + 2)) << 2`. -/
def min_cache_size (info : DisaDiffRWInfo) : Nat :=
  shl32 (shr (u32 (min_cache_bits info + 31)) (3 + 2)) 2

/-- The local `offset_lvl1` of `BuildDisaDiffDpfsLvl2Cache`: start of the
active copy of DPFS level 1. -/
def activeLvl1Offset (info : DisaDiffRWInfo) : Nat :=
  u32 (info.offset_dpfs_lvl1 + (if info.dpfs_lvl1_selector ≠ 0 then info.size_dpfs_lvl1 else 0))

/-- The local `offset_lvl2_1` of `BuildDisaDiffDpfsLvl2Cache`: start of copy 1
of DPFS level 2. -/
def offsetLvl2Copy1 (info : DisaDiffRWInfo) : Nat :=
  u32 (info.offset_dpfs_lvl2 + info.size_dpfs_lvl2)

/-- State of the cherry-picking loops: `ret`, the cache buffer, the file layer. -/
abbrev CherryState := Nat × Buf × World

/-- Body of the inner loop `for (b = 0; b < 32; b++)` of
`BuildDisaDiffDpfsLvl2Cache` (lines 326-329) for the word at byte index `i`. -/
def cherryBit (info : DisaDiffRWInfo) (i dword : Nat) (st : CherryState) (b : Nat) :
    CherryState :=
  if shr dword (31 - b) % 2 = 1 then
    let offset := shl32 (u32 (shl32 i 3 + b)) info.log_dpfs_lvl2
    let pos := u32 (offsetLvl2Copy1 info + offset)
    let r := DisaDiffRead st.2.2 (shl32 1 info.log_dpfs_lvl2) pos
    if r.1 then
      (st.1, storeAt st.2.1 offset (shl32 1 info.log_dpfs_lvl2) (fun j => st.2.2.data (pos + j)),
        r.2)
    else (1, st.2.1, r.2)
  else st

/-- The outer loop `for (i = 0; (ret == 0) && ((i << (3 + log_lvl2)) < min_cache_size); i += 4)`
of `BuildDisaDiffDpfsLvl2Cache` (lines 323-331). -/
def cherryLoop (info : DisaDiffRWInfo) (lvl1 : Buf) (fuel i : Nat) (st : CherryState) :
    Option CherryState :=
  match fuel with
  | 0 => none
  | fuel + 1 =>
    if st.1 = 0 ∧ shl32 i (u32 (3 + info.log_dpfs_lvl2)) < min_cache_size info then
      let dword := rd32 lvl1 i
      cherryLoop info lvl1 fuel (u32 (i + 4))
        ((List.range 32).foldl (cherryBit info i dword) st)
    else some st

/-- The source function `BuildDisaDiffDpfsLvl2Cache`.  The result is `ret`, the
file layer, the descriptor (with the cache pointer installed once the function
got past the handle being opened) and the content of the caller's buffer
`cache`; `none` when the loop does not end.  Allocation is taken to succeed;
bytes of the scratch buffer `lvl1` past its `size_dpfs_lvl1` bytes read as 0. -/
def BuildDisaDiffDpfsLvl2Cache (path : Bool) (w : World) (info : DisaDiffRWInfo)
    (cache : Buf) (cache_size : Nat) : Option (Nat × World × DisaDiffRWInfo × Buf) :=
  let offset_lvl1 := activeLvl1Offset info
  if cache_size < min_cache_size info ∨ min_cache_size info > info.size_dpfs_lvl2
      ∨ min_cache_size info > shl32 info.size_dpfs_lvl1 (u32 (3 + info.log_dpfs_lvl2)) then
    some (1, w, info, cache)
  else
    let o := DisaDiffOpen path w
    if o.1 = false then some (1, o.2, info, cache) else
    let r1 := DisaDiffRead o.2 info.size_dpfs_lvl1 offset_lvl1
    let lvl1 : Buf := fun j =>
      if r1.1 ∧ j < info.size_dpfs_lvl1 then o.2.data (offset_lvl1 + j) else 0
    let st1 : CherryState :=
      if r1.1 then
        let r2 := DisaDiffRead r1.2 info.size_dpfs_lvl2 info.offset_dpfs_lvl2
        if r2.1 then
          (0, storeAt cache 0 info.size_dpfs_lvl2 (fun j => o.2.data (info.offset_dpfs_lvl2 + j)),
            r2.2)
        else (1, cache, r2.2)
      else (1, cache, r1.2)
    match cherryLoop info lvl1 loopFuel 0 st1 with
    | none => none
    | some st =>
      some (st.1, DisaDiffClose st.2.2, { info with dpfs_lvl2_cache := st.2.1 }, st.2.1)

/-! ## DPFS level-3 virtual I/O -/

/-- The local `offset_lvl3_1`: start of copy 1 of DPFS level 3. -/
def offsetLvl3Copy1 (info : DisaDiffRWInfo) : Nat :=
  u32 (info.offset_dpfs_lvl3 + info.size_dpfs_lvl3)

/-- File position `pos_f` of level-3 offset `start` in the copy chosen by `bit_state`. -/
def dpfsPos (info : DisaDiffRWInfo) (bit_state start : Nat) : Nat :=
  u32 ((if bit_state ≠ 0 then offsetLvl3Copy1 info else info.offset_dpfs_lvl3) + start)

/-- The statement `bit_state = ~bit_state & 0x1`. -/
def flipBit (bit_state : Nat) : Nat := if bit_state % 2 = 0 then 1 else 0

/-- The `while` loop of `ReadDisaDiffDpfsLvl3` (lines 352-371); the state is
`size`, `read_start`, `read_end`, `bit_state`, the buffer and the file layer. -/
def readLoop (info : DisaDiffRWInfo) (offset_start offset_end : Nat) (fuel : Nat)
    (size read_start read_end bit_state : Nat) (buffer : Buf) (w : World) :
    Option (Nat × Buf × World) :=
  match fuel with
  | 0 => none
  | fuel + 1 =>
    if size ≠ 0 ∧ read_start < offset_end then
      let idx_lvl2 := shr read_end info.log_dpfs_lvl3
      let hit := decide (GET_DPFS_BIT idx_lvl2 info.dpfs_lvl2_cache = bit_state)
      let ext := shl32 (u32 (idx_lvl2 + 1)) info.log_dpfs_lvl3
      if hit ∧ ext < offset_end then
        readLoop info offset_start offset_end fuel size read_start ext bit_state buffer w
      else
        let read_end := if hit then offset_end else read_end
        if read_start < read_end then
          let pos_f := dpfsPos info bit_state read_start
          let pos_b := sub32 read_start offset_start
          let btr := sub32 read_end read_start
          let r := DisaDiffRead w btr pos_f
          readLoop info offset_start offset_end fuel (if r.1 then size else 0) read_end read_end
            (flipBit bit_state)
            (if r.1 then storeAt buffer pos_b btr (fun j => w.data (pos_f + j)) else buffer) r.2
        else
          readLoop info offset_start offset_end fuel size read_start read_end
            (flipBit bit_state) buffer w
    else some (size, buffer, w)

/-- The source function `ReadDisaDiffDpfsLvl3`: the returned size, the buffer
and the file layer; `none` when the loop does not end. -/
def ReadDisaDiffDpfsLvl3 (info : DisaDiffRWInfo) (offset size : Nat) (buffer : Buf) (w : World) :
    Option (Nat × Buf × World) :=
  readLoop info offset (u32 (offset + size)) loopFuel size offset offset 0 buffer w

/-- The `while` loop of `WriteDisaDiffDpfsLvl3` (lines 389-408). -/
def writeLoop (info : DisaDiffRWInfo) (buffer : Buf) (offset_start offset_end : Nat) (fuel : Nat)
    (size write_start write_end bit_state : Nat) (w : World) : Option (Nat × World) :=
  match fuel with
  | 0 => none
  | fuel + 1 =>
    if size ≠ 0 ∧ write_start < offset_end then
      let idx_lvl2 := shr write_end info.log_dpfs_lvl3
      let hit := decide (GET_DPFS_BIT idx_lvl2 info.dpfs_lvl2_cache = bit_state)
      let ext := shl32 (u32 (idx_lvl2 + 1)) info.log_dpfs_lvl3
      if hit ∧ ext < offset_end then
        writeLoop info buffer offset_start offset_end fuel size write_start ext bit_state w
      else
        let write_end := if hit then offset_end else write_end
        if write_start < write_end then
          let pos_f := dpfsPos info bit_state write_start
          let pos_b := sub32 write_start offset_start
          let btw := sub32 write_end write_start
          let r := DisaDiffWrite w (fun j => buffer (pos_b + j)) btw pos_f
          writeLoop info buffer offset_start offset_end fuel (if r.1 then size else 0)
            write_end write_end (flipBit bit_state) r.2
        else
          writeLoop info buffer offset_start offset_end fuel size write_start write_end
            (flipBit bit_state) w
    else some (size, w)

/-- The source function `WriteDisaDiffDpfsLvl3`: the returned size and the file
layer; `none` when the loop does not end. -/
def WriteDisaDiffDpfsLvl3 (info : DisaDiffRWInfo) (offset size : Nat) (buffer : Buf) (w : World) :
    Option (Nat × World) :=
  writeLoop info buffer offset (u32 (offset + size)) loopFuel size offset offset 0 w

/-! ## The hash-chain fixer -/

/-- The collaborator `sha_quick(out, data, len, SHA256_MODE)` of `sha.h`: a
function from the hashed bytes to the digest bytes. -/
abbrev Sha := List Nat → List Nat

/-- The 32-byte buffer `sha_buf` after `sha_quick` ran over `data`. -/
def shaBuf (sha : Sha) (data : List Nat) : Buf := fun j => (sha data).getD j 0

/-- The source function `FixDisaDiffPartitionHash`: `ret` and the file layer. -/
def FixDisaDiffPartitionHash (sha : Sha) (info : DisaDiffRWInfo) (w : World) : Nat × World :=
  let size := info.size_table
  let r := DisaDiffRead w size info.offset_table
  if r.1 = false then (1, r.2) else
  let sha_buf := shaBuf sha (bufList (fun j => w.data (info.offset_table + j)) size)
  let r2 := DisaDiffWrite r.2 sha_buf 0x20 info.offset_partition_hash
  if r2.1 = false then (1, r2.2) else (0, r2.2)

/-- The read of one block in `FixDisaDiffIvfcLevel` (lines 468-469): directly
from the file for an external level 4, through `ReadDisaDiffDpfsLvl3`
otherwise.  The result is whether the read succeeded, the block buffer and the
file layer. -/
def fixRead (info : DisaDiffRWInfo) (level read_size src : Nat) (buf0 : Buf) (w : World) :
    Option (Bool × Buf × World) :=
  if level = 4 ∧ info.ivfc_use_extlvl4 ≠ 0 then
    let r := DisaDiffRead w read_size src
    some (r.1, if r.1 then storeAt buf0 0 read_size (fun j => w.data (src + j)) else buf0, r.2)
  else
    (ReadDisaDiffDpfsLvl3 info src read_size buf0 w).map
      (fun r => (decide (r.1 = read_size), r.2.1, r.2.2))

/-- The write of one hash in `FixDisaDiffIvfcLevel` (lines 477-478): directly
into the master-hash region for level 1, through `WriteDisaDiffDpfsLvl3` into
the parent level otherwise; `slot` is `(align_offset >> log_ivfc_lvl) * 0x20`. -/
def fixWrite (info : DisaDiffRWInfo) (level slot : Nat) (sha_buf : Buf) (w1 : World) :
    Option (Bool × World) :=
  if level = 1 then
    some (DisaDiffWrite w1 sha_buf 0x20
      (u32 (u32 (info.offset_difi + info.offset_master_hash) + slot)))
  else
    (WriteDisaDiffDpfsLvl3 info (u32 (info.offset_ivfc_lvl (level - 2) + slot)) 0x20
      sha_buf w1).map (fun r => (decide (r.1 = 0x20), r.2))

/-- The `while (align_size > 0)` loop of `FixDisaDiffIvfcLevel` (lines 462-485)
for `level` in 1..4; the state is `read_size`, `align_offset`, `align_size`,
the scratch block `buf` and the file layer.  The result is `ret` and the file
layer.  The scratch block is modelled without the bound of its
`malloc(block_size)`: a pass with `read_size > block_size`, which overruns the
block in the C code, stores the bytes here.  Line 465 first produces such a
`read_size` at a block starting at or past the end of the level. -/
def fixLoop (sha : Sha) (info : DisaDiffRWInfo) (level : Nat) (fuel : Nat)
    (read_size align_offset align_size : Nat) (buf : Buf) (w : World) : Option (Nat × World) :=
  match fuel with
  | 0 => none
  | fuel + 1 =>
    if align_size > 0 then
      let offset_ivfc_lvl := info.offset_ivfc_lvl (level - 1)
      let size_ivfc_lvl := info.size_ivfc_lvl (level - 1)
      let log_ivfc_lvl := info.log_ivfc_lvl (level - 1)
      let block_size := shl32 1 log_ivfc_lvl
      let past := decide (u32 (align_offset + block_size) > size_ivfc_lvl)
      let buf0 : Buf := if past then storeAt buf 0 block_size (fun _ => 0) else buf
      let read_size := if past
        then sub32 read_size (sub32 (u32 (align_offset + block_size)) size_ivfc_lvl) else read_size
      match fixRead info level read_size (u32 (align_offset + offset_ivfc_lvl)) buf0 w with
      | none => none
      | some (false, _, w1) => some (1, w1)
      | some (true, buf1, w1) =>
        let sha_buf := shaBuf sha (bufList buf1 block_size)
        match fixWrite info level (u32 (shr align_offset log_ivfc_lvl * 0x20)) sha_buf w1 with
        | none => none
        | some (false, w2) => some (1, w2)
        | some (true, w2) =>
          fixLoop sha info level fuel read_size (u32 (align_offset + block_size))
            (if align_size < block_size then 0 else align_size - block_size) buf1 w2
    else some (0, w)

/-- The source function `FixDisaDiffIvfcLevel`, called with non-null
`next_offset` / `next_size` whose current values are passed in: the result is
`ret`, `*next_offset`, `*next_size` and the file layer; `none` when a loop
does not end.  Allocation is taken to succeed, the fresh block reading as 0. -/
def FixDisaDiffIvfcLevel (sha : Sha) (info : DisaDiffRWInfo) (level offset size : Nat)
    (next_offset next_size : Nat) (w : World) : Option (Nat × Nat × Nat × World) :=
  if level = 0 then
    let r := FixDisaDiffPartitionHash sha info w
    some (r.1, next_offset, next_size, r.2)
  else if level > 4 then some (1, next_offset, next_size, w)
  else
    let log_ivfc_lvl := info.log_ivfc_lvl (level - 1)
    let block_size := shl32 1 log_ivfc_lvl
    let read_size := block_size
    let align_offset := shl32 (shr offset log_ivfc_lvl) log_ivfc_lvl
    let align_size := sub32 (u32 (size + offset)) align_offset
    let next_offset := if level ≠ 1 then u32 (shr align_offset log_ivfc_lvl * 0x20) else next_offset
    let next_size := if level ≠ 1
      then u32 ((shr align_size log_ivfc_lvl + (if align_size % block_size = 0 then 0 else 1)) * 0x20)
      else next_size
    (fixLoop sha info level loopFuel read_size align_offset align_size (fun _ => 0) w).map
      (fun r => (r.1, next_offset, next_size, r.2))

/-! ## The level-4 entry points -/

/-- The common prologue of `ReadDisaDiffIvfcLvl4` and `WriteDisaDiffIvfcLvl4`
(lines 493-505, 528-542) when no descriptor is passed: parse partition A and
build a cache of `size_dpfs_lvl2` bytes.  `Except.error w` is `return 0` with
the file layer as left; `Except.ok` carries the descriptor in use. -/
def localInfo (path : Bool) (w : World) (info : Option DisaDiffRWInfo) :
    Option (Except World (DisaDiffRWInfo × World)) :=
  match info with
  | some i => some (Except.ok (i, w))
  | none =>
    match GetDisaDiffRWInfo path w false with
    | none => some (Except.error w)
    | some i =>
      match BuildDisaDiffDpfsLvl2Cache path w i (fun _ => 0) i.size_dpfs_lvl2 with
      | none => none
      | some (ret, w1, i1, _) => if ret ≠ 0 then some (Except.error w1) else some (Except.ok (i1, w1))

/-- The source function `ReadDisaDiffIvfcLvl4`: the returned size, the caller's
buffer and the file layer; `none` when a loop does not end.  `info = none` is
a null descriptor. -/
def ReadDisaDiffIvfcLvl4 (path : Bool) (w : World) (info : Option DisaDiffRWInfo)
    (offset size : Nat) (buffer : Buf) : Option (Nat × Buf × World) :=
  match localInfo path w info with
  | none => none
  | some (Except.error w0) => some (0, buffer, w0)
  | some (Except.ok (info, w0)) =>
    let o := DisaDiffOpen path w0
    let size := if o.1 = false then 0 else size
    if offset > info.size_ivfc_lvl4 then some (0, buffer, o.2) else
    let size := if u32 (offset + size) > info.size_ivfc_lvl4
      then sub32 info.size_ivfc_lvl4 offset else size
    if info.ivfc_use_extlvl4 ≠ 0 then
      let pos := u32 (info.offset_ivfc_lvl4 + offset)
      let r := DisaDiffRead o.2 size pos
      some (if r.1 then size else 0,
            if r.1 then storeAt buffer 0 size (fun j => o.2.data (pos + j)) else buffer,
            DisaDiffClose r.2)
    else
      (ReadDisaDiffDpfsLvl3 info (u32 (info.offset_ivfc_lvl4 + offset)) size buffer o.2).map
        (fun r => (r.1, r.2.1, DisaDiffClose r.2.2))

/-- The loop `for (int i = 4; i >= 0; i--)` of `WriteDisaDiffIvfcLvl4`
(lines 561-566) over the levels still to fix; the result is whether every
level was fixed and the file layer. -/
def fixChain (sha : Sha) (info : DisaDiffRWInfo) (levels : List Nat)
    (hashfix_offset hashfix_size : Nat) (w : World) : Option (Bool × World) :=
  match levels with
  | [] => some (true, w)
  | i :: rest =>
    match FixDisaDiffIvfcLevel sha info i hashfix_offset hashfix_size hashfix_offset hashfix_size w with
    | none => none
    | some (ret, no, ns, w1) =>
      if ret ≠ 0 then some (false, w1) else fixChain sha info rest no ns w1

/-- The source function `WriteDisaDiffIvfcLvl4`: the returned size and the file
layer; `none` when a loop does not end.  `info = none` is a null descriptor. -/
def WriteDisaDiffIvfcLvl4 (sha : Sha) (path : Bool) (w : World) (info : Option DisaDiffRWInfo)
    (offset size : Nat) (buffer : Buf) : Option (Nat × World) :=
  match localInfo path w info with
  | none => none
  | some (Except.error w0) => some (0, w0)
  | some (Except.ok (info, w0)) =>
    if u32 (offset + size) > info.size_ivfc_lvl4 then some (0, w0) else
    let o := DisaDiffOpen path w0
    let size := if o.1 = false then 0 else size
    let wr : Option (Nat × World) :=
      if info.ivfc_use_extlvl4 ≠ 0 then
        let r := DisaDiffWrite o.2 buffer size (u32 (info.offset_ivfc_lvl4 + offset))
        some (if r.1 then size else 0, r.2)
      else WriteDisaDiffDpfsLvl3 info (u32 (info.offset_ivfc_lvl4 + offset)) size buffer o.2
    match wr with
    | none => none
    | some (size, w1) =>
      if size ≠ 0 ∧ w1.ddfp then
        (fixChain sha info [4, 3, 2, 1, 0] offset size w1).map
          (fun r => (if r.1 then size else 0, DisaDiffClose r.2))
      else some (size, DisaDiffClose w1)

/-! ## What a successful parse has established -/

/-- Everything `GetDisaDiffRWInfo` has checked when it returns 0 with the
locals `o` of the outer dispatch. -/
structure ParseFacts (path : Bool) (w : World) (partitionB : Bool) (o : OuterInfo)
    (info : DisaDiffRWInfo) : Prop where
  outer : outerHeader (headerOf w) partitionB = some o
  hdrRead : DisaDiffQRead path w 0x100 0x100 = true
  difiNonzero : o.offset_difi ≠ 0
  difiFits : u32 (o.offset_difi + structSize DifiStruct.sizes) ≤ DisaDiffSize path w
  partFits : u32 (o.offset_partition + o.size_partition) ≤ DisaDiffSize path w
  difiRead : DisaDiffQRead path w o.offset_difi (structSize DifiStruct.sizes) = true
  difiOk : ¬ difiHeaderBad (DifiStruct.difi (difisOf w o.offset_difi))
  dpfsOk : ¬ dpfsBad (DifiStruct.dpfs (difisOf w o.offset_difi)) o.size_partition
  ivfcOk : ¬ ivfcBad (DifiStruct.ivfc (difisOf w o.offset_difi))
    (DifiStruct.difi (difisOf w o.offset_difi)) (DifiStruct.dpfs (difisOf w o.offset_difi))
  lvl4Ok : ¬ lvl4Bad (DifiStruct.ivfc (difisOf w o.offset_difi))
    (DifiStruct.difi (difisOf w o.offset_difi)) (DifiStruct.dpfs (difisOf w o.offset_difi))
    o.offset_partition o.size_partition
  filled : info = filledInfo o (difisOf w o.offset_difi)

/-! ## Concrete containers -/

/-- Byte `i` of a run of little-endian fields given as (size, value) pairs;
zero past the last field. -/
def fieldByte : List (Nat × Nat) → Nat → Nat
  | [], _ => 0
  | (sz, v) :: rest, i => if i < sz then v / 256 ^ i % 256 else fieldByte rest (i - sz)

/-- A struct image: the 8 magic bytes followed by little-endian fields. -/
def mkStruct (magic : List Nat) (fields : List (Nat × Nat)) : Buf :=
  fun i => if i < 8 then magic.getD i 0 else fieldByte fields (i - 8)

/-- The image of a `DisaHeader` with the given field values (both descriptor
sizes `0x130`); the bytes after `active_table` are zero. -/
def mkDisaHeader (n_partitions table1 table0 size_table descA descB opA spA opB spB active : Nat) :
    Buf :=
  mkStruct DISA_MAGIC [(4, n_partitions), (4, 0), (8, table1), (8, table0), (8, size_table),
    (8, descA), (8, 0x130), (8, descB), (8, 0x130), (8, opA), (8, spA), (8, opB), (8, spB),
    (1, active)]

/-- The image of a `DifiStruct`: a DIFI header with the regular sub-offsets
and `size_hash = 0x20`, the IVFC descriptor with
`iv = [offset_lvl1, size_lvl1, log_lvl1, ..., offset_lvl4, size_lvl4, log_lvl4]`
and the DPFS descriptor with `dp = [offset_lvl1, size_lvl1, log_lvl1, ...,
offset_lvl3, size_lvl3, log_lvl3]`; the master hash and padding are zero. -/
def mkDifi (use_ext sel ext_off : Nat) (iv dp : List Nat) : Buf :=
  fun i =>
    if i < 0x44 then
      mkStruct DIFI_MAGIC [(8, 0x44), (8, 0x78), (8, 0xBC), (8, 0x50), (8, 0x10C), (8, 0x20),
        (1, use_ext), (1, sel), (2, 0), (8, ext_off)] i
    else if i < 0xBC then
      mkStruct IVFC_MAGIC [(8, 0x20),
        (8, iv.getD 0 0), (8, iv.getD 1 0), (4, iv.getD 2 0), (4, 0),
        (8, iv.getD 3 0), (8, iv.getD 4 0), (4, iv.getD 5 0), (4, 0),
        (8, iv.getD 6 0), (8, iv.getD 7 0), (4, iv.getD 8 0), (4, 0),
        (8, iv.getD 9 0), (8, iv.getD 10 0), (8, iv.getD 11 0), (8, 0x78)] (i - 0x44)
    else
      mkStruct DPFS_MAGIC [
        (8, dp.getD 0 0), (8, dp.getD 1 0), (4, dp.getD 2 0), (4, 0),
        (8, dp.getD 3 0), (8, dp.getD 4 0), (4, dp.getD 5 0), (4, 0),
        (8, dp.getD 6 0), (8, dp.getD 7 0), (4, dp.getD 8 0), (4, 0)] (i - 0xBC)

/-- A closed container file of `fsize` bytes: `hdr` at offset `0x100`, `difi`
at offset `difiOff`, zero elsewhere. -/
def mkWorld (fsize : Nat) (hdr : Buf) (difiOff : Nat) (difi : Buf) : World :=
  { present := true, fsize := fsize, ddfp := false, trace := [],
    data := fun i =>
      if 0x100 ≤ i ∧ i < 0x200 then hdr (i - 0x100)
      else if difiOff ≤ i ∧ i < difiOff + 0x130 then difi (i - difiOff) else 0 }

/-- IVFC descriptor values of the concrete containers: levels 1 to 3 of one,
one and eight hash slots, level 4 of eight 4096-byte blocks. -/
def sampleIvfc : List Nat :=
  [0, 0x20, 12, 0x1000, 0x20, 12, 0x2000, 0x100, 12, 0x3000, 0x8000, 12]

/-- DPFS descriptor values of the concrete containers. -/
def sampleDpfs : List Nat := [0, 4, 0, 8, 0x80, 7, 0x1000, 0x10000, 12]

/-- The first end-to-end scenario: a DISA container with `n_partitions = 1`,
`active_table = 0`, `offset_partitionA = 0x1000`, `size_partitionA = 0x40000`,
`offset_descA = 0`, `offset_table0 = 0x200`, `size_table = 0x200` and a
consistent DIFI at `0x200`. -/
def scenarioWorld : World :=
  mkWorld 0x41000 (mkDisaHeader 1 0 0x200 0x200 0 0 0x1000 0x40000 0 0 0) 0x200
    (mkDifi 0 0 0 sampleIvfc sampleDpfs)

/-- The scenario container with `offset_descA = 2^32` in the 64-bit header field. -/
def truncWorld : World :=
  mkWorld 0x41000 (mkDisaHeader 1 0 0x200 0x200 (2 ^ 32) 0 0x1000 0x40000 0 0 0) 0x200
    (mkDifi 0 0 0 sampleIvfc sampleDpfs)

/-- The scenario container with `size_table = 0x100000`, more than the file holds. -/
def hugeTableWorld : World :=
  mkWorld 0x41000 (mkDisaHeader 1 0 0x200 0x100000 0 0 0x1000 0x40000 0 0 0) 0x200
    (mkDifi 0 0 0 sampleIvfc sampleDpfs)

/-- The scenario container with level 4 outside the DPFS tree
(`ivfc_use_extlvl4 = 1`), at partition offset `0x30000`. -/
def extWorld : World :=
  mkWorld 0x41000 (mkDisaHeader 1 0 0x200 0x200 0 0 0x1000 0x40000 0 0 0) 0x200
    (mkDifi 1 0 0x30000 sampleIvfc sampleDpfs)

/-! ## Specification of the level-2 cache -/

/-- Content of the cache buffer once the level-1 bits below `limit` have been
honoured: a byte of block `n` comes from copy 1 of level 2 when bit `n` of
`lvl1` is set and `n < limit`, and is the byte of `cache0` otherwise. -/
def pickedCache (info : DisaDiffRWInfo) (data : Nat → Nat) (lvl1 cache0 : Buf) (limit : Nat) :
    Buf :=
  fun p =>
    if p / 2 ^ info.log_dpfs_lvl2 < limit ∧ GET_DPFS_BIT (p / 2 ^ info.log_dpfs_lvl2) lvl1 = 1 then
      data (u32 (offsetLvl2Copy1 info + p / 2 ^ info.log_dpfs_lvl2 * 2 ^ info.log_dpfs_lvl2)
        + (p - p / 2 ^ info.log_dpfs_lvl2 * 2 ^ info.log_dpfs_lvl2))
    else cache0 p

/-- The geometry under which the cache builder works on a container: level-2
blocks are whole 32-bit words, level 1 is a whole number of words, both copies
of levels 1 and 2 have 32-bit file offsets, and the level-2 blocks addressed by
the level-1 words the builder visits start below `2^32`. -/
structure DpfsGeometry (info : DisaDiffRWInfo) : Prop where
  log2_ge : 2 ≤ info.log_dpfs_lvl2
  lvl1_words : info.size_dpfs_lvl1 % 4 = 0
  lvl1_u32 : info.offset_dpfs_lvl1 + 2 * info.size_dpfs_lvl1 ≤ 2 ^ 32
  lvl2_u32 : info.offset_dpfs_lvl2 + 2 * info.size_dpfs_lvl2 ≤ 2 ^ 32
  blocks_u32 : min_cache_size info + 32 * 2 ^ info.log_dpfs_lvl2 ≤ 2 ^ 32

/-- The active copy of DPFS level 1 in the file. -/
def lvl1Active (info : DisaDiffRWInfo) (w : World) : Buf :=
  fun j => w.data (info.offset_dpfs_lvl1
    + (if info.dpfs_lvl1_selector ≠ 0 then info.size_dpfs_lvl1 else 0) + j)

/-- Copy 0 of DPFS level 2 in the file. -/
def lvl2Copy0 (info : DisaDiffRWInfo) (w : World) : Buf :=
  fun j => w.data (info.offset_dpfs_lvl2 + j)

/-- Copy 1 of DPFS level 2 in the file. -/
def lvl2Copy1 (info : DisaDiffRWInfo) (w : World) : Buf :=
  fun j => w.data (info.offset_dpfs_lvl2 + info.size_dpfs_lvl2 + j)

/-- The descriptor of the cache scenario: `log_dpfs_lvl2 = 3`,
`log_dpfs_lvl3 = 9`, `size_dpfs_lvl3 = 0x2000`; level 1 is one word at file
offset `0x1000`, level 2 has two copies of `0x100` bytes from `0x1010`. -/
def cacheInfo : DisaDiffRWInfo :=
  { offset_table := 0x200, size_table := 0x200, offset_partition_hash := 0x16C,
    offset_difi := 0x200, offset_master_hash := 0x10C,
    offset_dpfs_lvl1 := 0x1000, offset_dpfs_lvl2 := 0x1010, offset_dpfs_lvl3 := 0x2000,
    size_dpfs_lvl1 := 4, size_dpfs_lvl2 := 0x100, size_dpfs_lvl3 := 0x2000,
    log_dpfs_lvl2 := 3, log_dpfs_lvl3 := 9,
    offset_ivfc_lvl1 := 0, offset_ivfc_lvl2 := 0x200, offset_ivfc_lvl3 := 0x400,
    offset_ivfc_lvl4 := 0x600,
    size_ivfc_lvl1 := 0x20, size_ivfc_lvl2 := 0x20, size_ivfc_lvl3 := 0x20,
    size_ivfc_lvl4 := 0x200,
    log_ivfc_lvl1 := 9, log_ivfc_lvl2 := 9, log_ivfc_lvl3 := 9, log_ivfc_lvl4 := 9,
    dpfs_lvl1_selector := 0, ivfc_use_extlvl4 := 0, dpfs_lvl2_cache := fun _ => 0 }

/-- A file of `0x6000` bytes for `cacheInfo`: the byte `0xAA` at file offset
`aaPos`, every byte of level-2 copy 0 equal to `0x11`, every byte of level-2
copy 1 equal to `0x22`, zero elsewhere. -/
def cacheWorld (aaPos : Nat) : World :=
  { present := true, fsize := 0x6000, ddfp := false, trace := [],
    data := fun i =>
      if i = aaPos then 0xAA
      else if 0x1010 ≤ i ∧ i < 0x1110 then 0x11
      else if 0x1110 ≤ i ∧ i < 0x1210 then 0x22 else 0 }

/-! ## The DPFS walk as a list of runs -/

/-- A transfer of the DPFS walk: the `bit_state` choosing the copy, and the
level-3 offsets `start` and `end` between which bytes are moved. -/
abbrev Run := Nat × Nat × Nat

/-- The transfers the loops of `ReadDisaDiffDpfsLvl3` / `WriteDisaDiffDpfsLvl3`
issue, in order, from the state `start`, `end`, `bit_state` onwards, were none
of them to fail: the control skeleton common to both loops. -/
def dpfsRuns (info : DisaDiffRWInfo) (offset_end : Nat) (fuel : Nat)
    (start «end» bit_state : Nat) : Option (List Run) :=
  match fuel with
  | 0 => none
  | fuel + 1 =>
    if start < offset_end then
      let idx_lvl2 := shr «end» info.log_dpfs_lvl3
      let hit := decide (GET_DPFS_BIT idx_lvl2 info.dpfs_lvl2_cache = bit_state)
      let ext := shl32 (u32 (idx_lvl2 + 1)) info.log_dpfs_lvl3
      if hit ∧ ext < offset_end then
        dpfsRuns info offset_end fuel start ext bit_state
      else
        let end1 := if hit then offset_end else «end»
        if start < end1 then
          (dpfsRuns info offset_end fuel end1 end1 (flipBit bit_state)).map
            (fun rs => (bit_state, start, end1) :: rs)
        else dpfsRuns info offset_end fuel start end1 (flipBit bit_state)
    else some []

/-- Runs a list of transfers through `act` until one fails; the result is the
`size` the loop returns and the last state. -/
def applyRuns {σ : Type} (act : Run → σ → Bool × σ) : List Run → Nat → σ → Nat × σ
  | [], size, s => (size, s)
  | r :: rs, size, s =>
    if (act r s).1 then applyRuns act rs size (act r s).2 else (0, (act r s).2)

/-- The transfer `WriteDisaDiffDpfsLvl3` issues for a run (lines 400-403). -/
def writeAct (info : DisaDiffRWInfo) (buffer : Buf) (offset_start : Nat) (r : Run) (w : World) :
    Bool × World :=
  DisaDiffWrite w (fun j => buffer (sub32 r.2.1 offset_start + j)) (sub32 r.2.2 r.2.1)
    (dpfsPos info r.1 r.2.1)

/-- The transfer `ReadDisaDiffDpfsLvl3` issues for a run (lines 363-366),
acting on the buffer and the file layer. -/
def readAct (info : DisaDiffRWInfo) (offset_start : Nat) (r : Run) (s : Buf × World) :
    Bool × (Buf × World) :=
  let pos_f := dpfsPos info r.1 r.2.1
  let res := DisaDiffRead s.2 (sub32 r.2.2 r.2.1) pos_f
  (res.1,
    (if res.1 then storeAt s.1 (sub32 r.2.1 offset_start) (sub32 r.2.2 r.2.1)
        (fun j => s.2.data (pos_f + j)) else s.1,
     res.2))

/-- File position of the level-3 offset `x` in the copy the cache selects. -/
def phys (info : DisaDiffRWInfo) (x : Nat) : Nat :=
  (if GET_DPFS_BIT (x / 2 ^ info.log_dpfs_lvl3) info.dpfs_lvl2_cache = 0
    then info.offset_dpfs_lvl3 else info.offset_dpfs_lvl3 + info.size_dpfs_lvl3) + x

/-- The level-3 coordinate space as the cache presents it. -/
def lvl3View (info : DisaDiffRWInfo) (w : World) : Buf := fun x => w.data (phys info x)

/-- Consecutive runs from `a` to `e`, each non-empty and lying in level-3
blocks whose cache bit is the run's `bit_state`. -/
def RunChain (info : DisaDiffRWInfo) (e : Nat) : Nat → List Run → Prop
  | a, [] => a = e
  | a, r :: rs =>
    r.2.1 = a ∧ a < r.2.2 ∧ r.2.2 ≤ e ∧ r.1 < 2 ∧
    (∀ x, a ≤ x → x < r.2.2 →
      GET_DPFS_BIT (x / 2 ^ info.log_dpfs_lvl3) info.dpfs_lvl2_cache = r.1) ∧
    RunChain info e r.2.2 rs

/-- The geometry under which the DPFS walk works: level-3 blocks of at most
`2^31` bytes and both copies of level 3 at 32-bit file offsets. -/
structure Lvl3Geometry (info : DisaDiffRWInfo) : Prop where
  log3_le : info.log_dpfs_lvl3 ≤ 31
  lvl3_u32 : info.offset_dpfs_lvl3 + 2 * info.size_dpfs_lvl3 ≤ 2 ^ 32

/-! ## Specification of the hash chain -/

/-- Block size of IVFC level `k` (1 to 4). -/
def ivfcBlock (info : DisaDiffRWInfo) (k : Nat) : Nat := 2 ^ info.log_ivfc_lvl (k - 1)

/-- Division rounding up. -/
def cdiv (a b : Nat) : Nat := (a + b - 1) / b

/-- Number of blocks of IVFC level `k`, the last one possibly partial. -/
def ivfcBlocks (info : DisaDiffRWInfo) (k : Nat) : Nat :=
  cdiv (info.size_ivfc_lvl (k - 1)) (ivfcBlock info k)

/-- Index of the block of level `k` that holds byte `offset` of the level. -/
def firstBlock (info : DisaDiffRWInfo) (k offset : Nat) : Nat := offset / ivfcBlock info k

/-- Number of blocks of level `k`, counted from `firstBlock`, that cover the
range `[offset, offset + size)` of the level. -/
def blockCount (info : DisaDiffRWInfo) (k offset size : Nat) : Nat :=
  cdiv (offset + size - firstBlock info k offset * ivfcBlock info k) (ivfcBlock info k)

/-- File position of byte `x` of IVFC level `k`: through the DPFS tree for
levels 1 to 4, directly in the file for an external level 4; level 0 stands
for the master-hash region of the DIFI block. -/
def lvlPos (info : DisaDiffRWInfo) (k x : Nat) : Nat :=
  if k = 0 then info.offset_difi + info.offset_master_hash + x
  else if k = 4 ∧ info.ivfc_use_extlvl4 ≠ 0 then info.offset_ivfc_lvl4 + x
  else phys info (info.offset_ivfc_lvl (k - 1) + x)

/-- Size of IVFC level `k`; for level 0, the part of the master-hash region
that holds the hashes of the level-1 blocks. -/
def lvlSize (info : DisaDiffRWInfo) (k : Nat) : Nat :=
  if k = 0 then 32 * ivfcBlocks info 1 else info.size_ivfc_lvl (k - 1)

/-- Block `j` of level `k` as the fixer hashes it: the bytes of the level, the
part of the block past the end of the level being zero. -/
def blockBytes (info : DisaDiffRWInfo) (w : World) (k j : Nat) : List Nat :=
  bufList (fun t =>
    if j * ivfcBlock info k + t < info.size_ivfc_lvl (k - 1)
    then w.data (lvlPos info k (j * ivfcBlock info k + t)) else 0) (ivfcBlock info k)

/-- The file content of `w1` differs from that of `w` at most in the bytes
`[a, a + s)` of level `m`. -/
def ChangedWithin (info : DisaDiffRWInfo) (m a s : Nat) (w w1 : World) : Prop :=
  ∀ y, (∀ z, a ≤ z → z < a + s → lvlPos info m z ≠ y) → w1.data y = w.data y

/-- The hash of every block of level `k` (1 to 4) is stored at its slot of
level `k - 1`. -/
def HashOK (sha : Sha) (info : DisaDiffRWInfo) (w : World) (k : Nat) : Prop :=
  ∀ j, j < ivfcBlocks info k → ∀ t, t < 32 →
    w.data (lvlPos info (k - 1) (32 * j + t)) = shaBuf sha (blockBytes info w k j) t

/-- The hash of the active descriptor table is stored at `offset_partition_hash`. -/
def PartitionHashOK (sha : Sha) (info : DisaDiffRWInfo) (w : World) : Prop :=
  ∀ t, t < 32 →
    w.data (info.offset_partition_hash + t)
      = shaBuf sha (bufList (fun j => w.data (info.offset_table + j)) info.size_table) t

/-- The geometry of a valid container as the level-4 entry points need it:
the DPFS walk geometry; block sizes of at most `2^31` bytes; levels 1 to 3
(and an internal level 4) inside the level-3 space, in increasing order and
apart; an external level 4 at 32-bit file offsets; every hash array fitting
in its parent level, the master-hash region included; and the master-hash
region, the partition-hash slot and an external level 4 apart from each other
and from the two copies of DPFS level 3, the partition-hash slot apart from
the descriptor table. -/
structure HashGeometry (info : DisaDiffRWInfo) : Prop where
  lvl3 : Lvl3Geometry info
  log_le : ∀ i, i < 4 → info.log_ivfc_lvl i ≤ 31
  inside : ∀ i, i < 3 → info.offset_ivfc_lvl i + info.size_ivfc_lvl i ≤ info.size_dpfs_lvl3
  order : ∀ i, i < 2 → info.offset_ivfc_lvl i + info.size_ivfc_lvl i ≤ info.offset_ivfc_lvl (i + 1)
  capacity : ∀ i, i < 3 → 32 * ivfcBlocks info (i + 2) ≤ info.size_ivfc_lvl i
  master_u32 : info.offset_difi + info.offset_master_hash + 32 * ivfcBlocks info 1 ≤ 2 ^ 32
  lvl4_in : info.ivfc_use_extlvl4 = 0 →
    info.offset_ivfc_lvl3 + info.size_ivfc_lvl3 ≤ info.offset_ivfc_lvl4 ∧
    info.offset_ivfc_lvl4 + info.size_ivfc_lvl4 ≤ info.size_dpfs_lvl3
  lvl4_ext : info.ivfc_use_extlvl4 ≠ 0 →
    info.offset_ivfc_lvl4 + info.size_ivfc_lvl4 + 2 ^ info.log_ivfc_lvl4 ≤ 2 ^ 32 ∧
    (info.offset_ivfc_lvl4 + info.size_ivfc_lvl4 ≤ info.offset_dpfs_lvl3 ∨
      info.offset_dpfs_lvl3 + 2 * info.size_dpfs_lvl3 ≤ info.offset_ivfc_lvl4) ∧
    (info.offset_ivfc_lvl4 + info.size_ivfc_lvl4 ≤ info.offset_difi + info.offset_master_hash ∨
      info.offset_difi + info.offset_master_hash + 32 * ivfcBlocks info 1
        ≤ info.offset_ivfc_lvl4) ∧
    (info.offset_ivfc_lvl4 + info.size_ivfc_lvl4 ≤ info.offset_partition_hash ∨
      info.offset_partition_hash + 32 ≤ info.offset_ivfc_lvl4)
  master_out :
    info.offset_difi + info.offset_master_hash + 32 * ivfcBlocks info 1 ≤ info.offset_dpfs_lvl3 ∨
    info.offset_dpfs_lvl3 + 2 * info.size_dpfs_lvl3 ≤ info.offset_difi + info.offset_master_hash
  part_out :
    info.offset_partition_hash + 32 ≤ info.offset_dpfs_lvl3 ∨
    info.offset_dpfs_lvl3 + 2 * info.size_dpfs_lvl3 ≤ info.offset_partition_hash
  part_master :
    info.offset_partition_hash + 32 ≤ info.offset_difi + info.offset_master_hash ∨
    info.offset_difi + info.offset_master_hash + 32 * ivfcBlocks info 1
      ≤ info.offset_partition_hash
  part_table :
    info.offset_partition_hash + 32 ≤ info.offset_table ∨
    info.offset_table + info.size_table ≤ info.offset_partition_hash

/-- A toy digest standing in for SHA-256 in worked examples: each of its 32
bytes is the sum of the hashed bytes modulo 256. -/
def toySha : Sha := fun data => List.replicate 32 (data.sum % 256)

/-- A small descriptor with an internal level 4: DPFS level 3 of 256 bytes in
32-byte blocks, its copies at `0x400` and `0x500`; IVFC levels 1 to 3 of 64
bytes in 32-byte blocks at level-3 offsets 32, 96 and 160; level 4 of 32 bytes
in 16-byte blocks at level-3 offset 224; the DIFI block at `0x200` with the
master hashes at `0x30C`; the descriptor table `[0x200, 0x400)`.  The cache
selects copy 1 for the level-3 blocks 0, 2, 5 and 7. -/
def chainInfo : DisaDiffRWInfo :=
  { offset_table := 0x200, size_table := 0x200, offset_partition_hash := 0x16C,
    offset_difi := 0x200, offset_master_hash := 0x10C,
    offset_dpfs_lvl1 := 0x1000, offset_dpfs_lvl2 := 0x1008, offset_dpfs_lvl3 := 0x400,
    size_dpfs_lvl1 := 4, size_dpfs_lvl2 := 4, size_dpfs_lvl3 := 0x100,
    log_dpfs_lvl2 := 2, log_dpfs_lvl3 := 5,
    offset_ivfc_lvl1 := 32, offset_ivfc_lvl2 := 96, offset_ivfc_lvl3 := 160,
    offset_ivfc_lvl4 := 224,
    size_ivfc_lvl1 := 64, size_ivfc_lvl2 := 64, size_ivfc_lvl3 := 64, size_ivfc_lvl4 := 32,
    log_ivfc_lvl1 := 5, log_ivfc_lvl2 := 5, log_ivfc_lvl3 := 5, log_ivfc_lvl4 := 4,
    dpfs_lvl1_selector := 0, ivfc_use_extlvl4 := 0,
    dpfs_lvl2_cache := fun i => if i = 3 then 0xA5 else 0 }

/-- A present file of `0x600` zero bytes, no handle open. -/
def chainWorld : World :=
  { present := true, fsize := 0x600, data := fun _ => 0, ddfp := false, trace := [] }

/-! ## Specification of the cache-size checks -/

/-- The number of level-3 blocks as a natural number:
`ceildiv(size_dpfs_lvl3, 2 ^ log_dpfs_lvl3)`. -/
def minBits (info : DisaDiffRWInfo) : Nat := cdiv info.size_dpfs_lvl3 (2 ^ info.log_dpfs_lvl3)

/-- The bytes of whole 32-bit words that hold `minBits` bits, as a natural
number: `ceildiv(min_bits, 32) * 4`. -/
def minBytes (info : DisaDiffRWInfo) : Nat := cdiv (minBits info) 32 * 4

/-- The descriptor `cacheInfo` with a DPFS level 3 of `0xFFFFFFFF` bytes. -/
def wideLvl3Info : DisaDiffRWInfo := { cacheInfo with size_dpfs_lvl3 := 0xFFFFFFFF }

/-- The descriptor `chainInfo` with a cache whose bit 1 is set and whose other
bits are clear. -/
def walkInfo : DisaDiffRWInfo :=
  { chainInfo with dpfs_lvl2_cache := fun i => if i = 3 then 0x40 else 0 }

/-- The file `chainWorld` with the handle open and byte `i` equal to `i % 251`. -/
def walkWorld : World := { chainWorld with ddfp := true, data := fun i => i % 251 }

/-! ## Specification of run merging -/

/-- The maximal runs of equal cache bits over the level-3 blocks
`first, ..., first + count - 1`, in order: each run is its bit, its first block
and the block after its last. -/
def bitRuns (info : DisaDiffRWInfo) : Nat → Nat → List (Nat × Nat × Nat)
  | _, 0 => []
  | first, count + 1 =>
    match bitRuns info (first + 1) count with
    | [] => [(GET_DPFS_BIT first info.dpfs_lvl2_cache, first, first + 1)]
    | r :: rest =>
      if GET_DPFS_BIT first info.dpfs_lvl2_cache = r.1 then (r.1, first, r.2.2) :: rest
      else (GET_DPFS_BIT first info.dpfs_lvl2_cache, first, first + 1) :: r :: rest

/-- The physical read that serves a run of blocks: at the run's first byte in
the copy its bit selects, over the run's whole extent. -/
def runRead (info : DisaDiffRWInfo) (r : Nat × Nat × Nat) : IoEvent :=
  IoEvent.read
    ((if r.1 = 0 then info.offset_dpfs_lvl3 else info.offset_dpfs_lvl3 + info.size_dpfs_lvl3)
      + r.2.1 * 2 ^ info.log_dpfs_lvl3)
    ((r.2.2 - r.2.1) * 2 ^ info.log_dpfs_lvl3)

/-- Neighbouring runs differ in their bit. -/
def Alternating : List Run → Prop
  | [] => True
  | [_] => True
  | r :: r1 :: rs => r.1 ≠ r1.1 ∧ Alternating (r1 :: rs)

/-- The file `walkWorld` cut to `0x400` bytes, so that no byte of DPFS level 3
lies in it. -/
def shortWorld : World := { walkWorld with fsize := 0x400 }

/-! ## The fixer loop with a record of the blocks it visits -/

/-- The loop of `FixDisaDiffIvfcLevel` (lines 462-485) as `fixLoop` models it,
with a ghost record added: for every block the loop body is entered with, its
aligned offset and the number of bytes the body requests from the level
(`read_size` at line 468), in order.  Nothing else differs from `fixLoop`. -/
def fixLoopLog (sha : Sha) (info : DisaDiffRWInfo) (level : Nat) (fuel : Nat)
    (read_size align_offset align_size : Nat) (buf : Buf) (w : World) :
    Option (Nat × World × List (Nat × Nat)) :=
  match fuel with
  | 0 => none
  | fuel + 1 =>
    if align_size > 0 then
      let offset_ivfc_lvl := info.offset_ivfc_lvl (level - 1)
      let size_ivfc_lvl := info.size_ivfc_lvl (level - 1)
      let log_ivfc_lvl := info.log_ivfc_lvl (level - 1)
      let block_size := shl32 1 log_ivfc_lvl
      let past := decide (u32 (align_offset + block_size) > size_ivfc_lvl)
      let buf0 : Buf := if past then storeAt buf 0 block_size (fun _ => 0) else buf
      let read_size := if past
        then sub32 read_size (sub32 (u32 (align_offset + block_size)) size_ivfc_lvl) else read_size
      match fixRead info level read_size (u32 (align_offset + offset_ivfc_lvl)) buf0 w with
      | none => none
      | some (false, _, w1) => some (1, w1, [(align_offset, read_size)])
      | some (true, buf1, w1) =>
        let sha_buf := shaBuf sha (bufList buf1 block_size)
        match fixWrite info level (u32 (shr align_offset log_ivfc_lvl * 0x20)) sha_buf w1 with
        | none => none
        | some (false, w2) => some (1, w2, [(align_offset, read_size)])
        | some (true, w2) =>
          (fixLoopLog sha info level fuel read_size (u32 (align_offset + block_size))
            (if align_size < block_size then 0 else align_size - block_size) buf1 w2).map
            (fun r => (r.1, r.2.1, (align_offset, read_size) :: r.2.2))
    else some (0, w, [])

/-! ## The stages of the fix chain -/

/-- The range the fix chain hands to level `4 - d`: the written range for
level 4, and for each level below the hash slots of the blocks touching the
range of the level above. -/
def touched (info : DisaDiffRWInfo) (offset size : Nat) : Nat → Nat × Nat
  | 0 => (offset, size)
  | d + 1 =>
    (32 * firstBlock info (4 - d) (touched info offset size d).1,
     32 * blockCount info (4 - d) (touched info offset size d).1 (touched info offset size d).2)

/-- In the file `w` the hash slot of every block of level `k` touching the
range `[a, a + s)` holds the hash of the block. -/
def SlotsOK (sha : Sha) (info : DisaDiffRWInfo) (w : World) (k a s : Nat) : Prop :=
  ∀ j, firstBlock info k a ≤ j → j < firstBlock info k a + blockCount info k a s →
    ∀ t, t < 32 →
      w.data (lvlPos info (k - 1) (32 * j + t)) = shaBuf sha (blockBytes info w k j) t

/-- What one level `k` of the fixer, run on the range `[a, a + s)` of the level
in the file `w`, leaves behind with its result `ret` and file `w1`: the size,
handle and presence of the file are kept; only the hash slots of the touched
blocks may differ; with `ret = 0` the touched blocks have their hashes in
place, and if they had them already no byte differs. -/
def Stage (sha : Sha) (info : DisaDiffRWInfo) (k a s : Nat) (w : World) (ret : Nat)
    (w1 : World) : Prop :=
  w1.fsize = w.fsize ∧ w1.ddfp = w.ddfp ∧ w1.present = w.present ∧
  ChangedWithin info (k - 1) (32 * firstBlock info k a) (32 * blockCount info k a s) w w1 ∧
  (ret = 0 → SlotsOK sha info w1 k a s) ∧
  (ret = 0 → SlotsOK sha info w k a s → ∀ y, w1.data y = w.data y)

/-- The result of the loop over the levels 4, 3, 2, 1, 0 in terms of the
result of each level: the first level that fails ends the loop. -/
def chainResult (ret4 : Nat) (w3 : World) (ret3 : Nat) (w2 : World) (ret2 : Nat) (w1 : World)
    (ret1 : Nat) (w0 : World) (r0 : Nat × World) : Bool × World :=
  if ret4 ≠ 0 then (false, w3) else if ret3 ≠ 0 then (false, w2)
  else if ret2 ≠ 0 then (false, w1) else if ret1 ≠ 0 then (false, w0)
  else if r0.1 ≠ 0 then (false, r0.2) else (true, r0.2)
/-- A DISA file of `0x1000` bytes that `GetDisaDiffRWInfo` accepts although its
partition A starts at file offset 0: DPFS level 3 (two copies of `0x100`
bytes in 32-byte blocks) starts at `0x100`, over the header, and the internal
IVFC level 4 (64 bytes at level-3 offset `0x60`) covers the file bytes
`0x160 .. 0x1A0`, among them the partition hash at `0x16C`; `size_table` is
`0x100000`, more than the file holds. -/
def overlapWorld : World :=
  mkWorld 0x1000 (mkDisaHeader 1 0 0x200 0x100000 0 0 0 0x1000 0 0 0) 0x200
    (mkDifi 0 0 0 [0, 0x20, 5, 0x20, 0x20, 5, 0x40, 0x20, 5, 0x60, 0x40, 6]
      [0, 4, 0, 8, 4, 2, 0x100, 0x100, 5])

/-- The descriptor `chainInfo` with a descriptor table of `0x10000` bytes, more
than the file `chainWorld` holds. -/
def bigTableInfo : DisaDiffRWInfo := { chainInfo with size_table := 0x10000 }

/-- One pass through the body of the loop of `ReadDisaDiffDpfsLvl3` /
`WriteDisaDiffDpfsLvl3` as recorded: the start cursor (`read_start` /
`write_start`) the pass ends with, and the transfer the pass issued, if any,
as the `bit_state` and the level-3 offsets it ran between. -/
abbrev WalkStep := Nat × Option Run

/-- The loop of `ReadDisaDiffDpfsLvl3` (lines 352-371) as `readLoop` models it,
with a ghost record added: one entry for every pass through the loop body, in
order.  Nothing else differs from `readLoop`. -/
def readLoopLog (info : DisaDiffRWInfo) (offset_start offset_end : Nat) (fuel : Nat)
    (size read_start read_end bit_state : Nat) (buffer : Buf) (w : World) :
    Option ((Nat × Buf × World) × List WalkStep) :=
  match fuel with
  | 0 => none
  | fuel + 1 =>
    if size ≠ 0 ∧ read_start < offset_end then
      let idx_lvl2 := shr read_end info.log_dpfs_lvl3
      let hit := decide (GET_DPFS_BIT idx_lvl2 info.dpfs_lvl2_cache = bit_state)
      let ext := shl32 (u32 (idx_lvl2 + 1)) info.log_dpfs_lvl3
      if hit ∧ ext < offset_end then
        (readLoopLog info offset_start offset_end fuel size read_start ext bit_state buffer w).map
          (fun r => (r.1, (read_start, none) :: r.2))
      else
        let read_end := if hit then offset_end else read_end
        if read_start < read_end then
          let pos_f := dpfsPos info bit_state read_start
          let pos_b := sub32 read_start offset_start
          let btr := sub32 read_end read_start
          let r := DisaDiffRead w btr pos_f
          (readLoopLog info offset_start offset_end fuel (if r.1 then size else 0) read_end read_end
            (flipBit bit_state)
            (if r.1 then storeAt buffer pos_b btr (fun j => w.data (pos_f + j)) else buffer)
            r.2).map
            (fun r => (r.1, (read_end, some (bit_state, read_start, read_end)) :: r.2))
        else
          (readLoopLog info offset_start offset_end fuel size read_start read_end
            (flipBit bit_state) buffer w).map
            (fun r => (r.1, (read_start, none) :: r.2))
    else some ((size, buffer, w), [])

/-- The loop of `WriteDisaDiffDpfsLvl3` (lines 389-408) as `writeLoop` models
it, with the same ghost record as `readLoopLog`. -/
def writeLoopLog (info : DisaDiffRWInfo) (buffer : Buf) (offset_start offset_end : Nat)
    (fuel : Nat) (size write_start write_end bit_state : Nat) (w : World) :
    Option ((Nat × World) × List WalkStep) :=
  match fuel with
  | 0 => none
  | fuel + 1 =>
    if size ≠ 0 ∧ write_start < offset_end then
      let idx_lvl2 := shr write_end info.log_dpfs_lvl3
      let hit := decide (GET_DPFS_BIT idx_lvl2 info.dpfs_lvl2_cache = bit_state)
      let ext := shl32 (u32 (idx_lvl2 + 1)) info.log_dpfs_lvl3
      if hit ∧ ext < offset_end then
        (writeLoopLog info buffer offset_start offset_end fuel size write_start ext bit_state w).map
          (fun r => (r.1, (write_start, none) :: r.2))
      else
        let write_end := if hit then offset_end else write_end
        if write_start < write_end then
          let pos_f := dpfsPos info bit_state write_start
          let pos_b := sub32 write_start offset_start
          let btw := sub32 write_end write_start
          let r := DisaDiffWrite w (fun j => buffer (pos_b + j)) btw pos_f
          (writeLoopLog info buffer offset_start offset_end fuel (if r.1 then size else 0)
            write_end write_end (flipBit bit_state) r.2).map
            (fun r => (r.1, (write_end, some (bit_state, write_start, write_end)) :: r.2))
        else
          (writeLoopLog info buffer offset_start offset_end fuel size write_start write_end
            (flipBit bit_state) w).map
            (fun r => (r.1, (write_start, none) :: r.2))
    else some ((size, w), [])

/-- Number of level-3 blocks of `2 ^ log` bytes that hold a byte of the range
`[offset, offset + size)`. -/
def blocksTouched (log offset size : Nat) : Nat :=
  if size = 0 then 0 else cdiv (offset + size) (2 ^ log) - offset / 2 ^ log

/-- The transfers recorded in the passes of a walk, in order. -/
def transfers (steps : List WalkStep) : List Run := steps.filterMap (fun s => s.2)

/-- The bounds on the passes of a walk over `[offset, offset + size)`
with level-3 blocks of `2 ^ log` bytes: at most two passes per block touched;
the start cursor never decreases from `offset` on; every transfer is a
non-empty part of the range; and the transfers follow each other without
overlap, so that no byte is transferred twice. -/
def WalkBounded (log offset size : Nat) (steps : List WalkStep) : Prop :=
  steps.length ≤ 2 * blocksTouched log offset size ∧
  List.Chain (fun c d => c ≤ d) offset (steps.map (fun s => s.1)) ∧
  (∀ x, x ∈ transfers steps → offset ≤ x.2.1 ∧ x.2.1 < x.2.2 ∧ x.2.2 ≤ offset + size) ∧
  List.Pairwise (fun x y => x.2.2 ≤ y.2.1) (transfers steps)

theorem rd8_lt (b : Buf) (off : Nat) : rd8 b off < 256 := Nat.mod_lt _ (by decide)

theorem rd32_lt (b : Buf) (off : Nat) : rd32 b off < 2 ^ 32 := by
  have h0 := rd8_lt b off
  have h1 := rd8_lt b (off + 1)
  have h2 := rd8_lt b (off + 2)
  have h3 := rd8_lt b (off + 3)
  unfold rd32
  omega

theorem rd64_lt (b : Buf) (off : Nat) : rd64 b off < 2 ^ 64 := by
  have h0 := rd32_lt b off
  have h1 := rd32_lt b (off + 4)
  unfold rd64
  omega

theorem structSize_DifiHeader : structSize DifiHeader.sizes = 0x44 := by decide

theorem structSize_IvfcDescriptor : structSize IvfcDescriptor.sizes = 0x78 := by decide

theorem structSize_DpfsDescriptor : structSize DpfsDescriptor.sizes = 0x50 := by decide

theorem structSize_DifiStruct : structSize DifiStruct.sizes = 0x130 := by decide

theorem structSize_DisaHeader : structSize DisaHeader.sizes = 0x100 := by decide

theorem structSize_DiffHeader : structSize DiffHeader.sizes = 0x100 := by decide

theorem DisaDiffSize_le (path : Bool) (w : World) : DisaDiffSize path w ≤ w.fsize := by
  unfold DisaDiffSize u32
  split
  · exact Nat.mod_le _ _
  · exact Nat.zero_le _

theorem DisaDiffSize_lt (path : Bool) (w : World) : DisaDiffSize path w < 2 ^ 32 := by
  unfold DisaDiffSize u32
  split
  · exact Nat.mod_lt _ (by decide)
  · decide

/-- A header cannot carry both magics: they differ in their third byte. -/
theorem diff_magic_not_disa (p : Buf) (h : memcmp8 p 0 DIFF_MAGIC = true) :
    memcmp8 p 0 DISA_MAGIC = false := by
  have h2 : rd8 p 2 = 0x46 := by
    simp [memcmp8, List.range, List.range.loop, DIFF_MAGIC] at h
    exact h.2.2.1
  cases hd : memcmp8 p 0 DISA_MAGIC with
  | false => rfl
  | true =>
    simp [memcmp8, List.range, List.range.loop, DISA_MAGIC] at hd
    omega

/-! ## GetDisaDiffRWInfo -/

theorem GetDisaDiffRWInfo_facts {path : Bool} {w : World} {partitionB : Bool}
    {info : DisaDiffRWInfo} (h : GetDisaDiffRWInfo path w partitionB = some info) :
    ∃ o, ParseFacts path w partitionB o info := by
  unfold GetDisaDiffRWInfo at h
  simp only at h
  split at h
  · exact absurd h (by simp)
  rename_i h1
  split at h
  · exact absurd h (by simp)
  rename_i o ho
  split at h
  · exact absurd h (by simp)
  rename_i h2
  split at h
  · exact absurd h (by simp)
  rename_i h3
  split at h
  · exact absurd h (by simp)
  rename_i h4
  split at h
  · exact absurd h (by simp)
  rename_i h5
  split at h
  · exact absurd h (by simp)
  rename_i h6
  split at h
  · exact absurd h (by simp)
  rename_i h7
  split at h
  · exact absurd h (by simp)
  rename_i h8
  refine ⟨o, ?_⟩
  simp only [not_or, not_lt, Bool.not_eq_false] at h1 h2 h3
  exact ⟨ho, h1, h2.1, h2.2.1, h2.2.2, h3, h5, h6, h7, h8, (Option.some.inj h).symm⟩

theorem GetDisaDiffRWInfo_outer_none {path : Bool} {w : World} {partitionB : Bool}
    (h : outerHeader (headerOf w) partitionB = none) :
    GetDisaDiffRWInfo path w partitionB = none := by
  unfold GetDisaDiffRWInfo
  simp only [h]
  split <;> rfl

/-- The outer dispatch on a DISA header. -/
theorem outerHeader_disa {header : Buf} {partitionB : Bool} {o : OuterInfo}
    (hm : memcmp8 header 0 DISA_MAGIC = true) (h : outerHeader header partitionB = some o) :
    o.offset_partition_hash = 0x16C ∧
    o.offset_table = (if DisaHeader.active_table header = 0
      then DisaHeader.offset_table0 header else DisaHeader.offset_table1 header) % 2 ^ 32 ∧
    o.offset_difi = (o.offset_table + (if partitionB = true
      then DisaHeader.offset_descB header else DisaHeader.offset_descA header)) % 2 ^ 32 := by
  unfold outerHeader at h
  rw [if_pos hm] at h
  simp only at h
  cases partitionB with
  | false =>
    simp only [Bool.false_eq_true, not_false_eq_true, if_true, Option.some.injEq] at h
    subst h
    simp only [u32, if_false]
    refine ⟨trivial, ?_, ?_⟩
    · split <;> simp_all
    · simp
  | true =>
    simp only [not_true_eq_false, if_false] at h
    split at h
    · exact absurd h (by simp)
    · simp only [Option.some.injEq] at h
      subst h
      simp only [u32, if_true]
      refine ⟨trivial, ?_, ?_⟩
      · split <;> simp_all
      · simp

/-- The outer dispatch on a DIFF header. -/
theorem outerHeader_diff {header : Buf} {partitionB : Bool} {o : OuterInfo}
    (hm : memcmp8 header 0 DIFF_MAGIC = true) (h : outerHeader header partitionB = some o) :
    o.offset_partition_hash = 0x134 ∧ o.offset_difi = o.offset_table := by
  unfold outerHeader at h
  rw [diff_magic_not_disa header hm, hm] at h
  simp only [Bool.false_eq_true, if_false, if_true] at h
  split at h
  · exact absurd h (by simp)
  · simp only [Option.some.injEq] at h
    subst h
    exact ⟨rfl, rfl⟩


/-! ## Claims on the descriptor parser -/

/-- C3 (amended): on every file on which `GetDisaDiffRWInfo` succeeds, a DISA
header gives `offset_partition_hash = 0x16C`, `offset_table` equal to
`offset_table0` (when `active_table = 0`, else `offset_table1`) modulo `2^32`
and `offset_difi` equal to `offset_table` plus the requested partition's
descriptor offset modulo `2^32`; a DIFF header gives
`offset_partition_hash = 0x134` and `offset_difi = offset_table`. -/
theorem parse_outer_offsets (path : Bool) (w : World) (partitionB : Bool) (info : DisaDiffRWInfo)
    (h : GetDisaDiffRWInfo path w partitionB = some info) :
    (memcmp8 (headerOf w) 0 DISA_MAGIC = true →
      info.offset_partition_hash = 0x16C ∧
      info.offset_table = (if DisaHeader.active_table (headerOf w) = 0
        then DisaHeader.offset_table0 (headerOf w)
        else DisaHeader.offset_table1 (headerOf w)) % 2 ^ 32 ∧
      info.offset_difi = (info.offset_table + (if partitionB = true
        then DisaHeader.offset_descB (headerOf w)
        else DisaHeader.offset_descA (headerOf w))) % 2 ^ 32) ∧
    (memcmp8 (headerOf w) 0 DIFF_MAGIC = true →
      info.offset_partition_hash = 0x134 ∧ info.offset_difi = info.offset_table) := by
  obtain ⟨o, f⟩ := GetDisaDiffRWInfo_facts h
  have e1 : info.offset_partition_hash = o.offset_partition_hash := by rw [f.filled]; rfl
  have e2 : info.offset_table = o.offset_table := by rw [f.filled]; rfl
  have e3 : info.offset_difi = o.offset_difi := by rw [f.filled]; rfl
  rw [e1, e2, e3]
  exact ⟨fun hm => outerHeader_disa hm f.outer, fun hm => outerHeader_diff hm f.outer⟩

/-- C3, the scenario: the DISA file with `active_table = 0`,
`offset_table0 = 0x200`, `offset_descA = 0` and a consistent DIFI at `0x200`
parses with `offset_partition_hash = 0x16C` and `offset_difi = 0x200`. -/
theorem parse_outer_offsets_scenario :
    ∃ info, GetDisaDiffRWInfo true scenarioWorld false = some info ∧
      info.offset_partition_hash = 0x16C ∧ info.offset_difi = 0x200 := by
  obtain ⟨info, h⟩ := Option.isSome_iff_exists.mp
    (show (GetDisaDiffRWInfo true scenarioWorld false).isSome = true by decide)
  have hc := (parse_outer_offsets true scenarioWorld false info h).1 (by decide)
  have e0 : DisaHeader.active_table (headerOf scenarioWorld) = 0 := by decide
  have e1 : DisaHeader.offset_table0 (headerOf scenarioWorld) = 0x200 := by decide
  have e2 : DisaHeader.offset_descA (headerOf scenarioWorld) = 0 := by decide
  rw [e0, e1, e2] at hc
  obtain ⟨h1, h2, h3⟩ := hc
  simp only [if_true] at h2
  rw [h2] at h3
  exact ⟨info, h, h1, by simpa using h3⟩

/-- C3 fails as stated: with `offset_descA = 2^32` the parse succeeds on a
DISA file and `offset_difi` is not `offset_table + offset_descA`. -/
theorem parse_offset_difi_truncated :
    ∃ info, GetDisaDiffRWInfo true truncWorld false = some info ∧
      memcmp8 (headerOf truncWorld) 0 DISA_MAGIC = true ∧
      info.offset_difi ≠ info.offset_table + DisaHeader.offset_descA (headerOf truncWorld) := by
  have hv : (GetDisaDiffRWInfo true truncWorld false).map
      (fun i => (i.offset_table, i.offset_difi)) = some (0x200, 0x200) := by decide
  have e2 : DisaHeader.offset_descA (headerOf truncWorld) = 2 ^ 32 := by decide
  cases hg : GetDisaDiffRWInfo true truncWorld false with
  | none => rw [hg] at hv; simp at hv
  | some info =>
    rw [hg] at hv
    simp only [Option.map_some', Option.some.injEq, Prod.mk.injEq] at hv
    refine ⟨info, rfl, by decide, ?_⟩
    rw [e2, hv.1, hv.2]
    decide

/-- C4: with partition B requested, `GetDisaDiffRWInfo` fails on every DIFF
container and on every DISA container whose `n_partitions` is not 2. -/
theorem parse_partitionB_rejected (path : Bool) (w : World)
    (h : memcmp8 (headerOf w) 0 DIFF_MAGIC = true ∨
      (memcmp8 (headerOf w) 0 DISA_MAGIC = true ∧ DisaHeader.n_partitions (headerOf w) ≠ 2)) :
    GetDisaDiffRWInfo path w true = none := by
  apply GetDisaDiffRWInfo_outer_none
  unfold outerHeader
  rcases h with hm | ⟨hm, hn⟩
  · rw [diff_magic_not_disa _ hm, hm]
    simp
  · rw [if_pos hm]
    simp [hn]

/-- C4, the scenario: the file with `n_partitions = 1` fails when partition B
is requested. -/
theorem parse_partitionB_rejected_scenario :
    (memcmp8 (headerOf scenarioWorld) 0 DISA_MAGIC = true ∧
      DisaHeader.n_partitions (headerOf scenarioWorld) ≠ 2) ∧
    GetDisaDiffRWInfo true scenarioWorld true = none :=
  ⟨⟨by decide, by decide⟩,
    parse_partitionB_rejected true scenarioWorld (Or.inr ⟨by decide, by decide⟩)⟩

/-- The constants a DIFI header must carry. -/
theorem difiHeaderBad_iff (difi : Buf) :
    ¬ difiHeaderBad difi ↔
      (DifiHeader.offset_ivfc difi = 0x44 ∧ DifiHeader.size_ivfc difi = 0x78 ∧
       DifiHeader.offset_dpfs difi = 0xBC ∧ DifiHeader.size_dpfs difi = 0x50 ∧
       DifiHeader.offset_hash difi = 0x10C ∧ 0x20 ≤ DifiHeader.size_hash difi) := by
  unfold difiHeaderBad
  rw [structSize_DifiHeader, structSize_IvfcDescriptor, structSize_DpfsDescriptor]
  simp only [u64, not_or, not_not, not_lt]
  constructor
  · rintro ⟨h1, h2, h3, h4, h5, h6⟩
    rw [h1, h2] at h3
    rw [h3, h4] at h5
    exact ⟨h1, h2, h3, h4, h5, h6⟩
  · rintro ⟨h1, h2, h3, h4, h5, h6⟩
    rw [h1, h2, h3, h4, h5]
    exact ⟨rfl, rfl, by decide, rfl, by decide, h6⟩

/-- On success the descriptor's `offset_master_hash` is `0x10C`. -/
theorem parse_master_hash_offset {path : Bool} {w : World} {partitionB : Bool}
    {info : DisaDiffRWInfo} (h : GetDisaDiffRWInfo path w partitionB = some info) :
    info.offset_master_hash = 0x10C := by
  obtain ⟨o, f⟩ := GetDisaDiffRWInfo_facts h
  have hd := (difiHeaderBad_iff _).mp f.difiOk
  have e4 : info.offset_master_hash
      = u32 (DifiHeader.offset_hash (DifiStruct.difi (difisOf w o.offset_difi))) := by
    rw [f.filled]; rfl
  rw [e4, hd.2.2.2.2.1]
  decide

/-- C5: whenever `GetDisaDiffRWInfo` succeeds, the DIFI header at `offset_difi`
has `offset_ivfc = 0x44`, `size_ivfc = 0x78`, `offset_dpfs = 0xBC`,
`size_dpfs = 0x50`, `offset_hash = 0x10C`, `size_hash >= 0x20`, these being the
sizes of the packed structs, and `offset_master_hash = 0x10C`; a file whose
DIFI header (at the offset the outer header designates) violates one of them
is rejected. -/
theorem parse_difi_constants (path : Bool) (w : World) (partitionB : Bool) :
    (∀ info, GetDisaDiffRWInfo path w partitionB = some info →
      DifiHeader.offset_ivfc (DifiStruct.difi (difisOf w info.offset_difi)) = 0x44 ∧
      DifiHeader.size_ivfc (DifiStruct.difi (difisOf w info.offset_difi)) = 0x78 ∧
      DifiHeader.offset_dpfs (DifiStruct.difi (difisOf w info.offset_difi)) = 0xBC ∧
      DifiHeader.size_dpfs (DifiStruct.difi (difisOf w info.offset_difi)) = 0x50 ∧
      DifiHeader.offset_hash (DifiStruct.difi (difisOf w info.offset_difi)) = 0x10C ∧
      0x20 ≤ DifiHeader.size_hash (DifiStruct.difi (difisOf w info.offset_difi)) ∧
      info.offset_master_hash = 0x10C) ∧
    (structSize DifiHeader.sizes = 0x44 ∧ structSize IvfcDescriptor.sizes = 0x78 ∧
      structSize DifiHeader.sizes + structSize IvfcDescriptor.sizes = 0xBC ∧
      structSize DpfsDescriptor.sizes = 0x50 ∧
      structSize DifiHeader.sizes + structSize IvfcDescriptor.sizes
        + structSize DpfsDescriptor.sizes = 0x10C) ∧
    (∀ o, outerHeader (headerOf w) partitionB = some o →
      ¬ (DifiHeader.offset_ivfc (DifiStruct.difi (difisOf w o.offset_difi)) = 0x44 ∧
         DifiHeader.size_ivfc (DifiStruct.difi (difisOf w o.offset_difi)) = 0x78 ∧
         DifiHeader.offset_dpfs (DifiStruct.difi (difisOf w o.offset_difi)) = 0xBC ∧
         DifiHeader.size_dpfs (DifiStruct.difi (difisOf w o.offset_difi)) = 0x50 ∧
         DifiHeader.offset_hash (DifiStruct.difi (difisOf w o.offset_difi)) = 0x10C ∧
         0x20 ≤ DifiHeader.size_hash (DifiStruct.difi (difisOf w o.offset_difi))) →
      GetDisaDiffRWInfo path w partitionB = none) := by
  refine ⟨?_, ⟨by decide, by decide, by decide, by decide, by decide⟩, ?_⟩
  · intro info h
    obtain ⟨o, f⟩ := GetDisaDiffRWInfo_facts h
    have e3 : info.offset_difi = o.offset_difi := by rw [f.filled]; rfl
    have hd := (difiHeaderBad_iff _).mp f.difiOk
    rw [e3]
    obtain ⟨h1, h2, h3, h4, h5, h6⟩ := hd
    refine ⟨h1, h2, h3, h4, h5, h6, ?_⟩
    have e4 : info.offset_master_hash
        = u32 (DifiHeader.offset_hash (DifiStruct.difi (difisOf w o.offset_difi))) := by
      rw [f.filled]; rfl
    rw [e4, h5]
    decide
  · intro o ho hbad
    cases hg : GetDisaDiffRWInfo path w partitionB with
    | none => rfl
    | some info =>
      obtain ⟨o', f⟩ := GetDisaDiffRWInfo_facts hg
      have : o' = o := Option.some.inj (f.outer.symm.trans ho)
      subst this
      exact absurd ((difiHeaderBad_iff _).mp f.difiOk) hbad

/-- C5 on the scenario container: it parses, and its DIFI header carries the
constants. -/
theorem parse_difi_constants_scenario :
    ∃ info, GetDisaDiffRWInfo true scenarioWorld false = some info ∧
      DifiHeader.offset_hash (DifiStruct.difi (difisOf scenarioWorld info.offset_difi)) = 0x10C ∧
      info.offset_master_hash = 0x10C := by
  obtain ⟨info, h⟩ := Option.isSome_iff_exists.mp
    (show (GetDisaDiffRWInfo true scenarioWorld false).isSome = true by decide)
  have hc := (parse_difi_constants true scenarioWorld false).1 info h
  exact ⟨info, h, hc.2.2.2.2.1, hc.2.2.2.2.2.2⟩


/-- The descriptor fields as `GetDisaDiffRWInfo` fills them from the DPFS
descriptor. -/
theorem filledInfo_dpfs (o : OuterInfo) (difis : Buf) :
    (filledInfo o difis).offset_dpfs_lvl1
      = (o.offset_partition + DpfsDescriptor.offset_lvl1 (DifiStruct.dpfs difis)) % 2 ^ 32 ∧
    (filledInfo o difis).offset_dpfs_lvl2
      = (o.offset_partition + DpfsDescriptor.offset_lvl2 (DifiStruct.dpfs difis)) % 2 ^ 32 ∧
    (filledInfo o difis).offset_dpfs_lvl3
      = (o.offset_partition + DpfsDescriptor.offset_lvl3 (DifiStruct.dpfs difis)) % 2 ^ 32 ∧
    (filledInfo o difis).size_dpfs_lvl1 = DpfsDescriptor.size_lvl1 (DifiStruct.dpfs difis) % 2 ^ 32 ∧
    (filledInfo o difis).size_dpfs_lvl2 = DpfsDescriptor.size_lvl2 (DifiStruct.dpfs difis) % 2 ^ 32 ∧
    (filledInfo o difis).size_dpfs_lvl3 = DpfsDescriptor.size_lvl3 (DifiStruct.dpfs difis) % 2 ^ 32 ∧
    (filledInfo o difis).log_dpfs_lvl2 = DpfsDescriptor.log_lvl2 (DifiStruct.dpfs difis) ∧
    (filledInfo o difis).log_dpfs_lvl3 = DpfsDescriptor.log_lvl3 (DifiStruct.dpfs difis) := by
  have l2 := rd32_lt (DifiStruct.dpfs difis) (fieldOff DpfsDescriptor.sizes 7)
  have l3 := rd32_lt (DifiStruct.dpfs difis) (fieldOff DpfsDescriptor.sizes 11)
  refine ⟨?_, ?_, ?_, rfl, rfl, rfl, ?_, ?_⟩
  · show u32 (u64 _) = _
    unfold u32 u64; omega
  · show u32 (u64 _) = _
    unfold u32 u64; omega
  · show u32 (u64 _) = _
    unfold u32 u64; omega
  · show u32 _ = _
    unfold u32 DpfsDescriptor.log_lvl2; omega
  · show u32 _ = _
    unfold u32 DpfsDescriptor.log_lvl3; omega

/-- The descriptor fields as `GetDisaDiffRWInfo` fills them from the IVFC
descriptor and the level-4 mode. -/
theorem filledInfo_ivfc (o : OuterInfo) (difis : Buf) :
    (filledInfo o difis).ivfc_use_extlvl4 = DifiHeader.ivfc_use_extlvl4 (DifiStruct.difi difis) ∧
    (filledInfo o difis).offset_ivfc_lvl3
      = IvfcDescriptor.offset_lvl3 (DifiStruct.ivfc difis) % 2 ^ 32 ∧
    (filledInfo o difis).size_ivfc_lvl3
      = IvfcDescriptor.size_lvl3 (DifiStruct.ivfc difis) % 2 ^ 32 ∧
    (filledInfo o difis).size_ivfc_lvl4
      = IvfcDescriptor.size_lvl4 (DifiStruct.ivfc difis) % 2 ^ 32 ∧
    (filledInfo o difis).offset_ivfc_lvl4
      = (if DifiHeader.ivfc_use_extlvl4 (DifiStruct.difi difis) = 0
          then IvfcDescriptor.offset_lvl4 (DifiStruct.ivfc difis) % 2 ^ 32
          else (o.offset_partition
            + DifiHeader.ivfc_offset_extlvl4 (DifiStruct.difi difis)) % 2 ^ 32) := by
  refine ⟨rfl, rfl, rfl, rfl, ?_⟩
  show (if _ then u32 _ else extLvl4Offset _ _) = _
  unfold extLvl4Offset u32 u64
  split
  · rfl
  · exact Nat.mod_mod_of_dvd _ ⟨2 ^ 32, by norm_num⟩

/-- C8 (amended): on every file on which `GetDisaDiffRWInfo` succeeds, the DIFI
block and its master-hash slot lie within the file; when the three DPFS sums
`offset_lvlN + size_lvlN` of the file stay below `2^64` and
`offset_partition + size_partition` below `2^32`, copy 0 of each DPFS level
lies within the file; and when `ivfc_use_extlvl4` is set and
`offset_ivfc_lvl4 + size_lvl4` (the 64-bit field) is below `2^64`, level 4 lies
within the file. -/
theorem parse_regions_in_file (path : Bool) (w : World) (partitionB : Bool)
    (info : DisaDiffRWInfo) (o : OuterInfo)
    (h : GetDisaDiffRWInfo path w partitionB = some info)
    (ho : outerHeader (headerOf w) partitionB = some o) :
    (info.offset_difi + structSize DifiStruct.sizes ≤ w.fsize ∧
      info.offset_difi + info.offset_master_hash + 0x20 ≤ w.fsize) ∧
    (DpfsDescriptor.offset_lvl1 (DifiStruct.dpfs (difisOf w info.offset_difi))
        + DpfsDescriptor.size_lvl1 (DifiStruct.dpfs (difisOf w info.offset_difi)) < 2 ^ 64 →
     DpfsDescriptor.offset_lvl2 (DifiStruct.dpfs (difisOf w info.offset_difi))
        + DpfsDescriptor.size_lvl2 (DifiStruct.dpfs (difisOf w info.offset_difi)) < 2 ^ 64 →
     DpfsDescriptor.offset_lvl3 (DifiStruct.dpfs (difisOf w info.offset_difi))
        + DpfsDescriptor.size_lvl3 (DifiStruct.dpfs (difisOf w info.offset_difi)) < 2 ^ 64 →
     o.offset_partition + o.size_partition < 2 ^ 32 →
      info.offset_dpfs_lvl1 + info.size_dpfs_lvl1 ≤ w.fsize ∧
      info.offset_dpfs_lvl2 + info.size_dpfs_lvl2 ≤ w.fsize ∧
      info.offset_dpfs_lvl3 + info.size_dpfs_lvl3 ≤ w.fsize) ∧
    (info.ivfc_use_extlvl4 ≠ 0 →
      info.offset_ivfc_lvl4
        + IvfcDescriptor.size_lvl4 (DifiStruct.ivfc (difisOf w info.offset_difi)) < 2 ^ 64 →
      info.offset_ivfc_lvl4 + info.size_ivfc_lvl4 ≤ w.fsize) := by
  have hm := parse_master_hash_offset h
  obtain ⟨o', f⟩ := GetDisaDiffRWInfo_facts h
  have : o' = o := Option.some.inj (f.outer.symm.trans ho)
  subst this
  have e3 : info.offset_difi = o'.offset_difi := by rw [f.filled]; rfl
  have hsz := DisaDiffSize_le path w
  have hpf := f.partFits
  have hr := f.difiRead
  simp only [DisaDiffQRead, Bool.and_eq_true, decide_eq_true_eq] at hr
  refine ⟨⟨by rw [e3]; exact hr.2, ?_⟩, ?_, ?_⟩
  · rw [hm, e3]
    have := hr.2
    rw [structSize_DifiStruct] at this
    omega
  · rw [e3]
    have hd := f.dpfsOk
    unfold dpfsBad at hd
    simp only [not_or, not_lt, u64, gt_iff_lt] at hd
    obtain ⟨c1, c2, c3, c4, c5, c6, c7, c8⟩ := hd
    obtain ⟨a1, a2, a3, a4, a5, a6, a7, a8⟩ := filledInfo_dpfs o' (difisOf w o'.offset_difi)
    rw [← f.filled] at a1 a2 a3 a4 a5 a6 a7 a8
    rw [a1, a2, a3, a4, a5, a6]
    intro n1 n2 n3 n4
    rw [Nat.mod_eq_of_lt n1] at c1
    rw [Nat.mod_eq_of_lt n2] at c2
    rw [Nat.mod_eq_of_lt n3] at c3
    unfold u32 at hpf
    rw [Nat.mod_eq_of_lt n4] at hpf
    refine ⟨?_, ?_, ?_⟩ <;> omega
  · intro hz n3
    obtain ⟨b1, b2, b3, b4, b5⟩ := filledInfo_ivfc o' (difisOf w o'.offset_difi)
    rw [← f.filled] at b1 b4
    have hl := f.lvl4Ok
    unfold lvl4Bad at hl
    rw [b1] at hz
    rw [if_neg hz] at hl
    have hx : extLvl4Offset (DifiStruct.difi (difisOf w o'.offset_difi)) o'.offset_partition
        = info.offset_ivfc_lvl4 := by
      rw [f.filled]
      show _ = (if _ then u32 _ else extLvl4Offset _ _)
      rw [if_neg hz]
    rw [hx] at hl
    simp only [not_lt, u64, gt_iff_lt] at hl
    rw [e3] at n3
    rw [Nat.mod_eq_of_lt n3] at hl
    rw [b4]
    have := Nat.mod_le (IvfcDescriptor.size_lvl4 (DifiStruct.ivfc (difisOf w o'.offset_difi)))
      (2 ^ 32)
    omega

/-- C8 (amended) on the container with an external level 4: every region of
the amended claim lies within its `0x41000` bytes. -/
theorem parse_regions_in_file_scenario :
    ∃ info, GetDisaDiffRWInfo true extWorld false = some info ∧
      info.offset_difi + 0x130 ≤ extWorld.fsize ∧
      info.offset_dpfs_lvl1 + info.size_dpfs_lvl1 ≤ extWorld.fsize ∧
      info.offset_dpfs_lvl2 + info.size_dpfs_lvl2 ≤ extWorld.fsize ∧
      info.offset_dpfs_lvl3 + info.size_dpfs_lvl3 ≤ extWorld.fsize ∧
      info.offset_ivfc_lvl4 + info.size_ivfc_lvl4 ≤ extWorld.fsize := by
  obtain ⟨info, h⟩ := Option.isSome_iff_exists.mp
    (show (GetDisaDiffRWInfo true extWorld false).isSome = true by decide)
  obtain ⟨o, ho⟩ := Option.isSome_iff_exists.mp
    (show (outerHeader (headerOf extWorld) false).isSome = true by decide)
  have hc := parse_regions_in_file true extWorld false info o h ho
  have hv : (GetDisaDiffRWInfo true extWorld false).map
      (fun i => (i.offset_difi, i.ivfc_use_extlvl4, i.offset_ivfc_lvl4))
      = some (0x200, 1, 0x31000) := by decide
  rw [h] at hv
  simp only [Option.map_some', Option.some.injEq, Prod.mk.injEq] at hv
  have eo : (outerHeader (headerOf extWorld) false).map
      (fun o => (o.offset_partition, o.size_partition)) = some (0x1000, 0x40000) := by decide
  rw [ho] at eo
  simp only [Option.map_some', Option.some.injEq, Prod.mk.injEq] at eo
  have hne : info.ivfc_use_extlvl4 ≠ 0 := by rw [hv.2.1]; decide
  rw [hv.1, eo.1, eo.2] at hc
  obtain ⟨c1, c2, c3⟩ := hc
  have d := c2 (by decide) (by decide) (by decide) (by decide)
  have e := c3 hne (by rw [hv.2.2]; decide)
  rw [structSize_DifiStruct] at c1
  exact ⟨info, h, by rw [hv.1]; exact c1.1, d.1, d.2.1, d.2.2, e⟩

/-- C8 fails as stated: with `size_table = 0x100000` in the header the parse
succeeds although the table region ends beyond the `0x41000` bytes of the file. -/
theorem parse_table_outside_file :
    ∃ info, GetDisaDiffRWInfo true hugeTableWorld false = some info ∧
      ¬ (info.offset_table + info.size_table ≤ hugeTableWorld.fsize) := by
  have hv : (GetDisaDiffRWInfo true hugeTableWorld false).map
      (fun i => (i.offset_table, i.size_table)) = some (0x200, 0x100000) := by decide
  cases hg : GetDisaDiffRWInfo true hugeTableWorld false with
  | none => rw [hg] at hv; simp at hv
  | some info =>
    rw [hg] at hv
    simp only [Option.map_some', Option.some.injEq, Prod.mk.injEq] at hv
    refine ⟨info, rfl, ?_⟩
    rw [hv.1, hv.2]
    decide


/-! ## BuildDisaDiffDpfsLvl2Cache -/

theorem u32_eq {n : Nat} (h : n < 2 ^ 32) : u32 n = n := Nat.mod_eq_of_lt h

theorem shl32_eq {x s : Nat} (h : x * 2 ^ s < 2 ^ 32) : shl32 x s = x * 2 ^ s :=
  Nat.mod_eq_of_lt h

theorem storeAt_apply (buf : Buf) (pos len : Nat) (src : Buf) (j : Nat) :
    storeAt buf pos len src j = if pos ≤ j ∧ j < pos + len then src (j - pos) else buf j := rfl

/-- Membership of a byte index in block `n` of size `K`. -/
theorem block_index_iff (p n K : Nat) (hK : 0 < K) :
    p / K = n ↔ (n * K ≤ p ∧ p < n * K + K) := by
  constructor
  · intro e
    subst e
    have h1 := Nat.div_add_mod p K
    have h2 := Nat.mod_lt p hK
    have h3 : p / K * K = K * (p / K) := Nat.mul_comm _ _
    constructor <;> omega
  · intro ⟨h1, h2⟩
    apply Nat.div_eq_of_lt_le h1
    rw [Nat.succ_mul]; exact h2

/-- The bit the inner loop tests at step `b` of the word at byte index `i` is
bit `8 * i + b` of level 1. -/
theorem cherry_bit_index (lvl1 : Buf) (i b : Nat) (hi : i % 4 = 0) (hb : b < 32) :
    GET_DPFS_BIT (8 * i + b) lvl1 = shr (rd32 lvl1 i) (31 - b) % 2 := by
  unfold GET_DPFS_BIT
  have h1 : 4 * shr (8 * i + b) 5 = i := by
    unfold shr
    have : (2 : Nat) ^ 5 = 32 := by norm_num
    rw [this]
    omega
  have h2 : (8 * i + b) % 32 = b := by omega
  rw [h1, h2]

theorem DisaDiffRead_data (w : World) (btr ofs : Nat) : (DisaDiffRead w btr ofs).2.data = w.data := by
  unfold DisaDiffRead
  split <;> rfl

/-- The shifts of the inner loop do not wrap while the blocks of the word stay
below `2^32`. -/
theorem cherry_offsets (log i b : Nat) (hb : b < 32) (hw : (8 * i + 32) * 2 ^ log ≤ 2 ^ 32) :
    shl32 (u32 (shl32 i 3 + b)) log = (8 * i + b) * 2 ^ log ∧ shl32 1 log = 2 ^ log := by
  have hK : 0 < 2 ^ log := by positivity
  unfold shl32 u32
  generalize 2 ^ log = K at *
  have h32 : 32 * K ≤ (8 * i + 32) * K := Nat.mul_le_mul_right K (by omega)
  have hn : (8 * i + b + 1) * K ≤ (8 * i + 32) * K := Nat.mul_le_mul_right K (by omega)
  have e : (8 * i + b + 1) * K = (8 * i + b) * K + K := by ring
  have hle : 8 * i + b ≤ (8 * i + b) * K := Nat.le_mul_of_pos_right _ hK
  have hi8 : i * 2 ^ 3 % 2 ^ 32 = 8 * i := by
    have h8 : i * 2 ^ 3 = 8 * i := by ring
    rw [h8]
    exact Nat.mod_eq_of_lt (by omega)
  rw [hi8, Nat.mod_eq_of_lt (show 8 * i + b < 2 ^ 32 by omega), Nat.one_mul]
  exact ⟨Nat.mod_eq_of_lt (by omega), Nat.mod_eq_of_lt (by omega)⟩

/-- One step of the inner loop keeps the file content, keeps a failure, and in
the absence of failure honours bit `8 * i + b`. -/
theorem cherryBit_step (info : DisaDiffRWInfo) (data : Nat → Nat) (lvl1 cache0 : Buf)
    (i b : Nat) (st : CherryState) (hi : i % 4 = 0) (hb : b < 32)
    (hw : (8 * i + 32) * 2 ^ info.log_dpfs_lvl2 ≤ 2 ^ 32)
    (hd : st.2.2.data = data)
    (hinv : st.1 = 0 → st.2.1 = pickedCache info data lvl1 cache0 (8 * i + b)) :
    (cherryBit info i (rd32 lvl1 i) st b).2.2.data = data ∧
    ((cherryBit info i (rd32 lvl1 i) st b).1 = 0 →
      st.1 = 0 ∧
      (cherryBit info i (rd32 lvl1 i) st b).2.1
        = pickedCache info data lvl1 cache0 (8 * i + b + 1)) := by
  have hK : 0 < 2 ^ info.log_dpfs_lvl2 := by positivity
  have hbit := cherry_bit_index lvl1 i b hi hb
  obtain ⟨hoff, hone⟩ := cherry_offsets info.log_dpfs_lvl2 i b hb hw
  unfold cherryBit
  rw [← hbit]
  split
  · rename_i hset
    simp only [hoff, hone]
    split
    · rename_i hok
      refine ⟨by simp only [DisaDiffRead_data]; exact hd, fun h0 => ⟨h0, ?_⟩⟩
      simp only at h0
      funext p
      simp only []
      rw [storeAt_apply, hinv h0, hd]
      unfold pickedCache
      by_cases hp : (8 * i + b) * 2 ^ info.log_dpfs_lvl2 ≤ p ∧
          p < (8 * i + b) * 2 ^ info.log_dpfs_lvl2 + 2 ^ info.log_dpfs_lvl2
      · have hdiv := (block_index_iff p (8 * i + b) _ hK).mpr hp
        rw [if_pos hp, hdiv, if_pos ⟨by omega, hset⟩]
      · rw [if_neg hp]
        have hdiv : p / 2 ^ info.log_dpfs_lvl2 ≠ 8 * i + b :=
          fun e => hp ((block_index_iff p (8 * i + b) _ hK).mp e)
        have e : (p / 2 ^ info.log_dpfs_lvl2 < 8 * i + b + 1)
            ↔ (p / 2 ^ info.log_dpfs_lvl2 < 8 * i + b) := by omega
        simp only [e]
    · exact ⟨by simp only [DisaDiffRead_data]; exact hd, fun h0 => absurd h0 (by simp)⟩
  · rename_i hclear
    refine ⟨hd, fun h0 => ⟨h0, ?_⟩⟩
    rw [hinv h0]
    funext p
    unfold pickedCache
    by_cases hp : p / 2 ^ info.log_dpfs_lvl2 = 8 * i + b
    · rw [hp, if_neg (fun h => hclear h.2), if_neg (fun h => hclear h.2)]
    · have e : (p / 2 ^ info.log_dpfs_lvl2 < 8 * i + b + 1)
          ↔ (p / 2 ^ info.log_dpfs_lvl2 < 8 * i + b) := by omega
      simp only [e]

/-- The inner loop over the first `m` bits of the word at byte index `i`. -/
theorem cherryBits_fold (info : DisaDiffRWInfo) (data : Nat → Nat) (lvl1 cache0 : Buf)
    (i : Nat) (st : CherryState) (hi : i % 4 = 0)
    (hw : (8 * i + 32) * 2 ^ info.log_dpfs_lvl2 ≤ 2 ^ 32)
    (hd : st.2.2.data = data)
    (hinv : st.1 = 0 → st.2.1 = pickedCache info data lvl1 cache0 (8 * i)) (m : Nat)
    (hm : m ≤ 32) :
    ((List.range m).foldl (cherryBit info i (rd32 lvl1 i)) st).2.2.data = data ∧
    (((List.range m).foldl (cherryBit info i (rd32 lvl1 i)) st).1 = 0 →
      st.1 = 0 ∧
      ((List.range m).foldl (cherryBit info i (rd32 lvl1 i)) st).2.1
        = pickedCache info data lvl1 cache0 (8 * i + m)) := by
  induction m with
  | zero => exact ⟨hd, fun h0 => ⟨h0, hinv h0⟩⟩
  | succ m ih =>
    obtain ⟨ih1, ih2⟩ := ih (by omega)
    rw [List.range_succ, List.foldl_append]
    simp only [List.foldl_cons, List.foldl_nil]
    obtain ⟨s1, s2⟩ := cherryBit_step info data lvl1 cache0 i m
      ((List.range m).foldl (cherryBit info i (rd32 lvl1 i)) st) hi (by omega) hw ih1
      (fun h0 => (ih2 h0).2)
    refine ⟨s1, fun h0 => ?_⟩
    obtain ⟨t1, t2⟩ := s2 h0
    exact ⟨(ih2 t1).1, t2⟩


theorem pow_log_le_27 {log : Nat} (h : 32 * 2 ^ log ≤ 2 ^ 32) : log ≤ 27 := by
  by_contra hc
  have h28 : 2 ^ 28 ≤ 2 ^ log := Nat.pow_le_pow_right (by decide) (by omega)
  have : (2 : Nat) ^ 32 = 16 * 2 ^ 28 := by norm_num
  omega

/-- The outer loop: the file content is kept, and a run ending without failure
ends at the first word index `i'` whose blocks start at or after
`min_cache_size`, every level-1 bit below `8 * i'` being honoured. -/
theorem cherryLoop_spec (info : DisaDiffRWInfo) (data : Nat → Nat) (lvl1 cache0 : Buf)
    (hlog : min_cache_size info + 32 * 2 ^ info.log_dpfs_lvl2 ≤ 2 ^ 32) (fuel : Nat) :
    ∀ (i : Nat) (st st' : CherryState), i % 4 = 0 →
      8 * (i * 2 ^ info.log_dpfs_lvl2) < min_cache_size info + 32 * 2 ^ info.log_dpfs_lvl2 →
      st.2.2.data = data →
      (st.1 = 0 → st.2.1 = pickedCache info data lvl1 cache0 (8 * i)) →
      cherryLoop info lvl1 fuel i st = some st' →
      st'.2.2.data = data ∧
      (st'.1 = 0 → ∃ i', i' % 4 = 0 ∧ i ≤ i' ∧
        min_cache_size info ≤ 8 * (i' * 2 ^ info.log_dpfs_lvl2) ∧
        (i' = i ∨ 8 * ((i' - 4) * 2 ^ info.log_dpfs_lvl2) < min_cache_size info) ∧
        st'.2.1 = pickedCache info data lvl1 cache0 (8 * i') ∧ st.1 = 0) := by
  have hl27 : info.log_dpfs_lvl2 ≤ 27 := pow_log_le_27 (by omega)
  have hK : 0 < 2 ^ info.log_dpfs_lvl2 := by positivity
  have hsh : ∀ i, 8 * (i * 2 ^ info.log_dpfs_lvl2) < 2 ^ 32 →
      shl32 i (u32 (3 + info.log_dpfs_lvl2)) = 8 * (i * 2 ^ info.log_dpfs_lvl2) := by
    intro i hi
    rw [u32_eq (by omega)]
    have e : i * 2 ^ (3 + info.log_dpfs_lvl2) = 8 * (i * 2 ^ info.log_dpfs_lvl2) := by
      rw [Nat.pow_add]; ring
    unfold shl32
    rw [e]
    exact Nat.mod_eq_of_lt hi
  induction fuel with
  | zero =>
    intro i st st' _ _ _ _ h
    exact absurd h (by simp [cherryLoop])
  | succ fuel ih =>
    intro i st st' hi hiw hd hinv h
    unfold cherryLoop at h
    rw [hsh i (by omega)] at h
    split at h
    · rename_i hc
      have hw : (8 * i + 32) * 2 ^ info.log_dpfs_lvl2 ≤ 2 ^ 32 := by
        have e : (8 * i + 32) * 2 ^ info.log_dpfs_lvl2
            = 8 * (i * 2 ^ info.log_dpfs_lvl2) + 32 * 2 ^ info.log_dpfs_lvl2 := by ring
        omega
      obtain ⟨f1, f2⟩ := cherryBits_fold info data lvl1 cache0 i st hi hw hd hinv 32 (le_refl _)
      have hle : 8 * i + 32 ≤ (8 * i + 32) * 2 ^ info.log_dpfs_lvl2 :=
        Nat.le_mul_of_pos_right _ hK
      have e4 : (i + 4) * 2 ^ info.log_dpfs_lvl2
          = i * 2 ^ info.log_dpfs_lvl2 + 4 * 2 ^ info.log_dpfs_lvl2 := by ring
      simp only at h
      rw [u32_eq (by omega)] at h
      obtain ⟨r1, r2⟩ := ih (i + 4) _ st' (by omega) (by rw [e4]; omega) f1
        (fun h0 => by
          have := (f2 h0).2
          rw [this]
          congr 1) h
      refine ⟨r1, fun h0 => ?_⟩
      obtain ⟨i', p1, p2, p3, p4, p5, p6⟩ := r2 h0
      refine ⟨i', p1, by omega, p3, Or.inr ?_, p5, (f2 p6).1⟩
      rcases p4 with p4 | p4
      · subst p4
        simp only [Nat.add_sub_cancel]
        exact hc.2
      · exact p4
    · rename_i hc
      simp only [Option.some.injEq] at h
      subst h
      refine ⟨hd, fun h0 => ⟨i, hi, le_refl _, ?_, Or.inl rfl, hinv h0, h0⟩⟩
      simp only [not_and, not_lt] at hc
      exact hc h0


theorem DisaDiffOpen_data (path : Bool) (w : World) : (DisaDiffOpen path w).2.data = w.data := by
  unfold DisaDiffOpen
  split
  · split <;> rfl
  · rfl

/-- The scratch copy of the active level 1 made by `BuildDisaDiffDpfsLvl2Cache`. -/
theorem Build_success (path : Bool) (w : World) (info : DisaDiffRWInfo) (cache : Buf)
    (cache_size : Nat) (w' : World) (info' : DisaDiffRWInfo) (cache' : Buf)
    (hlog : min_cache_size info + 32 * 2 ^ info.log_dpfs_lvl2 ≤ 2 ^ 32)
    (h : BuildDisaDiffDpfsLvl2Cache path w info cache cache_size = some (0, w', info', cache')) :
    min_cache_size info ≤ cache_size ∧ min_cache_size info ≤ info.size_dpfs_lvl2 ∧
    min_cache_size info ≤ shl32 info.size_dpfs_lvl1 (u32 (3 + info.log_dpfs_lvl2)) ∧
    info' = { info with dpfs_lvl2_cache := cache' } ∧ w'.data = w.data ∧ w'.ddfp = false ∧
    ∃ i', i' % 4 = 0 ∧ min_cache_size info ≤ 8 * (i' * 2 ^ info.log_dpfs_lvl2) ∧
      (i' = 0 ∨ 8 * ((i' - 4) * 2 ^ info.log_dpfs_lvl2) < min_cache_size info) ∧
      cache' = pickedCache info w.data
        (fun j => if j < info.size_dpfs_lvl1 then w.data (activeLvl1Offset info + j) else 0)
        (storeAt cache 0 info.size_dpfs_lvl2 (fun j => w.data (info.offset_dpfs_lvl2 + j)))
        (8 * i') := by
  have hK : 0 < 2 ^ info.log_dpfs_lvl2 := by positivity
  unfold BuildDisaDiffDpfsLvl2Cache at h
  simp only at h
  split at h
  · exact absurd h (by simp)
  rename_i hrej
  simp only [not_or, not_lt, gt_iff_lt] at hrej
  split at h
  · exact absurd h (by simp)
  rename_i hopen
  split at h
  · exact absurd h (by simp)
  rename_i st hloop
  simp only [Option.some.injEq, Prod.mk.injEq] at h
  obtain ⟨h1, h2, h3, h4⟩ := h
  have hod := DisaDiffOpen_data path w
  rw [hod] at hloop
  by_cases hr1 : (DisaDiffRead (DisaDiffOpen path w).2 info.size_dpfs_lvl1
      (activeLvl1Offset info)).1 = true
  · by_cases hr2 : (DisaDiffRead (DisaDiffRead (DisaDiffOpen path w).2 info.size_dpfs_lvl1
        (activeLvl1Offset info)).2 info.size_dpfs_lvl2 info.offset_dpfs_lvl2).1 = true
    · simp only [hr1, hr2, if_true, true_and] at hloop
      obtain ⟨s1, s2⟩ := cherryLoop_spec info w.data
        (fun j => if j < info.size_dpfs_lvl1 then w.data (activeLvl1Offset info + j) else 0)
        (storeAt cache 0 info.size_dpfs_lvl2 (fun j => w.data (info.offset_dpfs_lvl2 + j)))
        hlog loopFuel 0 _ st (by decide)
        (by omega) (by simp only [DisaDiffRead_data]; exact hod)
        (fun _ => by
          funext p
          unfold pickedCache
          simp)
        hloop
      obtain ⟨i', p1, _, p3, p4, p5, _⟩ := s2 h1
      refine ⟨hrej.1, hrej.2.1, hrej.2.2, ?_, ?_, ?_, i', p1, p3, ?_, ?_⟩
      · rw [← h3, h4]
      · rw [← h2]; exact s1
      · rw [← h2]; rfl
      · rcases p4 with p4 | p4
        · exact Or.inl p4
        · exact Or.inr p4
      · rw [← h4, p5]
    · simp only [hr1, hr2, if_true, if_false, true_and, Bool.false_eq_true] at hloop
      obtain ⟨s1, s2⟩ := cherryLoop_spec info w.data _ (fun _ => 0) hlog loopFuel 0 _ st
        (by decide) (by omega) (by simp only [DisaDiffRead_data]; exact hod)
        (fun h0 => absurd h0 (by simp)) hloop
      obtain ⟨i', _, _, _, _, _, p6⟩ := s2 h1
      exact absurd p6 (by simp)
  · simp only [hr1, if_false, false_and, Bool.false_eq_true] at hloop
    obtain ⟨s1, s2⟩ := cherryLoop_spec info w.data _ (fun _ => 0) hlog loopFuel 0 _ st
      (by decide) (by omega) (by simp only [DisaDiffRead_data]; exact hod)
      (fun h0 => absurd h0 (by simp)) hloop
    obtain ⟨i', _, _, _, _, _, p6⟩ := s2 h1
    exact absurd p6 (by simp)


theorem rd32_congr (a b : Buf) (off off' : Nat)
    (h : ∀ j, j < 4 → a (off + j) = b (off' + j)) : rd32 a off = rd32 b off' := by
  unfold rd32 rd8
  have h0 := h 0 (by decide)
  have h1 := h 1 (by decide)
  have h2 := h 2 (by decide)
  have h3 := h 3 (by decide)
  simp only [Nat.add_zero] at h0
  rw [h0, h1, h2, h3]

theorem shl32_le (x s : Nat) : shl32 x s ≤ x * 2 ^ s := Nat.mod_le _ _

/-- Bytes of the cache a successful build has settled: those of the level-2
blocks governed by the level-1 words it visited. -/
theorem Build_cache_byte (path : Bool) (w : World) (info : DisaDiffRWInfo) (cache : Buf)
    (cache_size : Nat) (w' : World) (info' : DisaDiffRWInfo) (cache' : Buf)
    (g : DpfsGeometry info)
    (h : BuildDisaDiffDpfsLvl2Cache path w info cache cache_size = some (0, w', info', cache')) :
    info'.dpfs_lvl2_cache = cache' ∧
    min_cache_size info ≤ info.size_dpfs_lvl2 ∧
    min_cache_size info ≤ 8 * (info.size_dpfs_lvl1 * 2 ^ info.log_dpfs_lvl2) ∧
    ∃ i', i' % 4 = 0 ∧ min_cache_size info ≤ 8 * (i' * 2 ^ info.log_dpfs_lvl2) ∧
      (i' = 0 ∨ 8 * ((i' - 4) * 2 ^ info.log_dpfs_lvl2) < min_cache_size info) ∧
      ∀ q, q / 2 ^ info.log_dpfs_lvl2 < 8 * i' → q < info.size_dpfs_lvl2 →
        q / 2 ^ info.log_dpfs_lvl2 < 8 * info.size_dpfs_lvl1 →
        cache' q = if GET_DPFS_BIT (q / 2 ^ info.log_dpfs_lvl2) (lvl1Active info w) = 1
          then lvl2Copy1 info w q else lvl2Copy0 info w q := by
  obtain ⟨_, b2, b3, b4, _, _, i', c1, c2, c3, c4⟩ :=
    Build_success path w info cache cache_size w' info' cache' g.blocks_u32 h
  have hl27 : info.log_dpfs_lvl2 ≤ 27 := pow_log_le_27 (by have := g.blocks_u32; omega)
  have hK : 0 < 2 ^ info.log_dpfs_lvl2 := by positivity
  have hM : min_cache_size info ≤ 8 * (info.size_dpfs_lvl1 * 2 ^ info.log_dpfs_lvl2) := by
    have := shl32_le info.size_dpfs_lvl1 (u32 (3 + info.log_dpfs_lvl2))
    rw [u32_eq (show 3 + info.log_dpfs_lvl2 < 2 ^ 32 by omega)] at this b3
    rw [Nat.pow_add] at this
    have e : info.size_dpfs_lvl1 * (2 ^ 3 * 2 ^ info.log_dpfs_lvl2)
        = 8 * (info.size_dpfs_lvl1 * 2 ^ info.log_dpfs_lvl2) := by ring
    omega
  refine ⟨by rw [b4], b2, hM, i', c1, c2, c3, ?_⟩
  intro q hq1 hq2 hq3
  have g1 := g.lvl1_u32
  have g2 := g.lvl2_u32
  have g3 := g.lvl1_words
  rw [c4]
  unfold pickedCache
  have hnk := Nat.div_mul_le_self q (2 ^ info.log_dpfs_lvl2)
  generalize q / 2 ^ info.log_dpfs_lvl2 = n at *
  have hact : activeLvl1Offset info = info.offset_dpfs_lvl1
      + (if info.dpfs_lvl1_selector ≠ 0 then info.size_dpfs_lvl1 else 0) := by
    unfold activeLvl1Offset
    apply u32_eq
    split <;> omega
  have hbit : GET_DPFS_BIT n
      (fun j => if j < info.size_dpfs_lvl1 then w.data (activeLvl1Offset info + j) else 0)
      = GET_DPFS_BIT n (lvl1Active info w) := by
    unfold GET_DPFS_BIT
    congr 2
    apply rd32_congr
    intro j hj
    have : 4 * shr n 5 + j < info.size_dpfs_lvl1 := by
      unfold shr
      have : (2 : Nat) ^ 5 = 32 := by norm_num
      rw [this]
      omega
    simp only [this, if_true, lvl1Active, hact]
  rw [hbit]
  have hc1 : offsetLvl2Copy1 info = info.offset_dpfs_lvl2 + info.size_dpfs_lvl2 := by
    unfold offsetLvl2Copy1
    exact u32_eq (by omega)
  split
  · rename_i hs
    rw [if_pos hs.2, hc1, u32_eq (by omega)]
    unfold lvl2Copy1
    congr 1
    omega
  · rename_i hs
    have : ¬ GET_DPFS_BIT n (lvl1Active info w) = 1 :=
      fun hb => hs ⟨hq1, hb⟩
    rw [if_neg this, storeAt_apply, if_pos ⟨Nat.zero_le _, by omega⟩]
    rfl


/-- The four bytes of the 32-bit word holding bit `i` lie in the level-2 block
of index `i >> (3 + log)`. -/
theorem block_of_word_byte (i j log : Nat) (hlog : 2 ≤ log) (hj : j < 4) :
    (4 * (i / 32) + j) / 2 ^ log = i / 2 ^ (3 + log) := by
  obtain ⟨m, rfl⟩ : ∃ m, log = 2 + m := ⟨log - 2, by omega⟩
  have e1 : (2 : Nat) ^ (2 + m) = 4 * 2 ^ m := by rw [Nat.pow_add]
  have e2 : (2 : Nat) ^ (3 + (2 + m)) = 32 * 2 ^ m := by
    rw [Nat.pow_add, Nat.pow_add]; ring
  rw [e1, e2, ← Nat.div_div_eq_div_mul, ← Nat.div_div_eq_div_mul]
  congr 1
  omega

theorem min_cache_size_mod4 (info : DisaDiffRWInfo) : min_cache_size info % 4 = 0 := by
  unfold min_cache_size shl32
  have : (2 : Nat) ^ 2 = 4 := by norm_num
  rw [this]
  omega

theorem GET_DPFS_BIT_congr (a b : Buf) (i : Nat)
    (h : ∀ j, j < 4 → a (4 * (i / 32) + j) = b (4 * (i / 32) + j)) :
    GET_DPFS_BIT i a = GET_DPFS_BIT i b := by
  unfold GET_DPFS_BIT
  have e : shr i 5 = i / 32 := by
    unfold shr
    norm_num
  rw [e, rd32_congr a b _ _ h]

theorem GET_DPFS_BIT_lt (i : Nat) (a : Buf) : GET_DPFS_BIT i a < 2 :=
  Nat.mod_lt _ (by decide)

/-- C9: on a container of regular geometry, after `BuildDisaDiffDpfsLvl2Cache`
returns 0 the descriptor holds the cache, and for every bit index `i` below
`8 * min_cache_size` bit `i` of the cache (MSB first within little-endian
32-bit words) is bit `i` of level-2 copy 0 when bit `i >> (3 + log_dpfs_lvl2)`
of the active level-1 copy is clear, and bit `i` of level-2 copy 1 when that
bit is set. -/
theorem build_cache_effective_bitmap (path : Bool) (w : World) (info : DisaDiffRWInfo)
    (cache : Buf) (cache_size : Nat) (w' : World) (info' : DisaDiffRWInfo) (cache' : Buf)
    (g : DpfsGeometry info)
    (h : BuildDisaDiffDpfsLvl2Cache path w info cache cache_size = some (0, w', info', cache')) :
    info'.dpfs_lvl2_cache = cache' ∧
    ∀ i, i < 8 * min_cache_size info →
      (GET_DPFS_BIT (shr i (3 + info.log_dpfs_lvl2)) (lvl1Active info w) = 0 →
        GET_DPFS_BIT i cache' = GET_DPFS_BIT i (lvl2Copy0 info w)) ∧
      (GET_DPFS_BIT (shr i (3 + info.log_dpfs_lvl2)) (lvl1Active info w) = 1 →
        GET_DPFS_BIT i cache' = GET_DPFS_BIT i (lvl2Copy1 info w)) := by
  obtain ⟨a1, a2, a3, i', b1, b2, _, b4⟩ :=
    Build_cache_byte path w info cache cache_size w' info' cache' g h
  refine ⟨a1, fun i hi => ?_⟩
  have hK : 0 < 2 ^ info.log_dpfs_lvl2 := by positivity
  have hm4 := min_cache_size_mod4 info
  have hbyte : ∀ j, j < 4 →
      cache' (4 * (i / 32) + j)
        = if GET_DPFS_BIT (shr i (3 + info.log_dpfs_lvl2)) (lvl1Active info w) = 1
          then lvl2Copy1 info w (4 * (i / 32) + j) else lvl2Copy0 info w (4 * (i / 32) + j) := by
    intro j hj
    have hq : 4 * (i / 32) + j < min_cache_size info := by omega
    have hblk := block_of_word_byte i j info.log_dpfs_lvl2 g.log2_ge hj
    have hlim : ∀ t, min_cache_size info ≤ 8 * (t * 2 ^ info.log_dpfs_lvl2) →
        (4 * (i / 32) + j) / 2 ^ info.log_dpfs_lvl2 < 8 * t := by
      intro t ht
      apply Nat.div_lt_of_lt_mul
      have e : 2 ^ info.log_dpfs_lvl2 * (8 * t) = 8 * (t * 2 ^ info.log_dpfs_lvl2) := by ring
      omega
    have := b4 (4 * (i / 32) + j) (hlim i' b2) (by omega) (hlim _ a3)
    rw [hblk] at this
    exact this
  constructor
  · intro h0
    apply GET_DPFS_BIT_congr
    intro j hj
    rw [hbyte j hj, if_neg (by omega)]
  · intro h1
    apply GET_DPFS_BIT_congr
    intro j hj
    rw [hbyte j hj, if_pos h1]


/-- C9 on the cache scenario with the level-1 word `0xAA000000`: the build
returns 0 and the 32 bits of the minimum cache are those of level-2 copy 1
(their block, block 0, has its level-1 bit set). -/
theorem build_cache_effective_bitmap_scenario :
    ∃ w' info' cache',
      BuildDisaDiffDpfsLvl2Cache true (cacheWorld 0x1003) cacheInfo (fun _ => 0) 0x100
        = some (0, w', info', cache') ∧
      ∀ i, i < 32 → GET_DPFS_BIT i cache' = GET_DPFS_BIT i (lvl2Copy1 cacheInfo (cacheWorld 0x1003)) := by
  have hv : (BuildDisaDiffDpfsLvl2Cache true (cacheWorld 0x1003) cacheInfo (fun _ => 0) 0x100).map
      (fun r => r.1) = some 0 := by decide
  cases hb : BuildDisaDiffDpfsLvl2Cache true (cacheWorld 0x1003) cacheInfo (fun _ => 0) 0x100 with
  | none => rw [hb] at hv; simp at hv
  | some r =>
    obtain ⟨ret, w', info', cache'⟩ := r
    rw [hb] at hv
    simp only [Option.map_some', Option.some.injEq] at hv
    subst hv
    refine ⟨w', info', cache', rfl, fun i hi => ?_⟩
    have g : DpfsGeometry cacheInfo := ⟨by decide, by decide, by decide, by decide, by decide⟩
    have hc := (build_cache_effective_bitmap true (cacheWorld 0x1003) cacheInfo (fun _ => 0) 0x100
      w' info' cache' g hb).2 i (by
        have : min_cache_size cacheInfo = 4 := by decide
        omega)
    apply hc.2
    have e : shr i (3 + cacheInfo.log_dpfs_lvl2) = 0 := by
      unfold shr
      apply Nat.div_eq_of_lt
      have : (2 : Nat) ^ (3 + cacheInfo.log_dpfs_lvl2) = 64 := by decide
      omega
    rw [e]
    decide


/-- The level-1 bits of the first byte-sized group when the first
little-endian word is `0xAA000000`. -/
theorem aa_word_bits (lvl1 : Buf) (h3 : lvl1 3 % 256 = 0xAA)
    (h0 : ∀ j, j < 3 → lvl1 j % 256 = 0) (k : Nat) (hk : k < 8) :
    GET_DPFS_BIT k lvl1 = if k % 2 = 0 then 1 else 0 := by
  have e : rd32 lvl1 0 = 0xAA000000 := by
    unfold rd32 rd8
    have a0 := h0 0 (by decide)
    have a1 := h0 1 (by decide)
    have a2 := h0 2 (by decide)
    simp only [Nat.zero_add] at *
    rw [a0, a1, a2, h3]
    norm_num
  unfold GET_DPFS_BIT
  have e5 : shr k 5 = 0 := by
    unfold shr
    exact Nat.div_eq_of_lt (by norm_num; omega)
  rw [e5, Nat.mul_zero, e]
  unfold shr
  interval_cases k <;> decide

/-- C10 (amended): with `log_dpfs_lvl2 = 3`, `log_dpfs_lvl3 = 9`,
`size_dpfs_lvl3 = 0x2000`, a level 2 of at least 64 bytes and an active level 1
whose fourth byte in file order (the most significant byte of its first
little-endian word) is `0xAA` and whose other bytes are zero, a successful
`BuildDisaDiffDpfsLvl2Cache` returns a cache whose 8-byte blocks 0, 2, 4, 6
equal the corresponding blocks of level-2 copy 1 and whose blocks 1, 3, 5, 7
equal the corresponding blocks of level-2 copy 0. -/
theorem build_cache_aa_scenario (path : Bool) (w : World) (info : DisaDiffRWInfo)
    (cache : Buf) (cache_size : Nat) (w' : World) (info' : DisaDiffRWInfo) (cache' : Buf)
    (g : DpfsGeometry info)
    (hl2 : info.log_dpfs_lvl2 = 3) (hl3 : info.log_dpfs_lvl3 = 9)
    (hs3 : info.size_dpfs_lvl3 = 0x2000) (hs2 : 64 ≤ info.size_dpfs_lvl2)
    (haa : lvl1Active info w 3 % 256 = 0xAA)
    (hzero : ∀ j, j < info.size_dpfs_lvl1 → j ≠ 3 → lvl1Active info w j % 256 = 0)
    (h : BuildDisaDiffDpfsLvl2Cache path w info cache cache_size = some (0, w', info', cache')) :
    ∀ k, k < 8 → ∀ j, j < 8 →
      cache' (8 * k + j) = if k % 2 = 0 then lvl2Copy1 info w (8 * k + j)
        else lvl2Copy0 info w (8 * k + j) := by
  obtain ⟨_, a2, a3, i', b1, b2, b3, b4⟩ :=
    Build_cache_byte path w info cache cache_size w' info' cache' g h
  have hM : min_cache_size info = 4 := by
    unfold min_cache_size min_cache_bits
    rw [hs3, hl3]
    decide
  rw [hM, hl2] at a3 b2 b3
  rw [hl2] at b4
  have g3 := g.lvl1_words
  have e8 : (2 : Nat) ^ 3 = 8 := by norm_num
  rw [e8] at a3 b2 b3 b4
  intro k hk j hj
  have hq : (8 * k + j) / 8 = k := by omega
  have := b4 (8 * k + j) (by omega) (by omega) (by omega)
  rw [hq] at this
  rw [this, aa_word_bits (lvl1Active info w) haa
    (fun j hj => hzero j (by omega) (by omega)) k hk]
  split <;> simp

/-- C10 (amended) on the cache scenario with `0xAA` as fourth byte of level 1:
the build returns 0, blocks 0, 2, 4, 6 of the cache hold the bytes `0x22` of
copy 1 and blocks 1, 3, 5, 7 the bytes `0x11` of copy 0. -/
theorem build_cache_aa_scenario_run :
    ∃ w' info' cache',
      BuildDisaDiffDpfsLvl2Cache true (cacheWorld 0x1003) cacheInfo (fun _ => 0) 0x100
        = some (0, w', info', cache') ∧
      ∀ k, k < 8 → ∀ j, j < 8 → cache' (8 * k + j) = if k % 2 = 0 then 0x22 else 0x11 := by
  have hv : (BuildDisaDiffDpfsLvl2Cache true (cacheWorld 0x1003) cacheInfo (fun _ => 0) 0x100).map
      (fun r => r.1) = some 0 := by decide
  cases hb : BuildDisaDiffDpfsLvl2Cache true (cacheWorld 0x1003) cacheInfo (fun _ => 0) 0x100 with
  | none => rw [hb] at hv; simp at hv
  | some r =>
    obtain ⟨ret, w', info', cache'⟩ := r
    rw [hb] at hv
    simp only [Option.map_some', Option.some.injEq] at hv
    subst hv
    refine ⟨w', info', cache', rfl, fun k hk j hj => ?_⟩
    have g : DpfsGeometry cacheInfo := ⟨by decide, by decide, by decide, by decide, by decide⟩
    rw [build_cache_aa_scenario true (cacheWorld 0x1003) cacheInfo (fun _ => 0) 0x100
      w' info' cache' g rfl rfl rfl (by decide) (by decide) (by decide) hb k hk j hj]
    have e1 : lvl2Copy1 cacheInfo (cacheWorld 0x1003) (8 * k + j) = 0x22 := by
      show (if _ then _ else if _ then _ else if _ then _ else _) = _
      simp only [cacheInfo]
      rw [if_neg (by omega), if_neg (by omega), if_pos (by omega)]
    have e0 : lvl2Copy0 cacheInfo (cacheWorld 0x1003) (8 * k + j) = 0x11 := by
      show (if _ then _ else if _ then _ else if _ then _ else _) = _
      simp only [cacheInfo]
      rw [if_neg (by omega), if_pos (by omega)]
    rw [e1, e0]

/-- C10 fails as stated: with `0xAA` as the first byte in file order of the
active level 1 (the other bytes zero) the build returns 0 and the first byte of
the cache is that of level-2 copy 0, not that of copy 1. -/
theorem build_cache_aa_first_byte :
    cacheInfo.log_dpfs_lvl2 = 3 ∧ cacheInfo.log_dpfs_lvl3 = 9 ∧
    cacheInfo.size_dpfs_lvl3 = 0x2000 ∧
    lvl1Active cacheInfo (cacheWorld 0x1000) 0 = 0xAA ∧
    (∀ j, j < cacheInfo.size_dpfs_lvl1 → j ≠ 0 → lvl1Active cacheInfo (cacheWorld 0x1000) j = 0) ∧
    ∃ w' info' cache',
      BuildDisaDiffDpfsLvl2Cache true (cacheWorld 0x1000) cacheInfo (fun _ => 0) 0x100
        = some (0, w', info', cache') ∧
      cache' 0 = lvl2Copy0 cacheInfo (cacheWorld 0x1000) 0 ∧
      cache' 0 ≠ lvl2Copy1 cacheInfo (cacheWorld 0x1000) 0 := by
  refine ⟨rfl, rfl, rfl, by decide, by decide, ?_⟩
  have hv : (BuildDisaDiffDpfsLvl2Cache true (cacheWorld 0x1000) cacheInfo (fun _ => 0) 0x100).map
      (fun r => (r.1, r.2.2.2 0)) = some (0, 0x11) := by decide
  cases hb : BuildDisaDiffDpfsLvl2Cache true (cacheWorld 0x1000) cacheInfo (fun _ => 0) 0x100 with
  | none => rw [hb] at hv; simp at hv
  | some r =>
    obtain ⟨ret, w', info', cache'⟩ := r
    rw [hb] at hv
    simp only [Option.map_some', Option.some.injEq, Prod.mk.injEq] at hv
    obtain ⟨hv1, hv2⟩ := hv
    subst hv1
    refine ⟨w', info', cache', rfl, ?_, ?_⟩
    · rw [hv2]; decide
    · rw [hv2]; decide


/-! ## The DPFS walk -/

theorem writeLoop_zero_size (info : DisaDiffRWInfo) (buffer : Buf) (os oe fuel a b st : Nat)
    (w : World) : writeLoop info buffer os oe (fuel + 1) 0 a b st w = some (0, w) := by
  unfold writeLoop
  simp

theorem readLoop_zero_size (info : DisaDiffRWInfo) (os oe fuel a b st : Nat) (buffer : Buf)
    (w : World) : readLoop info os oe (fuel + 1) 0 a b st buffer w = some (0, buffer, w) := by
  unfold readLoop
  simp

theorem dpfsRuns_fuel_pos {info : DisaDiffRWInfo} {oe fuel a b st : Nat} {rs : List Run}
    (h : dpfsRuns info oe fuel a b st = some rs) : ∃ f, fuel = f + 1 := by
  cases fuel with
  | zero => simp [dpfsRuns] at h
  | succ f => exact ⟨f, rfl⟩

/-- The loop of `WriteDisaDiffDpfsLvl3` issues the transfers of `dpfsRuns`
until one fails. -/
theorem writeLoop_eq_runs (info : DisaDiffRWInfo) (buffer : Buf) (os oe : Nat) (fuel : Nat) :
    ∀ (size a b st : Nat) (w : World) (rs : List Run), size ≠ 0 →
      dpfsRuns info oe fuel a b st = some rs →
      writeLoop info buffer os oe fuel size a b st w
        = some (applyRuns (writeAct info buffer os) rs size w) := by
  induction fuel with
  | zero => intro size a b st w rs _ h; simp [dpfsRuns] at h
  | succ fuel ih =>
    intro size a b st w rs hs h
    unfold dpfsRuns at h
    unfold writeLoop
    by_cases hlt : a < oe
    · rw [if_pos hlt] at h
      rw [if_pos ⟨hs, hlt⟩]
      simp only at h ⊢
      by_cases hc : decide (GET_DPFS_BIT (shr b info.log_dpfs_lvl3) info.dpfs_lvl2_cache = st)
          = true ∧ shl32 (u32 (shr b info.log_dpfs_lvl3 + 1)) info.log_dpfs_lvl3 < oe
      · rw [if_pos hc] at h ⊢
        exact ih size a _ st w rs hs h
      · rw [if_neg hc] at h ⊢
        generalize (if decide (GET_DPFS_BIT (shr b info.log_dpfs_lvl3) info.dpfs_lvl2_cache = st)
          = true then oe else b) = e1 at h ⊢
        by_cases hse : a < e1
        · rw [if_pos hse] at h ⊢
          cases hr : dpfsRuns info oe fuel e1 e1 (flipBit st) with
          | none => rw [hr] at h; simp at h
          | some rs' =>
            rw [hr] at h
            simp only [Option.map_some', Option.some.injEq] at h
            subst h
            simp only [applyRuns, writeAct]
            split
            · rename_i hok
              exact ih size _ _ _ _ rs' hs hr
            · rename_i hok
              obtain ⟨f, rfl⟩ := dpfsRuns_fuel_pos hr
              exact writeLoop_zero_size _ _ _ _ _ _ _ _ _
        · rw [if_neg hse] at h ⊢
          exact ih size a _ _ w rs hs h
    · rw [if_neg hlt] at h
      rw [if_neg (fun hc => hlt hc.2)]
      simp only [Option.some.injEq] at h
      subst h
      rfl

/-- The loop of `ReadDisaDiffDpfsLvl3` issues the transfers of `dpfsRuns`
until one fails. -/
theorem readLoop_eq_runs (info : DisaDiffRWInfo) (os oe : Nat) (fuel : Nat) :
    ∀ (size a b st : Nat) (buffer : Buf) (w : World) (rs : List Run), size ≠ 0 →
      dpfsRuns info oe fuel a b st = some rs →
      readLoop info os oe fuel size a b st buffer w
        = some ((applyRuns (readAct info os) rs size (buffer, w)).1,
                (applyRuns (readAct info os) rs size (buffer, w)).2.1,
                (applyRuns (readAct info os) rs size (buffer, w)).2.2) := by
  induction fuel with
  | zero => intro size a b st buffer w rs _ h; simp [dpfsRuns] at h
  | succ fuel ih =>
    intro size a b st buffer w rs hs h
    unfold dpfsRuns at h
    unfold readLoop
    by_cases hlt : a < oe
    · rw [if_pos hlt] at h
      rw [if_pos ⟨hs, hlt⟩]
      simp only at h ⊢
      by_cases hc : decide (GET_DPFS_BIT (shr b info.log_dpfs_lvl3) info.dpfs_lvl2_cache = st)
          = true ∧ shl32 (u32 (shr b info.log_dpfs_lvl3 + 1)) info.log_dpfs_lvl3 < oe
      · rw [if_pos hc] at h ⊢
        exact ih size a _ st buffer w rs hs h
      · rw [if_neg hc] at h ⊢
        generalize (if decide (GET_DPFS_BIT (shr b info.log_dpfs_lvl3) info.dpfs_lvl2_cache = st)
          = true then oe else b) = e1 at h ⊢
        by_cases hse : a < e1
        · rw [if_pos hse] at h ⊢
          cases hr : dpfsRuns info oe fuel e1 e1 (flipBit st) with
          | none => rw [hr] at h; simp at h
          | some rs' =>
            rw [hr] at h
            simp only [Option.map_some', Option.some.injEq] at h
            subst h
            simp only [applyRuns, readAct]
            split
            · rename_i hok
              have := ih size _ _ _ (storeAt buffer (sub32 a os) (sub32 e1 a)
                (fun j => w.data (dpfsPos info st a + j)))
                (DisaDiffRead w (sub32 e1 a) (dpfsPos info st a)).2 rs' hs hr
              simp only [hok, if_true] at this ⊢
              exact this
            · rename_i hok
              obtain ⟨f, rfl⟩ := dpfsRuns_fuel_pos hr
              simp only [hok, if_false, Bool.false_eq_true]
              exact readLoop_zero_size _ _ _ _ _ _ _ _ _
        · rw [if_neg hse] at h ⊢
          exact ih size a _ _ buffer w rs hs h
    · rw [if_neg hlt] at h
      rw [if_neg (fun hc => hlt hc.2)]
      simp only [Option.some.injEq] at h
      subst h
      rfl


theorem flipBit_of_lt {st : Nat} (h : st < 2) : flipBit st < 2 ∧ flipBit st ≠ st ∧
    ∀ b, b < 2 → b ≠ st → b = flipBit st := by
  unfold flipBit
  have : st = 0 ∨ st = 1 := by omega
  rcases this with rfl | rfl
  · refine ⟨by decide, by decide, fun b hb hne => ?_⟩
    simp only [Nat.zero_mod, if_true]
    omega
  · refine ⟨by decide, by decide, fun b hb hne => ?_⟩
    simp only [Nat.one_mod_eq_one.mpr (by decide : (2 : Nat) ≠ 1), one_ne_zero, if_false]
    omega

/-- Under the level-3 geometry the block-end computation of the walk does not
wrap. -/
theorem walk_ext_eq (info : DisaDiffRWInfo) (g : Lvl3Geometry info) (b : Nat)
    (hb : b < info.size_dpfs_lvl3) :
    shl32 (u32 (shr b info.log_dpfs_lvl3 + 1)) info.log_dpfs_lvl3
      = (b / 2 ^ info.log_dpfs_lvl3 + 1) * 2 ^ info.log_dpfs_lvl3 := by
  have hB : 2 ^ info.log_dpfs_lvl3 ≤ 2 ^ 31 := Nat.pow_le_pow_right (by decide) g.log3_le
  have hK : 0 < 2 ^ info.log_dpfs_lvl3 := by positivity
  have g2 := g.lvl3_u32
  unfold shr shl32 u32
  generalize 2 ^ info.log_dpfs_lvl3 = B at *
  have h1 := Nat.div_mul_le_self b B
  have h2 : (b / B + 1) * B = b / B * B + B := by ring
  have h3 : b / B + 1 ≤ (b / B + 1) * B := Nat.le_mul_of_pos_right _ hK
  rw [Nat.mod_eq_of_lt (show b / B + 1 < 2 ^ 32 by omega)]
  exact Nat.mod_eq_of_lt (by omega)

/-- The walk ends, and its transfers tile the range from `start` to the end
offset with runs of constant cache bit. -/
theorem dpfsRuns_chain (info : DisaDiffRWInfo) (g : Lvl3Geometry info) (E : Nat)
    (hE : E ≤ info.size_dpfs_lvl3) (fuel : Nat) :
    ∀ (a b st : Nat), a ≤ b → (a < E → b < E) → b ≤ E → st < 2 →
      (∀ x, a ≤ x → x < b →
        GET_DPFS_BIT (x / 2 ^ info.log_dpfs_lvl3) info.dpfs_lvl2_cache = st) →
      2 * (E - b)
        + (if GET_DPFS_BIT (b / 2 ^ info.log_dpfs_lvl3) info.dpfs_lvl2_cache = st then 0 else 1)
        + 2 ≤ fuel →
      ∃ rs, dpfsRuns info E fuel a b st = some rs ∧ RunChain info E a rs := by
  have hK : 0 < 2 ^ info.log_dpfs_lvl3 := by positivity
  induction fuel with
  | zero => intro a b st _ _ _ _ _ hf; omega
  | succ fuel ih =>
    intro a b st hab hbE hbE' hst hpend hf
    unfold dpfsRuns
    by_cases hlt : a < E
    · have hb := hbE hlt
      rw [if_pos hlt]
      simp only
      rw [walk_ext_eq info g b (by omega)]
      have hshr : shr b info.log_dpfs_lvl3 = b / 2 ^ info.log_dpfs_lvl3 := rfl
      rw [hshr]
      have hd1 := Nat.div_mul_le_self b (2 ^ info.log_dpfs_lvl3)
      have hd2 : b < (b / 2 ^ info.log_dpfs_lvl3 + 1) * 2 ^ info.log_dpfs_lvl3 := by
        have := Nat.div_add_mod b (2 ^ info.log_dpfs_lvl3)
        have := Nat.mod_lt b hK
        have e : (b / 2 ^ info.log_dpfs_lvl3 + 1) * 2 ^ info.log_dpfs_lvl3
            = 2 ^ info.log_dpfs_lvl3 * (b / 2 ^ info.log_dpfs_lvl3) + 2 ^ info.log_dpfs_lvl3 := by
          ring
        omega
      have hblk : ∀ x, b ≤ x → x < (b / 2 ^ info.log_dpfs_lvl3 + 1) * 2 ^ info.log_dpfs_lvl3 →
          x / 2 ^ info.log_dpfs_lvl3 = b / 2 ^ info.log_dpfs_lvl3 := by
        intro x h1 h2
        apply Nat.div_eq_of_lt_le
        · omega
        · exact h2
      by_cases hhit : GET_DPFS_BIT (b / 2 ^ info.log_dpfs_lvl3) info.dpfs_lvl2_cache = st
      · rw [if_pos hhit] at hf
        simp only [hhit, decide_True, true_and, if_true]
        by_cases hext : (b / 2 ^ info.log_dpfs_lvl3 + 1) * 2 ^ info.log_dpfs_lvl3 < E
        · rw [if_pos hext]
          apply ih a _ st (by omega) (fun _ => hext) (by omega) hst
          · intro x h1 h2
            by_cases hx : x < b
            · exact hpend x h1 hx
            · rw [hblk x (by omega) h2]; exact hhit
          · split <;> omega
        · rw [if_neg hext, if_pos hlt]
          obtain ⟨rs, h1, h2⟩ := ih E E (flipBit st) (le_refl _) (fun h => absurd h (by omega))
            (le_refl _) (flipBit_of_lt hst).1 (fun x h1 h2 => by omega) (by split <;> omega)
          refine ⟨(st, a, E) :: rs, by rw [h1]; rfl, rfl, hlt, le_refl _, hst, ?_, h2⟩
          intro x h1 h2
          have h2' : x < E := h2
          by_cases hx : x < b
          · exact hpend x h1 hx
          · rw [hblk x (by omega) (by omega)]; exact hhit
      · rw [if_neg hhit] at hf
        simp only [hhit, decide_False, false_and, if_false, Bool.false_eq_true]
        have hflip : GET_DPFS_BIT (b / 2 ^ info.log_dpfs_lvl3) info.dpfs_lvl2_cache = flipBit st :=
          (flipBit_of_lt hst).2.2 _ (GET_DPFS_BIT_lt _ _) hhit
        by_cases hse : a < b
        · rw [if_pos hse]
          obtain ⟨rs, h1, h2⟩ := ih b b (flipBit st) (le_refl _) (fun _ => hb) hbE'
            (flipBit_of_lt hst).1 (fun x h1 h2 => by omega) (by rw [if_pos hflip]; omega)
          exact ⟨(st, a, b) :: rs, by rw [h1]; rfl, rfl, hse, hbE', hst, hpend, h2⟩
        · rw [if_neg hse]
          have hab' : a = b := by omega
          subst hab'
          exact ih a a (flipBit st) (le_refl _) (fun _ => hb) hbE'
            (flipBit_of_lt hst).1 (fun x h1 h2 => by omega) (by rw [if_pos hflip]; omega)
    · rw [if_neg hlt]
      exact ⟨[], rfl, by show a = E; omega⟩


theorem sub32_eq {a b : Nat} (hba : b ≤ a) (ha : a < 2 ^ 32) : sub32 a b = a - b := by
  unfold sub32
  rw [Nat.mod_eq_of_lt (show b < 2 ^ 32 by omega)]
  have : a + 2 ^ 32 - b = (a - b) + 2 ^ 32 := by omega
  rw [this, Nat.add_mod_right]
  exact Nat.mod_eq_of_lt (by omega)

theorem dpfsPos_eq (info : DisaDiffRWInfo) (g : Lvl3Geometry info) (st a : Nat)
    (ha : a < info.size_dpfs_lvl3) :
    dpfsPos info st a
      = (if st = 0 then info.offset_dpfs_lvl3
          else info.offset_dpfs_lvl3 + info.size_dpfs_lvl3) + a := by
  have g2 := g.lvl3_u32
  unfold dpfsPos offsetLvl3Copy1
  rw [u32_eq (show info.offset_dpfs_lvl3 + info.size_dpfs_lvl3 < 2 ^ 32 by omega)]
  by_cases h0 : st = 0
  · simp only [h0, ne_eq, not_true_eq_false, if_false, if_true]
    exact u32_eq (by omega)
  · simp only [h0, ne_eq, not_false_eq_true, if_true, if_false]
    exact u32_eq (by omega)

theorem phys_of_bit (info : DisaDiffRWInfo) (x st : Nat)
    (h : GET_DPFS_BIT (x / 2 ^ info.log_dpfs_lvl3) info.dpfs_lvl2_cache = st) :
    phys info x = (if st = 0 then info.offset_dpfs_lvl3
      else info.offset_dpfs_lvl3 + info.size_dpfs_lvl3) + x := by
  unfold phys
  rw [h]

theorem phys_lt (info : DisaDiffRWInfo) (x : Nat) (hx : x < info.size_dpfs_lvl3) :
    info.offset_dpfs_lvl3 ≤ phys info x ∧
    phys info x < info.offset_dpfs_lvl3 + 2 * info.size_dpfs_lvl3 := by
  unfold phys
  split <;> constructor <;> omega

theorem phys_inj (info : DisaDiffRWInfo) (x y : Nat) (hx : x < info.size_dpfs_lvl3)
    (hy : y < info.size_dpfs_lvl3) (h : phys info x = phys info y) : x = y := by
  unfold phys at h
  split at h <;> split at h <;> omega

/-- What the transfers of `WriteDisaDiffDpfsLvl3` over a chain of runs do to
the file: they change exactly the positions the cache assigns to the range,
succeed exactly when those lie in the open file, and then store the buffer. -/
theorem applyRuns_write (info : DisaDiffRWInfo) (buffer : Buf) (os : Nat)
    (g : Lvl3Geometry info) (E : Nat) (hE : E ≤ info.size_dpfs_lvl3) (rs : List Run) :
    ∀ (a size : Nat) (w : World), os ≤ a → RunChain info E a rs →
      (applyRuns (writeAct info buffer os) rs size w).2.fsize = w.fsize ∧
      (applyRuns (writeAct info buffer os) rs size w).2.ddfp = w.ddfp ∧
      (applyRuns (writeAct info buffer os) rs size w).2.present = w.present ∧
      ((applyRuns (writeAct info buffer os) rs size w).1 = size ∨
        (applyRuns (writeAct info buffer os) rs size w).1 = 0) ∧
      (∀ y, (∀ x, a ≤ x → x < E → phys info x ≠ y) →
        (applyRuns (writeAct info buffer os) rs size w).2.data y = w.data y) ∧
      ((applyRuns (writeAct info buffer os) rs size w).1 ≠ 0 → ∀ x, a ≤ x → x < E →
        (applyRuns (writeAct info buffer os) rs size w).2.data (phys info x) = buffer (x - os)) ∧
      ((applyRuns (writeAct info buffer os) rs size w).1 ≠ 0 → a < E →
        w.ddfp = true ∧ ∀ x, a ≤ x → x < E → phys info x < w.fsize) ∧
      (w.ddfp = true → (∀ x, a ≤ x → x < E → phys info x < w.fsize) →
        (applyRuns (writeAct info buffer os) rs size w).1 = size) := by
  have g2 := g.lvl3_u32
  induction rs with
  | nil =>
    intro a size w _ hc
    have hc' : a = E := hc
    exact ⟨rfl, rfl, rfl, Or.inl rfl, fun _ _ => rfl, fun _ x h1 h2 => by omega,
      fun _ h => by omega, fun _ _ => rfl⟩
  | cons r rs ih =>
    intro a size w hos hc
    obtain ⟨st, a', e⟩ := r
    obtain ⟨c1, c2, c3, c4, c5, c6⟩ := hc
    simp only at c1 c2 c3 c4 c5 c6
    subst c1
    have hpos := dpfsPos_eq info g st a' (by omega)
    have hphys : ∀ x, a' ≤ x → x < e → phys info x
        = (if st = 0 then info.offset_dpfs_lvl3
            else info.offset_dpfs_lvl3 + info.size_dpfs_lvl3) + x :=
      fun x h1 h2 => phys_of_bit info x st (c5 x h1 h2)
    simp only [applyRuns, writeAct]
    rw [sub32_eq hos (by omega), sub32_eq (Nat.le_of_lt c2) (by omega), hpos]
    generalize hbase : (if st = 0 then info.offset_dpfs_lvl3
      else info.offset_dpfs_lvl3 + info.size_dpfs_lvl3) = base at hphys
    unfold DisaDiffWrite
    by_cases hdd : w.ddfp = true
    · rw [if_pos hdd]
      by_cases hfit : base + a' + (e - a') ≤ w.fsize
      · rw [if_pos hfit]
        simp only [if_true]
        obtain ⟨i1, i2, i3, i4, i5, i6, i7, i8⟩ := ih e size
          { w with data := storeAt w.data (base + a') (e - a') (fun j => buffer (a' - os + j)),
                   trace := w.trace ++ [IoEvent.write (base + a') (e - a')] } (by omega) c6
        simp only at i1 i2 i3 i4 i5 i6 i7 i8
        refine ⟨i1, i2, i3, i4, ?_, ?_, ?_, ?_⟩
        · intro y hy
          rw [i5 y (fun x h1 h2 => hy x (by omega) h2), storeAt_apply, if_neg]
          intro hin
          apply hy (a' + (y - (base + a'))) (by omega) (by omega)
          rw [hphys _ (by omega) (by omega)]
          omega
        · intro hn x h1 h2
          by_cases hx : x < e
          · rw [i5 (phys info x) (fun x' h1' h2' hc => by
              have := phys_inj info x' x (by omega) (by omega) hc
              omega)]
            rw [storeAt_apply, hphys x h1 hx, if_pos (by omega)]
            congr 1
            omega
          · exact i6 hn x (by omega) h2
        · intro hn _
          refine ⟨hdd, fun x h1 h2 => ?_⟩
          by_cases hx : x < e
          · rw [hphys x h1 hx]; omega
          · exact (i7 hn (by omega)).2 x (by omega) h2
        · intro _ hall
          exact i8 hdd (fun x h1 h2 => hall x (by omega) h2)
      · rw [if_neg hfit]
        simp only [Bool.false_eq_true, if_false]
        refine ⟨by trivial, by trivial, by trivial, by simp, fun _ _ => by trivial, by simp,
          by simp, fun _ hall => ?_⟩
        exfalso
        apply hfit
        have := hall (e - 1) (by omega) (by omega)
        rw [hphys (e - 1) (by omega) (by omega)] at this
        omega
    · rw [if_neg hdd]
      simp only [Bool.false_eq_true, if_false]
      exact ⟨by trivial, by trivial, by trivial, by simp, fun _ _ => by trivial, by simp,
        by simp, fun h => absurd h hdd⟩


/-- What the transfers of `ReadDisaDiffDpfsLvl3` over a chain of runs do: the
file content is kept, the transfers succeed exactly when the positions the
cache assigns to the range lie in the open file, and the buffer then holds
the bytes at those positions. -/
theorem applyRuns_read (info : DisaDiffRWInfo) (os : Nat)
    (g : Lvl3Geometry info) (E : Nat) (hE : E ≤ info.size_dpfs_lvl3) (rs : List Run) :
    ∀ (a size : Nat) (buf : Buf) (w : World), os ≤ a → RunChain info E a rs →
      (applyRuns (readAct info os) rs size (buf, w)).2.2.data = w.data ∧
      (applyRuns (readAct info os) rs size (buf, w)).2.2.fsize = w.fsize ∧
      (applyRuns (readAct info os) rs size (buf, w)).2.2.ddfp = w.ddfp ∧
      (applyRuns (readAct info os) rs size (buf, w)).2.2.present = w.present ∧
      ((applyRuns (readAct info os) rs size (buf, w)).1 = size ∨
        (applyRuns (readAct info os) rs size (buf, w)).1 = 0) ∧
      (∀ j, (j < a - os ∨ E - os ≤ j) →
        (applyRuns (readAct info os) rs size (buf, w)).2.1 j = buf j) ∧
      ((applyRuns (readAct info os) rs size (buf, w)).1 ≠ 0 → ∀ x, a ≤ x → x < E →
        (applyRuns (readAct info os) rs size (buf, w)).2.1 (x - os) = w.data (phys info x)) ∧
      ((applyRuns (readAct info os) rs size (buf, w)).1 ≠ 0 → a < E →
        w.ddfp = true ∧ ∀ x, a ≤ x → x < E → phys info x < w.fsize) ∧
      (w.ddfp = true → (∀ x, a ≤ x → x < E → phys info x < w.fsize) →
        (applyRuns (readAct info os) rs size (buf, w)).1 = size) := by
  have g2 := g.lvl3_u32
  induction rs with
  | nil =>
    intro a size buf w _ hc
    have hc' : a = E := hc
    exact ⟨rfl, rfl, rfl, rfl, Or.inl rfl, fun _ _ => rfl, fun _ x h1 h2 => by omega,
      fun _ h => by omega, fun _ _ => rfl⟩
  | cons r rs ih =>
    intro a size buf w hos hc
    obtain ⟨st, a', e⟩ := r
    obtain ⟨c1, c2, c3, c4, c5, c6⟩ := hc
    simp only at c1 c2 c3 c4 c5 c6
    subst c1
    have hpos := dpfsPos_eq info g st a' (by omega)
    have hphys : ∀ x, a' ≤ x → x < e → phys info x
        = (if st = 0 then info.offset_dpfs_lvl3
            else info.offset_dpfs_lvl3 + info.size_dpfs_lvl3) + x :=
      fun x h1 h2 => phys_of_bit info x st (c5 x h1 h2)
    simp only [applyRuns, readAct]
    rw [sub32_eq hos (by omega), sub32_eq (Nat.le_of_lt c2) (by omega), hpos]
    generalize hbase : (if st = 0 then info.offset_dpfs_lvl3
      else info.offset_dpfs_lvl3 + info.size_dpfs_lvl3) = base at hphys
    unfold DisaDiffRead
    by_cases hdd : w.ddfp = true
    · rw [if_pos hdd]
      by_cases hfit : base + a' + (e - a') ≤ w.fsize
      · simp only [hfit, decide_True, if_true]
        obtain ⟨i0, i1, i2, i3, i4, i5, i6, i7, i8⟩ := ih e size
          (storeAt buf (a' - os) (e - a') (fun j => w.data (base + a' + j)))
          { w with trace := w.trace ++ [IoEvent.read (base + a') (e - a')] } (by omega) c6
        simp only at i0 i1 i2 i3 i4 i5 i6 i7 i8
        refine ⟨i0, i1, i2, i3, i4, ?_, ?_, ?_, ?_⟩
        · intro j hj
          rw [i5 j (by omega), storeAt_apply, if_neg (by omega)]
        · intro hn x h1 h2
          by_cases hx : x < e
          · rw [i5 (x - os) (by omega), storeAt_apply, if_pos (by omega), hphys x h1 hx]
            congr 1
            omega
          · exact i6 hn x (by omega) h2
        · intro hn _
          refine ⟨hdd, fun x h1 h2 => ?_⟩
          by_cases hx : x < e
          · rw [hphys x h1 hx]; omega
          · exact (i7 hn (by omega)).2 x (by omega) h2
        · intro _ hall
          exact i8 hdd (fun x h1 h2 => hall x (by omega) h2)
      · simp only [hfit, decide_False, Bool.false_eq_true, if_false]
        refine ⟨by trivial, by trivial, by trivial, by trivial, by simp, fun _ _ => by trivial,
          by simp, by simp, fun _ hall => ?_⟩
        exfalso
        apply hfit
        have := hall (e - 1) (by omega) (by omega)
        rw [hphys (e - 1) (by omega) (by omega)] at this
        omega
    · rw [if_neg hdd]
      simp only [Bool.false_eq_true, if_false]
      exact ⟨by trivial, by trivial, by trivial, by trivial, by simp, fun _ _ => by trivial,
        by simp, by simp, fun h => absurd h hdd⟩


theorem loopFuel_succ : ∃ f, loopFuel = f + 1 := ⟨2 ^ 40 - 1, by decide⟩

/-- Specification of `WriteDisaDiffDpfsLvl3` on a range inside level 3: the
call returns; it keeps the size, handle and presence of the file; it returns
`size` or 0; it changes only the file positions the cache assigns to the
range; when it returns non-zero those positions hold the buffer and lay in the
open file; and it returns `size` whenever the handle is open and those
positions lie in the file. -/
theorem WriteDisaDiffDpfsLvl3_spec (info : DisaDiffRWInfo) (g : Lvl3Geometry info)
    (offset size : Nat) (buffer : Buf) (w : World)
    (hr : offset + size ≤ info.size_dpfs_lvl3) :
    ∃ n w', WriteDisaDiffDpfsLvl3 info offset size buffer w = some (n, w') ∧
      w'.fsize = w.fsize ∧ w'.ddfp = w.ddfp ∧ w'.present = w.present ∧
      (n = size ∨ n = 0) ∧
      (∀ y, (∀ x, offset ≤ x → x < offset + size → phys info x ≠ y) → w'.data y = w.data y) ∧
      (n ≠ 0 → ∀ x, offset ≤ x → x < offset + size →
        w'.data (phys info x) = buffer (x - offset)) ∧
      (n ≠ 0 → w.ddfp = true ∧ ∀ x, offset ≤ x → x < offset + size → phys info x < w.fsize) ∧
      (w.ddfp = true → (∀ x, offset ≤ x → x < offset + size → phys info x < w.fsize) →
        n = size) := by
  have g2 := g.lvl3_u32
  unfold WriteDisaDiffDpfsLvl3
  rw [u32_eq (show offset + size < 2 ^ 32 by omega)]
  by_cases hs : size = 0
  · subst hs
    obtain ⟨f, hf⟩ := loopFuel_succ
    rw [hf, writeLoop_zero_size]
    exact ⟨0, w, rfl, rfl, rfl, rfl, Or.inl rfl, fun _ _ => rfl, fun h => absurd rfl h,
      fun h => absurd rfl h, fun _ _ => rfl⟩
  · obtain ⟨rs, h1, h2⟩ := dpfsRuns_chain info g (offset + size) hr loopFuel offset offset 0
      (le_refl _) (fun h => h) (by omega) (by decide) (fun x h1 h2 => by omega)
      (by
        have : loopFuel = 2 ^ 40 := rfl
        split <;> omega)
    rw [writeLoop_eq_runs info buffer offset (offset + size) loopFuel size offset offset 0 w rs
      hs h1]
    obtain ⟨a1, a2, a3, a4, a5, a6, a7, a8⟩ := applyRuns_write info buffer offset g
      (offset + size) hr rs offset size w (le_refl _) h2
    exact ⟨_, _, rfl, a1, a2, a3, a4, a5, a6, fun hn => a7 hn (by omega), a8⟩

/-- Specification of `ReadDisaDiffDpfsLvl3` on a range inside level 3: the call
returns; it keeps the file; it returns `size` or 0; it leaves the buffer alone
outside `[0, size)`; when it returns non-zero the buffer holds the bytes at the
file positions the cache assigns to the range, which lay in the open file; and
it returns `size` whenever the handle is open and those positions lie in the
file. -/
theorem ReadDisaDiffDpfsLvl3_spec (info : DisaDiffRWInfo) (g : Lvl3Geometry info)
    (offset size : Nat) (buffer : Buf) (w : World)
    (hr : offset + size ≤ info.size_dpfs_lvl3) :
    ∃ n buf' w', ReadDisaDiffDpfsLvl3 info offset size buffer w = some (n, buf', w') ∧
      w'.data = w.data ∧ w'.fsize = w.fsize ∧ w'.ddfp = w.ddfp ∧ w'.present = w.present ∧
      (n = size ∨ n = 0) ∧
      (∀ j, size ≤ j → buf' j = buffer j) ∧
      (n ≠ 0 → ∀ j, j < size → buf' j = w.data (phys info (offset + j))) ∧
      (n ≠ 0 → w.ddfp = true ∧ ∀ x, offset ≤ x → x < offset + size → phys info x < w.fsize) ∧
      (w.ddfp = true → (∀ x, offset ≤ x → x < offset + size → phys info x < w.fsize) →
        n = size) := by
  have g2 := g.lvl3_u32
  unfold ReadDisaDiffDpfsLvl3
  rw [u32_eq (show offset + size < 2 ^ 32 by omega)]
  by_cases hs : size = 0
  · subst hs
    obtain ⟨f, hf⟩ := loopFuel_succ
    rw [hf, readLoop_zero_size]
    exact ⟨0, buffer, w, rfl, rfl, rfl, rfl, rfl, Or.inl rfl, fun _ _ => rfl,
      fun h => absurd rfl h, fun h => absurd rfl h, fun _ _ => rfl⟩
  · obtain ⟨rs, h1, h2⟩ := dpfsRuns_chain info g (offset + size) hr loopFuel offset offset 0
      (le_refl _) (fun h => h) (by omega) (by decide) (fun x h1 h2 => by omega)
      (by
        have : loopFuel = 2 ^ 40 := rfl
        split <;> omega)
    rw [readLoop_eq_runs info offset (offset + size) loopFuel size offset offset 0 buffer w rs
      hs h1]
    obtain ⟨a0, a1, a2, a3, a4, a5, a6, a7, a8⟩ := applyRuns_read info offset g
      (offset + size) hr rs offset size buffer w (le_refl _) h2
    refine ⟨_, _, _, rfl, a0, a1, a2, a3, a4, fun j hj => a5 j (Or.inr (by omega)), ?_,
      fun hn => a7 hn (by omega), a8⟩
    intro hn j hj
    have := a6 hn (offset + j) (by omega) (by omega)
    rw [Nat.add_sub_cancel_left] at this
    exact this


/-! ## Positions of the hash chain -/

/-- The flat facts of the geometry about levels 1 to 3. -/
theorem HashGeometry.flat {info : DisaDiffRWInfo} (hg : HashGeometry info) :
    (info.offset_ivfc_lvl1 + info.size_ivfc_lvl1 ≤ info.size_dpfs_lvl3 ∧
     info.offset_ivfc_lvl2 + info.size_ivfc_lvl2 ≤ info.size_dpfs_lvl3 ∧
     info.offset_ivfc_lvl3 + info.size_ivfc_lvl3 ≤ info.size_dpfs_lvl3) ∧
    (info.offset_ivfc_lvl1 + info.size_ivfc_lvl1 ≤ info.offset_ivfc_lvl2 ∧
     info.offset_ivfc_lvl2 + info.size_ivfc_lvl2 ≤ info.offset_ivfc_lvl3) ∧
    (32 * ivfcBlocks info 2 ≤ info.size_ivfc_lvl1 ∧
     32 * ivfcBlocks info 3 ≤ info.size_ivfc_lvl2 ∧
     32 * ivfcBlocks info 4 ≤ info.size_ivfc_lvl3) ∧
    (info.log_ivfc_lvl1 ≤ 31 ∧ info.log_ivfc_lvl2 ≤ 31 ∧ info.log_ivfc_lvl3 ≤ 31 ∧
     info.log_ivfc_lvl4 ≤ 31) :=
  ⟨⟨hg.inside 0 (by decide), hg.inside 1 (by decide), hg.inside 2 (by decide)⟩,
   ⟨hg.order 0 (by decide), hg.order 1 (by decide)⟩,
   ⟨hg.capacity 0 (by decide), hg.capacity 1 (by decide), hg.capacity 2 (by decide)⟩,
   ⟨hg.log_le 0 (by decide), hg.log_le 1 (by decide), hg.log_le 2 (by decide),
    hg.log_le 3 (by decide)⟩⟩

/-- The facts of the geometry about one level `k` (1 to 4). -/
theorem HashGeometry.level {info : DisaDiffRWInfo} (hg : HashGeometry info) (k : Nat)
    (hk1 : 1 ≤ k) (hk4 : k ≤ 4) :
    info.log_ivfc_lvl (k - 1) ≤ 31 ∧
    info.size_ivfc_lvl (k - 1) + ivfcBlock info k ≤ 2 ^ 32 ∧
    (if k = 4 ∧ info.ivfc_use_extlvl4 ≠ 0
      then info.offset_ivfc_lvl (k - 1) + info.size_ivfc_lvl (k - 1) + ivfcBlock info k ≤ 2 ^ 32
      else info.offset_ivfc_lvl (k - 1) + info.size_ivfc_lvl (k - 1) ≤ info.size_dpfs_lvl3) ∧
    (if k = 1 then info.offset_difi + info.offset_master_hash + 32 * ivfcBlocks info k ≤ 2 ^ 32
      else info.offset_ivfc_lvl (k - 2) + 32 * ivfcBlocks info k ≤ info.size_dpfs_lvl3) := by
  have hl := hg.log_le (k - 1) (by omega)
  have hB : ivfcBlock info k ≤ 2 ^ 31 := Nat.pow_le_pow_right (by decide) hl
  have g3 := hg.lvl3.lvl3_u32
  obtain ⟨⟨i0, i1, i2⟩, _, ⟨c0, c1, c2⟩, _⟩ := hg.flat
  have hm := hg.master_u32
  have h4i := hg.lvl4_in
  have h4e := hg.lvl4_ext
  have hk : k = 1 ∨ k = 2 ∨ k = 3 ∨ k = 4 := by omega
  rcases hk with rfl | rfl | rfl | rfl
  · refine ⟨hl, ?_, ?_, ?_⟩
    · show info.size_ivfc_lvl1 + ivfcBlock info 1 ≤ 2 ^ 32
      omega
    · rw [if_neg (by omega)]; exact i0
    · rw [if_pos rfl]; exact hm
  · refine ⟨hl, ?_, ?_, ?_⟩
    · show info.size_ivfc_lvl2 + ivfcBlock info 2 ≤ 2 ^ 32
      omega
    · rw [if_neg (by omega)]; exact i1
    · rw [if_neg (by omega)]
      show info.offset_ivfc_lvl1 + 32 * ivfcBlocks info 2 ≤ info.size_dpfs_lvl3
      omega
  · refine ⟨hl, ?_, ?_, ?_⟩
    · show info.size_ivfc_lvl3 + ivfcBlock info 3 ≤ 2 ^ 32
      omega
    · rw [if_neg (by omega)]; exact i2
    · rw [if_neg (by omega)]
      show info.offset_ivfc_lvl2 + 32 * ivfcBlocks info 3 ≤ info.size_dpfs_lvl3
      omega
  · by_cases he : info.ivfc_use_extlvl4 = 0
    · have := h4i he
      refine ⟨hl, ?_, ?_, ?_⟩
      · show info.size_ivfc_lvl4 + ivfcBlock info 4 ≤ 2 ^ 32
        omega
      · rw [if_neg (fun h => h.2 he)]; exact this.2
      · rw [if_neg (by omega)]
        show info.offset_ivfc_lvl3 + 32 * ivfcBlocks info 4 ≤ info.size_dpfs_lvl3
        omega
    · have := h4e he
      have hp : 0 < 2 ^ info.log_ivfc_lvl4 := by positivity
      refine ⟨hl, ?_, ?_, ?_⟩
      · show info.size_ivfc_lvl4 + 2 ^ info.log_ivfc_lvl4 ≤ 2 ^ 32
        omega
      · rw [if_pos ⟨rfl, he⟩]
        show info.offset_ivfc_lvl4 + info.size_ivfc_lvl4 + 2 ^ info.log_ivfc_lvl4 ≤ 2 ^ 32
        omega
      · rw [if_neg (by omega)]
        show info.offset_ivfc_lvl3 + 32 * ivfcBlocks info 4 ≤ info.size_dpfs_lvl3
        omega


theorem lvlPos_zero (info : DisaDiffRWInfo) (x : Nat) :
    lvlPos info 0 x = info.offset_difi + info.offset_master_hash + x := rfl

/-- Levels 1 to 3 and an internal level 4 are reached through the DPFS tree. -/
theorem lvlPos_dpfs (info : DisaDiffRWInfo) (k x : Nat) (hk : 1 ≤ k)
    (h : ¬ (k = 4 ∧ info.ivfc_use_extlvl4 ≠ 0)) :
    lvlPos info k x = phys info (info.offset_ivfc_lvl (k - 1) + x) := by
  unfold lvlPos
  rw [if_neg (by omega), if_neg h]

theorem lvlPos_ext (info : DisaDiffRWInfo) (x : Nat) (h : info.ivfc_use_extlvl4 ≠ 0) :
    lvlPos info 4 x = info.offset_ivfc_lvl4 + x := by
  unfold lvlPos
  rw [if_neg (by decide), if_pos ⟨rfl, h⟩]

/-- Where the bytes of a level lie: for a level inside the DPFS tree, its
interval of the level-3 space. -/
theorem lvl_interval {info : DisaDiffRWInfo} (hg : HashGeometry info) (k : Nat) (hk1 : 1 ≤ k)
    (hk4 : k ≤ 4) (h : ¬ (k = 4 ∧ info.ivfc_use_extlvl4 ≠ 0)) :
    info.offset_ivfc_lvl (k - 1) + info.size_ivfc_lvl (k - 1) ≤ info.size_dpfs_lvl3 := by
  have := (hg.level k hk1 hk4).2.2.1
  rw [if_neg h] at this
  exact this

/-- Two levels inside the DPFS tree occupy disjoint intervals of the level-3
space. -/
theorem lvl_intervals_apart {info : DisaDiffRWInfo} (hg : HashGeometry info) (k k' : Nat)
    (hk1 : 1 ≤ k) (hkk : k < k') (hk4 : k' ≤ 4)
    (h : ¬ (k' = 4 ∧ info.ivfc_use_extlvl4 ≠ 0)) :
    info.offset_ivfc_lvl (k - 1) + info.size_ivfc_lvl (k - 1) ≤ info.offset_ivfc_lvl (k' - 1) := by
  obtain ⟨_, ⟨o1, o2⟩, _, _⟩ := hg.flat
  have h4 := hg.lvl4_in
  have hk : (k = 1 ∧ k' = 2) ∨ (k = 1 ∧ k' = 3) ∨ (k = 1 ∧ k' = 4) ∨ (k = 2 ∧ k' = 3)
      ∨ (k = 2 ∧ k' = 4) ∨ (k = 3 ∧ k' = 4) := by omega
  rcases hk with ⟨rfl, rfl⟩ | ⟨rfl, rfl⟩ | ⟨rfl, rfl⟩ | ⟨rfl, rfl⟩ | ⟨rfl, rfl⟩ | ⟨rfl, rfl⟩
  · exact o1
  · show info.offset_ivfc_lvl1 + info.size_ivfc_lvl1 ≤ info.offset_ivfc_lvl3
    omega
  · have := h4 (by_contra fun hc => h ⟨rfl, hc⟩)
    show info.offset_ivfc_lvl1 + info.size_ivfc_lvl1 ≤ info.offset_ivfc_lvl4
    omega
  · exact o2
  · have := h4 (by_contra fun hc => h ⟨rfl, hc⟩)
    show info.offset_ivfc_lvl2 + info.size_ivfc_lvl2 ≤ info.offset_ivfc_lvl4
    omega
  · have := h4 (by_contra fun hc => h ⟨rfl, hc⟩)
    exact this.1

/-- Distinct bytes of the levels 0 to 4 lie at distinct file positions. -/
theorem lvlPos_inj {info : DisaDiffRWInfo} (hg : HashGeometry info) (k k' x x' : Nat)
    (hk : k ≤ 4) (hk' : k' ≤ 4) (hx : x < lvlSize info k) (hx' : x' < lvlSize info k')
    (h : lvlPos info k x = lvlPos info k' x') : k = k' ∧ x = x' := by
  have g3 := hg.lvl3.lvl3_u32
  have hmo := hg.master_out
  have hext := hg.lvl4_ext
  -- classify each side
  have cls : ∀ (k x : Nat), k ≤ 4 → x < lvlSize info k →
      (k = 0 ∧ lvlPos info k x = info.offset_difi + info.offset_master_hash + x ∧
        x < 32 * ivfcBlocks info 1) ∨
      (k = 4 ∧ info.ivfc_use_extlvl4 ≠ 0 ∧ lvlPos info k x = info.offset_ivfc_lvl4 + x ∧
        x < info.size_ivfc_lvl4) ∨
      (1 ≤ k ∧ ¬ (k = 4 ∧ info.ivfc_use_extlvl4 ≠ 0) ∧
        lvlPos info k x = phys info (info.offset_ivfc_lvl (k - 1) + x) ∧
        x < info.size_ivfc_lvl (k - 1) ∧
        info.offset_ivfc_lvl (k - 1) + x < info.size_dpfs_lvl3) := by
    intro k x hk hx
    by_cases h0 : k = 0
    · subst h0
      exact Or.inl ⟨rfl, rfl, hx⟩
    · by_cases h4 : k = 4 ∧ info.ivfc_use_extlvl4 ≠ 0
      · obtain ⟨rfl, he⟩ := h4
        exact Or.inr (Or.inl ⟨rfl, he, lvlPos_ext info x he, hx⟩)
      · have hs : lvlSize info k = info.size_ivfc_lvl (k - 1) := by
          unfold lvlSize; rw [if_neg h0]
        rw [hs] at hx
        have := lvl_interval hg k (by omega) hk h4
        exact Or.inr (Or.inr ⟨by omega, h4, lvlPos_dpfs info k x (by omega) h4, hx, by omega⟩)
  rcases cls k x hk hx with ⟨rfl, e1, b1⟩ | ⟨rfl, he, e1, b1⟩ | ⟨k1, hn, e1, b1, c1⟩ <;>
    rcases cls k' x' hk' hx' with ⟨rfl, e2, b2⟩ | ⟨rfl, he', e2, b2⟩ | ⟨k1', hn', e2, b2, c2⟩
  · rw [e1, e2] at h
    exact ⟨rfl, by omega⟩
  · rw [e1, e2] at h
    have := (hext he').2.2.1
    omega
  · rw [e1, e2] at h
    have := phys_lt info _ c2
    omega
  · rw [e1, e2] at h
    have := (hext he).2.2.1
    omega
  · rw [e1, e2] at h
    exact ⟨rfl, by omega⟩
  · rw [e1, e2] at h
    have := phys_lt info _ c2
    have := (hext he).2.1
    omega
  · rw [e1, e2] at h
    have := phys_lt info _ c1
    omega
  · rw [e1, e2] at h
    have := phys_lt info _ c1
    have := (hext he').2.1
    omega
  · rw [e1, e2] at h
    have heq := phys_inj info _ _ c1 c2 h
    rcases Nat.lt_trichotomy k k' with hlt | heq' | hgt
    · have := lvl_intervals_apart hg k k' k1 hlt hk' hn'
      omega
    · subst heq'
      exact ⟨rfl, by omega⟩
    · have := lvl_intervals_apart hg k' k k1' hgt hk hn
      omega

/-- The partition-hash slot is apart from every level and from the
master-hash region. -/
theorem lvlPos_ne_part {info : DisaDiffRWInfo} (hg : HashGeometry info) (k x t : Nat)
    (hk : k ≤ 4) (hx : x < lvlSize info k) (ht : t < 32) :
    lvlPos info k x ≠ info.offset_partition_hash + t := by
  have g3 := hg.lvl3.lvl3_u32
  have hpo := hg.part_out
  have hpm := hg.part_master
  have hext := hg.lvl4_ext
  intro h
  by_cases h0 : k = 0
  · subst h0
    rw [lvlPos_zero] at h
    unfold lvlSize at hx
    rw [if_pos rfl] at hx
    omega
  · by_cases h4 : k = 4 ∧ info.ivfc_use_extlvl4 ≠ 0
    · obtain ⟨rfl, he⟩ := h4
      rw [lvlPos_ext info x he] at h
      have hs : lvlSize info 4 = info.size_ivfc_lvl4 := rfl
      rw [hs] at hx
      have := (hext he).2.2.2
      omega
    · rw [lvlPos_dpfs info k x (by omega) h4] at h
      have hs : lvlSize info k = info.size_ivfc_lvl (k - 1) := by
        unfold lvlSize; rw [if_neg h0]
      rw [hs] at hx
      have := lvl_interval hg k (by omega) hk h4
      have := phys_lt info (info.offset_ivfc_lvl (k - 1) + x) (by omega)
      omega


/-! ## The hash fixer -/

/-- Specification of the block read of the fixer for a range inside level `k`. -/
theorem fixRead_spec {info : DisaDiffRWInfo} (hg : HashGeometry info) (k : Nat) (hk1 : 1 ≤ k)
    (hk4 : k ≤ 4) (ao rs : Nat) (buf0 : Buf) (w : World)
    (hr : ao + rs ≤ info.size_ivfc_lvl (k - 1)) :
    ∃ ok buf1 w1, fixRead info k rs (u32 (ao + info.offset_ivfc_lvl (k - 1))) buf0 w
        = some (ok, buf1, w1) ∧
      w1.data = w.data ∧ w1.fsize = w.fsize ∧ w1.ddfp = w.ddfp ∧ w1.present = w.present ∧
      (ok = true → (∀ t, t < rs → buf1 t = w.data (lvlPos info k (ao + t))) ∧
        (∀ t, rs ≤ t → buf1 t = buf0 t)) := by
  have g3 := hg.lvl3.lvl3_u32
  obtain ⟨_, _, hin, _⟩ := hg.level k hk1 hk4
  unfold fixRead
  by_cases hx : k = 4 ∧ info.ivfc_use_extlvl4 ≠ 0
  · rw [if_pos hx] at hin ⊢
    obtain ⟨rfl, he⟩ := hx
    have hB : 0 < ivfcBlock info 4 := by unfold ivfcBlock; positivity
    rw [u32_eq (by omega)]
    simp only
    refine ⟨_, _, _, rfl, DisaDiffRead_data _ _ _, ?_, ?_, ?_, ?_⟩
    · unfold DisaDiffRead; split <;> rfl
    · unfold DisaDiffRead; split <;> rfl
    · unfold DisaDiffRead; split <;> rfl
    · intro hok
      rw [if_pos hok]
      constructor
      · intro t ht
        rw [storeAt_apply, if_pos (by omega), lvlPos_ext info _ he]
        show w.data (ao + info.offset_ivfc_lvl4 + (t - 0)) = _
        congr 1
        omega
      · intro t ht
        rw [storeAt_apply, if_neg (by omega)]
  · rw [if_neg hx] at hin ⊢
    rw [u32_eq (by omega)]
    obtain ⟨n, buf', w', e, a1, a2, a3, a4, a5, a6, a7, _, _⟩ :=
      ReadDisaDiffDpfsLvl3_spec info hg.lvl3 (ao + info.offset_ivfc_lvl (k - 1)) rs buf0 w
        (by omega)
    rw [e]
    simp only [Option.map_some']
    refine ⟨_, _, _, rfl, a1, a2, a3, a4, ?_⟩
    intro hok
    simp only [decide_eq_true_eq] at hok
    refine ⟨fun t ht => ?_, a6⟩
    rw [a7 (by omega) t ht, lvlPos_dpfs info k _ hk1 hx]
    congr 2
    omega

theorem DisaDiffWrite_spec (w : World) (buf : Buf) (btw ofs : Nat) :
    (DisaDiffWrite w buf btw ofs).2.fsize = w.fsize ∧
    (DisaDiffWrite w buf btw ofs).2.ddfp = w.ddfp ∧
    (DisaDiffWrite w buf btw ofs).2.present = w.present ∧
    (∀ y, ¬ (ofs ≤ y ∧ y < ofs + btw) → (DisaDiffWrite w buf btw ofs).2.data y = w.data y) ∧
    ((DisaDiffWrite w buf btw ofs).1 = true →
      w.ddfp = true ∧ ofs + btw ≤ w.fsize ∧
      ∀ t, t < btw → (DisaDiffWrite w buf btw ofs).2.data (ofs + t) = buf t) := by
  unfold DisaDiffWrite
  by_cases hd : w.ddfp = true
  · rw [if_pos hd]
    by_cases hf : ofs + btw ≤ w.fsize
    · rw [if_pos hf]
      refine ⟨rfl, rfl, rfl, fun y hy => ?_, fun _ => ⟨hd, hf, fun t ht => ?_⟩⟩
      · show storeAt _ _ _ _ y = _
        rw [storeAt_apply, if_neg hy]
      · show storeAt _ _ _ _ (ofs + t) = _
        rw [storeAt_apply, if_pos (by omega), Nat.add_sub_cancel_left]
    · rw [if_neg hf]
      exact ⟨rfl, rfl, rfl, fun _ _ => rfl, fun h => absurd h (by simp)⟩
  · rw [if_neg hd]
    exact ⟨rfl, rfl, rfl, fun _ _ => rfl, fun h => absurd h (by simp)⟩

/-- Specification of the hash write of the fixer for block `j` of level `k`. -/
theorem fixWrite_spec {info : DisaDiffRWInfo} (hg : HashGeometry info) (k : Nat) (hk1 : 1 ≤ k)
    (hk4 : k ≤ 4) (j : Nat) (sha_buf : Buf) (w1 : World) (hj : j < ivfcBlocks info k) :
    ∃ ok w2, fixWrite info k (32 * j) sha_buf w1 = some (ok, w2) ∧
      w2.fsize = w1.fsize ∧ w2.ddfp = w1.ddfp ∧ w2.present = w1.present ∧
      (∀ y, (∀ t, t < 32 → lvlPos info (k - 1) (32 * j + t) ≠ y) → w2.data y = w1.data y) ∧
      (ok = true → ∀ t, t < 32 → w2.data (lvlPos info (k - 1) (32 * j + t)) = sha_buf t) := by
  have g3 := hg.lvl3.lvl3_u32
  obtain ⟨_, _, _, hdst⟩ := hg.level k hk1 hk4
  unfold fixWrite
  by_cases h1 : k = 1
  · subst h1
    rw [if_pos rfl] at hdst ⊢
    rw [u32_eq (show info.offset_difi + info.offset_master_hash < 2 ^ 32 by omega),
      u32_eq (by omega)]
    obtain ⟨b1, b2, b3, b4, b5⟩ := DisaDiffWrite_spec w1 sha_buf 0x20
      (info.offset_difi + info.offset_master_hash + 32 * j)
    refine ⟨_, _, rfl, b1, b2, b3, fun y hy => b4 y (fun hc => ?_), fun hok t ht => ?_⟩
    · apply hy (y - (info.offset_difi + info.offset_master_hash + 32 * j)) (by omega)
      rw [lvlPos_zero]
      omega
    · have := (b5 hok).2.2 t ht
      rw [lvlPos_zero]
      rw [← this]
      congr 1
      omega
  · rw [if_neg h1] at hdst ⊢
    rw [u32_eq (by omega)]
    obtain ⟨n, w', e, a1, a2, a3, a4, a5, a6, _, _⟩ :=
      WriteDisaDiffDpfsLvl3_spec info hg.lvl3 (info.offset_ivfc_lvl (k - 2) + 32 * j) 0x20
        sha_buf w1 (by omega)
    rw [e]
    simp only [Option.map_some']
    have hpos : ∀ z, lvlPos info (k - 1) z = phys info (info.offset_ivfc_lvl (k - 2) + z) := by
      intro z
      rw [lvlPos_dpfs info (k - 1) z (by omega) (by omega)]
      have : k - 1 - 1 = k - 2 := by omega
      rw [this]
    refine ⟨_, _, rfl, a1, a2, a3, fun y hy => a5 y (fun x h1 h2 hc => ?_), fun hok t ht => ?_⟩
    · apply hy (x - (info.offset_ivfc_lvl (k - 2) + 32 * j)) (by omega)
      rw [hpos, ← hc]
      congr 1
      omega
    · simp only [decide_eq_true_eq] at hok
      have := a6 (by omega) (info.offset_ivfc_lvl (k - 2) + 32 * j + t) (by omega) (by omega)
      rw [hpos]
      rw [← Nat.add_assoc, this]
      congr 1
      omega


theorem cdiv_step (B a : Nat) (hB : 0 < B) (ha : 0 < a) :
    cdiv a B = 1 + cdiv (if a < B then 0 else a - B) B := by
  unfold cdiv
  by_cases h : a < B
  · rw [if_pos h]
    have e1 : (a + B - 1) / B = 1 := by
      apply Nat.div_eq_of_lt_le <;> omega
    have e2 : (0 + B - 1) / B = 0 := by
      apply Nat.div_eq_of_lt; omega
    rw [e1, e2]
  · rw [if_neg h]
    have : a + B - 1 = (a - B + B - 1) + B := by omega
    rw [this, Nat.add_div_right _ hB]
    omega

theorem cdiv_zero (B : Nat) (hB : 0 < B) : cdiv 0 B = 0 := by
  unfold cdiv
  exact Nat.div_eq_of_lt (by omega)

theorem cdiv_bound (B j a S : Nat) (hB : 0 < B) (h : j * B + a ≤ S) :
    j + cdiv a B ≤ cdiv S B := by
  unfold cdiv
  have : j + (a + B - 1) / B = (j * B + a + B - 1) / B := by
    have e : j * B + a + B - 1 = (a + B - 1) + B * j := by
      have := Nat.mul_comm j B
      omega
    rw [e, Nat.add_mul_div_left _ _ hB]
    omega
  rw [this]
  exact Nat.div_le_div_right (by omega)

theorem bufList_congr (a b : Buf) (n : Nat) (h : ∀ t, t < n → a t = b t) :
    bufList a n = bufList b n := by
  unfold bufList
  apply List.map_congr_left
  intro t ht
  exact h t (List.mem_range.mp ht)

/-- The block bytes of level `k` only depend on the file content at the
positions of level `k`. -/
theorem blockBytes_congr (info : DisaDiffRWInfo) (w w' : World) (k j : Nat)
    (h : ∀ x, x < info.size_ivfc_lvl (k - 1) → w'.data (lvlPos info k x) = w.data (lvlPos info k x)) :
    blockBytes info w' k j = blockBytes info w k j := by
  unfold blockBytes
  apply bufList_congr
  intro t _
  split
  · rename_i hx
    exact h _ hx
  · rfl

theorem lvlSize_hash_fits {info : DisaDiffRWInfo} (hg : HashGeometry info) (k : Nat)
    (hk1 : 1 ≤ k) (hk4 : k ≤ 4) : 32 * ivfcBlocks info k ≤ lvlSize info (k - 1) := by
  obtain ⟨_, _, ⟨c0, c1, c2⟩, _⟩ := hg.flat
  have hk : k = 1 ∨ k = 2 ∨ k = 3 ∨ k = 4 := by omega
  rcases hk with rfl | rfl | rfl | rfl
  · exact le_refl _
  · exact c0
  · exact c1
  · exact c2

theorem lvlSize_pos_eq (info : DisaDiffRWInfo) (k : Nat) (hk1 : 1 ≤ k) :
    lvlSize info k = info.size_ivfc_lvl (k - 1) := by
  unfold lvlSize
  rw [if_neg (by omega)]

/-- The loop of the fixer over the blocks `j0, j0 + 1, ...` of level `k`
covering `align_size` bytes: it returns, changes the file only in the hash
slots of those blocks, and when it returns 0 each of those slots holds the
hash of its block. -/
theorem fixLoop_spec {info : DisaDiffRWInfo} (sha : Sha) (hg : HashGeometry info) (k : Nat)
    (hk1 : 1 ≤ k) (hk4 : k ≤ 4) (fuel : Nat) :
    ∀ (rs j0 as : Nat) (buf : Buf) (w : World),
      (0 < as → rs = ivfcBlock info k ∧ j0 * ivfcBlock info k + as ≤ info.size_ivfc_lvl (k - 1)) →
      as + 1 ≤ fuel →
      ∃ ret w', fixLoop sha info k fuel rs (j0 * ivfcBlock info k) as buf w = some (ret, w') ∧
        w'.fsize = w.fsize ∧ w'.ddfp = w.ddfp ∧ w'.present = w.present ∧
        (∀ y, (∀ z, 32 * j0 ≤ z →
            z < 32 * (j0 + cdiv as (ivfcBlock info k)) →
            lvlPos info (k - 1) z ≠ y) → w'.data y = w.data y) ∧
        (ret = 0 → ∀ j, j0 ≤ j → j < j0 + cdiv as (ivfcBlock info k) →
          ∀ t, t < 32 →
            w'.data (lvlPos info (k - 1) (32 * j + t)) = shaBuf sha (blockBytes info w k j) t) := by
  obtain ⟨hlog, hblk, _, hdst⟩ := hg.level k hk1 hk4
  have g3 := hg.lvl3.lvl3_u32
  have h32 : 32 * ivfcBlocks info k ≤ 2 ^ 32 := by
    split at hdst <;> omega
  have hB : 0 < ivfcBlock info k := by unfold ivfcBlock; positivity
  have hB31 : ivfcBlock info k ≤ 2 ^ 31 := Nat.pow_le_pow_right (by decide) hlog
  have hbs : shl32 1 (info.log_ivfc_lvl (k - 1)) = ivfcBlock info k := by
    unfold ivfcBlock
    rw [shl32_eq (by rw [Nat.one_mul]; unfold ivfcBlock at hB31; omega), Nat.one_mul]
  have hfit := lvlSize_hash_fits hg k hk1 hk4
  induction fuel with
  | zero => intro rs j0 as buf w _ hf; omega
  | succ fuel ih =>
    intro rs j0 as buf w hinv hf
    unfold fixLoop
    by_cases has : as > 0
    · obtain ⟨hrs, hrange⟩ := hinv has
      subst hrs
      rw [if_pos has]
      simp only [hbs]
      have hao : j0 * ivfcBlock info k + ivfcBlock info k < 2 ^ 32 := by omega
      rw [u32_eq hao]
      -- the block index and its bound
      have hj0 : j0 < ivfcBlocks info k := by
        have := cdiv_bound (ivfcBlock info k) j0 as (info.size_ivfc_lvl (k - 1)) hB hrange
        have := cdiv_step (ivfcBlock info k) as hB has
        unfold ivfcBlocks
        omega
      have hcntk : j0 + cdiv as (ivfcBlock info k) ≤ ivfcBlocks info k :=
        cdiv_bound (ivfcBlock info k) j0 as (info.size_ivfc_lvl (k - 1)) hB hrange
      have hcnt := cdiv_bound (ivfcBlock info k) j0 as (info.size_ivfc_lvl (k - 1)) hB hrange
      have hstep := cdiv_step (ivfcBlock info k) as hB has
      have hshr : shr (j0 * ivfcBlock info k) (info.log_ivfc_lvl (k - 1)) = j0 := by
        show j0 * ivfcBlock info k / ivfcBlock info k = j0
        exact Nat.mul_div_cancel _ hB
      have hslot : u32 (shr (j0 * ivfcBlock info k) (info.log_ivfc_lvl (k - 1)) * 0x20)
          = 32 * j0 := by
        rw [hshr, u32_eq (by omega)]
        omega
      rw [hslot]
      -- the read size
      generalize hrs' : (if decide (j0 * ivfcBlock info k + ivfcBlock info k
          > info.size_ivfc_lvl (k - 1)) = true
        then sub32 (ivfcBlock info k)
          (sub32 (j0 * ivfcBlock info k + ivfcBlock info k) (info.size_ivfc_lvl (k - 1)))
        else ivfcBlock info k) = rs'
      have hrs'v : rs' = if j0 * ivfcBlock info k + ivfcBlock info k > info.size_ivfc_lvl (k - 1)
          then info.size_ivfc_lvl (k - 1) - j0 * ivfcBlock info k else ivfcBlock info k := by
        rw [← hrs']
        by_cases hp : j0 * ivfcBlock info k + ivfcBlock info k > info.size_ivfc_lvl (k - 1)
        · simp only [hp, decide_True, if_true]
          have e1 : sub32 (j0 * ivfcBlock info k + ivfcBlock info k) (info.size_ivfc_lvl (k - 1))
              = j0 * ivfcBlock info k + ivfcBlock info k - info.size_ivfc_lvl (k - 1) :=
            sub32_eq (by omega) (by omega)
          rw [e1, sub32_eq (by omega) (by omega)]
          omega
        · simp only [hp, decide_False, if_false, Bool.false_eq_true]
      generalize hbuf0 : (if decide (j0 * ivfcBlock info k + ivfcBlock info k
          > info.size_ivfc_lvl (k - 1)) = true
        then storeAt buf 0 (ivfcBlock info k) (fun _ => 0) else buf) = buf0
      obtain ⟨ok, buf1, w1, er, r1, r2, r3, r4, r5⟩ := fixRead_spec hg k hk1 hk4
        (j0 * ivfcBlock info k) rs' buf0 w (by rw [hrs'v]; split <;> omega)
      rw [er]
      cases ok with
      | false =>
        refine ⟨1, w1, rfl, r2, r3, r4, fun y _ => by rw [r1], fun h => absurd h (by decide)⟩
      | true =>
        simp only
        obtain ⟨rd1, rd2⟩ := r5 rfl
        have hblock : bufList buf1 (ivfcBlock info k) = blockBytes info w k j0 := by
          unfold blockBytes
          apply bufList_congr
          intro t ht
          by_cases htr : t < rs'
          · rw [rd1 t htr, if_pos (by rw [hrs'v] at htr; split at htr <;> omega)]
          · rw [rd2 t (by omega)]
            have hp : j0 * ivfcBlock info k + ivfcBlock info k > info.size_ivfc_lvl (k - 1) := by
              by_contra hc
              rw [hrs'v, if_neg hc] at htr
              omega
            rw [← hbuf0]
            simp only [hp, decide_True, if_true]
            rw [storeAt_apply, if_pos (by omega), if_neg (by rw [hrs'v, if_pos hp] at htr; omega)]
        rw [hblock]
        obtain ⟨ok2, w2, ew, s1, s2, s3, s4, s5⟩ := fixWrite_spec hg k hk1 hk4 j0
          (shaBuf sha (blockBytes info w k j0)) w1 hj0
        rw [ew]
        cases ok2 with
        | false =>
          refine ⟨1, w2, rfl, by rw [s1, r2], by rw [s2, r3], by rw [s3, r4], ?_,
            fun h => absurd h (by decide)⟩
          intro y hy
          rw [s4 y (fun t ht => hy (32 * j0 + t) (by omega) (by omega)), r1]
        | true =>
          simp only
          have hnext : j0 * ivfcBlock info k + ivfcBlock info k = (j0 + 1) * ivfcBlock info k := by
            ring
          rw [hnext]
          obtain ⟨ret, w', el, l1, l2, l3, l4, l5⟩ := ih rs' (j0 + 1)
            (if as < ivfcBlock info k then 0 else as - ivfcBlock info k) buf1 w2
            (by
              intro hpos
              have hge : ¬ as < ivfcBlock info k := by
                intro hc; rw [if_pos hc] at hpos; omega
              rw [if_neg hge] at hpos ⊢
              refine ⟨?_, by rw [← hnext]; omega⟩
              rw [hrs'v, if_neg (by omega)])
            (by split <;> omega)
          rw [el]
          have hcnt' : j0 + 1 + cdiv (if as < ivfcBlock info k then 0 else as - ivfcBlock info k)
              (ivfcBlock info k) = j0 + cdiv as (ivfcBlock info k) := by omega
          rw [hcnt'] at l4 l5
          have hsrc : ∀ x, x < info.size_ivfc_lvl (k - 1) →
              w2.data (lvlPos info k x) = w.data (lvlPos info k x) := by
            intro x hx
            rw [s4 _ (fun t ht hc => by
              have := lvlPos_inj hg (k - 1) k (32 * j0 + t) x (by omega) hk4
                (by omega) (by rw [lvlSize_pos_eq info k hk1]; exact hx) hc
              omega), r1]
          refine ⟨ret, w', rfl, by rw [l1, s1, r2], by rw [l2, s2, r3], by rw [l3, s3, r4],
            ?_, ?_⟩
          · intro y hy
            rw [l4 y (fun z h1 h2 => hy z (by omega) h2),
              s4 y (fun t ht => hy (32 * j0 + t) (by omega) (by omega)), r1]
          · intro hret j hj1 hj2 t ht
            by_cases hjj : j = j0
            · subst hjj
              rw [l4 _ (fun z h1 h2 hc => by
                have := lvlPos_inj hg (k - 1) (k - 1) z (32 * j + t) (by omega) (by omega)
                  (by omega) (by omega) hc
                omega)]
              exact s5 rfl t ht
            · rw [l5 hret j (by omega) hj2 t ht, blockBytes_congr info w w2 k j hsrc]
    · rw [if_neg has]
      exact ⟨0, w, rfl, rfl, rfl, rfl, fun _ _ => rfl, fun _ j h1 h2 => by
        have has0 : as = 0 := by omega
        subst has0
        have := cdiv_zero (ivfcBlock info k) hB
        omega⟩

theorem cdiv_eq (a B : Nat) (hB : 0 < B) :
    a / B + (if a % B = 0 then 0 else 1) = cdiv a B := by
  unfold cdiv
  have h1 := Nat.div_add_mod a B
  have h2 := Nat.mod_lt a hB
  generalize a / B = q at *
  generalize a % B = r at *
  by_cases h : r = 0
  · rw [if_pos h]
    have : a + B - 1 = (B - 1) + B * q := by omega
    rw [this, Nat.add_mul_div_left _ _ hB, Nat.div_eq_of_lt (by omega)]
    omega
  · rw [if_neg h]
    have e : B * (q + 1) = B * q + B := by rw [Nat.mul_add, Nat.mul_one]
    have : a + B - 1 = (r - 1) + B * (q + 1) := by omega
    rw [this, Nat.add_mul_div_left _ _ hB, Nat.div_eq_of_lt (by omega)]
    omega

/-- Every byte of a range lies in one of the blocks counted by `blockCount`. -/
theorem block_cover (info : DisaDiffRWInfo) (k offset size x : Nat)
    (h1 : offset ≤ x) (h2 : x < offset + size) :
    firstBlock info k offset ≤ x / ivfcBlock info k ∧
    x / ivfcBlock info k < firstBlock info k offset + blockCount info k offset size := by
  have hB : 0 < ivfcBlock info k := by unfold ivfcBlock; positivity
  unfold blockCount firstBlock cdiv
  generalize ivfcBlock info k = B at *
  have a1 := Nat.div_add_mod offset B
  have a2 := Nat.mod_lt offset hB
  have c1 : offset / B * B = B * (offset / B) := Nat.mul_comm _ _
  constructor
  · exact Nat.div_le_div_right h1
  · have e : offset / B + (offset + size - offset / B * B + B - 1) / B
        = (offset + size + B - 1) / B := by
      have : offset + size + B - 1 = (offset + size - offset / B * B + B - 1) + B * (offset / B) := by
        omega
      rw [this, Nat.add_mul_div_left _ _ hB]
      omega
    rw [e]
    apply (Nat.div_lt_iff_lt_mul hB).mpr
    have b1 := Nat.div_add_mod (offset + size + B - 1) B
    have b2 := Nat.mod_lt (offset + size + B - 1) hB
    have c2 : (offset + size + B - 1) / B * B = B * ((offset + size + B - 1) / B) :=
      Nat.mul_comm _ _
    omega

/-- The blocks counted by `blockCount` are blocks of the level. -/
theorem block_range (info : DisaDiffRWInfo) (k offset size : Nat)
    (hr : offset + size ≤ info.size_ivfc_lvl (k - 1)) :
    firstBlock info k offset * ivfcBlock info k ≤ offset ∧
    firstBlock info k offset + blockCount info k offset size ≤ ivfcBlocks info k := by
  have hB : 0 < ivfcBlock info k := by unfold ivfcBlock; positivity
  have h0 : firstBlock info k offset * ivfcBlock info k ≤ offset := Nat.div_mul_le_self _ _
  refine ⟨h0, ?_⟩
  unfold blockCount ivfcBlocks
  exact cdiv_bound _ _ _ _ hB (by omega)

/-- Specification of `FixDisaDiffIvfcLevel` for a level `k` from 1 to 4 and a
range inside the level: the call returns; it reports the range of hash slots
it rewrote (for `k` other than 1) as `next_offset`, `next_size`; it changes
the file only in those slots; and when it returns 0 the slot of every block
touching the range holds the hash of that block. -/
theorem FixDisaDiffIvfcLevel_spec {info : DisaDiffRWInfo} (sha : Sha) (hg : HashGeometry info)
    (k : Nat) (hk1 : 1 ≤ k) (hk4 : k ≤ 4) (offset size no ns : Nat) (w : World)
    (hr : offset + size ≤ info.size_ivfc_lvl (k - 1)) :
    ∃ ret w', FixDisaDiffIvfcLevel sha info k offset size no ns w
        = some (ret, (if k = 1 then no else 32 * firstBlock info k offset),
            (if k = 1 then ns else 32 * blockCount info k offset size), w') ∧
      w'.fsize = w.fsize ∧ w'.ddfp = w.ddfp ∧ w'.present = w.present ∧
      (∀ y, (∀ z, 32 * firstBlock info k offset ≤ z →
          z < 32 * firstBlock info k offset + 32 * blockCount info k offset size →
          lvlPos info (k - 1) z ≠ y) → w'.data y = w.data y) ∧
      (ret = 0 → ∀ j, firstBlock info k offset ≤ j →
        j < firstBlock info k offset + blockCount info k offset size →
        ∀ t, t < 32 →
          w'.data (lvlPos info (k - 1) (32 * j + t)) = shaBuf sha (blockBytes info w k j) t) := by
  obtain ⟨hlog, hblk, _, hdst⟩ := hg.level k hk1 hk4
  have g3 := hg.lvl3.lvl3_u32
  have hB : 0 < ivfcBlock info k := by unfold ivfcBlock; positivity
  have hB31 : ivfcBlock info k ≤ 2 ^ 31 := Nat.pow_le_pow_right (by decide) hlog
  obtain ⟨hal, hcnt⟩ := block_range info k offset size hr
  have hshr0 : shr offset (info.log_ivfc_lvl (k - 1)) = firstBlock info k offset := rfl
  have hao : shl32 (shr offset (info.log_ivfc_lvl (k - 1))) (info.log_ivfc_lvl (k - 1))
      = firstBlock info k offset * ivfcBlock info k := by
    rw [hshr0]
    exact shl32_eq (by
      show firstBlock info k offset * ivfcBlock info k < 2 ^ 32
      omega)
  have hshr : shr (firstBlock info k offset * ivfcBlock info k) (info.log_ivfc_lvl (k - 1))
      = firstBlock info k offset := by
    show firstBlock info k offset * ivfcBlock info k / ivfcBlock info k = _
    exact Nat.mul_div_cancel _ hB
  have hbs : shl32 1 (info.log_ivfc_lvl (k - 1)) = ivfcBlock info k := by
    unfold ivfcBlock
    rw [shl32_eq (by rw [Nat.one_mul]; unfold ivfcBlock at hB31; omega), Nat.one_mul]
  have has : sub32 (u32 (size + offset)) (firstBlock info k offset * ivfcBlock info k)
      = offset + size - firstBlock info k offset * ivfcBlock info k := by
    rw [u32_eq (by omega), sub32_eq (by omega) (by omega), Nat.add_comm size offset]
  obtain ⟨ret, w', e, f1, f2, f3, f4, f5⟩ := fixLoop_spec sha hg k hk1 hk4 loopFuel
    (ivfcBlock info k) (firstBlock info k offset)
    (offset + size - firstBlock info k offset * ivfcBlock info k) (fun _ => 0) w
    (fun _ => ⟨rfl, by omega⟩)
    (by
      have : loopFuel = 2 ^ 40 := rfl
      omega)
  unfold FixDisaDiffIvfcLevel
  rw [if_neg (by omega), if_neg (by omega)]
  simp only [hao, hbs, has, hshr]
  rw [e]
  refine ⟨ret, w', ?_, f1, f2, f3, ?_, f5⟩
  · simp only [Option.map_some']
    by_cases h1 : k = 1
    · simp only [h1, if_true, ne_eq, not_true_eq_false, if_false]
    · have hc32 : 32 * ivfcBlocks info k < 2 ^ 32 := by
        rw [if_neg h1] at hdst
        omega
      have hq := cdiv_eq (offset + size - firstBlock info k offset * ivfcBlock info k)
        (ivfcBlock info k) hB
      simp only [h1, if_false, ne_eq, not_false_eq_true, if_true]
      rw [show (shr (offset + size - firstBlock info k offset * ivfcBlock info k)
          (info.log_ivfc_lvl (k - 1)) +
          (if (offset + size - firstBlock info k offset * ivfcBlock info k) % ivfcBlock info k = 0
            then 0 else 1)) = blockCount info k offset size from hq]
      rw [u32_eq (by omega), u32_eq (by omega), Nat.mul_comm _ 32, Nat.mul_comm _ 32]
  · intro y hy
    exact f4 y (fun z hz1 hz2 => hy z hz1 (by
      have : blockCount info k offset size
          = cdiv (offset + size - firstBlock info k offset * ivfcBlock info k)
              (ivfcBlock info k) := rfl
      omega))
/-- Specification of `FixDisaDiffPartitionHash`: it keeps the size, handle and
presence of the file, changes only the 32 bytes at `offset_partition_hash`,
and when it returns 0 those hold the hash of the descriptor table. -/
theorem FixDisaDiffPartitionHash_spec (sha : Sha) (info : DisaDiffRWInfo) (w : World) :
    (FixDisaDiffPartitionHash sha info w).2.fsize = w.fsize ∧
    (FixDisaDiffPartitionHash sha info w).2.ddfp = w.ddfp ∧
    (FixDisaDiffPartitionHash sha info w).2.present = w.present ∧
    (∀ y, ¬ (info.offset_partition_hash ≤ y ∧ y < info.offset_partition_hash + 32) →
      (FixDisaDiffPartitionHash sha info w).2.data y = w.data y) ∧
    ((FixDisaDiffPartitionHash sha info w).1 = 0 → ∀ t, t < 32 →
      (FixDisaDiffPartitionHash sha info w).2.data (info.offset_partition_hash + t)
        = shaBuf sha (bufList (fun j => w.data (info.offset_table + j)) info.size_table) t) := by
  have hrd : (DisaDiffRead w info.size_table info.offset_table).2.data = w.data :=
    DisaDiffRead_data _ _ _
  have hrf : (DisaDiffRead w info.size_table info.offset_table).2.fsize = w.fsize := by
    unfold DisaDiffRead; split <;> rfl
  have hrp : (DisaDiffRead w info.size_table info.offset_table).2.ddfp = w.ddfp := by
    unfold DisaDiffRead; split <;> rfl
  have hrq : (DisaDiffRead w info.size_table info.offset_table).2.present = w.present := by
    unfold DisaDiffRead; split <;> rfl
  unfold FixDisaDiffPartitionHash
  simp only []
  by_cases h1 : (DisaDiffRead w info.size_table info.offset_table).1 = false
  · rw [if_pos h1]
    exact ⟨hrf, hrp, hrq, fun y _ => by rw [hrd], fun h => absurd h Nat.one_ne_zero⟩
  · rw [if_neg h1]
    obtain ⟨s1, s2, s3, s4, s5⟩ := DisaDiffWrite_spec
      (DisaDiffRead w info.size_table info.offset_table).2
      (shaBuf sha (bufList (fun j => w.data (info.offset_table + j)) info.size_table)) 0x20
      info.offset_partition_hash
    by_cases h2 : (DisaDiffWrite (DisaDiffRead w info.size_table info.offset_table).2
        (shaBuf sha (bufList (fun j => w.data (info.offset_table + j)) info.size_table)) 0x20
        info.offset_partition_hash).1 = false
    · rw [if_pos h2]
      exact ⟨by rw [s1, hrf], by rw [s2, hrp], by rw [s3, hrq],
        fun y hy => by rw [s4 y hy, hrd], fun h => absurd h Nat.one_ne_zero⟩
    · rw [if_neg h2]
      refine ⟨by rw [s1, hrf], by rw [s2, hrp], by rw [s3, hrq],
        fun y hy => by rw [s4 y hy, hrd], fun _ t ht => ?_⟩
      have hw : (DisaDiffWrite (DisaDiffRead w info.size_table info.offset_table).2
        (shaBuf sha (bufList (fun j => w.data (info.offset_table + j)) info.size_table)) 0x20
        info.offset_partition_hash).1 = true := by
        revert h2
        cases (DisaDiffWrite (DisaDiffRead w info.size_table info.offset_table).2
          (shaBuf sha (bufList (fun j => w.data (info.offset_table + j)) info.size_table)) 0x20
          info.offset_partition_hash).1 <;> simp
      exact (s5 hw).2.2 t ht

/-- The hash condition of level `k` only depends on the file content at the
positions of levels `k` and `k - 1`. -/
theorem HashOK_congr {info : DisaDiffRWInfo} (sha : Sha) (hg : HashGeometry info) (k : Nat)
    (hk1 : 1 ≤ k) (hk4 : k ≤ 4) (w w1 : World)
    (hd : ∀ x, x < lvlSize info k → w1.data (lvlPos info k x) = w.data (lvlPos info k x))
    (hs : ∀ x, x < lvlSize info (k - 1) →
      w1.data (lvlPos info (k - 1) x) = w.data (lvlPos info (k - 1) x))
    (h : HashOK sha info w k) : HashOK sha info w1 k := by
  intro j hj t ht
  have hfit := lvlSize_hash_fits hg k hk1 hk4
  rw [hs _ (by omega), h j hj t ht,
    blockBytes_congr info w w1 k j (fun x hx => hd x (by rw [lvlSize_pos_eq info k hk1]; exact hx))]

/-- A change confined to a level other than `k` and `k - 1` keeps the hash
condition of level `k`. -/
theorem HashOK_frame {info : DisaDiffRWInfo} (sha : Sha) (hg : HashGeometry info) (k m a s : Nat)
    (hk1 : 1 ≤ k) (hk4 : k ≤ 4) (hm : m ≤ 4) (hmk : m ≠ k) (hmk1 : m ≠ k - 1)
    (hr : a + s ≤ lvlSize info m) (w w1 : World) (hc : ChangedWithin info m a s w w1)
    (h : HashOK sha info w k) : HashOK sha info w1 k := by
  apply HashOK_congr sha hg k hk1 hk4 w w1 _ _ h
  · intro x hx
    apply hc
    intro z _ hz2 e
    exact hmk (lvlPos_inj hg m k z x hm hk4 (by omega) hx e).1
  · intro x hx
    apply hc
    intro z _ hz2 e
    exact hmk1 (lvlPos_inj hg m (k - 1) z x hm (by omega) (by omega) hx e).1

/-- A change confined to the partition-hash slot keeps the hash condition of
every level. -/
theorem HashOK_frame_part {info : DisaDiffRWInfo} (sha : Sha) (hg : HashGeometry info) (k : Nat)
    (hk1 : 1 ≤ k) (hk4 : k ≤ 4) (w w1 : World)
    (hc : ∀ y, ¬ (info.offset_partition_hash ≤ y ∧ y < info.offset_partition_hash + 32) →
      w1.data y = w.data y)
    (h : HashOK sha info w k) : HashOK sha info w1 k := by
  apply HashOK_congr sha hg k hk1 hk4 w w1 _ _ h
  · intro x hx
    apply hc
    intro ⟨e1, e2⟩
    exact lvlPos_ne_part hg k x (lvlPos info k x - info.offset_partition_hash) hk4 hx
      (by omega) (by omega)
  · intro x hx
    apply hc
    intro ⟨e1, e2⟩
    exact lvlPos_ne_part hg (k - 1) x (lvlPos info (k - 1) x - info.offset_partition_hash)
      (by omega) hx (by omega) (by omega)

/-- One level of the fixer restores the hash condition of level `k`: if it
held before bytes `[a, a + s)` of the level changed, and the slots of the
blocks touching that range were then rewritten with the hashes of those
blocks, it holds again. -/
theorem HashOK_step {info : DisaDiffRWInfo} (sha : Sha) (hg : HashGeometry info) (k a s : Nat)
    (hk1 : 1 ≤ k) (hk4 : k ≤ 4) (hr : a + s ≤ info.size_ivfc_lvl (k - 1)) (wp wk wn : World)
    (hp : HashOK sha info wp k)
    (hd : ChangedWithin info k a s wp wk)
    (hf : ChangedWithin info (k - 1) (32 * firstBlock info k a) (32 * blockCount info k a s) wk wn)
    (hh : ∀ j, firstBlock info k a ≤ j → j < firstBlock info k a + blockCount info k a s →
      ∀ t, t < 32 →
        wn.data (lvlPos info (k - 1) (32 * j + t)) = shaBuf sha (blockBytes info wk k j) t) :
    HashOK sha info wn k := by
  have hB : 0 < ivfcBlock info k := by unfold ivfcBlock; positivity
  have hfit := lvlSize_hash_fits hg k hk1 hk4
  have hsz := lvlSize_pos_eq info k hk1
  obtain ⟨_, hcnt⟩ := block_range info k a s hr
  -- the fixer does not touch level k
  have hkeep : ∀ j, blockBytes info wn k j = blockBytes info wk k j := by
    intro j
    apply blockBytes_congr
    intro x hx
    apply hf
    intro z _ hz2 e
    have := (lvlPos_inj hg (k - 1) k z x (by omega) hk4 (by omega) (by omega) e).1
    omega
  intro j hj t ht
  rw [hkeep]
  by_cases hin : firstBlock info k a ≤ j ∧ j < firstBlock info k a + blockCount info k a s
  · exact hh j hin.1 hin.2 t ht
  · have e1 : wn.data (lvlPos info (k - 1) (32 * j + t))
        = wk.data (lvlPos info (k - 1) (32 * j + t)) := by
      apply hf
      intro z hz1 hz2 e
      have := (lvlPos_inj hg (k - 1) (k - 1) z (32 * j + t) (by omega) (by omega) (by omega)
        (by omega) e).2
      omega
    have e2 : wk.data (lvlPos info (k - 1) (32 * j + t))
        = wp.data (lvlPos info (k - 1) (32 * j + t)) := by
      apply hd
      intro z _ hz2 e
      have := (lvlPos_inj hg k (k - 1) z (32 * j + t) hk4 (by omega) (by omega) (by omega) e).1
      omega
    have e3 : blockBytes info wk k j = blockBytes info wp k j := by
      unfold blockBytes
      apply bufList_congr
      intro u hu
      split
      · rename_i hx
        apply hd
        intro z hz1 hz2 e
        have hzx := (lvlPos_inj hg k k z (j * ivfcBlock info k + u) hk4 hk4 (by omega)
          (by omega) e).2
        have hc := block_cover info k a s z hz1 hz2
        have hj' : z / ivfcBlock info k = j :=
          (block_index_iff z j (ivfcBlock info k) hB).mpr (by omega)
        omega
      · rfl
    rw [e1, e2, e3]
    exact hp j hj t ht
/-- The hash slots rewritten for a range of level `k` lie inside level `k - 1`. -/
theorem next_fits {info : DisaDiffRWInfo} (hg : HashGeometry info) (k a s : Nat)
    (hk1 : 1 ≤ k) (hk4 : k ≤ 4) (hr : a + s ≤ info.size_ivfc_lvl (k - 1)) :
    32 * firstBlock info k a + 32 * blockCount info k a s ≤ lvlSize info (k - 1) := by
  have h1 := (block_range info k a s hr).2
  have h2 := lvlSize_hash_fits hg k hk1 hk4
  omega

/-- A change confined to the hash levels keeps the bytes of level 4. -/
theorem ChangedWithin.keeps_lvl4 {info : DisaDiffRWInfo} (hg : HashGeometry info) (m a s : Nat)
    (hm : m ≤ 3) (hr : a + s ≤ lvlSize info m) (w w1 : World)
    (hc : ChangedWithin info m a s w w1) (x : Nat) (hx : x < info.size_ivfc_lvl4) :
    w1.data (lvlPos info 4 x) = w.data (lvlPos info 4 x) := by
  apply hc
  intro z _ hz2 e
  have := (lvlPos_inj hg m 4 z x (by omega) (by decide) (by omega) hx e).1
  omega

/-- The partition-hash slot is apart from the bytes of level 4. -/
theorem part_keeps_lvl4 {info : DisaDiffRWInfo} (hg : HashGeometry info) (w w1 : World)
    (hc : ∀ y, ¬ (info.offset_partition_hash ≤ y ∧ y < info.offset_partition_hash + 32) →
      w1.data y = w.data y) (x : Nat) (hx : x < info.size_ivfc_lvl4) :
    w1.data (lvlPos info 4 x) = w.data (lvlPos info 4 x) := by
  apply hc
  intro ⟨e1, e2⟩
  exact lvlPos_ne_part hg 4 x (lvlPos info 4 x - info.offset_partition_hash) (by decide) hx
    (by omega) (by omega)

/-- The descriptor table hashed by level 0 of the fixer is the one left in the
file. -/
theorem PartitionHashOK_of_fix {info : DisaDiffRWInfo} (sha : Sha) (hg : HashGeometry info)
    (w : World) (h : (FixDisaDiffPartitionHash sha info w).1 = 0) :
    PartitionHashOK sha info (FixDisaDiffPartitionHash sha info w).2 := by
  obtain ⟨_, _, _, s4, s5⟩ := FixDisaDiffPartitionHash_spec sha info w
  have hpt := hg.part_table
  intro t ht
  rw [s5 h t ht]
  congr 1
  apply bufList_congr
  intro j hj
  exact (s4 _ (by omega)).symm
/-- Specification of the fixing loop of `WriteDisaDiffIvfcLvl4` started on a
range inside level 4: it returns; it keeps the size, handle and presence of
the file and the bytes of level 4; and when every level was fixed, a hash
chain that held before the bytes of the range changed holds again, together
with the partition hash. -/
theorem fixChain_spec {info : DisaDiffRWInfo} (sha : Sha) (hg : HashGeometry info)
    (offset size : Nat) (w : World) (hr : offset + size ≤ info.size_ivfc_lvl4) :
    ∃ ok wf, fixChain sha info [4, 3, 2, 1, 0] offset size w = some (ok, wf) ∧
      wf.fsize = w.fsize ∧ wf.ddfp = w.ddfp ∧ wf.present = w.present ∧
      (∀ x, x < info.size_ivfc_lvl4 → wf.data (lvlPos info 4 x) = w.data (lvlPos info 4 x)) ∧
      (ok = true → ∀ wp, ChangedWithin info 4 offset size wp w →
        (∀ k, 1 ≤ k → k ≤ 4 → HashOK sha info wp k) →
        (∀ k, 1 ≤ k → k ≤ 4 → HashOK sha info wf k) ∧ PartitionHashOK sha info wf) := by
  -- level 4
  obtain ⟨ret4, w3, e4, f4, d4, p4, c4, h4⟩ := FixDisaDiffIvfcLevel_spec sha hg 4 (by decide)
    (by decide) offset size offset size w hr
  rw [if_neg (by decide), if_neg (by decide)] at e4
  have r3 := next_fits hg 4 offset size (by decide) (by decide) hr
  generalize ha3 : 32 * firstBlock info 4 offset = a3 at *
  generalize hs3 : 32 * blockCount info 4 offset size = s3 at *
  have k4 := ChangedWithin.keeps_lvl4 hg 3 a3 s3 (by decide) r3 w w3 c4
  -- level 3
  obtain ⟨ret3, w2, e3, f3, d3, p3, c3, h3⟩ := FixDisaDiffIvfcLevel_spec sha hg 3 (by decide)
    (by decide) a3 s3 a3 s3 w3 r3
  rw [if_neg (by decide), if_neg (by decide)] at e3
  have r2 := next_fits hg 3 a3 s3 (by decide) (by decide) r3
  generalize ha2 : 32 * firstBlock info 3 a3 = a2 at *
  generalize hs2 : 32 * blockCount info 3 a3 s3 = s2 at *
  have k3 := ChangedWithin.keeps_lvl4 hg 2 a2 s2 (by decide) r2 w3 w2 c3
  -- level 2
  obtain ⟨ret2, w1, e2, f2, d2, p2, c2, h2⟩ := FixDisaDiffIvfcLevel_spec sha hg 2 (by decide)
    (by decide) a2 s2 a2 s2 w2 r2
  rw [if_neg (by decide), if_neg (by decide)] at e2
  have r1 := next_fits hg 2 a2 s2 (by decide) (by decide) r2
  generalize ha1 : 32 * firstBlock info 2 a2 = a1 at *
  generalize hs1 : 32 * blockCount info 2 a2 s2 = s1 at *
  have k2 := ChangedWithin.keeps_lvl4 hg 1 a1 s1 (by decide) r1 w2 w1 c2
  -- level 1
  obtain ⟨ret1, w0, e1, f1, d1, p1, c1, h1⟩ := FixDisaDiffIvfcLevel_spec sha hg 1 (by decide)
    (by decide) a1 s1 a1 s1 w1 r1
  rw [if_pos rfl, if_pos rfl] at e1
  have r0 := next_fits hg 1 a1 s1 (by decide) (by decide) r1
  have k1 := ChangedWithin.keeps_lvl4 hg 0 _ _ (by decide) r0 w1 w0 c1
  -- level 0
  have e0 : FixDisaDiffIvfcLevel sha info 0 a1 s1 a1 s1 w0
      = some ((FixDisaDiffPartitionHash sha info w0).1, a1, s1,
          (FixDisaDiffPartitionHash sha info w0).2) := by
    unfold FixDisaDiffIvfcLevel
    rw [if_pos rfl]
  obtain ⟨f0, d0, p0, c0, _⟩ := FixDisaDiffPartitionHash_spec sha info w0
  have k0 := part_keeps_lvl4 hg w0 (FixDisaDiffPartitionHash sha info w0).2 c0
  have hph := PartitionHashOK_of_fix sha hg w0
  generalize FixDisaDiffPartitionHash sha info w0 = r at *
  -- the loop
  rw [fixChain, e4]
  simp only []
  by_cases z4 : ret4 = 0
  swap
  · rw [if_pos z4]
    exact ⟨false, w3, rfl, f4, d4, p4, k4, fun h => absurd h (by decide)⟩
  rw [if_neg (fun h => h z4), fixChain, e3]
  simp only []
  by_cases z3 : ret3 = 0
  swap
  · rw [if_pos z3]
    exact ⟨false, w2, rfl, by rw [f3, f4], by rw [d3, d4], by rw [p3, p4],
      fun x hx => by rw [k3 x hx, k4 x hx], fun h => absurd h (by decide)⟩
  rw [if_neg (fun h => h z3), fixChain, e2]
  simp only []
  by_cases z2 : ret2 = 0
  swap
  · rw [if_pos z2]
    exact ⟨false, w1, rfl, by rw [f2, f3, f4], by rw [d2, d3, d4], by rw [p2, p3, p4],
      fun x hx => by rw [k2 x hx, k3 x hx, k4 x hx], fun h => absurd h (by decide)⟩
  rw [if_neg (fun h => h z2), fixChain, e1]
  simp only []
  by_cases z1 : ret1 = 0
  swap
  · rw [if_pos z1]
    exact ⟨false, w0, rfl, by rw [f1, f2, f3, f4], by rw [d1, d2, d3, d4],
      by rw [p1, p2, p3, p4],
      fun x hx => by rw [k1 x hx, k2 x hx, k3 x hx, k4 x hx], fun h => absurd h (by decide)⟩
  rw [if_neg (fun h => h z1), fixChain, e0]
  simp only []
  by_cases z0 : r.1 = 0
  swap
  · rw [if_pos z0]
    exact ⟨false, r.2, rfl, by rw [f0, f1, f2, f3, f4], by rw [d0, d1, d2, d3, d4],
      by rw [p0, p1, p2, p3, p4],
      fun x hx => by rw [k0 x hx, k1 x hx, k2 x hx, k3 x hx, k4 x hx],
      fun h => absurd h (by decide)⟩
  rw [if_neg (fun h => h z0), fixChain]
  refine ⟨true, r.2, rfl, by rw [f0, f1, f2, f3, f4], by rw [d0, d1, d2, d3, d4],
    by rw [p0, p1, p2, p3, p4],
    fun x hx => by rw [k0 x hx, k1 x hx, k2 x hx, k3 x hx, k4 x hx], fun _ wp hcw hall => ?_⟩
  have hr4 : offset + size ≤ lvlSize info 4 := hr
  -- the hash condition of each level
  have q4 : HashOK sha info r.2 4 := by
    have s := HashOK_step sha hg 4 offset size (by decide) (by decide) hr wp w w3
      (hall 4 (by decide) (by decide)) hcw (by rw [ha3, hs3]; exact c4) (h4 z4)
    have s := HashOK_frame sha hg 4 2 a2 s2 (by decide) (by decide) (by decide) (by decide)
      (by decide) r2 w3 w2 c3 s
    have s := HashOK_frame sha hg 4 1 a1 s1 (by decide) (by decide) (by decide) (by decide)
      (by decide) r1 w2 w1 c2 s
    have s := HashOK_frame sha hg 4 0 _ _ (by decide) (by decide) (by decide) (by decide)
      (by decide) r0 w1 w0 c1 s
    exact HashOK_frame_part sha hg 4 (by decide) (by decide) w0 r.2 c0 s
  have q3 : HashOK sha info r.2 3 := by
    have s := HashOK_frame sha hg 3 4 offset size (by decide) (by decide) (by decide) (by decide)
      (by decide) hr4 wp w hcw (hall 3 (by decide) (by decide))
    have s := HashOK_step sha hg 3 a3 s3 (by decide) (by decide) r3 w w3 w2 s c4 (by rw [ha2, hs2]; exact c3) (h3 z3)
    have s := HashOK_frame sha hg 3 1 a1 s1 (by decide) (by decide) (by decide) (by decide)
      (by decide) r1 w2 w1 c2 s
    have s := HashOK_frame sha hg 3 0 _ _ (by decide) (by decide) (by decide) (by decide)
      (by decide) r0 w1 w0 c1 s
    exact HashOK_frame_part sha hg 3 (by decide) (by decide) w0 r.2 c0 s
  have q2 : HashOK sha info r.2 2 := by
    have s := HashOK_frame sha hg 2 4 offset size (by decide) (by decide) (by decide) (by decide)
      (by decide) hr4 wp w hcw (hall 2 (by decide) (by decide))
    have s := HashOK_frame sha hg 2 3 a3 s3 (by decide) (by decide) (by decide) (by decide)
      (by decide) r3 w w3 c4 s
    have s := HashOK_step sha hg 2 a2 s2 (by decide) (by decide) r2 w3 w2 w1 s c3 (by rw [ha1, hs1]; exact c2) (h2 z2)
    have s := HashOK_frame sha hg 2 0 _ _ (by decide) (by decide) (by decide) (by decide)
      (by decide) r0 w1 w0 c1 s
    exact HashOK_frame_part sha hg 2 (by decide) (by decide) w0 r.2 c0 s
  have q1 : HashOK sha info r.2 1 := by
    have s := HashOK_frame sha hg 1 4 offset size (by decide) (by decide) (by decide) (by decide)
      (by decide) hr4 wp w hcw (hall 1 (by decide) (by decide))
    have s := HashOK_frame sha hg 1 3 a3 s3 (by decide) (by decide) (by decide) (by decide)
      (by decide) r3 w w3 c4 s
    have s := HashOK_frame sha hg 1 2 a2 s2 (by decide) (by decide) (by decide) (by decide)
      (by decide) r2 w3 w2 c3 s
    have s := HashOK_step sha hg 1 a1 s1 (by decide) (by decide) r1 w2 w1 w0 s c2 c1 (h1 z1)
    exact HashOK_frame_part sha hg 1 (by decide) (by decide) w0 r.2 c0 s
  refine ⟨fun k hk1 hk4 => ?_, hph z0⟩
  have hk : k = 1 ∨ k = 2 ∨ k = 3 ∨ k = 4 := by omega
  rcases hk with rfl | rfl | rfl | rfl
  · exact q1
  · exact q2
  · exact q3
  · exact q4
/-- What `DisaDiffOpen` leaves behind: the file as it was, and an open handle
exactly when a path was given and the file is present. -/
theorem DisaDiffOpen_spec (path : Bool) (w : World) :
    (DisaDiffOpen path w).2.fsize = w.fsize ∧ (DisaDiffOpen path w).2.present = w.present ∧
    (DisaDiffOpen path w).2.data = w.data ∧
    ((DisaDiffOpen path w).2.ddfp = true ↔ (path = true ∧ w.present = true)) ∧
    ((DisaDiffOpen path w).1 = false → (DisaDiffOpen path w).2.ddfp = false) := by
  cases path <;> cases hp : w.present <;> simp [DisaDiffOpen, hp]

/-- Offsets of level 4 stay below `2^32` once added to the start of the level. -/
theorem lvl4_offset_u32 {info : DisaDiffRWInfo} (hg : HashGeometry info) (offset : Nat)
    (hr : offset ≤ info.size_ivfc_lvl4) : info.offset_ivfc_lvl4 + offset < 2 ^ 32 := by
  obtain ⟨_, _, h, _⟩ := hg.level 4 (by decide) (by decide)
  have g3 := hg.lvl3.lvl3_u32
  have hp : 0 < ivfcBlock info 4 := by unfold ivfcBlock; positivity
  have e1 : info.offset_ivfc_lvl (4 - 1) = info.offset_ivfc_lvl4 := rfl
  have e2 : info.size_ivfc_lvl (4 - 1) = info.size_ivfc_lvl4 := rfl
  rw [e1, e2] at h
  split at h <;> omega

/-- The data write of `WriteDisaDiffIvfcLvl4` (lines 550-555) on a range inside
level 4: it returns `size` or 0, changes only the bytes of the range, and when
it returns non-zero the range holds the buffer and lay in the open file. -/
theorem lvl4_write_spec {info : DisaDiffRWInfo} (hg : HashGeometry info) (offset size : Nat)
    (buffer : Buf) (w0 : World) (hr : offset + size ≤ info.size_ivfc_lvl4) :
    ∃ m w1,
      (if info.ivfc_use_extlvl4 ≠ 0 then
        some (if (DisaDiffWrite w0 buffer size (u32 (info.offset_ivfc_lvl4 + offset))).1 = true
            then size else 0,
          (DisaDiffWrite w0 buffer size (u32 (info.offset_ivfc_lvl4 + offset))).2)
       else WriteDisaDiffDpfsLvl3 info (u32 (info.offset_ivfc_lvl4 + offset)) size buffer w0)
        = some (m, w1) ∧
      w1.fsize = w0.fsize ∧ w1.ddfp = w0.ddfp ∧ w1.present = w0.present ∧ (m = size ∨ m = 0) ∧
      ChangedWithin info 4 offset size w0 w1 ∧
      (m ≠ 0 → w0.ddfp = true ∧
        (∀ j, j < size → w1.data (lvlPos info 4 (offset + j)) = buffer j) ∧
        (∀ j, j < size → lvlPos info 4 (offset + j) < w0.fsize)) := by
  have hu := lvl4_offset_u32 hg offset (by omega)
  rw [u32_eq hu]
  by_cases hx : info.ivfc_use_extlvl4 ≠ 0
  · rw [if_pos hx]
    obtain ⟨s1, s2, s3, s4, s5⟩ := DisaDiffWrite_spec w0 buffer size (info.offset_ivfc_lvl4 + offset)
    refine ⟨_, _, rfl, s1, s2, s3, ?_, ?_, ?_⟩
    · split
      · exact Or.inl rfl
      · exact Or.inr rfl
    · intro y hy
      apply s4
      intro ⟨h1, h2⟩
      apply hy (y - info.offset_ivfc_lvl4) (by omega) (by omega)
      rw [lvlPos_ext info _ hx]
      omega
    · intro hm
      have hok : (DisaDiffWrite w0 buffer size (info.offset_ivfc_lvl4 + offset)).1 = true := by
        by_contra hc
        rw [if_neg hc] at hm
        exact hm rfl
      obtain ⟨t1, t2, t3⟩ := s5 hok
      refine ⟨t1, fun j hj => ?_, fun j hj => ?_⟩
      · rw [lvlPos_ext info _ hx, ← Nat.add_assoc]
        exact t3 j hj
      · rw [lvlPos_ext info _ hx]
        omega
  · rw [if_neg hx]
    have hin := hg.lvl4_in (by_contra fun hc => hx hc)
    have hpos : ∀ x, lvlPos info 4 x = phys info (info.offset_ivfc_lvl4 + x) := fun x =>
      lvlPos_dpfs info 4 x (by decide) (fun hc => hx hc.2)
    obtain ⟨n, w1, e, a1, a2, a3, a4, a5, a6, a7, _⟩ := WriteDisaDiffDpfsLvl3_spec info hg.lvl3
      (info.offset_ivfc_lvl4 + offset) size buffer w0 (by omega)
    refine ⟨n, w1, e, a1, a2, a3, a4, ?_, ?_⟩
    · intro y hy
      apply a5
      intro x h1 h2 hp
      apply hy (x - info.offset_ivfc_lvl4) (by omega) (by omega)
      rw [hpos, ← hp]
      congr 1
      omega
    · intro hm
      refine ⟨(a7 hm).1, fun j hj => ?_, fun j hj => ?_⟩
      · rw [hpos, ← Nat.add_assoc, a6 hm _ (by omega) (by omega)]
        congr 1
        omega
      · rw [hpos, ← Nat.add_assoc]
        exact (a7 hm).2 _ (by omega) (by omega)
/-- Specification of `WriteDisaDiffIvfcLvl4` with a descriptor, on a range
inside level 4: the call returns; it keeps the size and presence of the file;
and when it returns non-zero it returns `size`, the file was present and named
by a path, the range holds the buffer and lies in the file, and a hash chain
that held before the call holds after it, together with the partition hash. -/
theorem WriteDisaDiffIvfcLvl4_spec {info : DisaDiffRWInfo} (sha : Sha) (hg : HashGeometry info)
    (path : Bool) (w : World) (offset size : Nat) (buffer : Buf)
    (hr : offset + size ≤ info.size_ivfc_lvl4) :
    ∃ n w1, WriteDisaDiffIvfcLvl4 sha path w (some info) offset size buffer = some (n, w1) ∧
      w1.fsize = w.fsize ∧ w1.present = w.present ∧
      (n ≠ 0 → n = size ∧ path = true ∧ w.present = true ∧
        (∀ j, j < size → w1.data (lvlPos info 4 (offset + j)) = buffer j) ∧
        (∀ j, j < size → lvlPos info 4 (offset + j) < w.fsize) ∧
        ((∀ k, 1 ≤ k → k ≤ 4 → HashOK sha info w k) →
          (∀ k, 1 ≤ k → k ≤ 4 → HashOK sha info w1 k) ∧ PartitionHashOK sha info w1)) := by
  have hu := lvl4_offset_u32 hg (offset + size) hr
  obtain ⟨o1, o2, o3, o4, o5⟩ := DisaDiffOpen_spec path w
  unfold WriteDisaDiffIvfcLvl4 localInfo
  simp only []
  rw [if_neg (by rw [u32_eq (by omega)]; omega)]
  generalize DisaDiffOpen path w = o at *
  -- the size after the open
  obtain ⟨size1, hs1, hs1z⟩ : ∃ s, (if o.1 = false then 0 else size) = s ∧
      (s = size ∨ (s = 0 ∧ o.2.ddfp = false)) := by
    by_cases h : o.1 = false
    · exact ⟨0, by rw [if_pos h], Or.inr ⟨rfl, o5 h⟩⟩
    · exact ⟨size, by rw [if_neg h], Or.inl rfl⟩
  rw [hs1]
  obtain ⟨m, w2, e, a1, a2, a3, a4, a5, a6⟩ := lvl4_write_spec hg offset size1 buffer o.2
    (by rcases hs1z with h | h <;> omega)
  rw [e]
  simp only []
  have hm0 : m ≠ 0 → size1 = size ∧ m = size ∧ w2.ddfp = true := by
    intro hm
    have hd := (a6 hm).1
    rcases hs1z with h | ⟨_, h⟩
    · subst h
      exact ⟨rfl, by omega, by rw [a2, hd]⟩
    · rw [h] at hd
      exact absurd hd (by decide)
  by_cases hc : m ≠ 0 ∧ w2.ddfp = true
  · rw [if_pos hc]
    obtain ⟨hsz, hmz, _⟩ := hm0 hc.1
    subst hsz
    subst hmz
    obtain ⟨ok, wf, ef, b1, b2, b3, b4, b5⟩ := fixChain_spec sha hg offset m w2 hr
    rw [ef]
    refine ⟨_, _, rfl, by show wf.fsize = w.fsize; rw [b1, a1, o1],
      by show wf.present = w.present; rw [b3, a3, o2], fun hn => ?_⟩
    have hok : ok = true := by
      cases ok
      · exact absurd rfl hn
      · rfl
    subst hok
    have hdp := (a6 hc.1).1
    refine ⟨rfl, (o4.mp hdp).1, (o4.mp hdp).2, fun j hj => ?_, fun j hj => ?_, fun hall => ?_⟩
    · show wf.data (lvlPos info 4 (offset + j)) = buffer j
      rw [b4 _ (by omega)]
      exact (a6 hc.1).2.1 j hj
    · rw [← o1]
      exact (a6 hc.1).2.2 j hj
    · have hcw : ChangedWithin info 4 offset m w w2 := by
        intro y hy
        rw [a5 y hy, o3]
      exact b5 rfl w hcw hall
  · rw [if_neg hc]
    refine ⟨m, _, rfl, by show w2.fsize = w.fsize; rw [a1, o1],
      by show w2.present = w.present; rw [a3, o2], fun hn => ?_⟩
    exact absurd ⟨hn, (hm0 hn).2.2⟩ hc

/-- Specification of `ReadDisaDiffIvfcLvl4` with a descriptor, on a non-empty
range inside level 4 that lies in a present file named by a path: the call
returns `size` and the buffer holds the bytes of the range. -/
theorem ReadDisaDiffIvfcLvl4_spec {info : DisaDiffRWInfo} (hg : HashGeometry info)
    (w : World) (offset size : Nat) (buffer : Buf) (hs : 0 < size)
    (hr : offset + size ≤ info.size_ivfc_lvl4) (hp : w.present = true)
    (hin : ∀ j, j < size → lvlPos info 4 (offset + j) < w.fsize) :
    ∃ out w1, ReadDisaDiffIvfcLvl4 true w (some info) offset size buffer = some (size, out, w1) ∧
      ∀ j, j < size → out j = w.data (lvlPos info 4 (offset + j)) := by
  have hu := lvl4_offset_u32 hg (offset + size) hr
  obtain ⟨o1, o2, o3, o4, o5⟩ := DisaDiffOpen_spec true w
  have hd := o4.mpr ⟨rfl, hp⟩
  have ho : (DisaDiffOpen true w).1 = true := by
    by_contra hc
    have := o5 (by simpa using hc)
    rw [hd] at this
    exact absurd this (by decide)
  unfold ReadDisaDiffIvfcLvl4 localInfo
  simp only []
  generalize DisaDiffOpen true w = o at *
  rw [ho]
  simp only [Bool.true_eq_false, if_false]
  rw [if_neg (show ¬ offset > info.size_ivfc_lvl4 by omega),
    u32_eq (show offset + size < 2 ^ 32 by omega),
    if_neg (show ¬ offset + size > info.size_ivfc_lvl4 by omega),
    u32_eq (show info.offset_ivfc_lvl4 + offset < 2 ^ 32 by omega)]
  by_cases hx : info.ivfc_use_extlvl4 ≠ 0
  · rw [if_pos hx]
    have hlast := hin (size - 1) (by omega)
    rw [lvlPos_ext info _ hx] at hlast
    have hrd : (DisaDiffRead o.2 size (info.offset_ivfc_lvl4 + offset)).1 = true := by
      unfold DisaDiffRead
      rw [if_pos hd]
      exact decide_eq_true (by rw [o1]; omega)
    rw [hrd]
    refine ⟨_, _, rfl, fun j hj => ?_⟩
    show storeAt buffer 0 size (fun j => o.2.data (info.offset_ivfc_lvl4 + offset + j)) j = _
    rw [storeAt_apply, if_pos (by omega), o3, lvlPos_ext info _ hx, Nat.sub_zero, Nat.add_assoc]
  · rw [if_neg hx]
    have h4 := hg.lvl4_in (by_contra fun hc => hx hc)
    have hpos : ∀ x, lvlPos info 4 x = phys info (info.offset_ivfc_lvl4 + x) := fun x =>
      lvlPos_dpfs info 4 x (by decide) (fun hc => hx hc.2)
    obtain ⟨n, out, w1, e, a0, a1, a2, a3, a4, a5, a6, a7, a8⟩ := ReadDisaDiffDpfsLvl3_spec info
      hg.lvl3 (info.offset_ivfc_lvl4 + offset) size buffer o.2 (by omega)
    have hn : n = size := by
      apply a8 hd
      intro x h1 h2
      have := hin (x - (info.offset_ivfc_lvl4 + offset)) (by omega)
      rw [hpos, o1] at *
      rw [show info.offset_ivfc_lvl4 + (offset + (x - (info.offset_ivfc_lvl4 + offset))) = x by
        omega] at this
      exact this
    subst hn
    rw [e]
    refine ⟨out, _, rfl, fun j hj => ?_⟩
    rw [a6 (by omega) j hj, o3, hpos, Nat.add_assoc]
/-- The descriptor `chainInfo` has the geometry of a valid container. -/
theorem chainInfo_geometry : HashGeometry chainInfo where
  lvl3 := ⟨by decide, by decide⟩
  log_le := by decide
  inside := by decide
  order := by decide
  capacity := by decide
  master_u32 := by decide
  lvl4_in := fun _ => by decide
  lvl4_ext := fun h => absurd rfl h
  master_out := by decide
  part_out := by decide
  part_master := by decide
  part_table := by decide

/-- In a file of zero bytes the hash chain of the toy digest holds. -/
theorem zero_chain (info : DisaDiffRWInfo) (w : World) (hw : ∀ p, w.data p = 0) (k : Nat) :
    HashOK toySha info w k := by
  intro j _ t ht
  have hb : blockBytes info w k j = bufList (fun _ => 0) (ivfcBlock info k) := by
    unfold blockBytes
    apply bufList_congr
    intro u _
    split
    · exact hw _
    · rfl
  have hsum : (bufList (fun _ => 0) (ivfcBlock info k)).sum = 0 := by
    unfold bufList
    simp
  rw [hw, hb]
  unfold shaBuf toySha
  rw [hsum]
  interval_cases t <;> rfl
/-- Claim C1 (read/write round trip).  For every descriptor with the geometry
of a valid container (its level-2 cache built), every range
`[offset, offset + size)` with `size > 0` inside level 4 and every buffer,
`WriteDisaDiffIvfcLvl4` returns, and when it returns non-zero (a successful
write) a following `ReadDisaDiffIvfcLvl4` of the same range returns `size`
and yields exactly the bytes written: the hash fixes of the write leave the
bytes of level 4 alone. -/
theorem write_read_round_trip {info : DisaDiffRWInfo} (sha : Sha) (hg : HashGeometry info)
    (path : Bool) (w : World) (offset size : Nat) (buffer out0 : Buf) (hs : 0 < size)
    (hr : offset + size ≤ info.size_ivfc_lvl4) :
    ∃ n w1, WriteDisaDiffIvfcLvl4 sha path w (some info) offset size buffer = some (n, w1) ∧
      (n ≠ 0 → ∃ out w2,
        ReadDisaDiffIvfcLvl4 path w1 (some info) offset size out0 = some (size, out, w2) ∧
        ∀ j, j < size → out j = buffer j) := by
  obtain ⟨n, w1, e, f1, f2, h⟩ := WriteDisaDiffIvfcLvl4_spec sha hg path w offset size buffer hr
  refine ⟨n, w1, e, fun hn => ?_⟩
  obtain ⟨_, hp, hpr, hd, hin, _⟩ := h hn
  subst hp
  obtain ⟨out, w2, er, ho⟩ := ReadDisaDiffIvfcLvl4_spec hg w1 offset size out0 hs hr
    (by rw [f2, hpr]) (fun j hj => by rw [f1]; exact hin j hj)
  exact ⟨out, w2, er, fun j hj => by rw [ho j hj, hd j hj]⟩

/-- Scenario for claim C1: on the small container `chainInfo` / `chainWorld`,
writing the 17 bytes 1, 2, ..., 17 at offset 5 of level 4 (16-byte blocks)
returns 17, and reading the range back returns 17 and those bytes. -/
theorem write_read_round_trip_scenario :
    HashGeometry chainInfo ∧ 0 < 17 ∧ 5 + 17 ≤ chainInfo.size_ivfc_lvl4 ∧
    (WriteDisaDiffIvfcLvl4 toySha true chainWorld (some chainInfo) 5 17 (fun j => j + 1)).map
      (fun r => r.1) = some 17 ∧
    ∃ n w1, WriteDisaDiffIvfcLvl4 toySha true chainWorld (some chainInfo) 5 17 (fun j => j + 1)
        = some (n, w1) ∧
      (n ≠ 0 → ∃ out w2,
        ReadDisaDiffIvfcLvl4 true w1 (some chainInfo) 5 17 (fun _ => 0) = some (17, out, w2) ∧
        ∀ j, j < 17 → out j = j + 1) :=
  ⟨chainInfo_geometry, by decide, by decide, by decide,
    write_read_round_trip toySha chainInfo_geometry true chainWorld 5 17 (fun j => j + 1)
      (fun _ => 0) (by decide) (by decide)⟩

/-- Hash-chain closure for writes inside level 4, the case of claim C2 in
which the range check of the write does not wrap.  For every
descriptor with the geometry of a valid container, every range with
`offset + size ≤ size_ivfc_lvl4` and every file whose hash chain holds,
`WriteDisaDiffIvfcLvl4` returns, and when it returns non-zero the hash of every
block of level 4 is stored at its slot of level 3, likewise level 3 in level 2
and level 2 in level 1, the hash of every block of level 1 is stored at
`offset_difi + offset_master_hash + 32 * index`, and the hash of the
`size_table` bytes at `offset_table` is stored at `offset_partition_hash`. -/
theorem write_hash_chain_closure {info : DisaDiffRWInfo} (sha : Sha) (hg : HashGeometry info)
    (path : Bool) (w : World) (offset size : Nat) (buffer : Buf)
    (hr : offset + size ≤ info.size_ivfc_lvl4)
    (hchain : ∀ k, 1 ≤ k → k ≤ 4 → HashOK sha info w k) :
    ∃ n w1, WriteDisaDiffIvfcLvl4 sha path w (some info) offset size buffer = some (n, w1) ∧
      (n ≠ 0 → (∀ k, 1 ≤ k → k ≤ 4 → HashOK sha info w1 k) ∧ PartitionHashOK sha info w1) := by
  obtain ⟨n, w1, e, _, _, h⟩ := WriteDisaDiffIvfcLvl4_spec sha hg path w offset size buffer hr
  exact ⟨n, w1, e, fun hn => (h hn).2.2.2.2.2 hchain⟩

/-- Scenario for `write_hash_chain_closure`: on the small container
`chainInfo` / `chainWorld`, whose hash chain holds, writing 17 bytes at offset 5 of level 4 returns 17,
stores the hash of the first level-4 block at slot 0 of level 3, and leaves the
whole chain and the partition hash in order. -/
theorem write_hash_chain_closure_scenario :
    HashGeometry chainInfo ∧ 5 + 17 ≤ chainInfo.size_ivfc_lvl4 ∧
    (∀ k, 1 ≤ k → k ≤ 4 → HashOK toySha chainInfo chainWorld k) ∧
    (WriteDisaDiffIvfcLvl4 toySha true chainWorld (some chainInfo) 5 17 (fun j => j + 1)).map
      (fun r => (r.1, r.2.data (lvlPos chainInfo 3 0))) = some (17, 66) ∧
    ∃ n w1, WriteDisaDiffIvfcLvl4 toySha true chainWorld (some chainInfo) 5 17 (fun j => j + 1)
        = some (n, w1) ∧
      (n ≠ 0 → (∀ k, 1 ≤ k → k ≤ 4 → HashOK toySha chainInfo w1 k) ∧
        PartitionHashOK toySha chainInfo w1) :=
  ⟨chainInfo_geometry, by decide, fun k _ _ => zero_chain chainInfo chainWorld (fun _ => rfl) k,
    by decide,
    write_hash_chain_closure toySha chainInfo_geometry true chainWorld 5 17 (fun j => j + 1)
      (by decide) (fun k _ _ => zero_chain chainInfo chainWorld (fun _ => rfl) k)⟩

/-- Evaluation for claim C2 (hash-chain closure) at the failing input.  On the
small container `chainInfo` / `chainWorld`, whose hash chain holds, the call
with `offset = 0xFFFFFFFF` and `size = 2` passes the check of line 545 because
the 32-bit `offset + size` wraps to 1; it returns 2, having written one byte
over the last byte of level 3 (the hash slot of level-4 block 1) and one at the
start of level 4; the fixer then rehashes level-4 block 0 only, so after this
successful write the hash stored for block 1 does not match the block. -/
theorem write_wrapped_range_breaks_chain :
    HashGeometry chainInfo ∧
    (∀ k, 1 ≤ k → k ≤ 4 → HashOK toySha chainInfo chainWorld k) ∧
    ∃ w1, WriteDisaDiffIvfcLvl4 toySha true chainWorld (some chainInfo) (2 ^ 32 - 1) 2
        (fun _ => 1) = some (2, w1) ∧
      ¬ HashOK toySha chainInfo w1 4 := by
  refine ⟨chainInfo_geometry,
    fun k _ _ => zero_chain chainInfo chainWorld (fun _ => rfl) k, ?_⟩
  have ev : (WriteDisaDiffIvfcLvl4 toySha true chainWorld (some chainInfo) (2 ^ 32 - 1) 2
      (fun _ => 1)).map
      (fun r => (r.1, r.2.data (lvlPos chainInfo 3 (32 * 1 + 31)),
        shaBuf toySha (blockBytes chainInfo r.2 4 1) 31)) = some (2, 1, 0) := by decide
  cases hw : WriteDisaDiffIvfcLvl4 toySha true chainWorld (some chainInfo) (2 ^ 32 - 1) 2
      (fun _ => 1) with
  | none =>
    rw [hw] at ev
    exact absurd ev (by simp)
  | some r =>
    rw [hw] at ev
    simp only [Option.map_some', Option.some.injEq, Prod.mk.injEq] at ev
    obtain ⟨e1, e2, e3⟩ := ev
    refine ⟨r.2, by rw [← e1], fun h => ?_⟩
    have hb := h 1 (by decide) 31 (by decide)
    rw [e2, e3] at hb
    exact absurd hb (by decide)
/-- While `size_dpfs_lvl3 + 2 ^ log_dpfs_lvl3` and `min_bits + 31` stay within
32 bits, the locals of the cache builder are the natural-number values. -/
theorem min_cache_size_eq (info : DisaDiffRWInfo) (hlog : info.log_dpfs_lvl3 ≤ 31)
    (hsz : info.size_dpfs_lvl3 + 2 ^ info.log_dpfs_lvl3 ≤ 2 ^ 32)
    (h31 : minBits info + 31 < 2 ^ 32) :
    min_cache_bits info = minBits info ∧ min_cache_size info = minBytes info := by
  have hp : 0 < 2 ^ info.log_dpfs_lvl3 := by positivity
  have hp31 : 2 ^ info.log_dpfs_lvl3 ≤ 2 ^ 31 := Nat.pow_le_pow_right (by decide) hlog
  have key : sub32 (u32 (info.size_dpfs_lvl3 + 2 ^ info.log_dpfs_lvl3)) 1
      = info.size_dpfs_lvl3 + 2 ^ info.log_dpfs_lvl3 - 1 := by
    unfold sub32 u32
    generalize 2 ^ info.log_dpfs_lvl3 = B at *
    have h1 : 1 % 2 ^ 32 = 1 := by norm_num
    rw [h1]
    by_cases he : info.size_dpfs_lvl3 + B = 2 ^ 32
    · rw [he]
      norm_num
    · rw [Nat.mod_eq_of_lt (show info.size_dpfs_lvl3 + B < 2 ^ 32 by omega)]
      have : info.size_dpfs_lvl3 + B + 2 ^ 32 - 1
          = (info.size_dpfs_lvl3 + B - 1) + 2 ^ 32 := by omega
      rw [this, Nat.add_mod_right, Nat.mod_eq_of_lt (by omega)]
  have hs1 : shl32 1 info.log_dpfs_lvl3 = 2 ^ info.log_dpfs_lvl3 := by
    rw [shl32_eq (by omega)]
    omega
  have hb : min_cache_bits info = minBits info := by
    show (sub32 (u32 (info.size_dpfs_lvl3 + shl32 1 info.log_dpfs_lvl3)) 1)
        / 2 ^ info.log_dpfs_lvl3
      = (info.size_dpfs_lvl3 + 2 ^ info.log_dpfs_lvl3 - 1) / 2 ^ info.log_dpfs_lvl3
    rw [hs1, key]
  refine ⟨hb, ?_⟩
  show ((min_cache_bits info + 31) % 2 ^ 32 / 2 ^ (3 + 2) * 2 ^ 2) % 2 ^ 32
    = (minBits info + 32 - 1) / 32 * 4
  rw [hb, Nat.mod_eq_of_lt h31]
  have e : minBits info + 32 - 1 = minBits info + 31 := by omega
  rw [e]
  have h5 : (2 : Nat) ^ (3 + 2) = 32 := by norm_num
  have h2 : (2 : Nat) ^ 2 = 4 := by norm_num
  rw [h5, h2]
  apply Nat.mod_eq_of_lt
  have := Nat.div_mul_le_self (minBits info + 31) 32
  omega
/-- Claim C11 (cache-size checks), for descriptors whose sizes do not wrap.
With `min_bits = ceildiv(size_dpfs_lvl3, 2 ^ log_dpfs_lvl3)` and
`min_bytes = ceildiv(min_bits, 32) * 4` as natural numbers, for every
descriptor with `log_dpfs_lvl3 ≤ 31`, `size_dpfs_lvl3 + 2 ^ log_dpfs_lvl3 ≤ 2^32`
and `min_bits + 31 < 2^32`, and every buffer length,
`BuildDisaDiffDpfsLvl2Cache` returns 1 with the file layer, the descriptor and
the buffer as they were whenever `cache_size < min_bytes`, or
`min_bytes > size_dpfs_lvl2`, or
`min_bytes > size_dpfs_lvl1 * 2 ^ (3 + log_dpfs_lvl2)`. -/
theorem build_cache_size_checks (path : Bool) (w : World) (info : DisaDiffRWInfo) (cache : Buf)
    (cache_size : Nat) (hlog : info.log_dpfs_lvl3 ≤ 31)
    (hsz : info.size_dpfs_lvl3 + 2 ^ info.log_dpfs_lvl3 ≤ 2 ^ 32)
    (h31 : minBits info + 31 < 2 ^ 32)
    (hrej : cache_size < minBytes info ∨ minBytes info > info.size_dpfs_lvl2 ∨
      minBytes info > info.size_dpfs_lvl1 * 2 ^ (3 + info.log_dpfs_lvl2)) :
    BuildDisaDiffDpfsLvl2Cache path w info cache cache_size = some (1, w, info, cache) := by
  have hm := (min_cache_size_eq info hlog hsz h31).2
  have hshl : shl32 info.size_dpfs_lvl1 (u32 (3 + info.log_dpfs_lvl2))
      ≤ info.size_dpfs_lvl1 * 2 ^ (3 + info.log_dpfs_lvl2) := by
    unfold shl32
    refine le_trans (Nat.mod_le _ _) (Nat.mul_le_mul_left _ ?_)
    exact Nat.pow_le_pow_right (by decide) (Nat.mod_le _ _)
  unfold BuildDisaDiffDpfsLvl2Cache
  rw [hm]
  simp only []
  rw [if_pos (by
    rcases hrej with h | h | h
    · exact Or.inl h
    · exact Or.inr (Or.inl h)
    · exact Or.inr (Or.inr (by omega)))]

/-- Scenario for claim C11: `size_dpfs_lvl3 = 0x2000` with `log_dpfs_lvl3 = 9`
gives `min_bits = 16` and `min_bytes = 4`, and a buffer of 3 bytes is rejected
with nothing read or stored. -/
theorem build_cache_size_checks_scenario :
    minBits cacheInfo = 16 ∧ minBytes cacheInfo = 4 ∧
    BuildDisaDiffDpfsLvl2Cache true (cacheWorld 0x1003) cacheInfo (fun _ => 0) 3
      = some (1, cacheWorld 0x1003, cacheInfo, fun _ => 0) :=
  ⟨by decide, by decide,
    build_cache_size_checks true (cacheWorld 0x1003) cacheInfo (fun _ => 0) 3 (by decide)
      (by decide) (by decide) (Or.inl (by decide))⟩

/-- Counterexample to claim C11 as stated (sizes as natural numbers, every
descriptor).  For a DPFS level 3 of `0xFFFFFFFF` bytes in 512-byte blocks
`min_bytes` is `2^20`, but the 32-bit sum `size_dpfs_lvl3 + 511` wraps, the
local `min_cache_size` is 0 and all three checks pass: with a buffer of
`0x100` bytes the call returns 0 after reading level 1 and the `0x100` bytes of
level-2 copy 0 into the buffer. -/
theorem build_cache_wrapped_min_size :
    minBytes wideLvl3Info = 2 ^ 20 ∧ 0x100 < minBytes wideLvl3Info ∧
    (BuildDisaDiffDpfsLvl2Cache true (cacheWorld 0x1003) wideLvl3Info (fun _ => 0) 0x100).map
      (fun r => (r.1, r.2.1.trace, r.2.2.2 0))
      = some (0, [IoEvent.read 0x1000 4, IoEvent.read 0x1010 0x100], 0x11) := by
  refine ⟨by decide, by decide, by decide⟩
/-- Claim C12 (DPFS routing).  For every descriptor whose level-3 geometry does
not wrap in 32 bits, every range `[offset, offset + size)` inside level 3, and
every file with the handle open in which the positions the cache assigns to
the range lie (so that every physical transfer succeeds):
`ReadDisaDiffDpfsLvl3` returns `size` and `out[j]` is the file byte at
`phys (offset + j)`, the position in copy 0 when the cache bit of the block is
clear and in copy 1 otherwise; `WriteDisaDiffDpfsLvl3` returns `size`, stores
`in[j]` at that same position and changes no other byte of the file. -/
theorem dpfs_routing (info : DisaDiffRWInfo) (g : Lvl3Geometry info) (offset size : Nat)
    (buffer : Buf) (w : World) (hr : offset + size ≤ info.size_dpfs_lvl3)
    (hd : w.ddfp = true)
    (hin : ∀ x, offset ≤ x → x < offset + size → phys info x < w.fsize) :
    (∀ x, phys info x = (if GET_DPFS_BIT (shr x info.log_dpfs_lvl3) info.dpfs_lvl2_cache = 0
        then info.offset_dpfs_lvl3 else info.offset_dpfs_lvl3 + info.size_dpfs_lvl3) + x) ∧
    (∃ out w1, ReadDisaDiffDpfsLvl3 info offset size buffer w = some (size, out, w1) ∧
      w1.data = w.data ∧
      ∀ j, j < size → out j = w.data (phys info (offset + j))) ∧
    (∃ w1, WriteDisaDiffDpfsLvl3 info offset size buffer w = some (size, w1) ∧
      (∀ j, j < size → w1.data (phys info (offset + j)) = buffer j) ∧
      ∀ y, (∀ j, j < size → phys info (offset + j) ≠ y) → w1.data y = w.data y) := by
  refine ⟨fun x => rfl, ?_, ?_⟩
  · obtain ⟨n, out, w1, e, a0, _, _, _, _, _, a6, _, a8⟩ :=
      ReadDisaDiffDpfsLvl3_spec info g offset size buffer w hr
    have hn : n = size := a8 hd hin
    subst hn
    by_cases hs : n = 0
    · subst hs
      exact ⟨out, w1, e, a0, fun j hj => absurd hj (by omega)⟩
    · exact ⟨out, w1, e, a0, a6 hs⟩
  · obtain ⟨n, w1, e, _, _, _, _, a5, a6, _, a8⟩ :=
      WriteDisaDiffDpfsLvl3_spec info g offset size buffer w hr
    have hn : n = size := a8 hd hin
    subst hn
    refine ⟨w1, e, fun j hj => ?_, fun y hy => ?_⟩
    · have := a6 (by omega) (offset + j) (by omega) (by omega)
      rw [Nat.add_sub_cancel_left] at this
      exact this
    · apply a5
      intro x h1 h2 hp
      apply hy (x - offset) (by omega)
      rw [← hp]
      congr 1
      omega

/-- Scenario for claim C12: on `walkInfo` (cache bit 1 set) and the open file
`walkWorld`, reading the 40 bytes from level-3 offset 20 returns byte
`0x400 + 20` first and byte `0x500 + 32` at index 12; writing them stores the
buffer at those same positions. -/
theorem dpfs_routing_scenario :
    Lvl3Geometry walkInfo ∧ 20 + 40 ≤ walkInfo.size_dpfs_lvl3 ∧ walkWorld.ddfp = true ∧
    phys walkInfo 20 = 0x400 + 20 ∧ phys walkInfo 32 = 0x500 + 32 ∧
    (∃ out w1, ReadDisaDiffDpfsLvl3 walkInfo 20 40 (fun _ => 0) walkWorld = some (40, out, w1) ∧
      w1.data = walkWorld.data ∧
      ∀ j, j < 40 → out j = walkWorld.data (phys walkInfo (20 + j))) ∧
    (∃ w1, WriteDisaDiffDpfsLvl3 walkInfo 20 40 (fun j => j + 1) walkWorld = some (40, w1) ∧
      (∀ j, j < 40 → w1.data (phys walkInfo (20 + j)) = j + 1) ∧
      ∀ y, (∀ j, j < 40 → phys walkInfo (20 + j) ≠ y) → w1.data y = walkWorld.data y) := by
  have g : Lvl3Geometry walkInfo := ⟨by decide, by decide⟩
  have h := dpfs_routing walkInfo g 20 40 (fun _ => 0) walkWorld (by decide) rfl
    (fun x _ hx => lt_of_lt_of_le (phys_lt walkInfo x (by
      have : walkInfo.size_dpfs_lvl3 = 256 := rfl
      omega)).2 (by decide))
  have h2 := dpfs_routing walkInfo g 20 40 (fun j => j + 1) walkWorld (by decide) rfl
    (fun x _ hx => lt_of_lt_of_le (phys_lt walkInfo x (by
      have : walkInfo.size_dpfs_lvl3 = 256 := rfl
      omega)).2 (by decide))
  exact ⟨g, by decide, rfl, by decide, by decide, h.2.1, h2.2.2⟩
/-- The transfers of the walk alternate between the two copies. -/
theorem dpfsRuns_alternating (info : DisaDiffRWInfo) (E : Nat) (fuel : Nat) :
    ∀ (a b st : Nat) (rs : List Run), dpfsRuns info E fuel a b st = some rs →
      RunChain info E a rs → Alternating rs := by
  induction fuel with
  | zero => intro a b st rs h; exact absurd h (by simp [dpfsRuns])
  | succ fuel ih =>
    intro a b st rs h hc
    unfold dpfsRuns at h
    by_cases hlt : a < E
    · rw [if_pos hlt] at h
      simp only at h
      by_cases hext : (decide (GET_DPFS_BIT (shr b info.log_dpfs_lvl3) info.dpfs_lvl2_cache = st)
            = true ∧ shl32 (u32 (shr b info.log_dpfs_lvl3 + 1)) info.log_dpfs_lvl3 < E)
      · rw [if_pos hext] at h
        exact ih _ _ _ rs h hc
      · rw [if_neg hext] at h
        by_cases hhit : GET_DPFS_BIT (shr b info.log_dpfs_lvl3) info.dpfs_lvl2_cache = st
        · simp only [hhit, decide_True, if_true] at h
          rw [if_pos hlt] at h
          cases hrs : dpfsRuns info E fuel E E (flipBit st) with
          | none => rw [hrs] at h; exact absurd h (by simp)
          | some rs1 =>
            rw [hrs] at h
            simp only [Option.map_some', Option.some.injEq] at h
            subst h
            have hnil : rs1 = [] := by
              cases fuel with
              | zero => exact absurd hrs (by simp [dpfsRuns])
              | succ f =>
                unfold dpfsRuns at hrs
                rw [if_neg (by omega)] at hrs
                exact (Option.some.inj hrs).symm
            subst hnil
            trivial
        · simp only [hhit, decide_False, if_false, Bool.false_eq_true] at h
          by_cases hse : a < b
          · rw [if_pos hse] at h
            cases hrs : dpfsRuns info E fuel b b (flipBit st) with
            | none => rw [hrs] at h; exact absurd h (by simp)
            | some rs1 =>
              rw [hrs] at h
              simp only [Option.map_some', Option.some.injEq] at h
              subst h
              obtain ⟨_, _, _, _, _, hc1⟩ := hc
              have halt := ih b b (flipBit st) rs1 hrs hc1
              cases rs1 with
              | nil => trivial
              | cons r1 rest =>
                refine ⟨?_, halt⟩
                obtain ⟨e1, e2, _, _, e5, _⟩ := hc1
                have hb1 := e5 b (le_refl _) e2
                intro hst
                apply hhit
                show GET_DPFS_BIT (b / 2 ^ info.log_dpfs_lvl3) info.dpfs_lvl2_cache = st
                rw [hb1]
                exact hst.symm
          · rw [if_neg hse] at h
            exact ih _ _ _ rs h hc
    · rw [if_neg hlt] at h
      have := (Option.some.inj h).symm
      subst this
      trivial

/-- A range has one tiling by runs of constant cache bit whose neighbours
differ in their bit. -/
theorem runs_unique (info : DisaDiffRWInfo) (E : Nat) (rs : List Run) :
    ∀ (a : Nat) (rs1 : List Run), RunChain info E a rs → Alternating rs →
      RunChain info E a rs1 → Alternating rs1 → rs = rs1 := by
  induction rs with
  | nil =>
    intro a rs1 hc _ hc1 _
    cases rs1 with
    | nil => rfl
    | cons r1 t1 =>
      have ha : a = E := hc
      obtain ⟨e1, e2, e3, _⟩ := hc1
      omega
  | cons r t ih =>
    intro a rs1 hc ha hc1 ha1
    cases rs1 with
    | nil =>
      have hae : a = E := hc1
      obtain ⟨e1, e2, e3, _⟩ := hc
      omega
    | cons r1 t1 =>
      obtain ⟨s1, s2, s3, s4, s5, s6⟩ := hc
      obtain ⟨u1, u2, u3, u4, u5, u6⟩ := hc1
      have hbit : r.1 = r1.1 := by
        rw [← s5 a (by omega) (by omega), ← u5 a (by omega) (by omega)]
      -- the first run of one tiling cannot stop inside the first run of the other
      have key : ∀ (p q : Run) (tp : List Run), p.1 = q.1 → p.2.2 < q.2.2 →
          RunChain info E p.2.2 tp → Alternating (p :: tp) →
          (∀ x, a ≤ x → x < q.2.2 →
            GET_DPFS_BIT (x / 2 ^ info.log_dpfs_lvl3) info.dpfs_lvl2_cache = q.1) →
          a ≤ p.2.2 → q.2.2 ≤ E → False := by
        intro p q tp hpq hlt hct hat hq hap hqE
        cases tp with
        | nil =>
          have : p.2.2 = E := hct
          omega
        | cons n tn =>
          obtain ⟨n1, n2, _, _, n5, _⟩ := hct
          have h1 := n5 p.2.2 (by omega) n2
          have h2 := hq p.2.2 hap hlt
          exact hat.1 (by rw [hpq, ← h2, h1])
      have hend : r.2.2 = r1.2.2 := by
        rcases Nat.lt_trichotomy r.2.2 r1.2.2 with h | h | h
        · exact absurd (key r r1 t hbit h s6 ha (fun x h1 h2 => u5 x (by omega) h2) (by omega) u3)
            (fun f => f)
        · exact h
        · exact absurd (key r1 r t1 hbit.symm h u6 ha1 (fun x h1 h2 => s5 x (by omega) h2)
            (by omega) s3) (fun f => f)
      have hr : r = r1 := by
        apply Prod.ext hbit
        apply Prod.ext
        · show r.2.1 = r1.2.1
          omega
        · exact hend
      subst hr
      have hat : Alternating t := by
        cases t with
        | nil => trivial
        | cons _ _ => exact ha.2
      have hat1 : Alternating t1 := by
        cases t1 with
        | nil => trivial
        | cons _ _ => exact ha1.2
      rw [ih r.2.2 t1 s6 hat u6 hat1]
/-- The maximal runs of blocks, taken as byte ranges, tile the range of the
blocks with runs of constant cache bit whose neighbours differ in their bit;
the first run starts at the first block. -/
theorem bitRuns_chain (info : DisaDiffRWInfo) (count : Nat) :
    ∀ first,
      (0 < count → ∃ e rest, bitRuns info first count
        = (GET_DPFS_BIT first info.dpfs_lvl2_cache, first, e) :: rest ∧ first < e) ∧
      RunChain info ((first + count) * 2 ^ info.log_dpfs_lvl3) (first * 2 ^ info.log_dpfs_lvl3)
        ((bitRuns info first count).map
          (fun r => (r.1, r.2.1 * 2 ^ info.log_dpfs_lvl3, r.2.2 * 2 ^ info.log_dpfs_lvl3))) ∧
      Alternating ((bitRuns info first count).map
        (fun r => (r.1, r.2.1 * 2 ^ info.log_dpfs_lvl3, r.2.2 * 2 ^ info.log_dpfs_lvl3))) := by
  have hK : 0 < 2 ^ info.log_dpfs_lvl3 := by positivity
  generalize hB : 2 ^ info.log_dpfs_lvl3 = B at *
  have hblock : ∀ first x, first * B ≤ x → x < (first + 1) * B →
      GET_DPFS_BIT (x / 2 ^ info.log_dpfs_lvl3) info.dpfs_lvl2_cache
        = GET_DPFS_BIT first info.dpfs_lvl2_cache := by
    intro first x h1 h2
    rw [hB, (block_index_iff x first B hK).mpr ⟨h1, by rw [Nat.add_mul, Nat.one_mul] at h2; exact h2⟩]
  induction count with
  | zero =>
    intro first
    refine ⟨fun h => absurd h (by decide), ?_, trivial⟩
    show first * B = (first + 0) * B
    rfl
  | succ count ih =>
    intro first
    obtain ⟨ih1, ih2, ih3⟩ := ih (first + 1)
    have hE : (first + 1 + count) * B = (first + (count + 1)) * B := by
      rw [Nat.add_assoc, Nat.add_comm 1 count]
    rw [hE] at ih2
    have hstep : (first + 1) * B = first * B + B := by rw [Nat.add_mul, Nat.one_mul]
    have hle : (first + 1) * B ≤ (first + (count + 1)) * B :=
      Nat.mul_le_mul_right B (by omega)
    unfold bitRuns
    cases hL : bitRuns info (first + 1) count with
    | nil =>
      simp only [List.map_cons, List.map_nil]
      have hc0 : count = 0 := by
        by_contra hc
        obtain ⟨e, rest, h, _⟩ := ih1 (by omega)
        rw [hL] at h
        exact absurd h (by simp)
      subst hc0
      refine ⟨fun _ => ⟨first + 1, [], rfl, by omega⟩, ?_, trivial⟩
      exact ⟨rfl, by show first * B < (first + 1) * B; omega, le_refl _,
        GET_DPFS_BIT_lt _ _, fun x h1 h2 => hblock first x h1 h2, rfl⟩
    | cons r rest =>
      rw [hL] at ih2 ih3
      simp only [List.map_cons] at ih2 ih3
      obtain ⟨c1, c2, c3, c4, c5, c6⟩ := ih2
      have c1' : r.2.1 * B = (first + 1) * B := c1
      have c2' : (first + 1) * B < r.2.2 * B := c2
      have c3' : r.2.2 * B ≤ (first + (count + 1)) * B := c3
      have hfe : first < r.2.2 := by
        by_contra hc
        have := Nat.mul_le_mul_right B (show r.2.2 ≤ first by omega)
        omega
      simp only []
      by_cases hbit : GET_DPFS_BIT first info.dpfs_lvl2_cache = r.1
      · rw [if_pos hbit]
        simp only [List.map_cons]
        refine ⟨fun _ => ⟨r.2.2, rest, by rw [hbit], hfe⟩, ?_, ?_⟩
        · refine ⟨rfl, by show first * B < r.2.2 * B; omega, c3', c4, ?_, c6⟩
          intro x h1 h2
          have h2' : x < r.2.2 * B := h2
          have h1' : first * B ≤ x := h1
          by_cases hx : x < (first + 1) * B
          · rw [hblock first x h1' hx]; exact hbit
          · exact c5 x (by omega) h2
        · cases rest with
          | nil => trivial
          | cons r2 rest2 => exact ih3
      · rw [if_neg hbit]
        simp only [List.map_cons]
        refine ⟨fun _ => ⟨first + 1, r :: rest, rfl, by omega⟩, ?_, ?_⟩
        · refine ⟨rfl, by show first * B < (first + 1) * B; omega, hle, GET_DPFS_BIT_lt _ _,
            fun x h1 h2 => hblock first x h1 h2, ?_⟩
          exact ⟨c1, c2, c3, c4, c5, c6⟩
        · exact ⟨hbit, ih3⟩
/-- When the walk of `ReadDisaDiffDpfsLvl3` over a list of runs ends without a
failure, it has issued one read per run, in order. -/
theorem applyRuns_read_trace (info : DisaDiffRWInfo) (os : Nat) (rs : List Run) :
    ∀ (size : Nat) (buf : Buf) (w : World),
      (applyRuns (readAct info os) rs size (buf, w)).1 ≠ 0 →
      (applyRuns (readAct info os) rs size (buf, w)).2.2.trace
        = w.trace ++ rs.map (fun r => IoEvent.read (dpfsPos info r.1 r.2.1) (sub32 r.2.2 r.2.1)) := by
  induction rs with
  | nil => intro size buf w _; simp [applyRuns]
  | cons r t ih =>
    intro size buf w h
    unfold applyRuns at h ⊢
    by_cases hok : (readAct info os r (buf, w)).1 = true
    · rw [if_pos hok] at h ⊢
      have hd : w.ddfp = true := by
        by_contra hc
        have : (readAct info os r (buf, w)).1 = false := by
          unfold readAct DisaDiffRead
          simp only [hc, Bool.false_eq_true, if_false]
        rw [this] at hok
        exact absurd hok (by decide)
      have htr : (readAct info os r (buf, w)).2.2.trace
          = w.trace ++ [IoEvent.read (dpfsPos info r.1 r.2.1) (sub32 r.2.2 r.2.1)] := by
        unfold readAct DisaDiffRead
        simp only [hd, if_true]
      have := ih size (readAct info os r (buf, w)).2.1 (readAct info os r (buf, w)).2.2 h
      rw [this, htr, List.map_cons, List.append_assoc]
      rfl
    · rw [if_neg hok] at h
      exact absurd rfl h

/-- Under the level-3 geometry the read issued for a run inside level 3 starts
at the run's first byte in the copy its bit selects and has the run's length. -/
theorem run_events (info : DisaDiffRWInfo) (g : Lvl3Geometry info) (E : Nat)
    (hE : E ≤ info.size_dpfs_lvl3) (rs : List Run) :
    ∀ a, RunChain info E a rs →
      rs.map (fun r => IoEvent.read (dpfsPos info r.1 r.2.1) (sub32 r.2.2 r.2.1))
        = rs.map (fun r => IoEvent.read
            ((if r.1 = 0 then info.offset_dpfs_lvl3
              else info.offset_dpfs_lvl3 + info.size_dpfs_lvl3) + r.2.1) (r.2.2 - r.2.1)) := by
  have g2 := g.lvl3_u32
  induction rs with
  | nil => intro a _; rfl
  | cons r t ih =>
    intro a hc
    obtain ⟨c1, c2, c3, _, _, c6⟩ := hc
    rw [List.map_cons, List.map_cons, ih r.2.2 c6,
      dpfsPos_eq info g r.1 r.2.1 (by omega), sub32_eq (by omega) (by omega)]
/-- Claim C13 (run merging), for reads that all succeed.  For every descriptor
whose level-3 geometry does not wrap, every read of `count > 0` whole level-3
blocks from block `first` on, inside level 3, with the handle open and the
positions of the range inside the file: `ReadDisaDiffDpfsLvl3` returns the
size and issues exactly one physical read per maximal run of equal cache bits
over the blocks, in order, each at the run's start in the copy its bit selects
and of the run's length.  In particular with cache bit 0 clear and bit 1 set a
read of two blocks at offset 0 issues two reads: one block at
`offset_dpfs_lvl3`, one block at `offset_dpfs_lvl3 + size_dpfs_lvl3 + 2 ^ log_dpfs_lvl3`. -/
theorem dpfs_run_merging (info : DisaDiffRWInfo) (g : Lvl3Geometry info) (first count : Nat)
    (buffer : Buf) (w : World) (hc : 0 < count)
    (hr : (first + count) * 2 ^ info.log_dpfs_lvl3 ≤ info.size_dpfs_lvl3)
    (hd : w.ddfp = true)
    (hin : ∀ x, first * 2 ^ info.log_dpfs_lvl3 ≤ x →
      x < (first + count) * 2 ^ info.log_dpfs_lvl3 → phys info x < w.fsize) :
    ∃ out w1, ReadDisaDiffDpfsLvl3 info (first * 2 ^ info.log_dpfs_lvl3)
        (count * 2 ^ info.log_dpfs_lvl3) buffer w
        = some (count * 2 ^ info.log_dpfs_lvl3, out, w1) ∧
      w1.trace = w.trace ++ (bitRuns info first count).map (runRead info) ∧
      (first = 0 → count = 2 → GET_DPFS_BIT 0 info.dpfs_lvl2_cache = 0 →
        GET_DPFS_BIT 1 info.dpfs_lvl2_cache = 1 →
        w1.trace = w.trace ++ [IoEvent.read info.offset_dpfs_lvl3 (2 ^ info.log_dpfs_lvl3),
          IoEvent.read (info.offset_dpfs_lvl3 + info.size_dpfs_lvl3 + 2 ^ info.log_dpfs_lvl3)
            (2 ^ info.log_dpfs_lvl3)]) := by
  have g2 := g.lvl3_u32
  have hK : 0 < 2 ^ info.log_dpfs_lvl3 := by positivity
  have hsum : first * 2 ^ info.log_dpfs_lvl3 + count * 2 ^ info.log_dpfs_lvl3
      = (first + count) * 2 ^ info.log_dpfs_lvl3 := (Nat.add_mul _ _ _).symm
  have hs : count * 2 ^ info.log_dpfs_lvl3 ≠ 0 := Nat.pos_iff_ne_zero.mp (Nat.mul_pos hc hK)
  obtain ⟨_, hch, halt⟩ := bitRuns_chain info count first
  have htr : ∃ out w1, ReadDisaDiffDpfsLvl3 info (first * 2 ^ info.log_dpfs_lvl3)
        (count * 2 ^ info.log_dpfs_lvl3) buffer w
        = some (count * 2 ^ info.log_dpfs_lvl3, out, w1) ∧
      w1.trace = w.trace ++ (bitRuns info first count).map (runRead info) := by
    unfold ReadDisaDiffDpfsLvl3
    rw [hsum, u32_eq (by omega)]
    generalize hE : (first + count) * 2 ^ info.log_dpfs_lvl3 = E at *
    generalize ha : first * 2 ^ info.log_dpfs_lvl3 = a at *
    obtain ⟨rs, h1, h2⟩ := dpfsRuns_chain info g E hr loopFuel a a 0
      (le_refl _) (fun h => h) (by omega) (by decide) (fun x h1 h2 => by omega)
      (by
        have : loopFuel = 2 ^ 40 := rfl
        split <;> omega)
    have hu := runs_unique info E rs a _ h2 (dpfsRuns_alternating info E loopFuel a a 0 rs h1 h2)
      hch halt
    rw [readLoop_eq_runs info a E loopFuel _ a a 0 buffer w rs hs h1]
    obtain ⟨_, _, _, _, _, _, _, _, a8⟩ := applyRuns_read info a g E hr rs a
      (count * 2 ^ info.log_dpfs_lvl3) buffer w (le_refl _) h2
    have hn := a8 hd hin
    refine ⟨_, _, by rw [hn], ?_⟩
    rw [applyRuns_read_trace info a rs _ buffer w (by rw [hn]; exact hs),
      run_events info g E hr rs a h2, hu, List.map_map]
    congr 1
    apply List.map_congr_left
    intro r _
    show IoEvent.read _ (r.2.2 * 2 ^ info.log_dpfs_lvl3 - r.2.1 * 2 ^ info.log_dpfs_lvl3)
      = IoEvent.read _ ((r.2.2 - r.2.1) * 2 ^ info.log_dpfs_lvl3)
    rw [Nat.sub_mul]
  obtain ⟨out, w1, e, ht⟩ := htr
  refine ⟨out, w1, e, ht, fun hf hc2 h0 h1 => ?_⟩
  subst hf
  subst hc2
  rw [ht]
  simp [bitRuns, runRead, h0, h1]

/-- Scenario for claim C13: on `walkInfo` (cache bit 0 clear, bit 1 set,
32-byte blocks, level 3 at `0x400` and `0x500`) a read of 64 bytes at offset 0
issues the reads of 32 bytes at `0x400` and of 32 bytes at `0x520`. -/
theorem dpfs_run_merging_scenario :
    Lvl3Geometry walkInfo ∧ 0 < 2 ∧ walkWorld.ddfp = true ∧
    bitRuns walkInfo 0 2 = [(0, 0, 1), (1, 1, 2)] ∧
    ∃ out w1, ReadDisaDiffDpfsLvl3 walkInfo (0 * 2 ^ walkInfo.log_dpfs_lvl3)
        (2 * 2 ^ walkInfo.log_dpfs_lvl3) (fun _ => 0) walkWorld
        = some (2 * 2 ^ walkInfo.log_dpfs_lvl3, out, w1) ∧
      w1.trace = walkWorld.trace ++ (bitRuns walkInfo 0 2).map (runRead walkInfo) ∧
      (0 = 0 → 2 = 2 → GET_DPFS_BIT 0 walkInfo.dpfs_lvl2_cache = 0 →
        GET_DPFS_BIT 1 walkInfo.dpfs_lvl2_cache = 1 →
        w1.trace = walkWorld.trace ++
          [IoEvent.read walkInfo.offset_dpfs_lvl3 (2 ^ walkInfo.log_dpfs_lvl3),
           IoEvent.read (walkInfo.offset_dpfs_lvl3 + walkInfo.size_dpfs_lvl3
              + 2 ^ walkInfo.log_dpfs_lvl3) (2 ^ walkInfo.log_dpfs_lvl3)]) :=
  ⟨⟨by decide, by decide⟩, by decide, rfl, by decide,
    dpfs_run_merging walkInfo ⟨by decide, by decide⟩ 0 2 (fun _ => 0) walkWorld (by decide)
      (by decide) rfl
      (fun x _ hx => lt_of_lt_of_le (phys_lt walkInfo x (by
        have : walkInfo.size_dpfs_lvl3 = 256 := rfl
        have : (0 + 2) * 2 ^ walkInfo.log_dpfs_lvl3 = 64 := rfl
        omega)).2 (by decide))⟩

/-- Counterexample to claim C13 as stated (every block-aligned read).  On
`walkInfo` the two blocks from offset 0 form two maximal runs, but in the file
`shortWorld`, which ends before level 3, the first physical read fails, the
walk stops and returns 0: one read was issued, not two. -/
theorem dpfs_read_stops_at_failed_run :
    (bitRuns walkInfo 0 2).length = 2 ∧ shortWorld.ddfp = true ∧
    (ReadDisaDiffDpfsLvl3 walkInfo 0 64 (fun _ => 0) shortWorld).map
      (fun r => (r.1, r.2.2.trace)) = some (0, [IoEvent.read 0x400 32]) := by
  refine ⟨by decide, rfl, by decide⟩
/-- The recorded loop is the loop: dropping the record gives `fixLoop`. -/
theorem fixLoopLog_erase (sha : Sha) (info : DisaDiffRWInfo) (level : Nat) (fuel : Nat) :
    ∀ (rs ao as : Nat) (buf : Buf) (w : World),
      (fixLoopLog sha info level fuel rs ao as buf w).map (fun r => (r.1, r.2.1))
        = fixLoop sha info level fuel rs ao as buf w := by
  induction fuel with
  | zero => intro rs ao as buf w; rfl
  | succ fuel ih =>
    intro rs ao as buf w
    unfold fixLoopLog fixLoop
    by_cases has : as > 0
    · rw [if_pos has, if_pos has]
      simp only []
      cases fixRead info level _ _ _ w with
      | none => rfl
      | some r =>
        obtain ⟨ok, buf1, w1⟩ := r
        cases ok with
        | false => rfl
        | true =>
          simp only []
          cases fixWrite info level _ _ w1 with
          | none => rfl
          | some r2 =>
            obtain ⟨ok2, w2⟩ := r2
            cases ok2 with
            | false => rfl
            | true =>
              simp only []
              rw [← ih, Option.map_map]
              rfl
    · rw [if_neg has, if_neg has]
      rfl
/-- The blocks the fixer loop visits, from block `j0` on with `as` bytes left:
the blocks `j0, j0 + 1, ...` in increasing order, once each, each read over the
part of it that lies inside the level.  A run that ends with 0 visits all
`⌈as / B⌉` of them; one that fails has visited a first part of them. -/
theorem fixLoopLog_log {info : DisaDiffRWInfo} (sha : Sha) (k : Nat)
    (hlog : info.log_ivfc_lvl (k - 1) ≤ 31)
    (hblk : info.size_ivfc_lvl (k - 1) + ivfcBlock info k ≤ 2 ^ 32) (fuel : Nat) :
    ∀ (rs j0 as : Nat) (buf : Buf) (w : World) (ret : Nat) (w1 : World) (log : List (Nat × Nat)),
      (0 < as → rs = ivfcBlock info k ∧ j0 * ivfcBlock info k + as ≤ info.size_ivfc_lvl (k - 1)) →
      fixLoopLog sha info k fuel rs (j0 * ivfcBlock info k) as buf w = some (ret, w1, log) →
      log <+: (List.range' j0 (cdiv as (ivfcBlock info k))).map
          (fun j => (j * ivfcBlock info k,
            min (ivfcBlock info k) (info.size_ivfc_lvl (k - 1) - j * ivfcBlock info k))) ∧
      (ret = 0 → log = (List.range' j0 (cdiv as (ivfcBlock info k))).map
          (fun j => (j * ivfcBlock info k,
            min (ivfcBlock info k) (info.size_ivfc_lvl (k - 1) - j * ivfcBlock info k)))) := by
  have hB : 0 < ivfcBlock info k := by unfold ivfcBlock; positivity
  have hB31 : ivfcBlock info k ≤ 2 ^ 31 := Nat.pow_le_pow_right (by decide) hlog
  have hbs : shl32 1 (info.log_ivfc_lvl (k - 1)) = ivfcBlock info k := by
    unfold ivfcBlock
    rw [shl32_eq (by rw [Nat.one_mul]; unfold ivfcBlock at hB31; omega), Nat.one_mul]
  induction fuel with
  | zero => intro rs j0 as buf w ret w1 log _ h; exact absurd h (by simp [fixLoopLog])
  | succ fuel ih =>
    intro rs j0 as buf w ret w1 log hinv h
    unfold fixLoopLog at h
    by_cases has : as > 0
    · obtain ⟨hrs, hrange⟩ := hinv has
      subst hrs
      rw [if_pos has] at h
      simp only [hbs] at h
      have hao : j0 * ivfcBlock info k + ivfcBlock info k < 2 ^ 32 := by omega
      rw [u32_eq hao] at h
      have hstep := cdiv_step (ivfcBlock info k) as hB has
      rw [hstep, Nat.add_comm 1, List.range'_succ, List.map_cons]
      generalize hrs' : (if decide (j0 * ivfcBlock info k + ivfcBlock info k
          > info.size_ivfc_lvl (k - 1)) = true
        then sub32 (ivfcBlock info k)
          (sub32 (j0 * ivfcBlock info k + ivfcBlock info k) (info.size_ivfc_lvl (k - 1)))
        else ivfcBlock info k) = rs' at h
      have hrs'v : rs' = min (ivfcBlock info k)
          (info.size_ivfc_lvl (k - 1) - j0 * ivfcBlock info k) := by
        rw [← hrs']
        by_cases hp : j0 * ivfcBlock info k + ivfcBlock info k > info.size_ivfc_lvl (k - 1)
        · simp only [hp, decide_True, if_true]
          have e1 : sub32 (j0 * ivfcBlock info k + ivfcBlock info k) (info.size_ivfc_lvl (k - 1))
              = j0 * ivfcBlock info k + ivfcBlock info k - info.size_ivfc_lvl (k - 1) :=
            sub32_eq (by omega) (by omega)
          rw [e1, sub32_eq (by omega) (by omega)]
          omega
        · simp only [hp, decide_False, if_false, Bool.false_eq_true]
          omega
      rw [← hrs'v]
      have hnext : j0 * ivfcBlock info k + ivfcBlock info k = (j0 + 1) * ivfcBlock info k := by
        ring
      cases hr : fixRead info k rs'
          (u32 (j0 * ivfcBlock info k + info.offset_ivfc_lvl (k - 1))) _ w with
      | none => rw [hr] at h; exact absurd h (by simp)
      | some r =>
        rw [hr] at h
        obtain ⟨ok, buf1, w2⟩ := r
        cases ok with
        | false =>
          simp only [Option.some.injEq, Prod.mk.injEq] at h
          obtain ⟨e1, _, e3⟩ := h
          subst e1
          subst e3
          exact ⟨(List.prefix_cons_inj _).mpr (List.nil_prefix), fun hc => absurd hc (by decide)⟩
        | true =>
          simp only [] at h
          cases hw : fixWrite info k _ _ w2 with
          | none => rw [hw] at h; exact absurd h (by simp)
          | some r2 =>
            rw [hw] at h
            obtain ⟨ok2, w3⟩ := r2
            cases ok2 with
            | false =>
              simp only [Option.some.injEq, Prod.mk.injEq] at h
              obtain ⟨e1, _, e3⟩ := h
              subst e1
              subst e3
              exact ⟨(List.prefix_cons_inj _).mpr (List.nil_prefix),
                fun hc => absurd hc (by decide)⟩
            | true =>
              simp only [] at h
              rw [hnext] at h
              cases hl : fixLoopLog sha info k fuel rs' ((j0 + 1) * ivfcBlock info k)
                  (if as < ivfcBlock info k then 0 else as - ivfcBlock info k) buf1 w3 with
              | none => rw [hl] at h; exact absurd h (by simp)
              | some r3 =>
                rw [hl] at h
                simp only [Option.map_some', Option.some.injEq, Prod.mk.injEq] at h
                obtain ⟨e1, _, e3⟩ := h
                obtain ⟨i1, i2⟩ := ih rs' (j0 + 1)
                  (if as < ivfcBlock info k then 0 else as - ivfcBlock info k) buf1 w3
                  r3.1 r3.2.1 r3.2.2
                  (by
                    intro hpos
                    have hge : ¬ as < ivfcBlock info k := by
                      intro hc; rw [if_pos hc] at hpos; omega
                    rw [if_neg hge] at hpos ⊢
                    refine ⟨?_, by rw [← hnext]; omega⟩
                    rw [hrs'v]
                    omega)
                  hl
                subst e1
                subst e3
                exact ⟨(List.prefix_cons_inj _).mpr i1, fun hc => by rw [i2 hc]⟩
    · rw [if_neg has] at h
      simp only [Option.some.injEq, Prod.mk.injEq] at h
      obtain ⟨e1, _, e3⟩ := h
      subst e1
      subst e3
      have has0 : as = 0 := by omega
      subst has0
      rw [cdiv_zero _ hB]
      exact ⟨List.nil_prefix, fun _ => rfl⟩
/-- The locals `block_size`, `align_offset` and `align_size` of
`FixDisaDiffIvfcLevel` for a range inside level `k` of a valid container. -/
theorem fix_locals {info : DisaDiffRWInfo} (hg : HashGeometry info) (k : Nat) (hk1 : 1 ≤ k)
    (hk4 : k ≤ 4) (offset size : Nat) (hr : offset + size ≤ info.size_ivfc_lvl (k - 1)) :
    shl32 1 (info.log_ivfc_lvl (k - 1)) = ivfcBlock info k ∧
    shl32 (shr offset (info.log_ivfc_lvl (k - 1))) (info.log_ivfc_lvl (k - 1))
      = firstBlock info k offset * ivfcBlock info k ∧
    sub32 (u32 (size + offset)) (firstBlock info k offset * ivfcBlock info k)
      = offset + size - firstBlock info k offset * ivfcBlock info k := by
  obtain ⟨hlog, hblk, _, _⟩ := hg.level k hk1 hk4
  have hB : 0 < ivfcBlock info k := by unfold ivfcBlock; positivity
  have hB31 : ivfcBlock info k ≤ 2 ^ 31 := Nat.pow_le_pow_right (by decide) hlog
  obtain ⟨hal, _⟩ := block_range info k offset size hr
  have hshr0 : shr offset (info.log_ivfc_lvl (k - 1)) = firstBlock info k offset := rfl
  refine ⟨?_, ?_, ?_⟩
  · unfold ivfcBlock
    rw [shl32_eq (by rw [Nat.one_mul]; unfold ivfcBlock at hB31; omega), Nat.one_mul]
  · rw [hshr0]
    exact shl32_eq (by
      show firstBlock info k offset * ivfcBlock info k < 2 ^ 32
      omega)
  · rw [u32_eq (by omega), sub32_eq (by omega) (by omega), Nat.add_comm size offset]

/-- The blocks a call of `FixDisaDiffIvfcLevel` visits, for a level `k` from 1
to 4 and a range inside the level: the recorded loop, run on the locals of the
call, returns what the call returns, and its record lists the blocks
`firstBlock, firstBlock + 1, ...` touching the range, once each in increasing
order (all of them when the call returns 0, a first part of them otherwise),
each with the number of bytes of it that lie inside the level. -/
theorem FixDisaDiffIvfcLevel_log {info : DisaDiffRWInfo} (sha : Sha) (hg : HashGeometry info)
    (k : Nat) (hk1 : 1 ≤ k) (hk4 : k ≤ 4) (offset size no ns : Nat) (w : World)
    (hr : offset + size ≤ info.size_ivfc_lvl (k - 1)) :
    ∃ ret w1 log,
      fixLoopLog sha info k loopFuel (shl32 1 (info.log_ivfc_lvl (k - 1)))
        (shl32 (shr offset (info.log_ivfc_lvl (k - 1))) (info.log_ivfc_lvl (k - 1)))
        (sub32 (u32 (size + offset))
          (shl32 (shr offset (info.log_ivfc_lvl (k - 1))) (info.log_ivfc_lvl (k - 1))))
        (fun _ => 0) w = some (ret, w1, log) ∧
      FixDisaDiffIvfcLevel sha info k offset size no ns w
        = some (ret, (if k = 1 then no else 32 * firstBlock info k offset),
            (if k = 1 then ns else 32 * blockCount info k offset size), w1) ∧
      log <+: (List.range' (firstBlock info k offset) (blockCount info k offset size)).map
          (fun j => (j * ivfcBlock info k,
            min (ivfcBlock info k) (info.size_ivfc_lvl (k - 1) - j * ivfcBlock info k))) ∧
      (ret = 0 → log = (List.range' (firstBlock info k offset) (blockCount info k offset size)).map
          (fun j => (j * ivfcBlock info k,
            min (ivfcBlock info k) (info.size_ivfc_lvl (k - 1) - j * ivfcBlock info k)))) := by
  obtain ⟨hlog, hblk, _, _⟩ := hg.level k hk1 hk4
  obtain ⟨hbs, hao, has⟩ := fix_locals hg k hk1 hk4 offset size hr
  obtain ⟨hal, _⟩ := block_range info k offset size hr
  obtain ⟨ret, w1, e, _⟩ := FixDisaDiffIvfcLevel_spec sha hg k hk1 hk4 offset size no ns w hr
  have e1 := e
  unfold FixDisaDiffIvfcLevel at e1
  rw [if_neg (by omega), if_neg (by omega)] at e1
  simp only [] at e1
  rw [← fixLoopLog_erase] at e1
  cases hl : fixLoopLog sha info k loopFuel (shl32 1 (info.log_ivfc_lvl (k - 1)))
      (shl32 (shr offset (info.log_ivfc_lvl (k - 1))) (info.log_ivfc_lvl (k - 1)))
      (sub32 (u32 (size + offset))
        (shl32 (shr offset (info.log_ivfc_lvl (k - 1))) (info.log_ivfc_lvl (k - 1))))
      (fun _ => 0) w with
  | none => rw [hl] at e1; exact absurd e1 (by simp)
  | some r =>
    rw [hl] at e1
    simp only [Option.map_some', Option.some.injEq, Prod.mk.injEq] at e1
    obtain ⟨r1, _, _, r4⟩ := e1
    have hl2 := hl
    rw [hbs, hao, has] at hl2
    obtain ⟨p1, p2⟩ := fixLoopLog_log sha k hlog hblk loopFuel (ivfcBlock info k)
      (firstBlock info k offset) (offset + size - firstBlock info k offset * ivfcBlock info k)
      (fun _ => 0) w r.1 r.2.1 r.2.2 (fun _ => ⟨rfl, by omega⟩) hl2
    refine ⟨ret, w1, r.2.2, ?_, e, p1, fun h => p2 (by rw [r1]; exact h)⟩
    rw [← r1, ← r4]
/-- The blocks counted from the first block of a range end at
`⌈(offset + size) / B⌉`. -/
theorem blockCount_eq (info : DisaDiffRWInfo) (k offset size : Nat) :
    blockCount info k offset size
      = cdiv (offset + size) (ivfcBlock info k) - offset / ivfcBlock info k := by
  have hB : 0 < ivfcBlock info k := by unfold ivfcBlock; positivity
  unfold blockCount firstBlock cdiv
  generalize ivfcBlock info k = B at *
  have a1 := Nat.div_add_mod offset B
  have a2 := Nat.mod_lt offset hB
  have c1 : offset / B * B = B * (offset / B) := Nat.mul_comm _ _
  have e : offset + size + B - 1 = (offset + size - offset / B * B + B - 1) + B * (offset / B) := by
    omega
  rw [e, Nat.add_mul_div_left _ _ hB]
  exact (Nat.add_sub_cancel _ _).symm

/-- Claim C14 (alignment of the hash fixer), for ranges inside the level of a
valid container.  For every level `k` from 1 to 4 with `B = 2 ^ log_ivfc_lvl[k]`
and every range with `offset + size ≤ size_ivfc_lvl[k]`, `FixDisaDiffIvfcLevel`
returns; its loop visits the blocks `⌊offset / B⌋, ..., ⌈(offset + size) / B⌉ - 1`
once each in increasing order (all of them when it returns 0, a first part of
them when a transfer fails); it changes the file only in the hash slots of
those blocks and, returning 0, has stored the hash of each of them; for `k`
from 2 to 4 it sets `next_offset = ⌊offset / B⌋ * 32` and
`next_size = ⌈(offset + size - ⌊offset / B⌋ * B) / B⌉ * 32`, for `k = 1` it
leaves both as they were. -/
theorem fix_level_alignment {info : DisaDiffRWInfo} (sha : Sha) (hg : HashGeometry info)
    (k : Nat) (hk1 : 1 ≤ k) (hk4 : k ≤ 4) (offset size no ns : Nat) (w : World)
    (hr : offset + size ≤ info.size_ivfc_lvl (k - 1)) :
    ∃ ret no1 ns1 w1 log,
      FixDisaDiffIvfcLevel sha info k offset size no ns w = some (ret, no1, ns1, w1) ∧
      fixLoopLog sha info k loopFuel (shl32 1 (info.log_ivfc_lvl (k - 1)))
        (shl32 (shr offset (info.log_ivfc_lvl (k - 1))) (info.log_ivfc_lvl (k - 1)))
        (sub32 (u32 (size + offset))
          (shl32 (shr offset (info.log_ivfc_lvl (k - 1))) (info.log_ivfc_lvl (k - 1))))
        (fun _ => 0) w = some (ret, w1, log) ∧
      (k ≠ 1 → no1 = offset / ivfcBlock info k * 32 ∧
        ns1 = cdiv (offset + size - offset / ivfcBlock info k * ivfcBlock info k)
          (ivfcBlock info k) * 32) ∧
      (k = 1 → no1 = no ∧ ns1 = ns) ∧
      log.map (fun e => e.1) <+: (List.range' (offset / ivfcBlock info k)
          (cdiv (offset + size) (ivfcBlock info k) - offset / ivfcBlock info k)).map
            (fun j => j * ivfcBlock info k) ∧
      (ret = 0 → log.map (fun e => e.1) = (List.range' (offset / ivfcBlock info k)
          (cdiv (offset + size) (ivfcBlock info k) - offset / ivfcBlock info k)).map
            (fun j => j * ivfcBlock info k)) ∧
      (∀ y, (∀ j t, offset / ivfcBlock info k ≤ j → j < cdiv (offset + size) (ivfcBlock info k) →
          t < 32 → lvlPos info (k - 1) (32 * j + t) ≠ y) → w1.data y = w.data y) ∧
      (ret = 0 → ∀ j, offset / ivfcBlock info k ≤ j →
        j < cdiv (offset + size) (ivfcBlock info k) → ∀ t, t < 32 →
          w1.data (lvlPos info (k - 1) (32 * j + t)) = shaBuf sha (blockBytes info w k j) t) := by
  obtain ⟨ret, w1, log, e1, e2, p1, p2⟩ :=
    FixDisaDiffIvfcLevel_log sha hg k hk1 hk4 offset size no ns w hr
  obtain ⟨ret', w1', e3, _, _, _, f4, f5⟩ :=
    FixDisaDiffIvfcLevel_spec sha hg k hk1 hk4 offset size no ns w hr
  rw [e2] at e3
  simp only [Option.some.injEq, Prod.mk.injEq] at e3
  obtain ⟨hret, _, _, hw⟩ := e3
  subst hret
  subst hw
  have hcnt := blockCount_eq info k offset size
  have hge : offset / ivfcBlock info k ≤ cdiv (offset + size) (ivfcBlock info k) := by
    unfold cdiv
    exact Nat.div_le_div_right (by
      have : 0 < ivfcBlock info k := by unfold ivfcBlock; positivity
      omega)
  have hfb : firstBlock info k offset = offset / ivfcBlock info k := rfl
  have hmap : ∀ l : List Nat, (l.map (fun j => (j * ivfcBlock info k,
      min (ivfcBlock info k) (info.size_ivfc_lvl (k - 1) - j * ivfcBlock info k)))).map
        (fun e => e.1) = l.map (fun j => j * ivfcBlock info k) := by
    intro l
    rw [List.map_map]
    rfl
  rw [hfb, hcnt] at p1 p2
  refine ⟨ret, _, _, w1, log, e2, e1, ?_, ?_, ?_, ?_, ?_, ?_⟩
  · intro hk
    rw [if_neg hk, if_neg hk, Nat.mul_comm 32, Nat.mul_comm 32]
    exact ⟨rfl, rfl⟩
  · intro hk
    rw [if_pos hk, if_pos hk]
    exact ⟨rfl, rfl⟩
  · rw [← hmap]
    exact List.IsPrefix.map _ p1
  · intro h
    rw [p2 h, hmap]
  · intro y hy
    apply f4
    intro z h1 h2
    have hz := Nat.div_add_mod z 32
    have hz2 := Nat.mod_lt z (show 0 < 32 by decide)
    have := hy (z / 32) (z % 32) (by rw [hfb] at h1; omega) (by rw [hfb, hcnt] at h2; omega) hz2
    rw [hz] at this
    exact this
  · intro h j h1 h2 t ht
    exact f5 h j (by rw [hfb]; exact h1) (by rw [hfb, hcnt]; omega) t ht
/-- Scenario for claim C14: on `chainInfo` (16-byte blocks at level 4) the
fixer called for level 4 with `offset = 5`, `size = 17` visits blocks 0 and 1
in this order and sets `next_offset = 0`, `next_size = 64`. -/
theorem fix_level_alignment_scenario :
    HashGeometry chainInfo ∧ 5 + 17 ≤ chainInfo.size_ivfc_lvl (4 - 1) ∧
    (FixDisaDiffIvfcLevel toySha chainInfo 4 5 17 7 9 walkWorld).map
      (fun r => (r.1, r.2.1, r.2.2.1)) = some (0, 0, 64) ∧
    (fixLoopLog toySha chainInfo 4 loopFuel 16 0 22 (fun _ => 0) walkWorld).map
      (fun r => (r.1, r.2.2)) = some (0, [(0, 16), (16, 16)]) ∧
    ∃ ret no1 ns1 w1 log,
      FixDisaDiffIvfcLevel toySha chainInfo 4 5 17 7 9 walkWorld = some (ret, no1, ns1, w1) ∧
      fixLoopLog toySha chainInfo 4 loopFuel (shl32 1 (chainInfo.log_ivfc_lvl (4 - 1)))
        (shl32 (shr 5 (chainInfo.log_ivfc_lvl (4 - 1))) (chainInfo.log_ivfc_lvl (4 - 1)))
        (sub32 (u32 (17 + 5))
          (shl32 (shr 5 (chainInfo.log_ivfc_lvl (4 - 1))) (chainInfo.log_ivfc_lvl (4 - 1))))
        (fun _ => 0) walkWorld = some (ret, w1, log) ∧
      (4 ≠ 1 → no1 = 5 / ivfcBlock chainInfo 4 * 32 ∧
        ns1 = cdiv (5 + 17 - 5 / ivfcBlock chainInfo 4 * ivfcBlock chainInfo 4)
          (ivfcBlock chainInfo 4) * 32) ∧
      (4 = 1 → no1 = 7 ∧ ns1 = 9) ∧
      log.map (fun e => e.1) <+: (List.range' (5 / ivfcBlock chainInfo 4)
          (cdiv (5 + 17) (ivfcBlock chainInfo 4) - 5 / ivfcBlock chainInfo 4)).map
            (fun j => j * ivfcBlock chainInfo 4) ∧
      (ret = 0 → log.map (fun e => e.1) = (List.range' (5 / ivfcBlock chainInfo 4)
          (cdiv (5 + 17) (ivfcBlock chainInfo 4) - 5 / ivfcBlock chainInfo 4)).map
            (fun j => j * ivfcBlock chainInfo 4)) ∧
      (∀ y, (∀ j t, 5 / ivfcBlock chainInfo 4 ≤ j → j < cdiv (5 + 17) (ivfcBlock chainInfo 4) →
          t < 32 → lvlPos chainInfo (4 - 1) (32 * j + t) ≠ y) → w1.data y = walkWorld.data y) ∧
      (ret = 0 → ∀ j, 5 / ivfcBlock chainInfo 4 ≤ j →
        j < cdiv (5 + 17) (ivfcBlock chainInfo 4) → ∀ t, t < 32 →
          w1.data (lvlPos chainInfo (4 - 1) (32 * j + t))
            = shaBuf toySha (blockBytes chainInfo walkWorld 4 j) t) :=
  ⟨chainInfo_geometry, by decide, by decide, by decide,
    fix_level_alignment toySha chainInfo_geometry 4 (by decide) (by decide) 5 17 7 9 walkWorld
      (by decide)⟩

/-- Counterexample to claim C14 as stated (every `(offset, size)`).  On
`chainInfo` the fixer called for level 4 with `offset = 0xFFFFFFFF`,
`size = 2` returns 0 with `next_offset = 0xFFFFFFE0`, not
`⌊offset / 16⌋ * 32 = 0x1FFFFFFE0`, and its loop visits the block at aligned
offset `0xFFFFFFF0` and then block 0, where the blocks with index from
`⌊offset / 16⌋ = 0xFFFFFFF` up to `⌈(offset + size) / 16⌉ = 0x10000001` would
be blocks `0xFFFFFFF` and `0x10000000`: the 32-bit `align_offset` wraps. -/
theorem fix_level_wrapped_range :
    (FixDisaDiffIvfcLevel toySha chainInfo 4 (2 ^ 32 - 1) 2 7 9 walkWorld).map
      (fun r => (r.1, r.2.1, r.2.2.1)) = some (0, 0xFFFFFFE0, 64) ∧
    (2 ^ 32 - 1) / ivfcBlock chainInfo 4 * 32 = 0x1FFFFFFE0 ∧
    (fixLoopLog toySha chainInfo 4 loopFuel (shl32 1 (chainInfo.log_ivfc_lvl (4 - 1)))
        (shl32 (shr (2 ^ 32 - 1) (chainInfo.log_ivfc_lvl (4 - 1))) (chainInfo.log_ivfc_lvl (4 - 1)))
        (sub32 (u32 (2 + (2 ^ 32 - 1)))
          (shl32 (shr (2 ^ 32 - 1) (chainInfo.log_ivfc_lvl (4 - 1)))
            (chainInfo.log_ivfc_lvl (4 - 1))))
        (fun _ => 0) walkWorld).map (fun r => (r.1, r.2.2))
      = some (0, [(0xFFFFFFF0, 16), (0, 16)]) ∧
    (2 ^ 32 - 1) / ivfcBlock chainInfo 4 = 0xFFFFFFF ∧
    cdiv (2 ^ 32 - 1 + 2) (ivfcBlock chainInfo 4) = 0x10000001 := by
  refine ⟨by decide, by decide, by decide, by decide, by decide⟩
/-- The ranges handed down the fix chain lie inside their levels. -/
theorem touched_fits {info : DisaDiffRWInfo} (hg : HashGeometry info) (offset size : Nat)
    (hr : offset + size ≤ info.size_ivfc_lvl4) :
    ∀ d, d < 4 → (touched info offset size d).1 + (touched info offset size d).2
      ≤ info.size_ivfc_lvl (3 - d) := by
  have h0 : (touched info offset size 0).1 + (touched info offset size 0).2
      ≤ info.size_ivfc_lvl (4 - 1) := hr
  have h1 := next_fits hg 4 _ _ (by decide) (by decide) h0
  rw [lvlSize_pos_eq info (4 - 1) (by decide)] at h1
  have h2 := next_fits hg 3 _ _ (by decide) (by decide) h1
  rw [lvlSize_pos_eq info (3 - 1) (by decide)] at h2
  have h3 := next_fits hg 2 _ _ (by decide) (by decide) h2
  rw [lvlSize_pos_eq info (2 - 1) (by decide)] at h3
  intro d hd
  have hd' : d = 0 ∨ d = 1 ∨ d = 2 ∨ d = 3 := by omega
  rcases hd' with rfl | rfl | rfl | rfl
  · exact h0
  · exact h1
  · exact h2
  · exact h3

/-- The hash condition of the touched blocks only depends on the file content
at the positions of levels `k` and `k - 1`. -/
theorem SlotsOK_congr {info : DisaDiffRWInfo} (sha : Sha) (hg : HashGeometry info) (k a s : Nat)
    (hk1 : 1 ≤ k) (hk4 : k ≤ 4) (hr : a + s ≤ info.size_ivfc_lvl (k - 1)) (w w1 : World)
    (hd : ∀ x, x < lvlSize info k → w1.data (lvlPos info k x) = w.data (lvlPos info k x))
    (hs : ∀ x, x < lvlSize info (k - 1) →
      w1.data (lvlPos info (k - 1) x) = w.data (lvlPos info (k - 1) x))
    (h : SlotsOK sha info w k a s) : SlotsOK sha info w1 k a s := by
  intro j hj1 hj2 t ht
  have hfit := lvlSize_hash_fits hg k hk1 hk4
  have hcnt := (block_range info k a s hr).2
  rw [hs _ (by omega), h j hj1 hj2 t ht,
    blockBytes_congr info w w1 k j (fun x hx => hd x (by rw [lvlSize_pos_eq info k hk1]; exact hx))]

/-- A change confined to a level other than `k` and `k - 1` keeps the hash
condition of the touched blocks of level `k`. -/
theorem SlotsOK_frame {info : DisaDiffRWInfo} (sha : Sha) (hg : HashGeometry info)
    (k a s m b c : Nat) (hk1 : 1 ≤ k) (hk4 : k ≤ 4) (hr : a + s ≤ info.size_ivfc_lvl (k - 1))
    (hm : m ≤ 4) (hmk : m ≠ k) (hmk1 : m ≠ k - 1) (hbc : b + c ≤ lvlSize info m) (w w1 : World)
    (hc : ChangedWithin info m b c w w1) (h : SlotsOK sha info w k a s) :
    SlotsOK sha info w1 k a s := by
  apply SlotsOK_congr sha hg k a s hk1 hk4 hr w w1 _ _ h
  · intro x hx
    apply hc
    intro z _ hz2 e
    exact hmk (lvlPos_inj hg m k z x hm hk4 (by omega) hx e).1
  · intro x hx
    apply hc
    intro z _ hz2 e
    exact hmk1 (lvlPos_inj hg m (k - 1) z x hm (by omega) (by omega) hx e).1

/-- A change confined to the partition-hash slot keeps the hash condition of
the touched blocks of every level. -/
theorem SlotsOK_frame_part {info : DisaDiffRWInfo} (sha : Sha) (hg : HashGeometry info)
    (k a s : Nat) (hk1 : 1 ≤ k) (hk4 : k ≤ 4) (hr : a + s ≤ info.size_ivfc_lvl (k - 1))
    (w w1 : World)
    (hc : ∀ y, ¬ (info.offset_partition_hash ≤ y ∧ y < info.offset_partition_hash + 32) →
      w1.data y = w.data y)
    (h : SlotsOK sha info w k a s) : SlotsOK sha info w1 k a s := by
  apply SlotsOK_congr sha hg k a s hk1 hk4 hr w w1 _ _ h
  · intro x hx
    apply hc
    intro ⟨e1, e2⟩
    exact lvlPos_ne_part hg k x (lvlPos info k x - info.offset_partition_hash) hk4 hx
      (by omega) (by omega)
  · intro x hx
    apply hc
    intro ⟨e1, e2⟩
    exact lvlPos_ne_part hg (k - 1) x (lvlPos info (k - 1) x - info.offset_partition_hash)
      (by omega) hx (by omega) (by omega)

/-- One level of the fixer, seen from the file: it returns; it keeps the size,
handle and presence of the file; it changes only the hash slots of the touched
blocks; returning 0 it leaves the hash condition of the touched blocks in
place; and run on a file where that condition holds already it changes no
byte. -/
theorem fix_level_stage {info : DisaDiffRWInfo} (sha : Sha) (hg : HashGeometry info)
    (k : Nat) (hk1 : 1 ≤ k) (hk4 : k ≤ 4) (a s no ns : Nat) (w : World)
    (hr : a + s ≤ info.size_ivfc_lvl (k - 1)) :
    ∃ ret w1, FixDisaDiffIvfcLevel sha info k a s no ns w
        = some (ret, (if k = 1 then no else 32 * firstBlock info k a),
            (if k = 1 then ns else 32 * blockCount info k a s), w1) ∧
      w1.fsize = w.fsize ∧ w1.ddfp = w.ddfp ∧ w1.present = w.present ∧
      ChangedWithin info (k - 1) (32 * firstBlock info k a) (32 * blockCount info k a s) w w1 ∧
      (ret = 0 → SlotsOK sha info w1 k a s) ∧
      (ret = 0 → SlotsOK sha info w k a s → ∀ y, w1.data y = w.data y) := by
  obtain ⟨ret, w1, e, f1, f2, f3, f4, f5⟩ :=
    FixDisaDiffIvfcLevel_spec sha hg k hk1 hk4 a s no ns w hr
  have hfit := next_fits hg k a s hk1 hk4 hr
  refine ⟨ret, w1, e, f1, f2, f3, f4, fun h j hj1 hj2 t ht => ?_, fun h hs y => ?_⟩
  · rw [f5 h j hj1 hj2 t ht]
    congr 1
    symm
    apply blockBytes_congr
    intro x hx
    apply f4
    intro z _ hz2 hc
    have := (lvlPos_inj hg (k - 1) k z x (by omega) hk4 (by omega)
      (by rw [lvlSize_pos_eq info k hk1]; exact hx) hc).1
    omega
  · by_cases hy : ∃ z, 32 * firstBlock info k a ≤ z ∧
        z < 32 * firstBlock info k a + 32 * blockCount info k a s ∧ lvlPos info (k - 1) z = y
    · obtain ⟨z, h1, h2, h3⟩ := hy
      have hz := Nat.div_add_mod z 32
      have hz2 := Nat.mod_lt z (show 0 < 32 by decide)
      rw [← h3, ← hz, f5 h (z / 32) (by omega) (by omega) (z % 32) hz2,
        hs (z / 32) (by omega) (by omega) (z % 32) hz2]
    · exact f4 y (fun z h1 h2 h3 => hy ⟨z, h1, h2, h3⟩)
/-- When `FixDisaDiffPartitionHash` fails the file content is as before. -/
theorem FixDisaDiffPartitionHash_fail (sha : Sha) (info : DisaDiffRWInfo) (w : World)
    (h : (FixDisaDiffPartitionHash sha info w).1 ≠ 0) :
    (FixDisaDiffPartitionHash sha info w).2.data = w.data := by
  have hrd : (DisaDiffRead w info.size_table info.offset_table).2.data = w.data :=
    DisaDiffRead_data _ _ _
  unfold FixDisaDiffPartitionHash at h ⊢
  simp only [] at h ⊢
  by_cases h1 : (DisaDiffRead w info.size_table info.offset_table).1 = false
  · rw [if_pos h1]
    exact hrd
  · rw [if_neg h1] at h ⊢
    by_cases h2 : (DisaDiffWrite (DisaDiffRead w info.size_table info.offset_table).2
        (shaBuf sha (bufList (fun j => w.data (info.offset_table + j)) info.size_table)) 0x20
        info.offset_partition_hash).1 = false
    · rw [if_pos h2]
      rw [← hrd]
      revert h2
      unfold DisaDiffWrite
      split
      · split
        · intro hc; exact absurd hc (by simp)
        · intro _; rfl
      · intro _; rfl
    · rw [if_neg h2] at h
      exact absurd rfl h

/-- Run on a file whose partition hash is in place, a successful
`FixDisaDiffPartitionHash` changes no byte. -/
theorem FixDisaDiffPartitionHash_idem (sha : Sha) (info : DisaDiffRWInfo) (w : World)
    (hp : PartitionHashOK sha info w) (h : (FixDisaDiffPartitionHash sha info w).1 = 0) :
    ∀ y, (FixDisaDiffPartitionHash sha info w).2.data y = w.data y := by
  obtain ⟨_, _, _, s4, s5⟩ := FixDisaDiffPartitionHash_spec sha info w
  intro y
  by_cases hy : info.offset_partition_hash ≤ y ∧ y < info.offset_partition_hash + 32
  · have e : y = info.offset_partition_hash + (y - info.offset_partition_hash) := by omega
    rw [e, s5 h _ (by omega), hp _ (by omega)]
  · exact s4 y hy

/-- The stages of the fix chain on a range inside level 4: each level from 4
down to 1 runs on the range handed down to it, and the loop returns what the
first failing level, or else level 0, leaves. -/
theorem fixChain_stages {info : DisaDiffRWInfo} (sha : Sha) (hg : HashGeometry info)
    (offset size : Nat) (w : World) (hr : offset + size ≤ info.size_ivfc_lvl4) :
    ∃ ret4 w3 ret3 w2 ret2 w1 ret1 w0,
      Stage sha info 4 (touched info offset size 0).1 (touched info offset size 0).2 w ret4 w3 ∧
      Stage sha info 3 (touched info offset size 1).1 (touched info offset size 1).2 w3 ret3 w2 ∧
      Stage sha info 2 (touched info offset size 2).1 (touched info offset size 2).2 w2 ret2 w1 ∧
      Stage sha info 1 (touched info offset size 3).1 (touched info offset size 3).2 w1 ret1 w0 ∧
      fixChain sha info [4, 3, 2, 1, 0] offset size w
        = some (chainResult ret4 w3 ret3 w2 ret2 w1 ret1 w0
            (FixDisaDiffPartitionHash sha info w0)) := by
  have hfit := touched_fits hg offset size hr
  obtain ⟨ret4, w3, e4, t4⟩ := fix_level_stage sha hg 4 (by decide) (by decide)
    (touched info offset size 0).1 (touched info offset size 0).2 offset size w (hfit 0 (by decide))
  obtain ⟨ret3, w2, e3, t3⟩ := fix_level_stage sha hg 3 (by decide) (by decide)
    (touched info offset size 1).1 (touched info offset size 1).2
    (touched info offset size 1).1 (touched info offset size 1).2 w3 (hfit 1 (by decide))
  obtain ⟨ret2, w1, e2, t2⟩ := fix_level_stage sha hg 2 (by decide) (by decide)
    (touched info offset size 2).1 (touched info offset size 2).2
    (touched info offset size 2).1 (touched info offset size 2).2 w2 (hfit 2 (by decide))
  obtain ⟨ret1, w0, e1, t1⟩ := fix_level_stage sha hg 1 (by decide) (by decide)
    (touched info offset size 3).1 (touched info offset size 3).2
    (touched info offset size 3).1 (touched info offset size 3).2 w1 (hfit 3 (by decide))
  rw [if_neg (by decide), if_neg (by decide)] at e4 e3 e2
  rw [if_pos rfl, if_pos rfl] at e1
  have e0 : FixDisaDiffIvfcLevel sha info 0 (touched info offset size 3).1
      (touched info offset size 3).2 (touched info offset size 3).1
      (touched info offset size 3).2 w0
      = some ((FixDisaDiffPartitionHash sha info w0).1, (touched info offset size 3).1,
          (touched info offset size 3).2, (FixDisaDiffPartitionHash sha info w0).2) := by
    unfold FixDisaDiffIvfcLevel
    rw [if_pos rfl]
  have e4' : FixDisaDiffIvfcLevel sha info 4 offset size offset size w
      = some (ret4, (touched info offset size 1).1, (touched info offset size 1).2, w3) := e4
  have e3' : FixDisaDiffIvfcLevel sha info 3 (touched info offset size 1).1
      (touched info offset size 1).2 (touched info offset size 1).1
      (touched info offset size 1).2 w3
      = some (ret3, (touched info offset size 2).1, (touched info offset size 2).2, w2) := e3
  have e2' : FixDisaDiffIvfcLevel sha info 2 (touched info offset size 2).1
      (touched info offset size 2).2 (touched info offset size 2).1
      (touched info offset size 2).2 w2
      = some (ret2, (touched info offset size 3).1, (touched info offset size 3).2, w1) := e2
  refine ⟨ret4, w3, ret3, w2, ret2, w1, ret1, w0, t4, t3, t2, t1, ?_⟩
  unfold chainResult
  rw [fixChain, e4']
  simp only []
  by_cases z4 : ret4 = 0
  swap
  · rw [if_pos z4, if_pos z4]
  rw [if_neg (fun h => h z4), if_neg (fun h => h z4), fixChain, e3']
  simp only []
  by_cases z3 : ret3 = 0
  swap
  · rw [if_pos z3, if_pos z3]
  rw [if_neg (fun h => h z3), if_neg (fun h => h z3), fixChain, e2']
  simp only []
  by_cases z2 : ret2 = 0
  swap
  · rw [if_pos z2, if_pos z2]
  rw [if_neg (fun h => h z2), if_neg (fun h => h z2), fixChain, e1]
  simp only []
  by_cases z1 : ret1 = 0
  swap
  · rw [if_pos z1, if_pos z1]
  rw [if_neg (fun h => h z1), if_neg (fun h => h z1), fixChain, e0]
  simp only []
  by_cases z0 : (FixDisaDiffPartitionHash sha info w0).1 = 0
  swap
  · rw [if_pos z0, if_pos z0]
  rw [if_neg (fun h => h z0), if_neg (fun h => h z0), fixChain]
/-- A chain that reports success has had every level return 0. -/
theorem chainResult_true (ret4 : Nat) (w3 : World) (ret3 : Nat) (w2 : World) (ret2 : Nat)
    (w1 : World) (ret1 : Nat) (w0 : World) (r0 : Nat × World) (wf : World)
    (h : chainResult ret4 w3 ret3 w2 ret2 w1 ret1 w0 r0 = (true, wf)) :
    ret4 = 0 ∧ ret3 = 0 ∧ ret2 = 0 ∧ ret1 = 0 ∧ r0.1 = 0 ∧ wf = r0.2 := by
  unfold chainResult at h
  by_cases z4 : ret4 = 0
  swap
  · rw [if_pos z4] at h; exact absurd (congrArg Prod.fst h) Bool.false_ne_true
  rw [if_neg (fun c => c z4)] at h
  by_cases z3 : ret3 = 0
  swap
  · rw [if_pos z3] at h; exact absurd (congrArg Prod.fst h) Bool.false_ne_true
  rw [if_neg (fun c => c z3)] at h
  by_cases z2 : ret2 = 0
  swap
  · rw [if_pos z2] at h; exact absurd (congrArg Prod.fst h) Bool.false_ne_true
  rw [if_neg (fun c => c z2)] at h
  by_cases z1 : ret1 = 0
  swap
  · rw [if_pos z1] at h; exact absurd (congrArg Prod.fst h) Bool.false_ne_true
  rw [if_neg (fun c => c z1)] at h
  by_cases z0 : r0.1 = 0
  swap
  · rw [if_pos z0] at h; exact absurd (congrArg Prod.fst h) Bool.false_ne_true
  rw [if_neg (fun c => c z0)] at h
  exact ⟨z4, z3, z2, z1, z0, (congrArg Prod.snd h).symm⟩

/-- The hash conditions only depend on the file content. -/
theorem SlotsOK_data {info : DisaDiffRWInfo} (sha : Sha) (k a s : Nat) (w w1 : World)
    (hd : ∀ y, w1.data y = w.data y) (h : SlotsOK sha info w k a s) :
    SlotsOK sha info w1 k a s := by
  intro j hj1 hj2 t ht
  rw [hd, h j hj1 hj2 t ht, blockBytes_congr info w w1 k j (fun x _ => hd _)]

theorem PartitionHashOK_data {info : DisaDiffRWInfo} (sha : Sha) (w w1 : World)
    (hd : ∀ y, w1.data y = w.data y) (h : PartitionHashOK sha info w) :
    PartitionHashOK sha info w1 := by
  intro t ht
  rw [hd, h t ht]
  congr 1
  apply bufList_congr
  intro j _
  exact (hd _).symm

/-- After a fix chain that reported success the touched blocks of every level
have their hashes in place, and so has the descriptor table. -/
theorem fixChain_post {info : DisaDiffRWInfo} (sha : Sha) (hg : HashGeometry info)
    (offset size : Nat) (w wf : World) (hr : offset + size ≤ info.size_ivfc_lvl4)
    (h : fixChain sha info [4, 3, 2, 1, 0] offset size w = some (true, wf)) :
    SlotsOK sha info wf 4 (touched info offset size 0).1 (touched info offset size 0).2 ∧
    SlotsOK sha info wf 3 (touched info offset size 1).1 (touched info offset size 1).2 ∧
    SlotsOK sha info wf 2 (touched info offset size 2).1 (touched info offset size 2).2 ∧
    SlotsOK sha info wf 1 (touched info offset size 3).1 (touched info offset size 3).2 ∧
    PartitionHashOK sha info wf := by
  have hfit := touched_fits hg offset size hr
  obtain ⟨ret4, w3, ret3, w2, ret2, w1, ret1, w0, t4, t3, t2, t1, e⟩ :=
    fixChain_stages sha hg offset size w hr
  rw [e] at h
  obtain ⟨z4, z3, z2, z1, z0, hwf⟩ := chainResult_true _ _ _ _ _ _ _ _ _ _ (Option.some.inj h)
  subst hwf
  obtain ⟨_, _, _, c4, s4, _⟩ := t4
  obtain ⟨_, _, _, c3, s3, _⟩ := t3
  obtain ⟨_, _, _, c2, s2, _⟩ := t2
  obtain ⟨_, _, _, c1, s1, _⟩ := t1
  obtain ⟨_, _, _, c0, _⟩ := FixDisaDiffPartitionHash_spec sha info w0
  have n3 := next_fits hg 3 _ _ (by decide) (by decide) (hfit 1 (by decide))
  have n2 := next_fits hg 2 _ _ (by decide) (by decide) (hfit 2 (by decide))
  have n1 := next_fits hg 1 _ _ (by decide) (by decide) (hfit 3 (by decide))
  refine ⟨?_, ?_, ?_, ?_, PartitionHashOK_of_fix sha hg w0 z0⟩
  · have q := s4 z4
    have q := SlotsOK_frame sha hg 4 _ _ 2 _ _ (by decide) (by decide) (hfit 0 (by decide))
      (by decide) (by decide) (by decide) n3 w3 w2 c3 q
    have q := SlotsOK_frame sha hg 4 _ _ 1 _ _ (by decide) (by decide) (hfit 0 (by decide))
      (by decide) (by decide) (by decide) n2 w2 w1 c2 q
    have q := SlotsOK_frame sha hg 4 _ _ 0 _ _ (by decide) (by decide) (hfit 0 (by decide))
      (by decide) (by decide) (by decide) n1 w1 w0 c1 q
    exact SlotsOK_frame_part sha hg 4 _ _ (by decide) (by decide) (hfit 0 (by decide)) w0 _ c0 q
  · have q := s3 z3
    have q := SlotsOK_frame sha hg 3 _ _ 1 _ _ (by decide) (by decide) (hfit 1 (by decide))
      (by decide) (by decide) (by decide) n2 w2 w1 c2 q
    have q := SlotsOK_frame sha hg 3 _ _ 0 _ _ (by decide) (by decide) (hfit 1 (by decide))
      (by decide) (by decide) (by decide) n1 w1 w0 c1 q
    exact SlotsOK_frame_part sha hg 3 _ _ (by decide) (by decide) (hfit 1 (by decide)) w0 _ c0 q
  · have q := s2 z2
    have q := SlotsOK_frame sha hg 2 _ _ 0 _ _ (by decide) (by decide) (hfit 2 (by decide))
      (by decide) (by decide) (by decide) n1 w1 w0 c1 q
    exact SlotsOK_frame_part sha hg 2 _ _ (by decide) (by decide) (hfit 2 (by decide)) w0 _ c0 q
  · have q := s1 z1
    exact SlotsOK_frame_part sha hg 1 _ _ (by decide) (by decide) (hfit 3 (by decide)) w0 _ c0 q

/-- Run on a file where the touched blocks of every level and the descriptor
table have their hashes in place, a fix chain that reports success changes no
byte. -/
theorem fixChain_idem {info : DisaDiffRWInfo} (sha : Sha) (hg : HashGeometry info)
    (offset size : Nat) (w wf : World) (hr : offset + size ≤ info.size_ivfc_lvl4)
    (p4 : SlotsOK sha info w 4 (touched info offset size 0).1 (touched info offset size 0).2)
    (p3 : SlotsOK sha info w 3 (touched info offset size 1).1 (touched info offset size 1).2)
    (p2 : SlotsOK sha info w 2 (touched info offset size 2).1 (touched info offset size 2).2)
    (p1 : SlotsOK sha info w 1 (touched info offset size 3).1 (touched info offset size 3).2)
    (p0 : PartitionHashOK sha info w)
    (h : fixChain sha info [4, 3, 2, 1, 0] offset size w = some (true, wf)) :
    ∀ y, wf.data y = w.data y := by
  obtain ⟨ret4, w3, ret3, w2, ret2, w1, ret1, w0, t4, t3, t2, t1, e⟩ :=
    fixChain_stages sha hg offset size w hr
  rw [e] at h
  obtain ⟨z4, z3, z2, z1, z0, hwf⟩ := chainResult_true _ _ _ _ _ _ _ _ _ _ (Option.some.inj h)
  subst hwf
  obtain ⟨_, _, _, _, _, i4⟩ := t4
  obtain ⟨_, _, _, _, _, i3⟩ := t3
  obtain ⟨_, _, _, _, _, i2⟩ := t2
  obtain ⟨_, _, _, _, _, i1⟩ := t1
  have d3 := i4 z4 p4
  have d2 := i3 z3 (SlotsOK_data sha _ _ _ w w3 d3 p3)
  have d2' : ∀ y, w2.data y = w.data y := fun y => by rw [d2, d3]
  have d1 := i2 z2 (SlotsOK_data sha _ _ _ w w2 d2' p2)
  have d1' : ∀ y, w1.data y = w.data y := fun y => by rw [d1, d2']
  have d0 := i1 z1 (SlotsOK_data sha _ _ _ w w1 d1' p1)
  have d0' : ∀ y, w0.data y = w.data y := fun y => by rw [d0, d1']
  intro y
  rw [FixDisaDiffPartitionHash_idem sha info w0 (PartitionHashOK_data sha w w0 d0' p0) z0, d0']

/-- Claim C15 (idempotence of the fix chain).  For every descriptor with the
geometry of a valid container and every range inside level 4, the chain of
`FixDisaDiffIvfcLevel` over the levels 4, 3, 2, 1, 0, each handing its
`next_offset` / `next_size` to the next, returns, and when it reports success
a second run of the chain on the file it left returns, and when that reports
success too the file it leaves is byte for byte the file after the first
run. -/
theorem fix_chain_idempotent {info : DisaDiffRWInfo} (sha : Sha) (hg : HashGeometry info)
    (offset size : Nat) (w : World) (hr : offset + size ≤ info.size_ivfc_lvl4) :
    ∃ ok1 w1, fixChain sha info [4, 3, 2, 1, 0] offset size w = some (ok1, w1) ∧
      (ok1 = true → ∃ ok2 w2, fixChain sha info [4, 3, 2, 1, 0] offset size w1 = some (ok2, w2) ∧
        (ok2 = true → w2.fsize = w1.fsize ∧ ∀ y, w2.data y = w1.data y)) := by
  obtain ⟨ok1, w1, e1, _⟩ := fixChain_spec sha hg offset size w hr
  refine ⟨ok1, w1, e1, fun h1 => ?_⟩
  subst h1
  obtain ⟨ok2, w2, e2, f2, _⟩ := fixChain_spec sha hg offset size w1 hr
  refine ⟨ok2, w2, e2, fun h2 => ?_⟩
  subst h2
  obtain ⟨p4, p3, p2, p1, p0⟩ := fixChain_post sha hg offset size w w1 hr e1
  exact ⟨f2, fixChain_idem sha hg offset size w1 w2 hr p4 p3 p2 p1 p0 e2⟩

/-- Scenario for claim C15: on `chainInfo` and the open file `walkWorld` the
chain for the range of 17 bytes at offset 5 of level 4 reports success, and so
does a second run, which changes no byte. -/
theorem fix_chain_idempotent_scenario :
    HashGeometry chainInfo ∧ 5 + 17 ≤ chainInfo.size_ivfc_lvl4 ∧
    (fixChain toySha chainInfo [4, 3, 2, 1, 0] 5 17 walkWorld).map (fun r => r.1) = some true ∧
    ((fixChain toySha chainInfo [4, 3, 2, 1, 0] 5 17 walkWorld).bind
      (fun r => fixChain toySha chainInfo [4, 3, 2, 1, 0] 5 17 r.2)).map (fun r => r.1)
      = some true ∧
    ∃ ok1 w1, fixChain toySha chainInfo [4, 3, 2, 1, 0] 5 17 walkWorld = some (ok1, w1) ∧
      (ok1 = true → ∃ ok2 w2,
        fixChain toySha chainInfo [4, 3, 2, 1, 0] 5 17 w1 = some (ok2, w2) ∧
        (ok2 = true → w2.fsize = w1.fsize ∧ ∀ y, w2.data y = w1.data y)) :=
  ⟨chainInfo_geometry, by decide, by decide, by decide,
    fix_chain_idempotent toySha chainInfo_geometry 5 17 walkWorld (by decide)⟩
/-- A change confined to a level keeps the partition-hash slot. -/
theorem ChangedWithin.keeps_part {info : DisaDiffRWInfo} (hg : HashGeometry info) (m b c : Nat)
    (hm : m ≤ 4) (hbc : b + c ≤ lvlSize info m) (w w1 : World)
    (hc : ChangedWithin info m b c w w1) (t : Nat) (ht : t < 32) :
    w1.data (info.offset_partition_hash + t) = w.data (info.offset_partition_hash + t) := by
  apply hc
  intro z _ hz2
  exact lvlPos_ne_part hg m z t hm (by omega) ht

/-- A fix chain that reports a failure has left the partition-hash slot as it
was. -/
theorem fixChain_failure_keeps_part {info : DisaDiffRWInfo} (sha : Sha) (hg : HashGeometry info)
    (offset size : Nat) (w wf : World) (hr : offset + size ≤ info.size_ivfc_lvl4)
    (h : fixChain sha info [4, 3, 2, 1, 0] offset size w = some (false, wf)) :
    ∀ t, t < 32 →
      wf.data (info.offset_partition_hash + t) = w.data (info.offset_partition_hash + t) := by
  have hfit := touched_fits hg offset size hr
  obtain ⟨ret4, w3, ret3, w2, ret2, w1, ret1, w0, t4, t3, t2, t1, e⟩ :=
    fixChain_stages sha hg offset size w hr
  rw [e] at h
  have h := Option.some.inj h
  obtain ⟨_, _, _, c4, _, _⟩ := t4
  obtain ⟨_, _, _, c3, _, _⟩ := t3
  obtain ⟨_, _, _, c2, _, _⟩ := t2
  obtain ⟨_, _, _, c1, _, _⟩ := t1
  have k4 := ChangedWithin.keeps_part hg 3 _ _ (by decide)
    (next_fits hg 4 _ _ (by decide) (by decide) (hfit 0 (by decide))) w w3 c4
  have k3 := ChangedWithin.keeps_part hg 2 _ _ (by decide)
    (next_fits hg 3 _ _ (by decide) (by decide) (hfit 1 (by decide))) w3 w2 c3
  have k2 := ChangedWithin.keeps_part hg 1 _ _ (by decide)
    (next_fits hg 2 _ _ (by decide) (by decide) (hfit 2 (by decide))) w2 w1 c2
  have k1 := ChangedWithin.keeps_part hg 0 _ _ (by decide)
    (next_fits hg 1 _ _ (by decide) (by decide) (hfit 3 (by decide))) w1 w0 c1
  intro t ht
  unfold chainResult at h
  by_cases z4 : ret4 = 0
  swap
  · rw [if_pos z4] at h
    obtain ⟨_, hw⟩ := Prod.mk.inj h
    subst hw
    exact k4 t ht
  rw [if_neg (fun c => c z4)] at h
  by_cases z3 : ret3 = 0
  swap
  · rw [if_pos z3] at h
    obtain ⟨_, hw⟩ := Prod.mk.inj h
    subst hw
    show w2.data _ = _
    rw [k3 t ht, k4 t ht]
  rw [if_neg (fun c => c z3)] at h
  by_cases z2 : ret2 = 0
  swap
  · rw [if_pos z2] at h
    obtain ⟨_, hw⟩ := Prod.mk.inj h
    subst hw
    show w1.data _ = _
    rw [k2 t ht, k3 t ht, k4 t ht]
  rw [if_neg (fun c => c z2)] at h
  by_cases z1 : ret1 = 0
  swap
  · rw [if_pos z1] at h
    obtain ⟨_, hw⟩ := Prod.mk.inj h
    subst hw
    show w0.data _ = _
    rw [k1 t ht, k2 t ht, k3 t ht, k4 t ht]
  rw [if_neg (fun c => c z1)] at h
  by_cases z0 : (FixDisaDiffPartitionHash sha info w0).1 = 0
  swap
  · rw [if_pos z0] at h
    obtain ⟨_, hw⟩ := Prod.mk.inj h
    subst hw
    show (FixDisaDiffPartitionHash sha info w0).2.data _ = _
    rw [FixDisaDiffPartitionHash_fail sha info w0 z0, k1 t ht, k2 t ht, k3 t ht, k4 t ht]
  rw [if_neg (fun c => c z0)] at h
  exact absurd (congrArg Prod.fst h).symm Bool.false_ne_true

/-- Claim C16 (failure leaves the partition hash alone), for valid containers
and ranges that do not wrap.  For every descriptor with the geometry of a valid
container (the partition-hash slot apart from the hash levels, the master-hash
region and level 4) and every call of `WriteDisaDiffIvfcLvl4` with the
descriptor and `offset + size < 2^32`, the call returns, and if it returns 0
the 32 bytes at `offset_partition_hash` are what they were before the call (a
failed physical write changing nothing). -/
theorem write_failure_keeps_partition_hash {info : DisaDiffRWInfo} (sha : Sha)
    (hg : HashGeometry info) (path : Bool) (w : World) (offset size : Nat) (buffer : Buf)
    (hnw : offset + size < 2 ^ 32) :
    ∃ n w1, WriteDisaDiffIvfcLvl4 sha path w (some info) offset size buffer = some (n, w1) ∧
      (n = 0 → ∀ t, t < 32 →
        w1.data (info.offset_partition_hash + t) = w.data (info.offset_partition_hash + t)) := by
  by_cases hrej : offset + size > info.size_ivfc_lvl4
  · refine ⟨0, w, ?_, fun _ _ _ => rfl⟩
    unfold WriteDisaDiffIvfcLvl4 localInfo
    simp only []
    rw [if_pos (by rw [u32_eq hnw]; exact hrej)]
  · have hr : offset + size ≤ info.size_ivfc_lvl4 := by omega
    obtain ⟨o1, o2, o3, o4, o5⟩ := DisaDiffOpen_spec path w
    unfold WriteDisaDiffIvfcLvl4 localInfo
    simp only []
    rw [if_neg (by rw [u32_eq hnw]; exact hrej)]
    generalize DisaDiffOpen path w = o at *
    obtain ⟨size1, hs1, hs1z⟩ : ∃ s, (if o.1 = false then 0 else size) = s ∧
        (s = size ∨ s = 0) := by
      by_cases h : o.1 = false
      · exact ⟨0, by rw [if_pos h], Or.inr rfl⟩
      · exact ⟨size, by rw [if_neg h], Or.inl rfl⟩
    rw [hs1]
    have hr1 : offset + size1 ≤ info.size_ivfc_lvl4 := by rcases hs1z with h | h <;> omega
    obtain ⟨m, w2, e, a1, a2, a3, a4, a5, a6⟩ := lvl4_write_spec hg offset size1 buffer o.2 hr1
    rw [e]
    simp only []
    have kd := ChangedWithin.keeps_part hg 4 offset size1 (by decide) hr1 o.2 w2 a5
    by_cases hc : m ≠ 0 ∧ w2.ddfp = true
    · rw [if_pos hc]
      have hm : m = size1 := by
        rcases a4 with h | h
        · exact h
        · exact absurd h hc.1
      obtain ⟨ok, wf, ef, _⟩ := fixChain_spec sha hg offset m w2 (by rw [hm]; exact hr1)
      rw [ef]
      refine ⟨_, _, rfl, fun hn t ht => ?_⟩
      have hok : ok = false := by
        cases ok
        · rfl
        · exact absurd hn hc.1
      subst hok
      show wf.data _ = _
      rw [fixChain_failure_keeps_part sha hg offset m w2 wf (by rw [hm]; exact hr1) ef t ht,
        kd t ht, o3]
    · rw [if_neg hc]
      refine ⟨m, _, rfl, fun _ t ht => ?_⟩
      show w2.data _ = _
      rw [kd t ht, o3]
/-- Scenario for claim C16: on `bigTableInfo`, whose descriptor table does not
fit the file, the write of 17 bytes at offset 5 of level 4 stores the bytes and
fixes levels 4 to 1, fails at level 0 and returns 0; the partition hash is as
before. -/
theorem write_failure_keeps_partition_hash_scenario :
    HashGeometry bigTableInfo ∧ 5 + 17 < 2 ^ 32 ∧
    (WriteDisaDiffIvfcLvl4 toySha true chainWorld (some bigTableInfo) 5 17 (fun j => j + 1)).map
      (fun r => (r.1, r.2.data (lvlPos bigTableInfo 4 5), r.2.trace.length)) = some (0, 1, 18) ∧
    ∃ n w1, WriteDisaDiffIvfcLvl4 toySha true chainWorld (some bigTableInfo) 5 17
        (fun j => j + 1) = some (n, w1) ∧
      (n = 0 → ∀ t, t < 32 →
        w1.data (bigTableInfo.offset_partition_hash + t)
          = chainWorld.data (bigTableInfo.offset_partition_hash + t)) :=
  have hg : HashGeometry bigTableInfo :=
    { lvl3 := ⟨by decide, by decide⟩, log_le := by decide, inside := by decide,
      order := by decide, capacity := by decide, master_u32 := by decide,
      lvl4_in := fun _ => by decide, lvl4_ext := fun h => absurd rfl h,
      master_out := by decide, part_out := by decide, part_master := by decide,
      part_table := by decide }
  ⟨hg, by decide, by decide,
    write_failure_keeps_partition_hash toySha hg true chainWorld 5 17 (fun j => j + 1)
      (by decide)⟩

/-- Counterexample to claim C16 as stated (every container on which parsing
succeeds).  `GetDisaDiffRWInfo` accepts the file `overlapWorld`, whose level 4
covers the partition hash at `0x16C` and whose descriptor table exceeds the
file.  The call without a descriptor for 32 bytes `0xFF` at offset `0x0C` of
level 4 stores them over the partition hash, fixes levels 4 to 1, fails to
read the table at level 0 and returns 0: the byte at `0x16C` was 0 and is
`0xFF`. -/
theorem write_failure_overwrites_partition_hash :
    (GetDisaDiffRWInfo true overlapWorld false).map (fun i => i.offset_partition_hash)
      = some 0x16C ∧
    overlapWorld.data 0x16C = 0 ∧
    (WriteDisaDiffIvfcLvl4 toySha true overlapWorld none 0x0C 0x20 (fun _ => 0xFF)).map
      (fun r => (r.1, r.2.data 0x16C)) = some (0, 0xFF) := by
  refine ⟨by decide, by decide, by decide⟩
/-- The walk of `ReadDisaDiffDpfsLvl3` returns the size it was asked for, or 0. -/
theorem readLoop_size (info : DisaDiffRWInfo) (os oe : Nat) (fuel : Nat) :
    ∀ (size a b st : Nat) (buffer : Buf) (w : World) (r : Nat × Buf × World),
      readLoop info os oe fuel size a b st buffer w = some r → r.1 = size ∨ r.1 = 0 := by
  induction fuel with
  | zero => intro size a b st buffer w r h; exact absurd h (by simp [readLoop])
  | succ fuel ih =>
    intro size a b st buffer w r h
    unfold readLoop at h
    simp only [] at h
    repeat' split at h
    all_goals first
      | exact ih _ _ _ _ _ _ _ h
      | exact (ih _ _ _ _ _ _ _ h).elim Or.inr Or.inr
      | (rw [← Option.some.inj h]; exact Or.inl rfl)

/-- Level-4 bounds for ranges whose sum does not wrap, the case of claim C17
the code satisfies.  For every descriptor and every `(offset, size)` with
`offset + size < 2^32`: when `offset + size` exceeds `size_ivfc_lvl4`,
`WriteDisaDiffIvfcLvl4` returns 0 and leaves the file layer untouched (no
transfer is issued); when `offset ≤ size_ivfc_lvl4`, `ReadDisaDiffIvfcLvl4` is
the read of the range cut at the end of level 4, of
`min size (size_ivfc_lvl4 - offset)` bytes, and returns no more than that.
For every `(offset, size)` with `offset > size_ivfc_lvl4` the read returns 0
with the buffer and the file content as they were. -/
theorem lvl4_bounds (sha : Sha) (path : Bool) (w : World) (info : DisaDiffRWInfo)
    (offset size : Nat) (buffer : Buf) :
    (offset + size < 2 ^ 32 → offset + size > info.size_ivfc_lvl4 →
      WriteDisaDiffIvfcLvl4 sha path w (some info) offset size buffer = some (0, w)) ∧
    (offset > info.size_ivfc_lvl4 →
      ∃ w1, ReadDisaDiffIvfcLvl4 path w (some info) offset size buffer = some (0, buffer, w1) ∧
        w1.data = w.data ∧ w1.trace = w.trace) ∧
    (offset ≤ info.size_ivfc_lvl4 → offset + size < 2 ^ 32 →
      ReadDisaDiffIvfcLvl4 path w (some info) offset size buffer
        = ReadDisaDiffIvfcLvl4 path w (some info) offset
            (min size (info.size_ivfc_lvl4 - offset)) buffer ∧
      ∀ n out w1, ReadDisaDiffIvfcLvl4 path w (some info) offset size buffer = some (n, out, w1) →
        n ≤ min size (info.size_ivfc_lvl4 - offset)) := by
  refine ⟨fun hnw h => ?_, fun h => ?_, fun h hnw => ?_⟩
  · unfold WriteDisaDiffIvfcLvl4 localInfo
    simp only []
    rw [if_pos (show u32 (offset + size) > info.size_ivfc_lvl4 by rw [u32_eq hnw]; exact h)]
  · refine ⟨(DisaDiffOpen path w).2, ?_, DisaDiffOpen_data path w, ?_⟩
    · unfold ReadDisaDiffIvfcLvl4 localInfo
      simp only []
      rw [if_pos h]
    · unfold DisaDiffOpen
      split
      · split <;> rfl
      · rfl
  · have hs4 : info.size_ivfc_lvl4 < 2 ^ 32 ∨ ¬ info.size_ivfc_lvl4 < 2 ^ 32 := Classical.em _
    -- the size after the open and after the cut
    have hcut : ∀ s, (s = size ∨ s = 0) →
        (if u32 (offset + s) > info.size_ivfc_lvl4 then sub32 info.size_ivfc_lvl4 offset else s)
          = min s (info.size_ivfc_lvl4 - offset) := by
      intro s hs
      have hlt : offset + s < 2 ^ 32 := by rcases hs with h1 | h1 <;> omega
      rw [u32_eq hlt]
      by_cases hc : offset + s > info.size_ivfc_lvl4
      · rw [if_pos hc, sub32_eq h (by omega)]
        omega
      · rw [if_neg hc]
        omega
    have hcut2 : ∀ s, (s = min size (info.size_ivfc_lvl4 - offset) ∨ s = 0) →
        (if u32 (offset + s) > info.size_ivfc_lvl4 then sub32 info.size_ivfc_lvl4 offset else s)
          = s := by
      intro s hs
      have hle : offset + s ≤ info.size_ivfc_lvl4 := by rcases hs with h1 | h1 <;> omega
      rw [u32_eq (by omega), if_neg (by omega)]
    have hmin0 : min 0 (info.size_ivfc_lvl4 - offset) = 0 := by omega
    have heq : ReadDisaDiffIvfcLvl4 path w (some info) offset size buffer
        = ReadDisaDiffIvfcLvl4 path w (some info) offset
            (min size (info.size_ivfc_lvl4 - offset)) buffer := by
      unfold ReadDisaDiffIvfcLvl4 localInfo
      simp only []
      by_cases ho : (DisaDiffOpen path w).1 = false
      · simp only [ho, if_true]
      · simp only [ho, if_false, Bool.true_eq_false]
        rw [hcut size (Or.inl rfl), hcut2 _ (Or.inl rfl)]
    refine ⟨heq, fun n out w1 hres => ?_⟩
    rw [heq] at hres
    unfold ReadDisaDiffIvfcLvl4 localInfo at hres
    simp only [] at hres
    rw [if_neg (show ¬ offset > info.size_ivfc_lvl4 by omega)] at hres
    generalize hsz : (if (DisaDiffOpen path w).1 = false then 0
      else min size (info.size_ivfc_lvl4 - offset)) = s at hres
    have hs : s = min size (info.size_ivfc_lvl4 - offset) ∨ s = 0 := by
      rw [← hsz]
      split
      · exact Or.inr rfl
      · exact Or.inl rfl
    rw [hcut2 s hs] at hres
    have hsle : s ≤ min size (info.size_ivfc_lvl4 - offset) := by rcases hs with h1 | h1 <;> omega
    split at hres
    · have := congrArg Prod.fst (Option.some.inj hres)
      simp only [] at this
      rw [← this]
      split <;> omega
    · unfold ReadDisaDiffDpfsLvl3 at hres
      cases hl : readLoop info (u32 (info.offset_ivfc_lvl4 + offset))
          (u32 (u32 (info.offset_ivfc_lvl4 + offset) + s)) loopFuel s
          (u32 (info.offset_ivfc_lvl4 + offset)) (u32 (info.offset_ivfc_lvl4 + offset)) 0 buffer
          (DisaDiffOpen path w).2 with
      | none => rw [hl] at hres; exact absurd hres (by simp)
      | some r =>
        rw [hl] at hres
        have := congrArg Prod.fst (Option.some.inj hres)
        simp only [Option.map_some'] at this
        have hr := readLoop_size info _ _ _ _ _ _ _ _ _ r hl
        have e : r.1 = n := this
        omega
/-- Scenario for `lvl4_bounds`: on `chainInfo` (level 4 of 32 bytes) the write of
13 bytes at offset 20 is rejected with the file layer untouched; the read at
offset 33 returns 0; the read of 13 bytes at offset 20 is the read of the 12
bytes up to the end of level 4 and returns 12. -/
theorem lvl4_bounds_scenario :
    WriteDisaDiffIvfcLvl4 toySha true chainWorld (some chainInfo) 20 13 (fun _ => 1)
      = some (0, chainWorld) ∧
    (∃ w1, ReadDisaDiffIvfcLvl4 true walkWorld (some chainInfo) 33 1 (fun _ => 0)
        = some (0, fun _ => 0, w1) ∧ w1.data = walkWorld.data ∧ w1.trace = walkWorld.trace) ∧
    (ReadDisaDiffIvfcLvl4 true walkWorld (some chainInfo) 20 13 (fun _ => 0)
        = ReadDisaDiffIvfcLvl4 true walkWorld (some chainInfo) 20
            (min 13 (chainInfo.size_ivfc_lvl4 - 20)) (fun _ => 0) ∧
      ∀ n out w1, ReadDisaDiffIvfcLvl4 true walkWorld (some chainInfo) 20 13 (fun _ => 0)
          = some (n, out, w1) → n ≤ min 13 (chainInfo.size_ivfc_lvl4 - 20)) ∧
    (ReadDisaDiffIvfcLvl4 true walkWorld (some chainInfo) 20 13 (fun _ => 0)).map
      (fun r => (r.1, r.2.2.trace)) = some (12, [IoEvent.read 1524 12]) :=
  ⟨(lvl4_bounds toySha true chainWorld chainInfo 20 13 (fun _ => 1)).1 (by decide) (by decide),
    (lvl4_bounds toySha true walkWorld chainInfo 33 1 (fun _ => 0)).2.1 (by decide),
    (lvl4_bounds toySha true walkWorld chainInfo 20 13 (fun _ => 0)).2.2 (by decide) (by decide),
    by decide⟩

/-- Evaluation for claim C17 (level-4 bounds) at the failing inputs.  On
`chainInfo` (level 4 of 32 bytes) the sum of `offset = 0xFFFFFFFF` and
`size = 2` exceeds 32, but the 32-bit sum the check of line 545 computes is 1:
the write is not rejected, issues physical writes (the first at file position
1247, level-3 offset 223, outside level 4) and returns 2.  Likewise the read of
`0xFFFFFFFF` bytes at offset 1 is not cut at line 513: it returns `0xFFFFFFFF`,
more than the 31 bytes up to the end of level 4. -/
theorem lvl4_bounds_wrapped_sum :
    chainInfo.size_ivfc_lvl4 = 32 ∧ (2 ^ 32 - 1) + 2 > chainInfo.size_ivfc_lvl4 ∧
    (WriteDisaDiffIvfcLvl4 toySha true chainWorld (some chainInfo) (2 ^ 32 - 1) 2
        (fun _ => 1)).map (fun r => (r.1, r.2.trace.take 2))
      = some (2, [IoEvent.write 1247 1, IoEvent.write 1504 1]) ∧
    (ReadDisaDiffIvfcLvl4 true chainWorld (some chainInfo) 1 (2 ^ 32 - 1) (fun _ => 0)).map
      (fun r => r.1) = some (2 ^ 32 - 1) := by
  refine ⟨rfl, by decide, by decide, by decide⟩
/-- Evaluation for claim C18 (scoped handle).  On `chainInfo` (level 4 of 32
bytes) and a present file with no handle open, `ReadDisaDiffIvfcLvl4` called
with `offset = 33`, `size = 1` opens the file and returns 0 at the check
`offset > size_ivfc_lvl4` (line 512) with the handle still open and no transfer
made; with `offset = 32` it returns 0 with the handle closed, with
`offset = 31` it reads one byte, returns 1 and closes the handle, and
`WriteDisaDiffIvfcLvl4` with `offset = 33`, `size = 1` rejects the range
before opening the file. -/
theorem read_lvl4_early_return_keeps_handle :
    chainWorld.ddfp = false ∧ 33 > chainInfo.size_ivfc_lvl4 ∧
    (ReadDisaDiffIvfcLvl4 true chainWorld (some chainInfo) 33 1 (fun _ => 0)).map
      (fun r => (r.1, r.2.2.ddfp, r.2.2.trace)) = some (0, true, []) ∧
    (ReadDisaDiffIvfcLvl4 true chainWorld (some chainInfo) 32 1 (fun _ => 0)).map
      (fun r => (r.1, r.2.2.ddfp, r.2.2.trace)) = some (0, false, []) ∧
    (ReadDisaDiffIvfcLvl4 true chainWorld (some chainInfo) 31 1 (fun _ => 0)).map
      (fun r => (r.1, r.2.2.ddfp, r.2.2.trace)) = some (1, false, [IoEvent.read 1535 1]) ∧
    (WriteDisaDiffIvfcLvl4 toySha true chainWorld (some chainInfo) 33 1 (fun _ => 0)).map
      (fun r => (r.1, r.2.ddfp, r.2.trace)) = some (0, false, []) := by
  refine ⟨rfl, by decide, by decide, by decide, by decide, by decide⟩
/-- Evaluation for claim C20 (buffer bound of the cache builder).  For
`cacheInfo` the minimum cache size is 4 bytes and level 2 has `0x100` bytes.
Called with a zeroed buffer of `cache_size = 4` on the file `cacheWorld 0x1003`
(level-1 word `0xAA000000`, copy 0 of level 2 all `0x11`, copy 1 all `0x22`)
the builder passes its size checks and returns 0 having read `0x100` bytes of
copy 0 and the 8-byte blocks 0, 2, 4 and 6 of copy 1 into the buffer: the
buffer positions 4, 8, 48 and 255, all at or past `cache_size`, hold `0x22`,
`0x11`, `0x22` and `0x11`.  With `cache_size = 3` the call is rejected and the
buffer stays as it was. -/
theorem build_cache_stores_past_cache_size :
    min_cache_size cacheInfo = 4 ∧ cacheInfo.size_dpfs_lvl2 = 0x100 ∧
    (BuildDisaDiffDpfsLvl2Cache true (cacheWorld 0x1003) cacheInfo (fun _ => 0) 4).map
      (fun r => (r.1, r.2.1.trace))
      = some (0, [IoEvent.read 4096 4, IoEvent.read 4112 256, IoEvent.read 4368 8,
          IoEvent.read 4384 8, IoEvent.read 4400 8, IoEvent.read 4416 8]) ∧
    (BuildDisaDiffDpfsLvl2Cache true (cacheWorld 0x1003) cacheInfo (fun _ => 0) 4).map
      (fun r => [r.2.2.2 4, r.2.2.2 8, r.2.2.2 48, r.2.2.2 255, r.2.2.2 256])
      = some [0x22, 0x11, 0x22, 0x11, 0] ∧
    (BuildDisaDiffDpfsLvl2Cache true (cacheWorld 0x1003) cacheInfo (fun _ => 0) 3).map
      (fun r => (r.1, r.2.1.trace, r.2.2.2 4, r.2.2.2 255)) = some (1, [], 0, 0) := by
  refine ⟨by decide, rfl, by decide, by decide, by decide⟩
/-- The recorded read loop is the loop: dropping the record gives `readLoop`. -/
theorem readLoopLog_erase (info : DisaDiffRWInfo) (os oe : Nat) (fuel : Nat) :
    ∀ (size a b st : Nat) (buffer : Buf) (w : World),
      (readLoopLog info os oe fuel size a b st buffer w).map (fun r => r.1)
        = readLoop info os oe fuel size a b st buffer w := by
  induction fuel with
  | zero => intro size a b st buffer w; rfl
  | succ fuel ih =>
    intro size a b st buffer w
    unfold readLoopLog readLoop
    by_cases hc : size ≠ 0 ∧ a < oe
    · rw [if_pos hc, if_pos hc]
      simp only [← ih]
      repeat' split
      all_goals (simp only [Option.map_map]; rfl)
    · rw [if_neg hc, if_neg hc]
      rfl

/-- The recorded write loop is the loop: dropping the record gives `writeLoop`. -/
theorem writeLoopLog_erase (info : DisaDiffRWInfo) (buffer : Buf) (os oe : Nat) (fuel : Nat) :
    ∀ (size a b st : Nat) (w : World),
      (writeLoopLog info buffer os oe fuel size a b st w).map (fun r => r.1)
        = writeLoop info buffer os oe fuel size a b st w := by
  induction fuel with
  | zero => intro size a b st w; rfl
  | succ fuel ih =>
    intro size a b st w
    unfold writeLoopLog writeLoop
    by_cases hc : size ≠ 0 ∧ a < oe
    · rw [if_pos hc, if_pos hc]
      simp only [← ih]
      repeat' split
      all_goals (simp only [Option.map_map]; rfl)
    · rw [if_neg hc, if_neg hc]
      rfl
/-- Block arithmetic of the walk: for a cursor `b` before the end `E`, the
block after that of `b` is counted by `cdiv E B`, starts after `b`, and `E`
rounded up to a block boundary is `cdiv E B * B`. -/
theorem walk_block_facts (B E b : Nat) (hB : 0 < B) (hb : b < E) :
    b / B + 1 ≤ cdiv E B ∧ b < (b / B + 1) * B ∧ (b / B + 1) * B / B = b / B + 1 ∧
      E ≤ cdiv E B * B := by
  have h1 := Nat.div_mul_le_self b B
  have h2 : (b / B + 1) * B = b / B * B + B := Nat.succ_mul _ _
  have h3 := Nat.div_add_mod b B
  have h4 := Nat.mod_lt b hB
  have h5 : b / B * B = B * (b / B) := Nat.mul_comm _ _
  refine ⟨?_, by omega, Nat.mul_div_cancel _ hB, ?_⟩
  · unfold cdiv
    exact (Nat.le_div_iff_mul_le hB).mpr (by omega)
  · unfold cdiv
    have h6 := Nat.div_add_mod (E + B - 1) B
    have h7 := Nat.mod_lt (E + B - 1) hB
    have h8 : (E + B - 1) / B * B = B * ((E + B - 1) / B) := Nat.mul_comm _ _
    omega

/-- When the end of the range rounded up to a block boundary is below `2^32`,
the block-end computation of the walk does not wrap. -/
theorem walk_ext_no_wrap (info : DisaDiffRWInfo) (E b : Nat)
    (hE : cdiv E (2 ^ info.log_dpfs_lvl3) * 2 ^ info.log_dpfs_lvl3 < 2 ^ 32) (hb : b < E) :
    shl32 (u32 (shr b info.log_dpfs_lvl3 + 1)) info.log_dpfs_lvl3
      = (b / 2 ^ info.log_dpfs_lvl3 + 1) * 2 ^ info.log_dpfs_lvl3 := by
  have hK : 0 < 2 ^ info.log_dpfs_lvl3 := by positivity
  obtain ⟨f1, _, _, _⟩ := walk_block_facts (2 ^ info.log_dpfs_lvl3) E b hK hb
  have h1 : (b / 2 ^ info.log_dpfs_lvl3 + 1) * 2 ^ info.log_dpfs_lvl3
      ≤ cdiv E (2 ^ info.log_dpfs_lvl3) * 2 ^ info.log_dpfs_lvl3 := Nat.mul_le_mul_right _ f1
  have h2 : b / 2 ^ info.log_dpfs_lvl3 + 1
      ≤ (b / 2 ^ info.log_dpfs_lvl3 + 1) * 2 ^ info.log_dpfs_lvl3 := Nat.le_mul_of_pos_right _ hK
  have hshr : shr b info.log_dpfs_lvl3 = b / 2 ^ info.log_dpfs_lvl3 := rfl
  rw [hshr, u32_eq (by omega), shl32_eq (by omega)]

/-- A read through the open handle appends its event to the trace and leaves
the handle open. -/
theorem DisaDiffRead_trace (w : World) (n p : Nat) (h : w.ddfp = true) :
    (DisaDiffRead w n p).2.trace = w.trace ++ [IoEvent.read p n] ∧
      (DisaDiffRead w n p).2.ddfp = true := by
  unfold DisaDiffRead
  rw [if_pos h]
  exact ⟨rfl, h⟩

/-- A write through the open handle appends its event to the trace and leaves
the handle open. -/
theorem DisaDiffWrite_trace (w : World) (buf : Buf) (n p : Nat) (h : w.ddfp = true) :
    (DisaDiffWrite w buf n p).2.trace = w.trace ++ [IoEvent.write p n] ∧
      (DisaDiffWrite w buf n p).2.ddfp = true := by
  unfold DisaDiffWrite
  rw [if_pos h]
  split
  · exact ⟨rfl, h⟩
  · exact ⟨rfl, h⟩

/-- The recorded read loop leaves at once when the loop condition fails. -/
theorem readLoopLog_exit (info : DisaDiffRWInfo) (os oe fuel size a b st : Nat) (buffer : Buf)
    (w : World) (h : ¬ (size ≠ 0 ∧ a < oe)) :
    readLoopLog info os oe (fuel + 1) size a b st buffer w = some ((size, buffer, w), []) := by
  unfold readLoopLog
  rw [if_neg h]

/-- The recorded write loop leaves at once when the loop condition fails. -/
theorem writeLoopLog_exit (info : DisaDiffRWInfo) (buffer : Buf) (os oe fuel size a b st : Nat)
    (w : World) (h : ¬ (size ≠ 0 ∧ a < oe)) :
    writeLoopLog info buffer os oe (fuel + 1) size a b st w = some ((size, w), []) := by
  unfold writeLoopLog
  rw [if_neg h]
theorem transfers_none (c : Nat) (steps : List WalkStep) :
    transfers ((c, none) :: steps) = transfers steps := rfl

theorem transfers_some (c : Nat) (x : Run) (steps : List WalkStep) :
    transfers ((c, some x) :: steps) = x :: transfers steps := rfl

/-- The passes of the read loop from a state with `read_start ≤ read_end`
before the end `E` of the range, when `E` rounded up to a block boundary is
below `2^32`: with `R` the number of blocks from that of `read_end` to the
last one of the range, the loop returns within `2 * R` passes (one less when
the bit of the block of `read_end` is `bit_state`); the start cursor never
decreases; the transfers are non-empty parts of `[read_start, E)` following
each other without overlap; and they are the reads issued through the open
handle. -/
theorem readLoopLog_walk (info : DisaDiffRWInfo) (os E : Nat)
    (hE : cdiv E (2 ^ info.log_dpfs_lvl3) * 2 ^ info.log_dpfs_lvl3 < 2 ^ 32) (fuel : Nat) :
    ∀ (size a b st : Nat) (buffer : Buf) (w : World), st < 2 → a ≤ b → b < E →
      2 * (cdiv E (2 ^ info.log_dpfs_lvl3) - b / 2 ^ info.log_dpfs_lvl3) < fuel +
        (if GET_DPFS_BIT (b / 2 ^ info.log_dpfs_lvl3) info.dpfs_lvl2_cache = st then 1 else 0) →
      ∃ r steps, readLoopLog info os E fuel size a b st buffer w = some (r, steps) ∧
        steps.length +
            (if GET_DPFS_BIT (b / 2 ^ info.log_dpfs_lvl3) info.dpfs_lvl2_cache = st then 1 else 0)
          ≤ 2 * (cdiv E (2 ^ info.log_dpfs_lvl3) - b / 2 ^ info.log_dpfs_lvl3) ∧
        List.Chain (fun c d => c ≤ d) a (steps.map (fun s => s.1)) ∧
        (∀ x, x ∈ transfers steps → a ≤ x.2.1 ∧ x.2.1 < x.2.2 ∧ x.2.2 ≤ E) ∧
        List.Pairwise (fun x y => x.2.2 ≤ y.2.1) (transfers steps) ∧
        (w.ddfp = true → r.2.2.trace = w.trace ++ (transfers steps).map
          (fun x => IoEvent.read (dpfsPos info x.1 x.2.1) (x.2.2 - x.2.1))) := by
  have hK : 0 < 2 ^ info.log_dpfs_lvl3 := by positivity
  induction fuel with
  | zero =>
    intro size a b st buffer w _ _ hb hf
    obtain ⟨f1, _, _, _⟩ := walk_block_facts (2 ^ info.log_dpfs_lvl3) E b hK hb
    split at hf <;> omega
  | succ fuel ih =>
    intro size a b st buffer w hst hab hb hf
    obtain ⟨f1, f2, f3, f4⟩ := walk_block_facts (2 ^ info.log_dpfs_lvl3) E b hK hb
    by_cases hc : size ≠ 0 ∧ a < E
    · unfold readLoopLog
      rw [if_pos hc]
      simp only
      rw [walk_ext_no_wrap info E b hE hb]
      have hshr : shr b info.log_dpfs_lvl3 = b / 2 ^ info.log_dpfs_lvl3 := rfl
      rw [hshr]
      by_cases hhit : GET_DPFS_BIT (b / 2 ^ info.log_dpfs_lvl3) info.dpfs_lvl2_cache = st
      · rw [if_pos hhit] at hf
        simp only [hhit, decide_True, true_and, if_true]
        by_cases hext : (b / 2 ^ info.log_dpfs_lvl3 + 1) * 2 ^ info.log_dpfs_lvl3 < E
        · rw [if_pos hext]
          obtain ⟨r, steps, e, l, c, t, p, tr⟩ := ih size a _ st buffer w hst (by omega) hext
            (by rw [f3]; split <;> omega)
          rw [f3] at l
          refine ⟨r, (a, none) :: steps, by rw [e]; rfl, ?_, List.Chain.cons (le_refl _) c, t, p,
            tr⟩
          simp only [List.length_cons]
          split at l <;> omega
        · rw [if_neg hext, if_pos hc.2]
          obtain ⟨f, rfl⟩ : ∃ f, fuel = f + 1 := ⟨fuel - 1, by omega⟩
          rw [readLoopLog_exit _ _ _ _ _ _ _ _ _ _ (fun h => absurd h.2 (lt_irrefl _))]
          refine ⟨_, [(E, some (st, a, E))], rfl, ?_,
            List.Chain.cons (le_of_lt hc.2) List.Chain.nil, ?_, List.pairwise_singleton _ _, ?_⟩
          · simp only [List.length_cons, List.length_nil]
            omega
          · intro x hx
            rw [transfers_some] at hx
            rw [List.mem_singleton.mp hx]
            exact ⟨le_refl _, hc.2, le_refl _⟩
          · intro hd
            rw [transfers_some]
            show (DisaDiffRead w (sub32 E a) (dpfsPos info st a)).2.trace = _
            rw [(DisaDiffRead_trace w _ _ hd).1, sub32_eq (le_of_lt hc.2) (by omega)]
            rfl
      · rw [if_neg hhit] at hf
        simp only [hhit, decide_False, false_and, if_false, Bool.false_eq_true]
        have hflip : GET_DPFS_BIT (b / 2 ^ info.log_dpfs_lvl3) info.dpfs_lvl2_cache = flipBit st :=
          (flipBit_of_lt hst).2.2 _ (GET_DPFS_BIT_lt _ _) hhit
        by_cases hse : a < b
        · rw [if_pos hse]
          obtain ⟨r, steps, e, l, c, t, p, tr⟩ := ih
            (if (DisaDiffRead w (sub32 b a) (dpfsPos info st a)).1 = true then size else 0) b b
            (flipBit st)
            (if (DisaDiffRead w (sub32 b a) (dpfsPos info st a)).1 = true then
              storeAt buffer (sub32 a os) (sub32 b a) (fun j => w.data (dpfsPos info st a + j))
              else buffer)
            (DisaDiffRead w (sub32 b a) (dpfsPos info st a)).2
            (flipBit_of_lt hst).1 (le_refl _) hb (by rw [if_pos hflip]; omega)
          rw [if_pos hflip] at l
          refine ⟨r, (b, some (st, a, b)) :: steps, by rw [e]; rfl, ?_,
            List.Chain.cons hab c, ?_, ?_, ?_⟩
          · simp only [List.length_cons]
            omega
          · intro x hx
            rw [transfers_some] at hx
            rcases List.mem_cons.mp hx with rfl | hx
            · exact ⟨le_refl _, hse, le_of_lt hb⟩
            · obtain ⟨t1, t2, t3⟩ := t x hx
              exact ⟨by omega, t2, t3⟩
          · rw [transfers_some]
            exact List.pairwise_cons.mpr ⟨fun y hy => (t y hy).1, p⟩
          · intro hd
            obtain ⟨d1, d2⟩ := DisaDiffRead_trace w (sub32 b a) (dpfsPos info st a) hd
            rw [tr d2, d1, transfers_some, sub32_eq hab (by omega), List.map_cons,
              List.append_assoc]
            rfl
        · rw [if_neg hse]
          obtain ⟨r, steps, e, l, c, t, p, tr⟩ := ih size a b (flipBit st) buffer w
            (flipBit_of_lt hst).1 hab hb (by rw [if_pos hflip]; omega)
          rw [if_pos hflip] at l
          refine ⟨r, (a, none) :: steps, by rw [e]; rfl, ?_, List.Chain.cons (le_refl _) c, t, p,
            tr⟩
          simp only [List.length_cons]
          omega
    · rw [readLoopLog_exit _ _ _ _ _ _ _ _ _ _ hc]
      refine ⟨_, [], rfl, ?_, List.Chain.nil, fun x hx => absurd hx (List.not_mem_nil _),
        List.Pairwise.nil, fun _ => (List.append_nil _).symm⟩
      simp only [List.length_nil]
      split <;> omega
/-- The passes of the write loop from a state with `write_start ≤ write_end`
before the end `E` of the range: the same bounds as for the read loop
(`readLoopLog_walk`), the transfers being the writes issued through the open
handle. -/
theorem writeLoopLog_walk (info : DisaDiffRWInfo) (buffer : Buf) (os E : Nat)
    (hE : cdiv E (2 ^ info.log_dpfs_lvl3) * 2 ^ info.log_dpfs_lvl3 < 2 ^ 32) (fuel : Nat) :
    ∀ (size a b st : Nat) (w : World), st < 2 → a ≤ b → b < E →
      2 * (cdiv E (2 ^ info.log_dpfs_lvl3) - b / 2 ^ info.log_dpfs_lvl3) < fuel +
        (if GET_DPFS_BIT (b / 2 ^ info.log_dpfs_lvl3) info.dpfs_lvl2_cache = st then 1 else 0) →
      ∃ r steps, writeLoopLog info buffer os E fuel size a b st w = some (r, steps) ∧
        steps.length +
            (if GET_DPFS_BIT (b / 2 ^ info.log_dpfs_lvl3) info.dpfs_lvl2_cache = st then 1 else 0)
          ≤ 2 * (cdiv E (2 ^ info.log_dpfs_lvl3) - b / 2 ^ info.log_dpfs_lvl3) ∧
        List.Chain (fun c d => c ≤ d) a (steps.map (fun s => s.1)) ∧
        (∀ x, x ∈ transfers steps → a ≤ x.2.1 ∧ x.2.1 < x.2.2 ∧ x.2.2 ≤ E) ∧
        List.Pairwise (fun x y => x.2.2 ≤ y.2.1) (transfers steps) ∧
        (w.ddfp = true → r.2.trace = w.trace ++ (transfers steps).map
          (fun x => IoEvent.write (dpfsPos info x.1 x.2.1) (x.2.2 - x.2.1))) := by
  have hK : 0 < 2 ^ info.log_dpfs_lvl3 := by positivity
  induction fuel with
  | zero =>
    intro size a b st w _ _ hb hf
    obtain ⟨f1, _, _, _⟩ := walk_block_facts (2 ^ info.log_dpfs_lvl3) E b hK hb
    split at hf <;> omega
  | succ fuel ih =>
    intro size a b st w hst hab hb hf
    obtain ⟨f1, f2, f3, f4⟩ := walk_block_facts (2 ^ info.log_dpfs_lvl3) E b hK hb
    by_cases hc : size ≠ 0 ∧ a < E
    · unfold writeLoopLog
      rw [if_pos hc]
      simp only
      rw [walk_ext_no_wrap info E b hE hb]
      have hshr : shr b info.log_dpfs_lvl3 = b / 2 ^ info.log_dpfs_lvl3 := rfl
      rw [hshr]
      by_cases hhit : GET_DPFS_BIT (b / 2 ^ info.log_dpfs_lvl3) info.dpfs_lvl2_cache = st
      · rw [if_pos hhit] at hf
        simp only [hhit, decide_True, true_and, if_true]
        by_cases hext : (b / 2 ^ info.log_dpfs_lvl3 + 1) * 2 ^ info.log_dpfs_lvl3 < E
        · rw [if_pos hext]
          obtain ⟨r, steps, e, l, c, t, p, tr⟩ := ih size a _ st w hst (by omega) hext
            (by rw [f3]; split <;> omega)
          rw [f3] at l
          refine ⟨r, (a, none) :: steps, by rw [e]; rfl, ?_, List.Chain.cons (le_refl _) c, t, p,
            tr⟩
          simp only [List.length_cons]
          split at l <;> omega
        · rw [if_neg hext, if_pos hc.2]
          obtain ⟨f, rfl⟩ : ∃ f, fuel = f + 1 := ⟨fuel - 1, by omega⟩
          rw [writeLoopLog_exit _ _ _ _ _ _ _ _ _ _ (fun h => absurd h.2 (lt_irrefl _))]
          refine ⟨_, [(E, some (st, a, E))], rfl, ?_,
            List.Chain.cons (le_of_lt hc.2) List.Chain.nil, ?_, List.pairwise_singleton _ _, ?_⟩
          · simp only [List.length_cons, List.length_nil]
            omega
          · intro x hx
            rw [transfers_some] at hx
            rw [List.mem_singleton.mp hx]
            exact ⟨le_refl _, hc.2, le_refl _⟩
          · intro hd
            rw [transfers_some]
            show (DisaDiffWrite w (fun j => buffer (sub32 a os + j)) (sub32 E a)
              (dpfsPos info st a)).2.trace = _
            rw [(DisaDiffWrite_trace w _ _ _ hd).1, sub32_eq (le_of_lt hc.2) (by omega)]
            rfl
      · rw [if_neg hhit] at hf
        simp only [hhit, decide_False, false_and, if_false, Bool.false_eq_true]
        have hflip : GET_DPFS_BIT (b / 2 ^ info.log_dpfs_lvl3) info.dpfs_lvl2_cache = flipBit st :=
          (flipBit_of_lt hst).2.2 _ (GET_DPFS_BIT_lt _ _) hhit
        by_cases hse : a < b
        · rw [if_pos hse]
          obtain ⟨r, steps, e, l, c, t, p, tr⟩ := ih
            (if (DisaDiffWrite w (fun j => buffer (sub32 a os + j)) (sub32 b a)
              (dpfsPos info st a)).1 = true then size else 0) b b
            (flipBit st)
            (DisaDiffWrite w (fun j => buffer (sub32 a os + j)) (sub32 b a) (dpfsPos info st a)).2
            (flipBit_of_lt hst).1 (le_refl _) hb (by rw [if_pos hflip]; omega)
          rw [if_pos hflip] at l
          refine ⟨r, (b, some (st, a, b)) :: steps, by rw [e]; rfl, ?_,
            List.Chain.cons hab c, ?_, ?_, ?_⟩
          · simp only [List.length_cons]
            omega
          · intro x hx
            rw [transfers_some] at hx
            rcases List.mem_cons.mp hx with rfl | hx
            · exact ⟨le_refl _, hse, le_of_lt hb⟩
            · obtain ⟨t1, t2, t3⟩ := t x hx
              exact ⟨by omega, t2, t3⟩
          · rw [transfers_some]
            exact List.pairwise_cons.mpr ⟨fun y hy => (t y hy).1, p⟩
          · intro hd
            obtain ⟨d1, d2⟩ := DisaDiffWrite_trace w (fun j => buffer (sub32 a os + j))
              (sub32 b a) (dpfsPos info st a) hd
            rw [tr d2, d1, transfers_some, sub32_eq hab (by omega), List.map_cons,
              List.append_assoc]
            rfl
        · rw [if_neg hse]
          obtain ⟨r, steps, e, l, c, t, p, tr⟩ := ih size a b (flipBit st) w
            (flipBit_of_lt hst).1 hab hb (by rw [if_pos hflip]; omega)
          rw [if_pos hflip] at l
          refine ⟨r, (a, none) :: steps, by rw [e]; rfl, ?_, List.Chain.cons (le_refl _) c, t, p,
            tr⟩
          simp only [List.length_cons]
          omega
    · rw [writeLoopLog_exit _ _ _ _ _ _ _ _ _ _ hc]
      refine ⟨_, [], rfl, ?_, List.Chain.nil, fun x hx => absurd hx (List.not_mem_nil _),
        List.Pairwise.nil, fun _ => (List.append_nil _).symm⟩
      simp only [List.length_nil]
      split <;> omega
/-- Claim C21 (termination of the DPFS walk).  For every descriptor with
`log_dpfs_lvl3 < 32`, every cache content, buffer and file, and every range
`[offset, offset + size)` whose end rounded up to a level-3 block boundary is
below `2^32`, `ReadDisaDiffDpfsLvl3` and `WriteDisaDiffDpfsLvl3` return; the
loop of each makes at most two passes per level-3 block touched (so its
condition is tested at most that many times plus one); the start cursor never
decreases from `offset` on; every transfer is a non-empty part of the range and
the transfers follow each other without overlap, so that no byte of the range
is transferred twice; and with the handle open the transfers recorded are the
reads (writes) the call adds to the file trace.  The bound on `log_dpfs_lvl3`
keeps the shifts of the C code defined. -/
theorem dpfs_walk_terminates (info : DisaDiffRWInfo) (offset size : Nat) (buffer : Buf)
    (w : World) (hlog : info.log_dpfs_lvl3 < 32)
    (hend : cdiv (offset + size) (2 ^ info.log_dpfs_lvl3) * 2 ^ info.log_dpfs_lvl3 < 2 ^ 32) :
    (∃ r steps,
      readLoopLog info offset (u32 (offset + size)) loopFuel size offset offset 0 buffer w
        = some (r, steps) ∧
      ReadDisaDiffDpfsLvl3 info offset size buffer w = some r ∧
      WalkBounded info.log_dpfs_lvl3 offset size steps ∧
      (w.ddfp = true → r.2.2.trace = w.trace ++ (transfers steps).map
        (fun x => IoEvent.read (dpfsPos info x.1 x.2.1) (x.2.2 - x.2.1)))) ∧
    (∃ r steps,
      writeLoopLog info buffer offset (u32 (offset + size)) loopFuel size offset offset 0 w
        = some (r, steps) ∧
      WriteDisaDiffDpfsLvl3 info offset size buffer w = some r ∧
      WalkBounded info.log_dpfs_lvl3 offset size steps ∧
      (w.ddfp = true → r.2.trace = w.trace ++ (transfers steps).map
        (fun x => IoEvent.write (dpfsPos info x.1 x.2.1) (x.2.2 - x.2.1)))) := by
  have hK : 0 < 2 ^ info.log_dpfs_lvl3 := by positivity
  have _hshift : 2 ^ info.log_dpfs_lvl3 ≤ 2 ^ 31 :=
    Nat.pow_le_pow_right (by decide) (Nat.le_of_lt_succ hlog)
  obtain ⟨f, hf⟩ := loopFuel_succ
  have hfuel : loopFuel = 2 ^ 40 := rfl
  by_cases hs : size = 0
  · subst hs
    have hc : ¬ ((0 : Nat) ≠ 0 ∧ offset < u32 (offset + 0)) := fun h => h.1 rfl
    have hb : WalkBounded info.log_dpfs_lvl3 offset 0 [] :=
      ⟨Nat.zero_le _, List.Chain.nil, fun x hx => absurd hx (List.not_mem_nil _),
        List.Pairwise.nil⟩
    refine ⟨⟨(0, buffer, w), [], ?_, ?_, hb, fun _ => (List.append_nil _).symm⟩,
      ⟨(0, w), [], ?_, ?_, hb, fun _ => (List.append_nil _).symm⟩⟩
    · rw [hf]
      exact readLoopLog_exit _ _ _ _ _ _ _ _ _ _ hc
    · unfold ReadDisaDiffDpfsLvl3
      rw [← readLoopLog_erase, hf, readLoopLog_exit _ _ _ _ _ _ _ _ _ _ hc]
      rfl
    · rw [hf]
      exact writeLoopLog_exit _ _ _ _ _ _ _ _ _ _ hc
    · unfold WriteDisaDiffDpfsLvl3
      rw [← writeLoopLog_erase, hf, writeLoopLog_exit _ _ _ _ _ _ _ _ _ _ hc]
      rfl
  · have hb : offset < offset + size := by omega
    obtain ⟨f1, _, _, f4⟩ := walk_block_facts (2 ^ info.log_dpfs_lvl3) (offset + size) offset hK hb
    have hu : u32 (offset + size) = offset + size := u32_eq (by omega)
    have hle : cdiv (offset + size) (2 ^ info.log_dpfs_lvl3)
        ≤ cdiv (offset + size) (2 ^ info.log_dpfs_lvl3) * 2 ^ info.log_dpfs_lvl3 :=
      Nat.le_mul_of_pos_right _ hK
    have hbt : blocksTouched info.log_dpfs_lvl3 offset size
        = cdiv (offset + size) (2 ^ info.log_dpfs_lvl3) - offset / 2 ^ info.log_dpfs_lvl3 := by
      unfold blocksTouched
      rw [if_neg hs]
    have hR : 2 * (cdiv (offset + size) (2 ^ info.log_dpfs_lvl3)
        - offset / 2 ^ info.log_dpfs_lvl3) < 2 ^ 40 := by
      have := Nat.sub_le (cdiv (offset + size) (2 ^ info.log_dpfs_lvl3))
        (offset / 2 ^ info.log_dpfs_lvl3)
      omega
    rw [hu]
    constructor
    · obtain ⟨r, steps, e, l, c, t, p, tr⟩ := readLoopLog_walk info offset (offset + size) hend
        loopFuel size offset offset 0 buffer w (by decide) (le_refl _) hb
        (by rw [hfuel]; split <;> omega)
      refine ⟨r, steps, e, ?_, ⟨?_, c, t, p⟩, tr⟩
      · unfold ReadDisaDiffDpfsLvl3
        rw [← readLoopLog_erase, hu, e]
        rfl
      · rw [hbt]
        omega
    · obtain ⟨r, steps, e, l, c, t, p, tr⟩ := writeLoopLog_walk info buffer offset (offset + size)
        hend loopFuel size offset offset 0 w (by decide) (le_refl _) hb
        (by rw [hfuel]; split <;> omega)
      refine ⟨r, steps, e, ?_, ⟨?_, c, t, p⟩, tr⟩
      · unfold WriteDisaDiffDpfsLvl3
        rw [← writeLoopLog_erase, hu, e]
        rfl
      · rw [hbt]
        omega
/-- Scenario for claim C21: on `chainInfo` (level-3 blocks of 32 bytes, the
cache selecting copy 1 for blocks 0 and 2 and copy 0 for block 1) the range
`[8, 88)` touches three blocks; the read and the write each return 80 after
six passes, with the start cursor going 8, 8, 32, 32, 64, 88 and the three
transfers `[8, 32)` from copy 1, `[32, 64)` from copy 0 and `[64, 88)` from
copy 1, at file positions 1288, 1056 and 1344. -/
theorem dpfs_walk_terminates_scenario :
    chainInfo.log_dpfs_lvl3 < 32 ∧
    cdiv (8 + 80) (2 ^ chainInfo.log_dpfs_lvl3) * 2 ^ chainInfo.log_dpfs_lvl3 < 2 ^ 32 ∧
    blocksTouched chainInfo.log_dpfs_lvl3 8 80 = 3 ∧
    (readLoopLog chainInfo 8 (u32 (8 + 80)) loopFuel 80 8 8 0 (fun _ => 0) walkWorld).map
      (fun r => r.2)
      = some [(8, none), (8, none), (32, some (1, 8, 32)), (32, none),
          (64, some (0, 32, 64)), (88, some (1, 64, 88))] ∧
    (ReadDisaDiffDpfsLvl3 chainInfo 8 80 (fun _ => 0) walkWorld).map
      (fun r => (r.1, r.2.2.trace))
      = some (80, [IoEvent.read 1288 24, IoEvent.read 1056 32, IoEvent.read 1344 24]) ∧
    (writeLoopLog chainInfo (fun _ => 0) 8 (u32 (8 + 80)) loopFuel 80 8 8 0 walkWorld).map
      (fun r => r.2)
      = some [(8, none), (8, none), (32, some (1, 8, 32)), (32, none),
          (64, some (0, 32, 64)), (88, some (1, 64, 88))] ∧
    (WriteDisaDiffDpfsLvl3 chainInfo 8 80 (fun _ => 0) walkWorld).map
      (fun r => (r.1, r.2.trace))
      = some (80, [IoEvent.write 1288 24, IoEvent.write 1056 32, IoEvent.write 1344 24]) ∧
    (∃ r steps,
      readLoopLog chainInfo 8 (u32 (8 + 80)) loopFuel 80 8 8 0 (fun _ => 0) walkWorld
        = some (r, steps) ∧
      ReadDisaDiffDpfsLvl3 chainInfo 8 80 (fun _ => 0) walkWorld = some r ∧
      WalkBounded chainInfo.log_dpfs_lvl3 8 80 steps ∧
      (walkWorld.ddfp = true → r.2.2.trace = walkWorld.trace ++ (transfers steps).map
        (fun x => IoEvent.read (dpfsPos chainInfo x.1 x.2.1) (x.2.2 - x.2.1)))) ∧
    (∃ r steps,
      writeLoopLog chainInfo (fun _ => 0) 8 (u32 (8 + 80)) loopFuel 80 8 8 0 walkWorld
        = some (r, steps) ∧
      WriteDisaDiffDpfsLvl3 chainInfo 8 80 (fun _ => 0) walkWorld = some r ∧
      WalkBounded chainInfo.log_dpfs_lvl3 8 80 steps ∧
      (walkWorld.ddfp = true → r.2.trace = walkWorld.trace ++ (transfers steps).map
        (fun x => IoEvent.write (dpfsPos chainInfo x.1 x.2.1) (x.2.2 - x.2.1)))) :=
  ⟨by decide, by decide, by decide, by decide, by decide, by decide, by decide,
    dpfs_walk_terminates chainInfo 8 80 (fun _ => 0) walkWorld (by decide) (by decide)⟩
end DisaDiff
